import Mathlib

/-!
ScalFMM: the sequential FMM engine `FFmmAlgorithm`, the task engine
`FFmmAlgorithmTestTask`, the constructors of both engines, the M2M and M2L operators, the
permuted expansions and the near-field filter of `FChebSymKernel_i`, the exchange of the
boundary index of the distributed driver and the unit test of the list block allocator.

Shallow embedding of `include/Core/FFmmAlgorithm.hpp`, of
`include/Core/FFmmAlgorithmTestTask.hpp`, of the allocation of the permuted expansions and
of the M2M, M2L and P2P entry points of `include/Kernels/Chebyshev/FChebSymKernel_i.hpp`, of
the particle-count loop and the exchange of `leftLimite` of
`Tests/GroupTree/testBlockedMpiChebyshev.cpp` and of `UTests/utestListBlockAllocator.cpp`.

* The kernel is a set of callbacks; a run of the engine is described by the sequence of
  calls it issues (`Event`), every call carrying the arguments it receives.
* Pointers are modelled by what they point to: the multipole / local-expansion data of a
  cell by the owning cell, a null pointer by `none`.
* `FOctree`, its `Iterator` and `FAbstractAlgorithm` (the working levels, the operation
  flags) are not part of the sources; the octree is modelled from the specification, the
  working levels and the flag values are parameters.
* `do { ... } while(octreeIterator.moveRight())` is a loop with fuel; the counted `for`
  loops over `idxLevel` are recursions over their trip count; the loops over an
  `unsigned int` of the M2L operator are loops with fuel on 32-bit values.
* The counting test kernel (`FTestKernels`) and the grouped tree (`FGroupTree`) are not part
  of the sources either; they are modelled from the specification.
* A run of the task engine is described by what each of the three `single` blocks of its
  parallel region does: the tasks it creates, in order, and its taskwaits (`TaskEvent`,
  `TaskRun`); the exclusion scheme of the P2P pass is a parameter.
* The symmetry tables of the Chebyshev kernel (`pindices`, `pvectors`) are parameters; where
  a statement is about their content, the table of the classes is modelled from the
  specification.
* The exchange of `leftLimite` between the processes is a transition system (`Exchange`)
  with blocking receives and sends; the list block allocator is not part of the sources and
  is modelled from the specification.
-/

namespace ScalFMM

/-! ## Data model -/

/-- Integer coordinate of a cell at its level (`FTreeCoordinate`). -/
structure FTreeCoordinate where
  x : Int
  y : Int
  z : Int
deriving DecidableEq, Repr

/-- Symbolic data of a cell (`CellClass` used as `symbolic_data_t`): Morton index, level and
coordinate. -/
structure CellClass where
  mortonIndex : Nat
  level : Nat
  coordinate : FTreeCoordinate
deriving DecidableEq, Repr

/-- Pointer to the multipole data of a cell, identified by the owning cell. -/
structure multipole_t where
  owner : CellClass
deriving DecidableEq, Repr

/-- Pointer to the local-expansion data of a cell, identified by the owning cell. -/
structure local_expansion_t where
  owner : CellClass
deriving DecidableEq, Repr

/-- The expression `&(c->getMultipoleData())`. -/
def CellClass.getMultipoleData (c : CellClass) : multipole_t := ⟨c⟩

/-- The expression `&(c->getLocalExpansionData())`. -/
def CellClass.getLocalExpansionData (c : CellClass) : local_expansion_t := ⟨c⟩

/-- Identity of a particle container (`ContainerClass*`). -/
abbrev ContainerClass := Nat

/-- Modelled from the spec: the octree (`Containers/FOctree.hpp` is not among the sources).
An ordered sequence of levels, each an ordered sequence of cells by Morton index; the leaf
level `height - 1` carries for every cell the source and target particle containers.
The two neighbour queries are parameters: each returns the filled slots of its output
arrays as a list of (pointer, position index) pairs, the returned count being its length. -/
structure FOctree where
  height : Nat
  cells : Nat → List CellClass
  listSrc : CellClass → ContainerClass
  listTargets : CellClass → ContainerClass
  getInteractionNeighbors : FTreeCoordinate → Int → Int → List (Option CellClass × Int)
  getLeafsNeighbors : FTreeCoordinate → Int → List (Option ContainerClass × Int)

/-- The leaves of the tree, left to right. -/
def FOctree.leaves (t : FOctree) : List CellClass := t.cells (t.height - 1)

/-- The largest number of cells on a level of the tree. -/
def FOctree.width (t : FOctree) : Nat :=
  ((List.range t.height).map (fun l => (t.cells l).length)).foldr max 0

/-- Modelled from the spec: structural invariant of a built octree. At least two levels;
every level is strictly increasing in Morton index and holds cells of that level; from
level 1 on, every cell has its parent (Morton index shifted right by 3 bits) on the level
above and every non-leaf cell has at least one child (the tree is sparse, a cell exists only
above a particle). -/
def FOctree.WellFormed (t : FOctree) : Prop :=
  2 ≤ t.height ∧
  (∀ l, l < t.height → (t.cells l).Pairwise (fun a b => a.mortonIndex < b.mortonIndex)) ∧
  (∀ l, l < t.height → ∀ c ∈ t.cells l, c.level = l) ∧
  (∀ l, l < t.height → 1 ≤ l → l + 1 < t.height →
    ∀ c ∈ t.cells (l + 1), ∃ p ∈ t.cells l, p.mortonIndex = c.mortonIndex / 8) ∧
  (∀ l, l < t.height → 1 ≤ l → l + 1 < t.height →
    ∀ p ∈ t.cells l, ∃ c ∈ t.cells (l + 1), c.mortonIndex / 8 = p.mortonIndex)

instance (t : FOctree) : Decidable t.WellFormed := by
  unfold FOctree.WellFormed
  infer_instance

/-- What ends a run abnormally: the loop fuel of the model ran out, or an invalid access:
the iterator was dereferenced where the tree holds no cell, or an array was indexed outside
its bounds. -/
inductive Fault where
  | outOfFuel
  | invalidAccess
deriving DecidableEq, Repr

/-! ## The octree iterator -/

/-- Modelled from the spec: `FOctree::Iterator`, a position (level, index in the level). -/
structure Iterator where
  level : Nat
  index : Nat
deriving DecidableEq, Repr

/-- Modelled from the spec: a fresh iterator stands on the first cell of level 1. -/
def Iterator.new (_t : FOctree) : Iterator := ⟨1, 0⟩

/-- Modelled from the spec: `gotoBottomLeft`, the first leaf. -/
def Iterator.gotoBottomLeft (t : FOctree) (_it : Iterator) : Iterator := ⟨t.height - 1, 0⟩

/-- Modelled from the spec: `getCurrentCell`; a fault where the position holds no cell. -/
def Iterator.getCurrentCell (t : FOctree) (it : Iterator) : Except Fault CellClass :=
  match (t.cells it.level)[it.index]? with
  | some c => .ok c
  | none => .error .invalidAccess

/-- Modelled from the spec: `getCurrentGlobalCoordinate`, the coordinate of the current
cell. -/
def Iterator.getCurrentGlobalCoordinate (t : FOctree) (it : Iterator) :
    Except Fault FTreeCoordinate :=
  (it.getCurrentCell t).map (fun c => c.coordinate)

/-- Modelled from the spec: `getCurrentListSrc`, the source particles of the current leaf. -/
def Iterator.getCurrentListSrc (t : FOctree) (it : Iterator) : Except Fault ContainerClass :=
  (it.getCurrentCell t).map t.listSrc

/-- Modelled from the spec: `getCurrentListTargets`, the target particles of the current
leaf. -/
def Iterator.getCurrentListTargets (t : FOctree) (it : Iterator) :
    Except Fault ContainerClass :=
  (it.getCurrentCell t).map t.listTargets

/-- Morton index of the current cell (0 where the position holds no cell). -/
def Iterator.getCurrentGlobalIndex (t : FOctree) (it : Iterator) : Nat :=
  match (t.cells it.level)[it.index]? with
  | some c => c.mortonIndex
  | none => 0

/-- Modelled from the spec: `getCurrentChildren`, the 8 child slots of the current cell;
slot `i` holds the cell of the next level with Morton index `8 * m + i`, or null. There is
no child array at the leaf level. -/
def Iterator.getCurrentChildren (t : FOctree) (it : Iterator) :
    Except Fault (List (Option CellClass)) :=
  if it.level + 1 < t.height then
    (it.getCurrentCell t).map (fun c =>
      (List.range 8).map (fun i =>
        (t.cells (it.level + 1)).find? (fun d => d.mortonIndex == 8 * c.mortonIndex + i)))
  else .error .invalidAccess

/-- Modelled from the spec: `moveRight`, advance the index; false (and no move) at the last
cell of the level. -/
def Iterator.moveRight (t : FOctree) (it : Iterator) : Bool × Iterator :=
  if it.index + 1 < (t.cells it.level).length then (true, ⟨it.level, it.index + 1⟩)
  else (false, it)

/-- Modelled from the spec: `moveUp`, go to the parent of the current cell; no move at
level 1. -/
def Iterator.moveUp (t : FOctree) (it : Iterator) : Iterator :=
  if 1 < it.level then
    ⟨it.level - 1,
      (t.cells (it.level - 1)).findIdx
        (fun p => p.mortonIndex == it.getCurrentGlobalIndex t / 8)⟩
  else it

/-- Modelled from the spec: `moveDown`, go to the first child of the current cell; no move
at the leaf level. -/
def Iterator.moveDown (t : FOctree) (it : Iterator) : Iterator :=
  if it.level + 1 < t.height then
    ⟨it.level + 1,
      (t.cells (it.level + 1)).findIdx
        (fun c => c.mortonIndex / 8 == it.getCurrentGlobalIndex t)⟩
  else it

/-! ## Calls issued by the engine -/

/-- One call issued by the engine: the kernel operators with their arguments, the
per-level hook, and the two neighbour queries on the tree. Array arguments are given by
their filled slots. -/
inductive Event where
  | P2M (leaf_multipole : multipole_t) (leaf_symbolic : CellClass)
      (particles : ContainerClass)
  | M2M (parent_multipole : multipole_t) (parent_symbolic : CellClass)
      (child_multipoles : List (Option multipole_t))
      (child_symbolics : List (Option CellClass))
  | getInteractionNeighbors (workingCell : FTreeCoordinate) (inLevel : Int)
      (neighSeparation : Int)
  | M2L (target_local_exp : local_expansion_t) (target_symbolic : CellClass)
      (neighbor_multipoles : List (Option multipole_t))
      (neighbor_symbolics : List (Option CellClass))
      (neighborPositions : List Int) (counter : Int)
  | finishedLevelM2L (level : Int)
  | L2L (parent_local_exp : local_expansion_t) (parent_symbolic : CellClass)
      (child_local_expansions : List (Option local_expansion_t))
      (child_symbolics : List (Option CellClass))
  | L2P (local_exp : local_expansion_t) (symbolic : CellClass) (targets : ContainerClass)
  | getLeafsNeighbors (center : FTreeCoordinate) (inLevel : Int)
  | P2P (inPosition : FTreeCoordinate) (inTargets : ContainerClass)
      (inSources : ContainerClass) (inNeighbors : List (Option ContainerClass))
      (neighborPositions : List Int) (inSize : Int)
deriving DecidableEq, Repr

/-- The loop `do { body } while(octreeIterator.moveRight());`. A `continue` in the body
ends the body, the condition is evaluated all the same. -/
def doWhileMoveRight {α : Type} (t : FOctree) (body : Iterator → Except Fault (List α)) :
    Nat → Iterator → Except Fault (List α)
  | 0, _ => .error .outOfFuel
  | fuel + 1, octreeIterator => do
    let out ← body octreeIterator
    let moved := octreeIterator.moveRight t
    if moved.1 then
      let rest ← doWhileMoveRight t body fuel moved.2
      pure (out ++ rest)
    else
      pure out

/-! ## FFmmAlgorithm -/

/-- The members of `FFmmAlgorithm` and the working levels it inherits from
`FAbstractAlgorithm` (not among the sources: the two levels are parameters). -/
structure FFmmAlgorithm where
  tree : FOctree
  leafLevelSeparationCriteria : Int
  upperWorkingLevel : Int
  lowerWorkingLevel : Int

/-- The member `OctreeHeight(tree->getHeight())`. -/
def FFmmAlgorithm.OctreeHeight (a : FFmmAlgorithm) : Int := a.tree.height

/-- The operation flags `FFmmP2P`, ..., `FFmmL2P` of `FCoreCommon.hpp` (not among the
sources: their values are parameters). -/
structure FFmmOperations where
  FFmmP2P : Nat
  FFmmP2M : Nat
  FFmmM2M : Nat
  FFmmM2L : Nat
  FFmmL2L : Nat
  FFmmL2P : Nat

/-- Body of the leaf loop of `bottomPass`. -/
def FFmmAlgorithm.bottomPassBody (a : FFmmAlgorithm) (octreeIterator : Iterator) :
    Except Fault (List Event) := do
  let cell ← octreeIterator.getCurrentCell a.tree
  let leaf_multipole := cell.getMultipoleData
  let leaf_symbolic := cell
  let src ← octreeIterator.getCurrentListSrc a.tree
  pure [Event.P2M leaf_multipole leaf_symbolic src]

/-- The P2M pass `FFmmAlgorithm::bottomPass`. -/
def FFmmAlgorithm.bottomPass (a : FFmmAlgorithm) (fuel : Nat) : Except Fault (List Event) :=
  let octreeIterator := Iterator.new a.tree
  let octreeIterator := octreeIterator.gotoBottomLeft a.tree
  doWhileMoveRight a.tree a.bottomPassBody fuel octreeIterator

/-- Body of the cell loop of `upwardPass`. -/
def FFmmAlgorithm.upwardPassBody (a : FFmmAlgorithm) (octreeIterator : Iterator) :
    Except Fault (List Event) := do
  let cell ← octreeIterator.getCurrentCell a.tree
  let parent_multipole := cell.getMultipoleData
  let parent_symbolic := cell
  let children ← octreeIterator.getCurrentChildren a.tree
  let child_multipoles := children.map (fun c => c.map CellClass.getMultipoleData)
  let child_symbolics := children
  pure [Event.M2M parent_multipole parent_symbolic child_multipoles child_symbolics]

/-- The level loop of `upwardPass`, `n` iterations left: the cells of the level, then
`avoidGotoLeftIterator.moveUp(); octreeIterator = avoidGotoLeftIterator;`. -/
def FFmmAlgorithm.upwardPassLevels (a : FFmmAlgorithm) (fuel : Nat) :
    Nat → Iterator → Iterator → Except Fault (List Event)
  | 0, _, _ => pure []
  | n + 1, octreeIterator, avoidGotoLeftIterator => do
    let calls ← doWhileMoveRight a.tree a.upwardPassBody fuel octreeIterator
    let avoidGotoLeftIterator := avoidGotoLeftIterator.moveUp a.tree
    let octreeIterator := avoidGotoLeftIterator
    let rest ← a.upwardPassLevels fuel n octreeIterator avoidGotoLeftIterator
    pure (calls ++ rest)

/-- The M2M pass `FFmmAlgorithm::upwardPass`. The first loop
`for(idxLevel = OctreeHeight - 2 ; idxLevel > lowerWorkingLevel - 1 ; --idxLevel)` moves
the iterator up once per iteration; the level loop runs `idxLevel` from
`Min(OctreeHeight - 2, lowerWorkingLevel - 1)` down to `upperWorkingLevel`. -/
def FFmmAlgorithm.upwardPass (a : FFmmAlgorithm) (fuel : Nat) : Except Fault (List Event) :=
  let octreeIterator := Iterator.new a.tree
  let octreeIterator := octreeIterator.gotoBottomLeft a.tree
  let octreeIterator := octreeIterator.moveUp a.tree
  let octreeIterator :=
    (Iterator.moveUp a.tree)^[((a.OctreeHeight - 2) - (a.lowerWorkingLevel - 1)).toNat]
      octreeIterator
  let avoidGotoLeftIterator := octreeIterator
  a.upwardPassLevels fuel
    (min (a.OctreeHeight - 2) (a.lowerWorkingLevel - 1) - a.upperWorkingLevel + 1).toNat
    octreeIterator avoidGotoLeftIterator

/-- The expression
`(idxLevel != lowerWorkingLevel-1 ? 1 : leafLevelSeparationCriteria)`. -/
def FFmmAlgorithm.separationCriteria (a : FFmmAlgorithm) (idxLevel : Int) : Int :=
  if idxLevel ≠ a.lowerWorkingLevel - 1 then 1 else a.leafLevelSeparationCriteria

/-- Body of the cell loop of `transferPass`. -/
def FFmmAlgorithm.transferPassBody (a : FFmmAlgorithm) (idxLevel separationCriteria : Int)
    (octreeIterator : Iterator) : Except Fault (List Event) := do
  let coord ← octreeIterator.getCurrentGlobalCoordinate a.tree
  let found := a.tree.getInteractionNeighbors coord idxLevel separationCriteria
  let neighbors := found.map Prod.fst
  let neighborPositions := found.map Prod.snd
  let counter : Int := found.length
  let query := Event.getInteractionNeighbors coord idxLevel separationCriteria
  if counter = 0 then
    pure [query]
  else
    let cell ← octreeIterator.getCurrentCell a.tree
    let target_local_exp := cell.getLocalExpansionData
    let target_symbolic := cell
    let neighbor_multipoles := neighbors.map (fun c => c.map CellClass.getMultipoleData)
    let neighbor_symbolics := neighbors
    pure [query, Event.M2L target_local_exp target_symbolic neighbor_multipoles
      neighbor_symbolics neighborPositions counter]

/-- The level loop of `transferPass`, `n` iterations left, at level `idxLevel`. -/
def FFmmAlgorithm.transferPassLevels (a : FFmmAlgorithm) (fuel : Nat) :
    Nat → Int → Iterator → Iterator → Except Fault (List Event)
  | 0, _, _, _ => pure []
  | n + 1, idxLevel, octreeIterator, avoidGotoLeftIterator => do
    let separationCriteria := a.separationCriteria idxLevel
    let calls ← doWhileMoveRight a.tree (a.transferPassBody idxLevel separationCriteria)
      fuel octreeIterator
    let hook := [Event.finishedLevelM2L idxLevel]
    let avoidGotoLeftIterator := avoidGotoLeftIterator.moveDown a.tree
    let octreeIterator := avoidGotoLeftIterator
    let rest ← a.transferPassLevels fuel n (idxLevel + 1) octreeIterator
      avoidGotoLeftIterator
    pure (calls ++ hook ++ rest)

/-- The M2L pass `FFmmAlgorithm::transferPass`. The first loop
`for(idxLevel = 2 ; idxLevel < upperWorkingLevel ; ++idxLevel)` moves the iterator down
once per iteration; the level loop runs `idxLevel` from `upperWorkingLevel` to
`lowerWorkingLevel - 1`. -/
def FFmmAlgorithm.transferPass (a : FFmmAlgorithm) (fuel : Nat) :
    Except Fault (List Event) :=
  let octreeIterator := Iterator.new a.tree
  let octreeIterator := octreeIterator.moveDown a.tree
  let octreeIterator :=
    (Iterator.moveDown a.tree)^[(a.upperWorkingLevel - 2).toNat] octreeIterator
  let avoidGotoLeftIterator := octreeIterator
  a.transferPassLevels fuel (a.lowerWorkingLevel - a.upperWorkingLevel).toNat
    a.upperWorkingLevel octreeIterator avoidGotoLeftIterator

/-- Body of the cell loop of `downardPass`. -/
def FFmmAlgorithm.downardPassBody (a : FFmmAlgorithm) (octreeIterator : Iterator) :
    Except Fault (List Event) := do
  let cell ← octreeIterator.getCurrentCell a.tree
  let parent_local_exp := cell.getLocalExpansionData
  let parent_symbolic := cell
  let children ← octreeIterator.getCurrentChildren a.tree
  let child_local_expansions := children.map (fun c => c.map CellClass.getLocalExpansionData)
  let child_symbolics := children
  pure [Event.L2L parent_local_exp parent_symbolic child_local_expansions child_symbolics]

/-- The level loop of `downardPass`, `n` iterations left. -/
def FFmmAlgorithm.downardPassLevels (a : FFmmAlgorithm) (fuel : Nat) :
    Nat → Iterator → Iterator → Except Fault (List Event)
  | 0, _, _ => pure []
  | n + 1, octreeIterator, avoidGotoLeftIterator => do
    let calls ← doWhileMoveRight a.tree a.downardPassBody fuel octreeIterator
    let avoidGotoLeftIterator := avoidGotoLeftIterator.moveDown a.tree
    let octreeIterator := avoidGotoLeftIterator
    let rest ← a.downardPassLevels fuel n octreeIterator avoidGotoLeftIterator
    pure (calls ++ rest)

/-- The L2L pass `FFmmAlgorithm::downardPass`; the level loop runs `idxLevel` from
`upperWorkingLevel` to `heightMinusOne - 1` with
`heightMinusOne = lowerWorkingLevel - 1`. -/
def FFmmAlgorithm.downardPass (a : FFmmAlgorithm) (fuel : Nat) :
    Except Fault (List Event) :=
  let octreeIterator := Iterator.new a.tree
  let octreeIterator := octreeIterator.moveDown a.tree
  let octreeIterator :=
    (Iterator.moveDown a.tree)^[(a.upperWorkingLevel - 2).toNat] octreeIterator
  let avoidGotoLeftIterator := octreeIterator
  let heightMinusOne := a.lowerWorkingLevel - 1
  a.downardPassLevels fuel (heightMinusOne - a.upperWorkingLevel).toNat
    octreeIterator avoidGotoLeftIterator

/-- Body of the leaf loop of `directPass`. -/
def FFmmAlgorithm.directPassBody (a : FFmmAlgorithm) (p2pEnabled l2pEnabled : Bool)
    (octreeIterator : Iterator) : Except Fault (List Event) := do
  let heightMinusOne := a.OctreeHeight - 1
  let l2p ←
    if l2pEnabled then do
      let cell ← octreeIterator.getCurrentCell a.tree
      let targets ← octreeIterator.getCurrentListTargets a.tree
      pure [Event.L2P cell.getLocalExpansionData cell targets]
    else pure []
  let p2p ←
    if p2pEnabled then do
      let coord ← octreeIterator.getCurrentGlobalCoordinate a.tree
      let found := a.tree.getLeafsNeighbors coord heightMinusOne
      let neighbors := found.map Prod.fst
      let neighborPositions := found.map Prod.snd
      let counter : Int := found.length
      let targets ← octreeIterator.getCurrentListTargets a.tree
      let src ← octreeIterator.getCurrentListSrc a.tree
      pure [Event.getLeafsNeighbors coord heightMinusOne,
        Event.P2P coord targets src neighbors neighborPositions counter]
    else pure []
  pure (l2p ++ p2p)

/-- The near-field pass `FFmmAlgorithm::directPass` (L2P and P2P). -/
def FFmmAlgorithm.directPass (a : FFmmAlgorithm) (fuel : Nat) (p2pEnabled l2pEnabled : Bool) :
    Except Fault (List Event) :=
  let octreeIterator := Iterator.new a.tree
  let octreeIterator := octreeIterator.gotoBottomLeft a.tree
  doWhileMoveRight a.tree (a.directPassBody p2pEnabled l2pEnabled) fuel octreeIterator

/-- The method `FFmmAlgorithm::executeCore`; a flag test `operationsToProceed & FFmmX` is
true when the bitwise and is not zero. -/
def FFmmAlgorithm.executeCore (a : FFmmAlgorithm) (ops : FFmmOperations) (fuel : Nat)
    (operationsToProceed : Nat) : Except Fault (List Event) := do
  let p2m ← if operationsToProceed &&& ops.FFmmP2M ≠ 0 then a.bottomPass fuel else pure []
  let m2m ← if operationsToProceed &&& ops.FFmmM2M ≠ 0 then a.upwardPass fuel else pure []
  let m2l ← if operationsToProceed &&& ops.FFmmM2L ≠ 0 then a.transferPass fuel else pure []
  let l2l ← if operationsToProceed &&& ops.FFmmL2L ≠ 0 then a.downardPass fuel else pure []
  let near ←
    if operationsToProceed &&& ops.FFmmP2P ≠ 0 ∨ operationsToProceed &&& ops.FFmmL2P ≠ 0 then
      a.directPass fuel (decide (operationsToProceed &&& ops.FFmmP2P ≠ 0))
        (decide (operationsToProceed &&& ops.FFmmL2P ≠ 0))
    else pure []
  pure (p2m ++ m2m ++ m2l ++ l2l ++ near)

/-! ## The calls expected for a cell -/

/-- The 8 child slots of a cell: slot `i` holds the cell of the next level with Morton
index `8 * m + i`, or null. -/
def FOctree.children (t : FOctree) (c : CellClass) : List (Option CellClass) :=
  (List.range 8).map (fun i =>
    (t.cells (c.level + 1)).find? (fun d => d.mortonIndex == 8 * c.mortonIndex + i))

/-- The P2M call on a leaf: its own multipole data, the leaf cell, its source particles. -/
def FOctree.p2mCall (t : FOctree) (c : CellClass) : Event :=
  Event.P2M c.getMultipoleData c (t.listSrc c)

/-- The M2M call on a cell with its 8 child slots. -/
def FOctree.m2mCall (t : FOctree) (c : CellClass) : Event :=
  Event.M2M c.getMultipoleData c ((t.children c).map (fun d => d.map CellClass.getMultipoleData))
    (t.children c)

/-- The L2L call on a cell with its 8 child slots. -/
def FOctree.l2lCall (t : FOctree) (c : CellClass) : Event :=
  Event.L2L c.getLocalExpansionData c
    ((t.children c).map (fun d => d.map CellClass.getLocalExpansionData)) (t.children c)

/-- The M2L call on a cell for the interaction list `found`. -/
def FOctree.m2lCall (c : CellClass) (found : List (Option CellClass × Int)) : Event :=
  Event.M2L c.getLocalExpansionData c
    ((found.map Prod.fst).map (fun d => d.map CellClass.getMultipoleData))
    (found.map Prod.fst) (found.map Prod.snd) found.length

/-- What the M2L pass does on a cell visited at level `idxLevel`: the interaction-list
query, then the M2L call unless the list is empty. -/
def FFmmAlgorithm.m2lCalls (a : FFmmAlgorithm) (idxLevel : Int) (c : CellClass) :
    List Event :=
  Event.getInteractionNeighbors c.coordinate idxLevel (a.separationCriteria idxLevel) ::
    (if a.tree.getInteractionNeighbors c.coordinate idxLevel (a.separationCriteria idxLevel)
        = [] then []
      else [FOctree.m2lCall c
        (a.tree.getInteractionNeighbors c.coordinate idxLevel (a.separationCriteria idxLevel))])

/-- What the M2L pass does on a level: every cell left to right, then the hook. -/
def FFmmAlgorithm.m2lLevel (a : FFmmAlgorithm) (l : Nat) : List Event :=
  (a.tree.cells l).flatMap (a.m2lCalls l) ++ [Event.finishedLevelM2L l]

/-- The L2P call on a leaf. -/
def FOctree.l2pCall (t : FOctree) (c : CellClass) : Event :=
  Event.L2P c.getLocalExpansionData c (t.listTargets c)

/-- The leaf-neighbour query and the P2P call on a leaf. -/
def FOctree.p2pCalls (t : FOctree) (c : CellClass) : List Event :=
  [Event.getLeafsNeighbors c.coordinate ((t.height : Int) - 1),
   Event.P2P c.coordinate (t.listTargets c) (t.listSrc c)
     ((t.getLeafsNeighbors c.coordinate ((t.height : Int) - 1)).map Prod.fst)
     ((t.getLeafsNeighbors c.coordinate ((t.height : Int) - 1)).map Prod.snd)
     (t.getLeafsNeighbors c.coordinate ((t.height : Int) - 1)).length]

/-- What the direct pass does on a leaf. -/
def FOctree.directCalls (t : FOctree) (p2pEnabled l2pEnabled : Bool) (c : CellClass) :
    List Event :=
  (if l2pEnabled then [t.l2pCall c] else []) ++ (if p2pEnabled then t.p2pCalls c else [])

/-! ## FFmmAlgorithmTestTask: the M2L pass -/

/-- One step of the thread that runs a pass of `FFmmAlgorithmTestTask`: the creation of a
task (`#pragma omp task`) or a `#pragma omp taskwait`. A task is given by the kernel copy it
calls (`some idxThread` for `kernels[idxThread]`, `none` for
`kernels[omp_get_thread_num()]`, the copy of the thread that runs the task) and by the calls
it issues when it runs; the iterator and the level are captured by value at creation. -/
inductive TaskEvent where
  | task (kernel : Option Nat) (calls : List Event)
  | taskwait
deriving DecidableEq, Repr

/-- The members of `FFmmAlgorithmTestTask` and the working levels it inherits from
`FAbstractAlgorithm` (not among the sources: the two levels are parameters). -/
structure FFmmAlgorithmTestTask where
  tree : FOctree
  MaxThreads : Nat
  leafLevelSeparationCriteria : Int
  upperWorkingLevel : Int
  lowerWorkingLevel : Int

/-- The sequential engine on the same tree with the same separation criterion and working
levels. -/
def FFmmAlgorithmTestTask.sequential (a : FFmmAlgorithmTestTask) : FFmmAlgorithm :=
  ⟨a.tree, a.leafLevelSeparationCriteria, a.upperWorkingLevel, a.lowerWorkingLevel⟩

/-- The expression
`(idxLevel != lowerWorkingLevel-1 ? 1 : leafLevelSeparationCriteria)` of
`transferPassWithoutFinalize` and `transferPassWithFinalize`. -/
def FFmmAlgorithmTestTask.separationCriteria (a : FFmmAlgorithmTestTask) (idxLevel : Int) :
    Int :=
  if idxLevel ≠ a.lowerWorkingLevel - 1 then 1 else a.leafLevelSeparationCriteria

/-- Body of the cell loop of `transferPassWithoutFinalize` and `transferPassWithFinalize`:
one task that queries the interaction list and calls M2L `if(counter)`. The helpers
`FBasicCell::getMultipoleDataFromCell` and `FBasicCell::identity` of the second method (not
among the sources) are taken to be the two lambdas of the first. -/
def FFmmAlgorithmTestTask.transferPassBody (a : FFmmAlgorithmTestTask)
    (idxLevel separationCriteria : Int) (octreeIterator : Iterator) :
    Except Fault (List TaskEvent) := do
  let coord ← octreeIterator.getCurrentGlobalCoordinate a.tree
  let found := a.tree.getInteractionNeighbors coord idxLevel separationCriteria
  let neighbors := found.map Prod.fst
  let neighborPositions := found.map Prod.snd
  let counter : Int := found.length
  let query := Event.getInteractionNeighbors coord idxLevel separationCriteria
  if counter ≠ 0 then
    let cell ← octreeIterator.getCurrentCell a.tree
    let target_local_exp := cell.getLocalExpansionData
    let target_symbolic := cell
    let neighbor_multipoles := neighbors.map (fun c => c.map CellClass.getMultipoleData)
    let neighbor_symbolics := neighbors
    pure [TaskEvent.task none [query, Event.M2L target_local_exp target_symbolic
      neighbor_multipoles neighbor_symbolics neighborPositions counter]]
  else
    pure [TaskEvent.task none [query]]

/-- The level loop of `transferPassWithoutFinalize`, `n` iterations left, at level
`idxLevel`. -/
def FFmmAlgorithmTestTask.transferPassWithoutFinalizeLevels (a : FFmmAlgorithmTestTask)
    (fuel : Nat) : Nat → Int → Iterator → Iterator → Except Fault (List TaskEvent)
  | 0, _, _, _ => pure []
  | n + 1, idxLevel, octreeIterator, avoidGotoLeftIterator => do
    let separationCriteria := a.separationCriteria idxLevel
    let tasks ← doWhileMoveRight a.tree (a.transferPassBody idxLevel separationCriteria)
      fuel octreeIterator
    let avoidGotoLeftIterator := avoidGotoLeftIterator.moveDown a.tree
    let octreeIterator := avoidGotoLeftIterator
    let rest ← a.transferPassWithoutFinalizeLevels fuel n (idxLevel + 1) octreeIterator
      avoidGotoLeftIterator
    pure (tasks ++ rest)

/-- The method `FFmmAlgorithmTestTask::transferPassWithoutFinalize`. -/
def FFmmAlgorithmTestTask.transferPassWithoutFinalize (a : FFmmAlgorithmTestTask)
    (fuel : Nat) : Except Fault (List TaskEvent) :=
  let octreeIterator := Iterator.new a.tree
  let octreeIterator := octreeIterator.moveDown a.tree
  let octreeIterator :=
    (Iterator.moveDown a.tree)^[(a.upperWorkingLevel - 2).toNat] octreeIterator
  let avoidGotoLeftIterator := octreeIterator
  a.transferPassWithoutFinalizeLevels fuel (a.lowerWorkingLevel - a.upperWorkingLevel).toNat
    a.upperWorkingLevel octreeIterator avoidGotoLeftIterator

/-- The level loop of `transferPassWithFinalize`, `n` iterations left, at level `idxLevel`;
`numThreads` is the value of `omp_get_num_threads()`. After the cells of the level: a
taskwait, one task per thread calling `kernels[idxThread]->finishedLevelM2L(idxLevel)`, a
taskwait. -/
def FFmmAlgorithmTestTask.transferPassWithFinalizeLevels (a : FFmmAlgorithmTestTask)
    (numThreads fuel : Nat) : Nat → Int → Iterator → Iterator → Except Fault (List TaskEvent)
  | 0, _, _, _ => pure []
  | n + 1, idxLevel, octreeIterator, avoidGotoLeftIterator => do
    let separationCriteria := a.separationCriteria idxLevel
    let tasks ← doWhileMoveRight a.tree (a.transferPassBody idxLevel separationCriteria)
      fuel octreeIterator
    let avoidGotoLeftIterator := avoidGotoLeftIterator.moveDown a.tree
    let octreeIterator := avoidGotoLeftIterator
    let hooks := (List.range numThreads).map
      (fun idxThread => TaskEvent.task (some idxThread) [Event.finishedLevelM2L idxLevel])
    let rest ← a.transferPassWithFinalizeLevels numThreads fuel n (idxLevel + 1)
      octreeIterator avoidGotoLeftIterator
    pure (tasks ++ [TaskEvent.taskwait] ++ hooks ++ [TaskEvent.taskwait] ++ rest)

/-- The method `FFmmAlgorithmTestTask::transferPassWithFinalize`. -/
def FFmmAlgorithmTestTask.transferPassWithFinalize (a : FFmmAlgorithmTestTask)
    (numThreads fuel : Nat) : Except Fault (List TaskEvent) :=
  let octreeIterator := Iterator.new a.tree
  let octreeIterator := octreeIterator.moveDown a.tree
  let octreeIterator :=
    (Iterator.moveDown a.tree)^[(a.upperWorkingLevel - 2).toNat] octreeIterator
  let avoidGotoLeftIterator := octreeIterator
  a.transferPassWithFinalizeLevels numThreads fuel
    (a.lowerWorkingLevel - a.upperWorkingLevel).toNat
    a.upperWorkingLevel octreeIterator avoidGotoLeftIterator

/-- The method `FFmmAlgorithmTestTask::transferPass`; `needFinishedM2LEvent` is the value
of `KernelClass::NeedFinishedM2LEvent()`. -/
def FFmmAlgorithmTestTask.transferPass (a : FFmmAlgorithmTestTask)
    (needFinishedM2LEvent : Bool) (numThreads fuel : Nat) : Except Fault (List TaskEvent) :=
  if needFinishedM2LEvent then a.transferPassWithFinalize numThreads fuel
  else a.transferPassWithoutFinalize fuel

/-- The tasks the M2L pass of the task engine creates for a level: one per cell, left to
right, holding the interaction-list query and the M2L call unless the list is empty. -/
def FFmmAlgorithmTestTask.m2lTasks (a : FFmmAlgorithmTestTask) (l : Nat) : List TaskEvent :=
  (a.tree.cells l).map (fun c => TaskEvent.task none (a.sequential.m2lCalls l c))

/-- The tasks that call the hook of a level, one per thread, between two taskwaits. -/
def FFmmAlgorithmTestTask.hookTasks (numThreads : Nat) (l : Nat) : List TaskEvent :=
  [TaskEvent.taskwait]
    ++ (List.range numThreads).map
        (fun idxThread => TaskEvent.task (some idxThread) [Event.finishedLevelM2L l])
    ++ [TaskEvent.taskwait]

/-- The calls issued by the tasks of a trace, in the order of task creation. -/
def TaskEvent.calls : TaskEvent → List Event
  | .task _ calls => calls
  | .taskwait => []

/-! ## FChebSymKernel_i: the P2P entry points -/

/-- A call of `FChebSymKernel_i` to `DirectInteractionComputer`: the mutual computation
`P2P(inTargets, neighbours, size, MatrixKernel)` between the targets and the listed
neighbours, the inner computation `P2PInner(inTargets, MatrixKernel)`, or the one-sided
`P2PRemote(inTargets, sources, size, MatrixKernel)`. -/
inductive DirectCall where
  | P2P (inTargets : ContainerClass) (inNeighbors : List (Option ContainerClass))
      (inSize : Int)
  | P2PInner (inTargets : ContainerClass)
  | P2PRemote (inTargets : ContainerClass) (inNeighbors : List (Option ContainerClass))
      (inSize : Int)
deriving DecidableEq, Repr

/-- The loop of `FChebSymKernel_i::P2POuter`: for `i` from 0 to `inSize - 1`, push
`inNeighbors[i]` when `neighborPositions[i] < 14`. -/
def FChebSymKernel_i.P2POuter.neighbours (inNeighbors : List (Option ContainerClass))
    (neighborPositions : List Int) (inSize : Int) : List (Option ContainerClass) :=
  (List.range inSize.toNat).foldl
    (fun neighbours i =>
      if neighborPositions.getD i 0 < 14 then neighbours ++ [inNeighbors.getD i none]
      else neighbours)
    []

/-- The method `FChebSymKernel_i::P2POuter`: the kept neighbours go to the mutual
computation. -/
def FChebSymKernel_i.P2POuter (inTargets : ContainerClass)
    (inNeighbors : List (Option ContainerClass)) (neighborPositions : List Int)
    (inSize : Int) : List DirectCall :=
  let neighbours := FChebSymKernel_i.P2POuter.neighbours inNeighbors neighborPositions inSize
  [DirectCall.P2P inTargets neighbours neighbours.length]

/-- The method `FChebSymKernel_i::P2P` with the flag `do_inner`. -/
def FChebSymKernel_i.P2P_do_inner (inTargets inSources : ContainerClass)
    (inNeighbors : List (Option ContainerClass)) (neighborPositions : List Int)
    (inSize : Int) (do_inner : Bool) : List DirectCall :=
  if inTargets = inSources then
    FChebSymKernel_i.P2POuter inTargets inNeighbors neighborPositions inSize
      ++ (if do_inner then [DirectCall.P2PInner inTargets] else [])
  else
    (if do_inner then [DirectCall.P2PRemote inTargets [some inSources] 1] else [])
      ++ [DirectCall.P2PRemote inTargets inNeighbors inSize]

/-- The method `FChebSymKernel_i::P2P` called by the engine: `do_inner` is true. -/
def FChebSymKernel_i.P2P (inTargets inSources : ContainerClass)
    (inNeighbors : List (Option ContainerClass)) (neighborPositions : List Int)
    (inSize : Int) : List DirectCall :=
  FChebSymKernel_i.P2P_do_inner inTargets inSources inNeighbors neighborPositions inSize true

/-- The calls to `DirectInteractionComputer` that `FChebSymKernel_i` makes for the P2P
calls of a trace. -/
def FChebSymKernel_i.directCalls (trace : List Event) : List DirectCall :=
  trace.flatMap (fun e =>
    match e with
    | .P2P _ inTargets inSources inNeighbors neighborPositions inSize =>
      FChebSymKernel_i.P2P inTargets inSources inNeighbors neighborPositions inSize
    | _ => [])

/-- How often a call hands the container `y` to the mutual computation on the targets
`x`. -/
def DirectCall.mutual (x y : ContainerClass) : DirectCall → Nat
  | .P2P inTargets inNeighbors _ => if inTargets = x then inNeighbors.count (some y) else 0
  | _ => 0

/-- The number of mutual updates in which the leaf with container `x` passes the leaf with
container `y`. -/
def FChebSymKernel_i.mutualUpdates (x y : ContainerClass) (calls : List DirectCall) : Nat :=
  (calls.map (DirectCall.mutual x y)).sum

/-! ## Leaf neighbours by offset -/

/-- Sum of two coordinates. -/
def FTreeCoordinate.add (c d : FTreeCoordinate) : FTreeCoordinate :=
  ⟨c.x + d.x, c.y + d.y, c.z + d.z⟩

/-- Difference of two coordinates. -/
def FTreeCoordinate.sub (c d : FTreeCoordinate) : FTreeCoordinate :=
  ⟨c.x - d.x, c.y - d.y, c.z - d.z⟩

/-- Does the coordinate lie in the box `[0, boxLimite)` on every axis. -/
def FTreeCoordinate.inBox (c : FTreeCoordinate) (boxLimite : Int) : Prop :=
  (0 ≤ c.x ∧ c.x < boxLimite) ∧ (0 ≤ c.y ∧ c.y < boxLimite) ∧ (0 ≤ c.z ∧ c.z < boxLimite)

instance (c : FTreeCoordinate) (boxLimite : Int) : Decidable (c.inBox boxLimite) := by
  unfold FTreeCoordinate.inBox
  infer_instance

/-- The 27 offsets with components in -1, 0, 1, in the order of three nested loops over
x, y and z. -/
def leafOffsets : List FTreeCoordinate :=
  [-1, 0, 1].flatMap (fun dx =>
    [-1, 0, 1].flatMap (fun dy => [-1, 0, 1].map (fun dz => ⟨dx, dy, dz⟩)))

/-- Modelled from the spec: the position index of a leaf neighbour at the offset
(dx, dy, dz), the 3x3x3 offset indexing `(dx+1)*9 + (dy+1)*3 + (dz+1)`. -/
def leafNeighborPosition (d : FTreeCoordinate) : Int :=
  (d.x + 1) * 9 + (d.y + 1) * 3 + (d.z + 1)

/-- Modelled from the spec: `FOctree::getLeafsNeighbors` (`Containers/FOctree.hpp` is not
among the sources). The up to 26 geometric neighbours of the leaf at `center`: for every
offset other than the centre whose cell lies inside the box of side `2^inLevel` (no
wraparound) and holds a leaf, the source container of that leaf with the position index of
the offset; an absent leaf takes no slot. -/
def getLeafsNeighborsByOffset (leaves : List CellClass) (listSrc : CellClass → ContainerClass)
    (center : FTreeCoordinate) (inLevel : Int) : List (Option ContainerClass × Int) :=
  leafOffsets.filterMap (fun d =>
    if d ≠ ⟨0, 0, 0⟩ ∧ (center.add d).inBox (2 ^ inLevel.toNat) then
      (leaves.find? (fun c => decide (c.coordinate = center.add d))).map
        (fun leaf => (some (listSrc leaf), leafNeighborPosition d))
    else none)

/-- The tree answers its leaf-neighbour queries by offset, as `getLeafsNeighborsByOffset`
describes, and is geometrically sound at the leaf level: the leaves have pairwise distinct
coordinates inside the box of the leaf level, pairwise distinct source containers, and the
target particles of a leaf are its source particles (`FSimpleLeaf`). -/
def FOctree.LeafGeometry (t : FOctree) : Prop :=
  (∀ c ∈ t.leaves, t.getLeafsNeighbors c.coordinate ((t.height : Int) - 1)
    = getLeafsNeighborsByOffset t.leaves t.listSrc c.coordinate ((t.height : Int) - 1)) ∧
  (∀ c ∈ t.leaves, c.coordinate.inBox (2 ^ ((t.height : Int) - 1).toNat)) ∧
  (∀ c ∈ t.leaves, ∀ d ∈ t.leaves, c.coordinate = d.coordinate → c = d) ∧
  (∀ c ∈ t.leaves, ∀ d ∈ t.leaves, t.listSrc c = t.listSrc d → c = d) ∧
  (∀ c ∈ t.leaves, t.listTargets c = t.listSrc c)

instance (t : FOctree) : Decidable t.LeafGeometry := by
  unfold FOctree.LeafGeometry
  infer_instance

/-- Two coordinates are neighbours: they differ by at most 1 on every axis. -/
def FTreeCoordinate.adjacent (c d : FTreeCoordinate) : Prop :=
  (d.x - c.x ≤ 1 ∧ c.x - d.x ≤ 1) ∧ (d.y - c.y ≤ 1 ∧ c.y - d.y ≤ 1) ∧
    (d.z - c.z ≤ 1 ∧ c.z - d.z ≤ 1)

instance (c d : FTreeCoordinate) : Decidable (c.adjacent d) := by
  unfold FTreeCoordinate.adjacent
  infer_instance

/-! ## Observations on a trace -/

/-- The pass a call belongs to: 0 bottom pass (P2M), 1 upward pass (M2M), 2 transfer pass
(M2L), 3 downward pass (L2L), 4 direct pass (L2P / P2P). -/
def Event.pass : Event → Nat
  | .P2M _ _ _ => 0
  | .M2M _ _ _ _ => 1
  | .getInteractionNeighbors _ _ _ => 2
  | .M2L _ _ _ _ _ _ => 2
  | .finishedLevelM2L _ => 2
  | .L2L _ _ _ _ => 3
  | .L2P _ _ _ => 4
  | .getLeafsNeighbors _ _ => 4
  | .P2P _ _ _ _ _ _ => 4

/-- The operation flag under which a call is issued. -/
def Event.flag (ops : FFmmOperations) : Event → Nat
  | .P2M _ _ _ => ops.FFmmP2M
  | .M2M _ _ _ _ => ops.FFmmM2M
  | .getInteractionNeighbors _ _ _ => ops.FFmmM2L
  | .M2L _ _ _ _ _ _ => ops.FFmmM2L
  | .finishedLevelM2L _ => ops.FFmmM2L
  | .L2L _ _ _ _ => ops.FFmmL2L
  | .L2P _ _ _ => ops.FFmmL2P
  | .getLeafsNeighbors _ _ => ops.FFmmP2P
  | .P2P _ _ _ _ _ _ => ops.FFmmP2P

/-- The cell a kernel operator is applied to: the leaf of P2M and L2P, the parent of M2M
and L2L, the target of M2L. -/
def Event.cell : Event → Option CellClass
  | .P2M _ c _ => some c
  | .M2M _ c _ _ => some c
  | .M2L _ c _ _ _ _ => some c
  | .L2L _ c _ _ => some c
  | .L2P _ c _ => some c
  | _ => none

/-- Is the call an M2M call. -/
def Event.isM2M : Event → Bool
  | .M2M _ _ _ _ => true
  | _ => false

/-- Is the call an M2L call. -/
def Event.isM2L : Event → Bool
  | .M2L _ _ _ _ _ _ => true
  | _ => false

/-- Is the call an L2L call. -/
def Event.isL2L : Event → Bool
  | .L2L _ _ _ _ => true
  | _ => false

/-- The arguments of an interaction-list query: coordinate, level, separation criterion. -/
def Event.query : Event → Option (FTreeCoordinate × Int × Int)
  | .getInteractionNeighbors c l s => some (c, l, s)
  | _ => none

/-- Position of a call of the transfer pass in the level order: the queries and M2L calls
of level `l` at `2 * l`, the hook of level `l` at `2 * l + 1`. -/
def Event.m2lRank : Event → Int
  | .getInteractionNeighbors _ l _ => 2 * l
  | .M2L _ c _ _ _ _ => 2 * (c.level : Int)
  | .finishedLevelM2L l => 2 * l + 1
  | _ => 0

/-- The level argument of a call of the hook `finishedLevelM2L`. -/
def Event.hook : Event → Option Int
  | .finishedLevelM2L l => some l
  | _ => none

/-- The calls of a full run in a well-formed tree with at least one leaf: the five passes
in the order of `executeCore`, each present when its flag is set in the mask. -/
def FFmmAlgorithm.expectedTrace (a : FFmmAlgorithm) (ops : FFmmOperations)
    (operationsToProceed : Nat) : List Event :=
  (if operationsToProceed &&& ops.FFmmP2M ≠ 0 then a.tree.leaves.map a.tree.p2mCall else [])
  ++ (if operationsToProceed &&& ops.FFmmM2M ≠ 0 then
        (List.range' a.upperWorkingLevel.toNat
          (min (a.OctreeHeight - 2) (a.lowerWorkingLevel - 1)
            - a.upperWorkingLevel + 1).toNat).reverse.flatMap
          (fun l => (a.tree.cells l).map a.tree.m2mCall)
      else [])
  ++ (if operationsToProceed &&& ops.FFmmM2L ≠ 0 then
        (List.range' a.upperWorkingLevel.toNat
          (a.lowerWorkingLevel - a.upperWorkingLevel).toNat).flatMap a.m2lLevel
      else [])
  ++ (if operationsToProceed &&& ops.FFmmL2L ≠ 0 then
        (List.range' a.upperWorkingLevel.toNat
          (a.lowerWorkingLevel - 1 - a.upperWorkingLevel).toNat).flatMap
          (fun k => (a.tree.cells k).map a.tree.l2lCall)
      else [])
  ++ a.tree.leaves.flatMap
      (a.tree.directCalls (decide (operationsToProceed &&& ops.FFmmP2P ≠ 0))
        (decide (operationsToProceed &&& ops.FFmmL2P ≠ 0)))

/-! ## Construction of the engines -/

/-- Identity of a kernel object (`KernelClass*`). -/
abbrev KernelClass := Nat

/-- How a constructor ends abnormally: a failed `FAssertLF` with its diagnostic, or the
dereference of a null pointer (no diagnostic, the behaviour of the program is undefined). -/
inductive ConstructionFault where
  | assertion (diagnostic : String)
  | nullDereference
deriving DecidableEq, Repr

/-- Modelled from the spec: the macro `FAssertLF(test, message)` (`Utils/FAssert.hpp` is not
among the sources). A false test is fatal: the run aborts with the diagnostic. -/
def FAssertLF (test : Bool) (diagnostic : String) : Except ConstructionFault Unit :=
  if test then .ok () else .error (.assertion diagnostic)

/-- The expression `tree->getHeight()` on a pointer that may be null. -/
def getHeight (tree : Option FOctree) : Except ConstructionFault Int :=
  match tree with
  | some t => .ok (t.height : Int)
  | none => .error .nullDereference

/-- The data members of `FFmmAlgorithm` after construction, with the argument handed to
`FAbstractAlgorithm::setNbLevelsInTree`. -/
structure FFmmAlgorithm.Members where
  tree : Option FOctree
  kernels : Option KernelClass
  OctreeHeight : Int
  leafLevelSeparationCriteria : Int
  nbLevelsInTree : Int

/-- The constructor `FFmmAlgorithm::FFmmAlgorithm`: the member initialisers in the order
of the member declarations (`tree`, `kernels`, `OctreeHeight`, `leafLevelSeparationCriteria`),
then the body. -/
def FFmmAlgorithm.construct (inTree : Option FOctree) (inKernels : Option KernelClass)
    (inLeafLevelSeparationCriteria : Int) : Except ConstructionFault FFmmAlgorithm.Members := do
  let tree := inTree
  let kernels := inKernels
  let OctreeHeight ← getHeight tree
  let leafLevelSeparationCriteria := inLeafLevelSeparationCriteria
  FAssertLF tree.isSome "tree cannot be null"
  FAssertLF kernels.isSome "kernels cannot be null"
  FAssertLF (decide (leafLevelSeparationCriteria < 3)) "Separation criteria should be < 3"
  let nbLevelsInTree ← getHeight tree
  pure ⟨tree, kernels, OctreeHeight, leafLevelSeparationCriteria, nbLevelsInTree⟩

/-- The data members of `FFmmAlgorithmTestTask` after construction, with the argument
handed to `FAbstractAlgorithm::setNbLevelsInTree`; `kernels` is the array of the per-thread
copies of the kernel. -/
structure FFmmAlgorithmTestTask.Members where
  tree : Option FOctree
  kernels : List KernelClass
  MaxThreads : Nat
  OctreeHeight : Int
  leafLevelSeparationCriteria : Int
  nbLevelsInTree : Int

/-- The expression `new KernelClass(*inKernels)` on a pointer that may be null; a copy is
identified with its original. -/
def copyKernel (inKernels : Option KernelClass) : Except ConstructionFault KernelClass :=
  match inKernels with
  | some k => .ok k
  | none => .error .nullDereference

/-- The constructor `FFmmAlgorithmTestTask::FFmmAlgorithmTestTask`: the member initialisers
(`tree`, `kernels(nullptr)`, `OctreeHeight`, `leafLevelSeparationCriteria`), then the body;
`numThreads` is the value of `omp_get_num_threads()` in the parallel region, every thread
stores one copy of the kernel. -/
def FFmmAlgorithmTestTask.construct (inTree : Option FOctree)
    (inKernels : Option KernelClass) (inLeafLevelSeperationCriteria : Int) (numThreads : Nat) :
    Except ConstructionFault FFmmAlgorithmTestTask.Members := do
  let tree := inTree
  let OctreeHeight ← getHeight tree
  let leafLevelSeparationCriteria := inLeafLevelSeperationCriteria
  FAssertLF tree.isSome "tree cannot be null"
  FAssertLF inKernels.isSome "kernels cannot be null"
  FAssertLF (decide (leafLevelSeparationCriteria < 3)) "Separation criteria should be < 3"
  let MaxThreads := numThreads
  let kernels ← (List.range MaxThreads).mapM (fun _ => copyKernel inKernels)
  let nbLevelsInTree ← getHeight tree
  pure ⟨tree, kernels, MaxThreads, OctreeHeight, leafLevelSeparationCriteria, nbLevelsInTree⟩

/-- Is the call a P2M call. -/
def Event.isP2M : Event → Bool
  | .P2M _ _ _ => true
  | _ => false

/-- Is the call an L2P call. -/
def Event.isL2P : Event → Bool
  | .L2P _ _ _ => true
  | _ => false

/-- Is the call a P2P call. -/
def Event.isP2P : Event → Bool
  | .P2P _ _ _ _ _ _ => true
  | _ => false

/-- The neighbour queries of a run return other cells of the tree: every entry of the
interaction list found for a cell of level `l` with the separation criterion of the run is
a cell of level `l` other than the cell itself, and every entry of the neighbour list found
for a leaf is the source container of another leaf. -/
def FFmmAlgorithm.NeighboursAreOthers (a : FFmmAlgorithm) : Prop :=
  (∀ l : Nat, ∀ c ∈ a.tree.cells l,
    ∀ p ∈ a.tree.getInteractionNeighbors c.coordinate l (a.separationCriteria l),
      ∃ d ∈ a.tree.cells l, d ≠ c ∧ p.1 = some d) ∧
  (∀ c ∈ a.tree.leaves,
    ∀ p ∈ a.tree.getLeafsNeighbors c.coordinate ((a.tree.height : Int) - 1),
      ∃ d ∈ a.tree.leaves, d ≠ c ∧ p.1 = some (a.tree.listSrc d))

/-! ## FChebSymKernel_i: the M2M operator -/

/-- Modelled from the spec: `Interpolator->applyM2M(ChildIndex, child, parent)`
(`FChebInterpolator` is not among the sources). It accumulates into the parent expansion the
contribution of one child, the kernel operator `op` of the child index applied to the child
expansion; the operator is a parameter, the arithmetic is exact. -/
def applyM2M {V : Type} [Add V] (op : Nat → V → V) (ChildIndex : Nat) (child parent : V) : V :=
  parent + op ChildIndex child

/-- The loops of `FChebSymKernel_i::M2M` with the children visited in the given order: for
every right-hand side `idxRhs` below `NVALS` and every child index of the order, the child,
when its pointer is not null, is accumulated into the parent by `applyM2M`. An expansion is
given by its value `get(idxRhs)` for every right-hand side. The parent is not reset. -/
def FChebSymKernel_i.M2MInOrder {V : Type} [Add V] (op : Nat → V → V) (NVALS : Nat)
    (order : List Nat) (ParentMultipole : Nat → V)
    (ChildMultipoles : List (Option (Nat → V))) : Nat → V :=
  (List.range NVALS).foldl
    (fun parent idxRhs =>
      order.foldl
        (fun parent ChildIndex =>
          match ChildMultipoles.getD ChildIndex none with
          | some child =>
            Function.update parent idxRhs
              (applyM2M op ChildIndex (child idxRhs) (parent idxRhs))
          | none => parent)
        parent)
    ParentMultipole

/-- The method `FChebSymKernel_i::M2M`: the children are visited in the order
`ChildIndex = 0, ..., 7`. -/
def FChebSymKernel_i.M2M {V : Type} [Add V] (op : Nat → V → V) (NVALS : Nat)
    (ParentMultipole : Nat → V) (ChildMultipoles : List (Option (Nat → V))) : Nat → V :=
  FChebSymKernel_i.M2MInOrder op NVALS (List.range 8) ParentMultipole ChildMultipoles

/-- The contribution of child `ChildIndex` to the right-hand side `idxRhs` of the parent:
the kernel operator applied to the child expansion, nothing for an absent child. -/
def FChebSymKernel_i.contribution {V : Type} [Zero V] (op : Nat → V → V)
    (ChildMultipoles : List (Option (Nat → V))) (idxRhs ChildIndex : Nat) : V :=
  match ChildMultipoles.getD ChildIndex none with
  | some child => op ChildIndex (child idxRhs)
  | none => 0

/-! ## The grouped tree -/

/-- Modelled from the spec: a particle of the input container, by its rank in the container
and the Morton index of its position at the leaf level (`FGroupTree` and the particle
containers are not among the sources). -/
structure Particle where
  index : Nat
  mortonIndex : Nat
deriving DecidableEq, Repr

/-- Modelled from the spec: a leaf of a particle block, its Morton index and its
particles. -/
structure GroupLeaf where
  mortonIndex : Nat
  particles : List Particle
deriving DecidableEq, Repr

/-- Modelled from the spec: one step of the walk of the grouped tree builder over the sorted
particles (`FGroupTree` is not among the sources). The blocks built so far are held newest
first, and so are the leaves of a block. A particle with the Morton index of the current
leaf joins that leaf; otherwise it opens a new leaf, in the current block, or in a new block
when the current block has reached the target size. -/
def FGroupTree.step (groupSize : Nat) (blocks : List (List GroupLeaf)) (p : Particle) :
    List (List GroupLeaf) :=
  match blocks with
  | [] => [[⟨p.mortonIndex, [p]⟩]]
  | [] :: rest => [⟨p.mortonIndex, [p]⟩] :: rest
  | (leaf :: leaves) :: rest =>
    if leaf.mortonIndex = p.mortonIndex then
      (⟨leaf.mortonIndex, leaf.particles ++ [p]⟩ :: leaves) :: rest
    else if (leaf :: leaves).length < groupSize then
      (⟨p.mortonIndex, [p]⟩ :: leaf :: leaves) :: rest
    else
      [⟨p.mortonIndex, [p]⟩] :: (leaf :: leaves) :: rest

/-- Modelled from the spec: the grouped tree builder at the leaf level (`FGroupTree` is not
among the sources): the particles are sorted by Morton index, then walked; the result is the
sequence of particle blocks, each a sequence of leaves, in increasing Morton index. -/
def FGroupTree.build (groupSize : Nat) (particles : List Particle) : List (List GroupLeaf) :=
  (((particles.insertionSort (fun a b => a.mortonIndex ≤ b.mortonIndex)).foldl
    (FGroupTree.step groupSize) []).reverse).map List.reverse

/-- Modelled from the spec: `forEachCellLeaf`, the per-block iteration callback: the
function is called on every leaf of every block, in order. -/
def FGroupTree.forEachCellLeaf {σ : Type} (tree : List (List GroupLeaf))
    (f : σ → GroupLeaf → σ) (init : σ) : σ :=
  tree.foldl (fun s block => block.foldl f s) init

/-- The validation loop of `testBlockedTaylor.cpp` and `testBlockedUniformBench.cpp`:
`offsetParticles` starts at 0 and the callback adds `leafTarget->getNbParticles()`. -/
def offsetParticles (tree : List (List GroupLeaf)) : Nat :=
  FGroupTree.forEachCellLeaf tree
    (fun offsetParticles leafTarget => offsetParticles + leafTarget.particles.length) 0

/-- The particles held by the leaves of a sequence of blocks. -/
def FGroupTree.particlesOf (tree : List (List GroupLeaf)) : List Particle :=
  tree.flatMap (fun block => block.flatMap (fun leaf => leaf.particles))

/-! ## Geometry of the octree -/

/-- The coordinate of the parent cell: every component shifted right by one bit. -/
def FTreeCoordinate.half (c : FTreeCoordinate) : FTreeCoordinate :=
  ⟨c.x / 2, c.y / 2, c.z / 2⟩

/-- Modelled from the spec: the test of the interaction list with the separation criterion
1 (`FOctree::getInteractionNeighbors` is not among the sources). The cell at `d` is in the
interaction list of the cell at `c` of the same level when their parents are neighbours (or
equal) and the two cells are not neighbours. -/
def FTreeCoordinate.wellSeparated (c d : FTreeCoordinate) : Prop :=
  c.half.adjacent d.half ∧ ¬ c.adjacent d

instance (c d : FTreeCoordinate) : Decidable (c.wellSeparated d) := by
  unfold FTreeCoordinate.wellSeparated
  infer_instance

/-- Modelled from the spec: the geometry of a built octree and what its two neighbour
queries return (`Containers/FOctree.hpp` is not among the sources). The leaves lie in the box
of side `2^(height-1)`; on every level from 1 on the cells have pairwise distinct
coordinates; the coordinate of a parent is the coordinate of its child shifted right by one
bit; the leaves have pairwise distinct source containers and their target particles are their
source particles; the leaf-neighbour query returns, in some order and each once, the source
containers of the other leaves whose coordinate differs by at most 1 on every axis; the
interaction-list query with the criterion 1 returns, in some order and each once, the cells
of the level whose parent is a neighbour of the parent of the working cell (or that parent)
and that are not neighbours of the working cell. -/
def FOctree.Geometry (t : FOctree) : Prop :=
  (∀ c ∈ t.leaves, c.coordinate.inBox (2 ^ (t.height - 1))) ∧
  (∀ l, l < t.height → 1 ≤ l →
    ∀ c ∈ t.cells l, ∀ d ∈ t.cells l, c.coordinate = d.coordinate → c = d) ∧
  (∀ l, l < t.height → 1 ≤ l → l + 1 < t.height →
    ∀ c ∈ t.cells (l + 1), ∀ p ∈ t.cells l,
      p.mortonIndex = c.mortonIndex / 8 → p.coordinate = c.coordinate.half) ∧
  (∀ c ∈ t.leaves, ∀ d ∈ t.leaves, t.listSrc c = t.listSrc d → c = d) ∧
  (∀ c ∈ t.leaves, t.listTargets c = t.listSrc c) ∧
  (∀ c ∈ t.leaves,
    ((t.getLeafsNeighbors c.coordinate ((t.height : Int) - 1)).map Prod.fst).Perm
      ((t.leaves.filter (fun d => decide (d ≠ c ∧ c.coordinate.adjacent d.coordinate))).map
        (fun d => some (t.listSrc d)))) ∧
  (∀ l, l < t.height → 2 ≤ l → ∀ c ∈ t.cells l,
    ((t.getInteractionNeighbors c.coordinate l 1).map Prod.fst).Perm
      (((t.cells l).filter
        (fun d => decide (c.coordinate.wellSeparated d.coordinate))).map some))

instance (t : FOctree) : Decidable t.Geometry := by
  unfold FOctree.Geometry
  infer_instance

/-- The number of levels, among the `k` levels from the level of `a` and `b` upwards, at
which the ancestors of the two cells are in the interaction list of each other. -/
def FTreeCoordinate.far : Nat → FTreeCoordinate → FTreeCoordinate → Int
  | 0, _, _ => 0
  | k + 1, a, b => (if a.wellSeparated b then 1 else 0) + FTreeCoordinate.far k a.half b.half

/-- The existing children of a cell. -/
def FOctree.kids (t : FOctree) (c : CellClass) : List CellClass :=
  (t.children c).filterMap id

/-- The coordinate of the ancestor at level `l` of the leaf `B`. -/
def FOctree.ancestor (t : FOctree) (l : Nat) (B : CellClass) : FTreeCoordinate :=
  FTreeCoordinate.half^[t.height - 1 - l] B.coordinate

/-- The sum over the leaves `B` of the weight `w B` times the number `n B`. -/
def FOctree.leafSum (t : FOctree) (n w : CellClass → Int) : Int :=
  (t.leaves.map (fun B => n B * w B)).sum

/-- The number of particles below the cell `c` of level `l`: the sum of `n` over the leaves
whose ancestor at level `l` is `c`. -/
def FOctree.weightBelow (t : FOctree) (n : CellClass → Int) (l : Nat) (c : CellClass) : Int :=
  t.leafSum n (fun B => if t.ancestor l B = c.coordinate then 1 else 0)

/-- The number of particles below the cells of the interaction list of the cell `c` of
level `l`. -/
def FOctree.weightListed (t : FOctree) (n : CellClass → Int) (l : Nat) (c : CellClass) :
    Int :=
  t.leafSum n (fun B => if c.coordinate.wellSeparated (t.ancestor l B) then 1 else 0)

/-- The number of particles below the cells of the interaction lists of the cell `c` of
level `l` and of its ancestors down to level 2. -/
def FOctree.weightFar (t : FOctree) (n : CellClass → Int) (l : Nat) (c : CellClass) : Int :=
  t.leafSum n (fun B => FTreeCoordinate.far (l - 1) c.coordinate (t.ancestor l B))

/-! ## The counting test kernel -/

/-- The data the counting kernel works on: the upward and the downward value of every cell
(`FTestCell`) and the downward value of every particle of every container
(`FTestParticleContainer`). -/
structure FTestState where
  dataUp : CellClass → Int
  dataDown : CellClass → Int
  particles : ContainerClass → List Int

/-- The number of particles of a container. -/
def FTestState.getNbParticles (st : FTestState) (c : ContainerClass) : Int :=
  ((st.particles c).length : Int)

/-- Modelled from the spec: the P2M operator of the counting test kernel
(`Components/FTestKernels.hpp` is not among the sources): it stores the particle count of the
leaf as the upward value of the leaf cell. -/
def FTestKernels.P2M (st : FTestState) (leaf_multipole : multipole_t)
    (particles : ContainerClass) : FTestState :=
  { st with
    dataUp :=
      (Function.update st.dataUp leaf_multipole.owner (st.getNbParticles particles)) }

/-- Modelled from the spec: the M2M operator of the counting test kernel: it adds the
upward values of the existing children to the upward value of the parent. -/
def FTestKernels.M2M (st : FTestState) (parent_multipole : multipole_t)
    (child_multipoles : List (Option multipole_t)) : FTestState :=
  { st with
    dataUp :=
      (Function.update st.dataUp parent_multipole.owner
        (st.dataUp parent_multipole.owner
          + ((child_multipoles.filterMap id).map (fun m => st.dataUp m.owner)).sum)) }

/-- Modelled from the spec: the M2L operator of the counting test kernel: it adds the
upward values of the `counter` cells of the interaction list to the downward value of the
target. -/
def FTestKernels.M2L (st : FTestState) (target_local_exp : local_expansion_t)
    (neighbor_multipoles : List (Option multipole_t)) (counter : Int) : FTestState :=
  { st with
    dataDown :=
      (Function.update st.dataDown target_local_exp.owner
        (st.dataDown target_local_exp.owner
          + (((neighbor_multipoles.take counter.toNat).filterMap id).map
              (fun m => st.dataUp m.owner)).sum)) }

/-- Modelled from the spec: the L2L operator of the counting test kernel: it adds the
downward value of the parent to the downward value of every existing child. -/
def FTestKernels.L2L (st : FTestState) (parent_local_exp : local_expansion_t)
    (child_local_expansions : List (Option local_expansion_t)) : FTestState :=
  { st with
    dataDown :=
      ((child_local_expansions.filterMap id).foldl
        (fun dataDown child =>
          Function.update dataDown child.owner
            (dataDown child.owner + dataDown parent_local_exp.owner))
        st.dataDown) }

/-- Modelled from the spec: the L2P operator of the counting test kernel: it adds the
downward value of the leaf cell to every particle of the leaf. -/
def FTestKernels.L2P (st : FTestState) (local_exp : local_expansion_t)
    (targets : ContainerClass) : FTestState :=
  { st with
    particles :=
      (Function.update st.particles targets
        ((st.particles targets).map (fun v => v + st.dataDown local_exp.owner))) }

/-- Modelled from the spec: the P2P operator of the counting test kernel: it adds to every
particle of the leaf the particle counts of the `inSize` neighbour leaves plus the particle
count of the leaf itself minus one. -/
def FTestKernels.P2P (st : FTestState) (inTargets inSources : ContainerClass)
    (inNeighbors : List (Option ContainerClass)) (inSize : Int) : FTestState :=
  { st with
    particles :=
      (Function.update st.particles inTargets
        ((st.particles inTargets).map (fun v => v
          + ((((inNeighbors.take inSize.toNat).filterMap id).map st.getNbParticles).sum
            + st.getNbParticles inSources - 1)))) }

/-- The effect of one call of the engine on the data, with the counting test kernel; the
neighbour queries and the hook `finishedLevelM2L` leave the data unchanged. -/
def FTestKernels.apply (st : FTestState) : Event → FTestState
  | .P2M leaf_multipole _ particles => FTestKernels.P2M st leaf_multipole particles
  | .M2M parent_multipole _ child_multipoles _ =>
    FTestKernels.M2M st parent_multipole child_multipoles
  | .M2L target_local_exp _ neighbor_multipoles _ _ counter =>
    FTestKernels.M2L st target_local_exp neighbor_multipoles counter
  | .L2L parent_local_exp _ child_local_expansions _ =>
    FTestKernels.L2L st parent_local_exp child_local_expansions
  | .L2P local_exp _ targets => FTestKernels.L2P st local_exp targets
  | .P2P _ inTargets inSources inNeighbors _ inSize =>
    FTestKernels.P2P st inTargets inSources inNeighbors inSize
  | _ => st

/-- The data after the calls of a trace, in order. -/
def FTestKernels.run (st : FTestState) (trace : List Event) : FTestState :=
  trace.foldl FTestKernels.apply st

/-- The number of particles of a tree: the sum of the particle counts of its leaves. -/
def FOctree.getNbParticles (t : FOctree) (st : FTestState) : Int :=
  (t.leaves.map (fun B => st.getNbParticles (t.listSrc B))).sum

/-! ## FChebSymKernel_i: the permuted expansions and the M2L operator -/

/-- How a call of the kernel ends abnormally: a failed `assert`, an access outside an array
or outside a buffer, the loop fuel of the model ran out, or an access through a null
pointer. -/
inductive KernelFault where
  | assertion
  | outOfBounds
  | outOfFuel
  | nullPointer
deriving DecidableEq, Repr

/-- The members `Loc`, `Mul` and `countExp` of `FChebSymKernel_i`. A null pointer is `none`;
an array of pointers is the list of its entries; a buffer `new FReal [n]` is represented by
its number of entries `n`, the array `new unsigned int [n]` by its number of entries. -/
structure PermutedExpansions where
  Loc : Option (List (Option Nat))
  Mul : Option (List (Option Nat))
  countExp : Option Nat
deriving DecidableEq, Repr

/-- The members as the constructors of `FChebSymKernel_i` initialise them:
`Loc(nullptr), Mul(nullptr), countExp(nullptr)`. -/
def PermutedExpansions.null : PermutedExpansions := ⟨none, none, none⟩

/-- The body of the innermost loop of `allocateMemoryForPermutedExpansions` on the pair of
arrays (`Mul`, `Loc`): the slot `idx = (i+3)*7*7 + (j+3)*7 + (k+3)`, the assertion
`Mul[idx]==nullptr || Loc[idx]==nullptr`, and the two buffers of `24 * nnodes` entries. -/
def FChebSymKernel_i.allocateSlot (nnodes i j k : Nat)
    (arrays : List (Option Nat) × List (Option Nat)) :
    Except KernelFault (List (Option Nat) × List (Option Nat)) :=
  let idx := ((i + 3) * 7 * 7 + (j + 3) * 7 + (k + 3)) % 2 ^ 32
  match arrays.1[idx]?, arrays.2[idx]? with
  | some mul, some loc =>
    if mul = none ∨ loc = none then
      .ok (arrays.1.set idx (some (24 * nnodes)), arrays.2.set idx (some (24 * nnodes)))
    else .error .assertion
  | _, _ => .error .outOfBounds

/-- The function `FChebSymKernel_i::allocateMemoryForPermutedExpansions`: the assertion that
the three members are null, the two arrays of 343 pointers all set to null, and the three
nested loops `for i = 2..3`, `for j = 0..i`, `for k = 0..j` over the slots. -/
def FChebSymKernel_i.allocateMemoryForPermutedExpansions (nnodes : Nat)
    (members : PermutedExpansions) : Except KernelFault PermutedExpansions := do
  if ¬ (members.Loc = none ∧ members.Mul = none ∧ members.countExp = none) then
    throw .assertion
  let Loc : List (Option Nat) := List.replicate 343 none
  let Mul : List (Option Nat) := List.replicate 343 none
  let arrays ← (List.range' 2 2).foldlM
    (fun arrays i =>
      (List.range (i + 1)).foldlM
        (fun arrays j =>
          (List.range (j + 1)).foldlM
            (fun arrays k => FChebSymKernel_i.allocateSlot nnodes i j k arrays) arrays)
        arrays)
    (Mul, Loc)
  pure ⟨some arrays.2, some arrays.1, some 343⟩

/-- The slot indices `(i+3)*49 + (j+3)*7 + (k+3)` for `2 ≤ i ≤ 3`, `0 ≤ j ≤ i`,
`0 ≤ k ≤ j`, in increasing order. -/
def permutedSlots : List Nat :=
  (List.range' 2 2).flatMap (fun i =>
    (List.range (i + 1)).flatMap (fun j =>
      (List.range (j + 1)).map (fun k => (i + 3) * 49 + (j + 3) * 7 + (k + 3))))

/-- The loop `for (unsigned int n = start; n < bound; n += step) body` on a state, `n` being
a 32-bit unsigned integer; `none` when the fuel of the model runs out. -/
def forUnsigned {σ : Type} (bound step : Nat) (body : Nat → σ → σ) : Nat → Nat → σ → Option σ
  | 0, _, _ => none
  | fuel + 1, n, s =>
    if n < bound then forUnsigned bound step body fuel ((n + step) % 2 ^ 32) (body n s)
    else some s

/-- The explicitly unrolled loops of `FChebSymKernel_i::M2L`, for the statement `statement n`
of the loop body: the loop `for (n = 0; n < nnodes/4 * 4; n += 4)` with the statement at
`n`, `n+1`, `n+2`, `n+3`, followed by the loop `for (n = nnodes/4 * 4; n < nnodes; ++n)`
with the statement at `n`. -/
def FChebSymKernel_i.unrolledLoop {σ : Type} (nnodes : Nat) (statement : Nat → σ → σ)
    (fuel : Nat) (s : σ) : Option σ :=
  (forUnsigned (nnodes / 4 * 4) 4
    (fun n s =>
      statement ((n + 3) % 2 ^ 32)
        (statement ((n + 2) % 2 ^ 32) (statement ((n + 1) % 2 ^ 32) (statement n s))))
    fuel 0 s).bind
  (fun s => forUnsigned nnodes 1 statement fuel (nnodes / 4 * 4) s)

/-- The loop without unrolling that `FChebSymKernel_i::M2L` keeps in a comment:
`for (unsigned int n = 0; n < nnodes; ++n)` with the statement at `n`. -/
def FChebSymKernel_i.referenceLoop {σ : Type} (nnodes : Nat) (statement : Nat → σ → σ)
    (fuel : Nat) (s : σ) : Option σ :=
  forUnsigned nnodes 1 statement fuel 0 s

/-- The statement `mul[pvec[n]] = MultiExp[n]` on the block `mul`. -/
def FChebSymKernel_i.copyStatement {V : Type} (pvec : Nat → Nat) (MultiExp : Nat → V) (n : Nat)
    (mul : Nat → V) : Nat → V :=
  Function.update mul (pvec n) (MultiExp n)

/-- The statement `LocalExpansion[n] += loc[pvec[n]]` on the local expansion. -/
def FChebSymKernel_i.addStatement {V : Type} [Add V] (pvec : Nat → Nat) (loc : Nat → V)
    (n : Nat) (LocalExpansion : Nat → V) : Nat → V :=
  Function.update LocalExpansion n (LocalExpansion n + loc (pvec n))

/-- The scatter of `FChebSymKernel_i::M2L` (permute and copy), explicitly unrolled. -/
def FChebSymKernel_i.permuteAndCopy {V : Type} (nnodes : Nat) (pvec : Nat → Nat)
    (MultiExp : Nat → V) (fuel : Nat) (mul : Nat → V) : Option (Nat → V) :=
  FChebSymKernel_i.unrolledLoop nnodes (FChebSymKernel_i.copyStatement pvec MultiExp) fuel mul

/-- The gather-add of `FChebSymKernel_i::M2L` (permute and add), explicitly unrolled. -/
def FChebSymKernel_i.permuteAndAdd {V : Type} [Add V] (nnodes : Nat) (pvec : Nat → Nat)
    (loc : Nat → V) (fuel : Nat) (LocalExpansion : Nat → V) : Option (Nat → V) :=
  FChebSymKernel_i.unrolledLoop nnodes (FChebSymKernel_i.addStatement pvec loc) fuel
    LocalExpansion

/-- The class `pindices[neighborPositions[n]]` of the neighbour `n`. -/
def FChebSymKernel_i.classOf (pindices : List Nat) (neighborPositions : List Int) (n : Nat) :
    Nat :=
  pindices.getD (neighborPositions.getD n 0).toNat 0

/-- The accesses of the permutation loop of one neighbour of `FChebSymKernel_i::M2L` to its
block `mul = Mul[pidx] + count*nnodes` (or `loc = Loc[pidx] + count*nnodes`): the loop runs
`n` over `0 .. nnodes-1` and accesses `mul[pvec[n]]`, that is the entry
`count*nnodes + pvec[n]` of the buffer, the offset `count*nnodes` being computed on 32-bit
unsigned integers. `buffer` is the slot `Mul[pidx]`: `none` for a null pointer, else the
number of entries of the buffer. With at least one node, a null slot is an access through a
null pointer and an entry at or beyond the size of the buffer is an access outside the
buffer. -/
def FChebSymKernel_i.blockAccesses (nnodes : Nat) (pvec : Nat → Nat) (buffer : Option Nat)
    (count : Nat) : Except KernelFault Unit :=
  match buffer with
  | none => if nnodes = 0 then .ok () else .error .nullPointer
  | some size =>
    if (List.range nnodes).all (fun n => decide (count * nnodes % 2 ^ 32 + pvec n < size)) then
      .ok ()
    else .error .outOfBounds

/-- One neighbour in a permute pass of `FChebSymKernel_i::M2L`:
`idx = neighborPositions[idxExistingNeigh]`, `pidx = pindices[idx]`,
`count = (countExp[pidx])++`, the block `buffers[pidx] + count*nnodes` of the neighbour in
the array of buffers (`Mul` in the permute-and-copy pass, `Loc` in the permute-and-add pass)
and the permutation loop over the block with `pvec = pvectors[idx]`; the pair
(`pidx`, `count`) is appended to the blocks used so far. The tables `pindices` and `pvectors`
of the symmetry handler are parameters. An index outside an array, a null slot and an entry
outside the buffer of the slot end the call. The counter cannot wrap: `inSize` is an
`int`. -/
def FChebSymKernel_i.permuteBlock (nnodes : Nat) (buffers : List (Option Nat))
    (pindices : List Nat) (pvectors : Nat → Nat → Nat) (neighborPositions : List Int)
    (state : List Nat × List (Nat × Nat)) (idxExistingNeigh : Nat) :
    Except KernelFault (List Nat × List (Nat × Nat)) :=
  match neighborPositions[idxExistingNeigh]? with
  | none => .error .outOfBounds
  | some idx =>
    if idx < 0 then .error .outOfBounds
    else
      match pindices[idx.toNat]? with
      | none => .error .outOfBounds
      | some pidx =>
        match state.1[pidx]? with
        | none => .error .outOfBounds
        | some count =>
          match buffers[pidx]? with
          | none => .error .outOfBounds
          | some buffer =>
            match FChebSymKernel_i.blockAccesses nnodes (pvectors idx.toNat) buffer count with
            | .error fault => .error fault
            | .ok _ => .ok (state.1.set pidx (count + 1), state.2 ++ [(pidx, count)])

/-- The permute-and-copy pass of `FChebSymKernel_i::M2L` for one right-hand side:
`memset(countExp, 0, ...)` and the loop over the `inSize` neighbours, each writing its block
of `Mul`; the result is the final `countExp` and, per neighbour, the pair (`pidx`, `count`) of
the block `mul = Mul[pidx] + count*nnodes` it writes. -/
def FChebSymKernel_i.permuteAndCopyBlocks (nnodes : Nat) (Mul : List (Option Nat))
    (pindices : List Nat) (pvectors : Nat → Nat → Nat) (neighborPositions : List Int)
    (inSize : Int) : Except KernelFault (List Nat × List (Nat × Nat)) :=
  let countExp : List Nat := List.replicate 343 0
  (List.range inSize.toNat).foldlM
    (fun state idxExistingNeigh =>
      FChebSymKernel_i.permuteBlock nnodes Mul pindices pvectors neighborPositions state
        idxExistingNeigh)
    (countExp, [])

/-- The multiply step of `FChebSymKernel_i::M2L` as far as `countExp` is concerned: the loop
over the 343 classes reads `countExp[pidx]` and calls the two products for the classes with a
non-zero count; the result is the list of the classes multiplied with their counts, `countExp`
is left as it is. -/
def FChebSymKernel_i.multiplied (countExp : List Nat) : List (Nat × Nat) :=
  (List.range 343).filterMap (fun pidx =>
    match countExp[pidx]? with
    | some count => if count ≠ 0 then some (pidx, count) else none
    | none => none)

/-- The permute-and-add pass of `FChebSymKernel_i::M2L` for one right-hand side:
`memset(countExp, 0, ...)` and the loop over the `inSize` neighbours, each reading its block
of `Loc`; the result is the final `countExp` and, per neighbour, the pair (`pidx`, `count`) of
the block `loc = Loc[pidx] + count*nnodes` it reads. -/
def FChebSymKernel_i.permuteAndAddBlocks (nnodes : Nat) (Loc : List (Option Nat))
    (pindices : List Nat) (pvectors : Nat → Nat → Nat) (neighborPositions : List Int)
    (inSize : Int) : Except KernelFault (List Nat × List (Nat × Nat)) :=
  let countExp : List Nat := List.replicate 343 0
  (List.range inSize.toNat).foldlM
    (fun state idxExistingNeigh =>
      FChebSymKernel_i.permuteBlock nnodes Loc pindices pvectors neighborPositions state
        idxExistingNeigh)
    (countExp, [])

/-- The blocks used by `FChebSymKernel_i::M2L` for the right-hand sides `0 .. NVALS-1`, on
the arrays of buffers `Mul` and `Loc` of the kernel: per right-hand side the blocks written
by the permute-and-copy pass, the classes multiplied, and the blocks read by the
permute-and-add pass. -/
def FChebSymKernel_i.M2LBlocks (NVALS nnodes : Nat) (Mul Loc : List (Option Nat))
    (pindices : List Nat) (pvectors : Nat → Nat → Nat) (neighborPositions : List Int)
    (inSize : Int) :
    Except KernelFault (List (List (Nat × Nat) × List (Nat × Nat) × List (Nat × Nat))) :=
  (List.range NVALS).mapM (fun _ => do
    let copied ←
      FChebSymKernel_i.permuteAndCopyBlocks nnodes Mul pindices pvectors neighborPositions
        inSize
    let products := FChebSymKernel_i.multiplied copied.1
    let added ←
      FChebSymKernel_i.permuteAndAddBlocks nnodes Loc pindices pvectors neighborPositions
        inSize
    pure (copied.2, products, added.2))

/-- The position index of the relative offset (i, j, k) of a cell of the interaction list,
the 7x7x7 offset indexing `(i+3)*49 + (j+3)*7 + (k+3)`. -/
def interactionPosition (d : FTreeCoordinate) : Int :=
  (d.x + 3) * 49 + (d.y + 3) * 7 + (d.z + 3)

/-- The relative offset of a position index of the 7x7x7 indexing. -/
def interactionOffset (idx : Nat) : FTreeCoordinate :=
  ⟨(idx / 49 : Nat) - 3, (idx / 7 % 7 : Nat) - 3, (idx % 7 : Nat) - 3⟩

/-- Modelled from the spec: the symmetry class of a relative offset (the table `pindices` of
`FChebSymmetries.hpp` is not among the sources). The class is the slot of the absolute values
of the offset sorted decreasingly. -/
def symmetryClass (d : FTreeCoordinate) : Nat :=
  match List.insertionSort (fun a b => b ≤ a) [d.x.natAbs, d.y.natAbs, d.z.natAbs] with
  | [a, b, c] => (a + 3) * 49 + (b + 3) * 7 + (c + 3)
  | _ => 0

/-- Modelled from the spec: the table `SymHandler->pindices` of 343 entries, for every
position index the symmetry class of its offset. -/
def pindicesTable : List Nat :=
  (List.range 343).map (fun idx => symmetryClass (interactionOffset idx))

/-- The 6-wide window of the offsets on one axis for a cell of parity `p` on that axis:
`-2-p .. 3-p`. -/
def interactionWindow (p : Nat) : List Int :=
  (List.range 6).map (fun (t : Nat) => (t : Int) - 2 - (p : Int))

/-- Modelled from the spec: the offsets of the standard interaction list of a cell with
the parities `px`, `py`, `pz` and the separation criterion 1
(`FOctree::getInteractionNeighbors` is not among the sources): every offset of the window of
the three axes with at least one component of absolute value 2 or more. -/
def standardInteractionOffsets (px py pz : Nat) : List FTreeCoordinate :=
  ((interactionWindow px).flatMap (fun i =>
    (interactionWindow py).flatMap (fun j =>
      (interactionWindow pz).map (fun k => (⟨i, j, k⟩ : FTreeCoordinate))))).filter
    (fun d => decide (2 ≤ d.x.natAbs ∨ 2 ≤ d.y.natAbs ∨ 2 ≤ d.z.natAbs))

/-- The position indices of the standard interaction list of a cell with the parities
`px`, `py`, `pz`. -/
def standardInteractionPositions (px py pz : Nat) : List Int :=
  (standardInteractionOffsets px py pz).map interactionPosition

/-! ## FFmmAlgorithmTestTask: the other passes and executeCore -/

/-- The member `OctreeHeight(tree->getHeight())` of `FFmmAlgorithmTestTask`. -/
def FFmmAlgorithmTestTask.OctreeHeight (a : FFmmAlgorithmTestTask) : Int := a.tree.height

/-- Body of the leaf loop of `FFmmAlgorithmTestTask::bottomPass`: one task that calls P2M on
the leaf of the iterator it captured. -/
def FFmmAlgorithmTestTask.bottomPassBody (a : FFmmAlgorithmTestTask)
    (octreeIterator : Iterator) : Except Fault (List TaskEvent) := do
  let cell ← octreeIterator.getCurrentCell a.tree
  let src ← octreeIterator.getCurrentListSrc a.tree
  pure [TaskEvent.task none [Event.P2M cell.getMultipoleData cell src]]

/-- The P2M pass `FFmmAlgorithmTestTask::bottomPass`: one task per leaf, then a taskwait. -/
def FFmmAlgorithmTestTask.bottomPass (a : FFmmAlgorithmTestTask) (fuel : Nat) :
    Except Fault (List TaskEvent) := do
  let octreeIterator := Iterator.new a.tree
  let octreeIterator := octreeIterator.gotoBottomLeft a.tree
  let tasks ← doWhileMoveRight a.tree a.bottomPassBody fuel octreeIterator
  pure (tasks ++ [TaskEvent.taskwait])

/-- Body of the cell loop of `FFmmAlgorithmTestTask::upwardPass`: one task that calls M2M on
the cell of the iterator it captured, with its 8 child slots. -/
def FFmmAlgorithmTestTask.upwardPassBody (a : FFmmAlgorithmTestTask)
    (octreeIterator : Iterator) : Except Fault (List TaskEvent) := do
  let cell ← octreeIterator.getCurrentCell a.tree
  let parent_multipole := cell.getMultipoleData
  let parent_symbolic := cell
  let children ← octreeIterator.getCurrentChildren a.tree
  let child_multipoles := children.map (fun c => c.map CellClass.getMultipoleData)
  let child_symbolics := children
  pure [TaskEvent.task none
    [Event.M2M parent_multipole parent_symbolic child_multipoles child_symbolics]]

/-- The level loop of `FFmmAlgorithmTestTask::upwardPass`, `n` iterations left: one task per
cell of the level, `avoidGotoLeftIterator.moveUp(); octreeIterator = avoidGotoLeftIterator;`,
then a taskwait. -/
def FFmmAlgorithmTestTask.upwardPassLevels (a : FFmmAlgorithmTestTask) (fuel : Nat) :
    Nat → Iterator → Iterator → Except Fault (List TaskEvent)
  | 0, _, _ => pure []
  | n + 1, octreeIterator, avoidGotoLeftIterator => do
    let tasks ← doWhileMoveRight a.tree a.upwardPassBody fuel octreeIterator
    let avoidGotoLeftIterator := avoidGotoLeftIterator.moveUp a.tree
    let octreeIterator := avoidGotoLeftIterator
    let rest ← a.upwardPassLevels fuel n octreeIterator avoidGotoLeftIterator
    pure (tasks ++ [TaskEvent.taskwait] ++ rest)

/-- The M2M pass `FFmmAlgorithmTestTask::upwardPass`, with the two level loops of the
sequential engine. -/
def FFmmAlgorithmTestTask.upwardPass (a : FFmmAlgorithmTestTask) (fuel : Nat) :
    Except Fault (List TaskEvent) :=
  let octreeIterator := Iterator.new a.tree
  let octreeIterator := octreeIterator.gotoBottomLeft a.tree
  let octreeIterator := octreeIterator.moveUp a.tree
  let octreeIterator :=
    (Iterator.moveUp a.tree)^[((a.OctreeHeight - 2) - (a.lowerWorkingLevel - 1)).toNat]
      octreeIterator
  let avoidGotoLeftIterator := octreeIterator
  a.upwardPassLevels fuel
    (min (a.OctreeHeight - 2) (a.lowerWorkingLevel - 1) - a.upperWorkingLevel + 1).toNat
    octreeIterator avoidGotoLeftIterator

/-- Body of the cell loop of `FFmmAlgorithmTestTask::downardPass`: one task that calls L2L on
the cell of the iterator it captured, with its 8 child slots. -/
def FFmmAlgorithmTestTask.downardPassBody (a : FFmmAlgorithmTestTask)
    (octreeIterator : Iterator) : Except Fault (List TaskEvent) := do
  let cell ← octreeIterator.getCurrentCell a.tree
  let parent_local_exp := cell.getLocalExpansionData
  let parent_symbolic := cell
  let children ← octreeIterator.getCurrentChildren a.tree
  let child_local_expansions := children.map (fun c => c.map CellClass.getLocalExpansionData)
  let child_symbolics := children
  pure [TaskEvent.task none
    [Event.L2L parent_local_exp parent_symbolic child_local_expansions child_symbolics]]

/-- The level loop of `FFmmAlgorithmTestTask::downardPass`, `n` iterations left: one task per
cell of the level, `avoidGotoLeftIterator.moveDown(); octreeIterator = avoidGotoLeftIterator;`,
then a taskwait. -/
def FFmmAlgorithmTestTask.downardPassLevels (a : FFmmAlgorithmTestTask) (fuel : Nat) :
    Nat → Iterator → Iterator → Except Fault (List TaskEvent)
  | 0, _, _ => pure []
  | n + 1, octreeIterator, avoidGotoLeftIterator => do
    let tasks ← doWhileMoveRight a.tree a.downardPassBody fuel octreeIterator
    let avoidGotoLeftIterator := avoidGotoLeftIterator.moveDown a.tree
    let octreeIterator := avoidGotoLeftIterator
    let rest ← a.downardPassLevels fuel n octreeIterator avoidGotoLeftIterator
    pure (tasks ++ [TaskEvent.taskwait] ++ rest)

/-- The L2L pass `FFmmAlgorithmTestTask::downardPass`; the level loop runs `idxLevel` from
`upperWorkingLevel` to `heightMinusOne - 1` with `heightMinusOne = lowerWorkingLevel - 1`. -/
def FFmmAlgorithmTestTask.downardPass (a : FFmmAlgorithmTestTask) (fuel : Nat) :
    Except Fault (List TaskEvent) :=
  let octreeIterator := Iterator.new a.tree
  let octreeIterator := octreeIterator.moveDown a.tree
  let octreeIterator :=
    (Iterator.moveDown a.tree)^[(a.upperWorkingLevel - 2).toNat] octreeIterator
  let avoidGotoLeftIterator := octreeIterator
  let heightMinusOne := a.lowerWorkingLevel - 1
  a.downardPassLevels fuel (heightMinusOne - a.upperWorkingLevel).toNat
    octreeIterator avoidGotoLeftIterator

/-- The template parameter `P2PExclusionClass` of `FFmmAlgorithmTestTask` (its default
`FP2PMiddleExclusion` is not among the sources): the number of shapes `SizeShape` and the
shape index `GetShapeIdx` of a coordinate are parameters. -/
structure P2PExclusionClass where
  SizeShape : Int
  GetShapeIdx : FTreeCoordinate → Int

/-- Body of the first leaf loop of `FFmmAlgorithmTestTask::directPass`:
`shapes[shapePosition].push(octreeIterator)` with
`shapePosition = P2PExclusionClass::GetShapeIdx(coord)`; the result is the iterator pushed
with the index of its bucket. An index outside the `SizeShape` buckets is an invalid
access. -/
def FFmmAlgorithmTestTask.directPassFill (a : FFmmAlgorithmTestTask)
    (exclusion : P2PExclusionClass) (octreeIterator : Iterator) :
    Except Fault (List (Int × Iterator)) := do
  let coord ← octreeIterator.getCurrentGlobalCoordinate a.tree
  let shapePosition := exclusion.GetShapeIdx coord
  if 0 ≤ shapePosition ∧ shapePosition < exclusion.SizeShape then
    pure [(shapePosition, octreeIterator)]
  else
    throw .invalidAccess

/-- The task created by `FFmmAlgorithmTestTask::directPass` for the leaf of the iterator
`toWork`: the leaf-neighbour query, then the P2P call. -/
def FFmmAlgorithmTestTask.directPassTask (a : FFmmAlgorithmTestTask) (toWork : Iterator) :
    Except Fault TaskEvent := do
  let heightMinusOne := a.OctreeHeight - 1
  let coord ← toWork.getCurrentGlobalCoordinate a.tree
  let found := a.tree.getLeafsNeighbors coord heightMinusOne
  let neighbors := found.map Prod.fst
  let neighborPositions := found.map Prod.snd
  let counter : Int := found.length
  let targets ← toWork.getCurrentListTargets a.tree
  let src ← toWork.getCurrentListSrc a.tree
  pure (TaskEvent.task none [Event.getLeafsNeighbors coord heightMinusOne,
    Event.P2P coord targets src neighbors neighborPositions counter])

/-- The bucket `shapes[idxShape]` after the first leaf loop of `directPass`: the iterators
pushed with the index `idxShape`, in the order of the pushes. -/
def FFmmAlgorithmTestTask.shape (pushed : List (Int × Iterator)) (idxShape : Nat) :
    List Iterator :=
  (pushed.filter (fun p => decide (p.1 = (idxShape : Int)))).map Prod.snd

/-- The loop `for(iterLeaf = 0 ; iterLeaf < nbLeaf ; ++iterLeaf)` of `directPass` on the
bucket of one shape, followed by the taskwait of the shape. -/
def FFmmAlgorithmTestTask.directPassShape (a : FFmmAlgorithmTestTask)
    (shape : List Iterator) : Except Fault (List TaskEvent) := do
  let tasks ← shape.mapM a.directPassTask
  pure (tasks ++ [TaskEvent.taskwait])

/-- The P2P pass `FFmmAlgorithmTestTask::directPass`: the leaves are pushed into the bucket
of their shape, then, shape after shape, one task per leaf of the bucket and a taskwait. -/
def FFmmAlgorithmTestTask.directPass (a : FFmmAlgorithmTestTask)
    (exclusion : P2PExclusionClass) (fuel : Nat) : Except Fault (List TaskEvent) := do
  let octreeIterator := Iterator.new a.tree
  let octreeIterator := octreeIterator.gotoBottomLeft a.tree
  let pushed ← doWhileMoveRight a.tree (a.directPassFill exclusion) fuel octreeIterator
  (List.range exclusion.SizeShape.toNat).foldlM
    (fun created idxShape => do
      let tasks ← a.directPassShape (FFmmAlgorithmTestTask.shape pushed idxShape)
      pure (created ++ tasks))
    []

/-- Body of the leaf loop of `FFmmAlgorithmTestTask::L2PPass`: one task that calls L2P on the
leaf of the iterator it captured. -/
def FFmmAlgorithmTestTask.L2PPassBody (a : FFmmAlgorithmTestTask)
    (octreeIterator : Iterator) : Except Fault (List TaskEvent) := do
  let cell ← octreeIterator.getCurrentCell a.tree
  let targets ← octreeIterator.getCurrentListTargets a.tree
  pure [TaskEvent.task none [Event.L2P cell.getLocalExpansionData cell targets]]

/-- The L2P pass `FFmmAlgorithmTestTask::L2PPass`: one task per leaf, then a taskwait. -/
def FFmmAlgorithmTestTask.L2PPass (a : FFmmAlgorithmTestTask) (fuel : Nat) :
    Except Fault (List TaskEvent) := do
  let octreeIterator := Iterator.new a.tree
  let octreeIterator := octreeIterator.gotoBottomLeft a.tree
  let tasks ← doWhileMoveRight a.tree a.L2PPassBody fuel octreeIterator
  pure (tasks ++ [TaskEvent.taskwait])

/-- A run of `FFmmAlgorithmTestTask::executeCore`: the parallel region holds three
`#pragma omp single nowait` blocks, each run by one thread of the team, and a
`#pragma omp barrier` between the second and the third. `farField` is what the thread of the
first block does (P2M, M2M, M2L, L2L), `nearField` what the thread of the second block does
(P2P), `afterBarrier` what the thread of the third block does (L2P). There is no
synchronisation between the first two blocks; every task of the first two blocks has
completed at the barrier, before the third block starts. -/
structure TaskRun where
  farField : List TaskEvent
  nearField : List TaskEvent
  afterBarrier : List TaskEvent
deriving DecidableEq, Repr

/-- The method `FFmmAlgorithmTestTask::executeCore`; `needFinishedM2LEvent` is the value of
`KernelClass::NeedFinishedM2LEvent()`, `numThreads` the value of `omp_get_num_threads()` in
the parallel region. -/
def FFmmAlgorithmTestTask.executeCore (a : FFmmAlgorithmTestTask)
    (exclusion : P2PExclusionClass) (ops : FFmmOperations) (needFinishedM2LEvent : Bool)
    (numThreads fuel : Nat) (operationsToProceed : Nat) : Except Fault TaskRun := do
  let p2m ← if operationsToProceed &&& ops.FFmmP2M ≠ 0 then a.bottomPass fuel else pure []
  let m2m ← if operationsToProceed &&& ops.FFmmM2M ≠ 0 then a.upwardPass fuel else pure []
  let m2l ←
    if operationsToProceed &&& ops.FFmmM2L ≠ 0 then
      a.transferPass needFinishedM2LEvent numThreads fuel
    else pure []
  let l2l ← if operationsToProceed &&& ops.FFmmL2L ≠ 0 then a.downardPass fuel else pure []
  let p2p ←
    if operationsToProceed &&& ops.FFmmP2P ≠ 0 then a.directPass exclusion fuel else pure []
  let l2p ← if operationsToProceed &&& ops.FFmmL2P ≠ 0 then a.L2PPass fuel else pure []
  pure ⟨p2m ++ m2m ++ m2l ++ l2l, p2p, l2p⟩

/-- The kernel operators P2M, M2M, M2L, L2L, L2P and P2P among the calls: the hook and the
two queries on the tree are not kernel operators. -/
def Event.isOperator : Event → Bool
  | .P2M _ _ _ => true
  | .M2M _ _ _ _ => true
  | .M2L _ _ _ _ _ _ => true
  | .L2L _ _ _ _ => true
  | .L2P _ _ _ => true
  | .P2P _ _ _ _ _ _ => true
  | _ => false

/-- The calls issued by the tasks of a run of the task engine. -/
def TaskRun.calls (r : TaskRun) : List Event :=
  (r.farField ++ r.nearField ++ r.afterBarrier).flatMap TaskEvent.calls

/-- The tasks of a thread between the positions `i` and `j` of its trace are not separated
by a taskwait: the task created at `i` may still be running when the task created at `j`
starts. -/
def TaskEvent.unjoined (trace : List TaskEvent) (i j : Nat) : Prop :=
  i < j ∧ j < trace.length ∧
    ∀ k, k < j → i < k → trace.getD k TaskEvent.taskwait ≠ TaskEvent.taskwait

instance (trace : List TaskEvent) (i j : Nat) : Decidable (TaskEvent.unjoined trace i j) := by
  unfold TaskEvent.unjoined
  infer_instance

/-- The task calls the kernel operator M2L. -/
def TaskEvent.isM2L : TaskEvent → Bool
  | .task _ calls => calls.any (fun e => match e with
      | .M2L _ _ _ _ _ _ => true
      | _ => false)
  | .taskwait => false

/-- The task calls the kernel operator L2L. -/
def TaskEvent.isL2L : TaskEvent → Bool
  | .task _ calls => calls.any (fun e => match e with
      | .L2L _ _ _ _ => true
      | _ => false)
  | .taskwait => false

/-- The task calls the kernel operator P2P. -/
def TaskEvent.isP2P : TaskEvent → Bool
  | .task _ calls => calls.any (fun e => match e with
      | .P2P _ _ _ _ _ _ => true
      | _ => false)
  | .taskwait => false

/-- The task calls the kernel operator L2P. -/
def TaskEvent.isL2P : TaskEvent → Bool
  | .task _ calls => calls.any (fun e => match e with
      | .L2P _ _ _ => true
      | _ => false)
  | .taskwait => false

/-- The task calls the hook `finishedLevelM2L` of the level `l`. -/
def TaskEvent.isHook (l : Int) : TaskEvent → Bool
  | .task _ calls => calls.any (fun e => decide (e = Event.finishedLevelM2L l))
  | .taskwait => false

/-- The tasks of a pass on a list of cells, one task per cell in the order of the list, each
issuing the calls `call c`, followed by a taskwait. -/
def FFmmAlgorithmTestTask.cellTasks (call : CellClass → List Event) (cells : List CellClass) :
    List TaskEvent :=
  cells.map (fun c => TaskEvent.task none (call c)) ++ [TaskEvent.taskwait]

/-- The leaves of the shape `idxShape`, left to right. -/
def FFmmAlgorithmTestTask.leavesOfShape (a : FFmmAlgorithmTestTask)
    (exclusion : P2PExclusionClass) (idxShape : Nat) : List CellClass :=
  a.tree.leaves.filter (fun c => decide (exclusion.GetShapeIdx c.coordinate = (idxShape : Int)))

/-- The far-field block of a run of the task engine in a well-formed tree with at least one
leaf: the P2M tasks and a taskwait; per level, bottom up, the M2M tasks and a taskwait; the
M2L tasks, level after level, with or without the hook tasks between two taskwaits; per
level, top down, the L2L tasks and a taskwait; each pass present when its flag is set in the
mask. -/
def FFmmAlgorithmTestTask.expectedFarField (a : FFmmAlgorithmTestTask) (ops : FFmmOperations)
    (needFinishedM2LEvent : Bool) (numThreads : Nat) (operationsToProceed : Nat) :
    List TaskEvent :=
  (if operationsToProceed &&& ops.FFmmP2M ≠ 0 then
      FFmmAlgorithmTestTask.cellTasks (fun c => [a.tree.p2mCall c]) a.tree.leaves
    else [])
  ++ (if operationsToProceed &&& ops.FFmmM2M ≠ 0 then
        (List.range' a.upperWorkingLevel.toNat
          (min (a.OctreeHeight - 2) (a.lowerWorkingLevel - 1)
            - a.upperWorkingLevel + 1).toNat).reverse.flatMap
          (fun l => FFmmAlgorithmTestTask.cellTasks (fun c => [a.tree.m2mCall c])
            (a.tree.cells l))
      else [])
  ++ (if operationsToProceed &&& ops.FFmmM2L ≠ 0 then
        (List.range' a.upperWorkingLevel.toNat
          (a.lowerWorkingLevel - a.upperWorkingLevel).toNat).flatMap
          (fun k => a.m2lTasks k ++
            (if needFinishedM2LEvent then FFmmAlgorithmTestTask.hookTasks numThreads k
              else []))
      else [])
  ++ (if operationsToProceed &&& ops.FFmmL2L ≠ 0 then
        (List.range' a.upperWorkingLevel.toNat
          (a.lowerWorkingLevel - 1 - a.upperWorkingLevel).toNat).flatMap
          (fun k => FFmmAlgorithmTestTask.cellTasks (fun c => [a.tree.l2lCall c])
            (a.tree.cells k))
      else [])

/-- The near-field block of a run of the task engine: shape after shape, the P2P tasks of the
leaves of the shape and a taskwait, when the flag of P2P is set in the mask. -/
def FFmmAlgorithmTestTask.expectedNearField (a : FFmmAlgorithmTestTask)
    (exclusion : P2PExclusionClass) (ops : FFmmOperations) (operationsToProceed : Nat) :
    List TaskEvent :=
  if operationsToProceed &&& ops.FFmmP2P ≠ 0 then
    (List.range exclusion.SizeShape.toNat).flatMap
      (fun idxShape => FFmmAlgorithmTestTask.cellTasks a.tree.p2pCalls
        (a.leavesOfShape exclusion idxShape))
  else []

/-- The block after the barrier of a run of the task engine: the L2P tasks and a taskwait,
when the flag of L2P is set in the mask. -/
def FFmmAlgorithmTestTask.expectedAfterBarrier (a : FFmmAlgorithmTestTask)
    (ops : FFmmOperations) (operationsToProceed : Nat) : List TaskEvent :=
  if operationsToProceed &&& ops.FFmmL2P ≠ 0 then
    FFmmAlgorithmTestTask.cellTasks (fun c => [a.tree.l2pCall c]) a.tree.leaves
  else []

/-! ## The boundary-index discovery of the distributed driver -/

/-- The value `myLeftLimite` of a process of `testBlockedMpiChebyshev.cpp`: the Morton index
of `myParticles[myParticles.getSize()-1]`, the last particle of the process. A particle is
given by the Morton index of its cell at the leaf level; for a process without particle the
index `-1` is outside the array (`none`). -/
def myLeftLimite (myParticles : List Int) : Option Int :=
  if myParticles.length = 0 then none else myParticles[myParticles.length - 1]?

/-- The processes of the exchange of `leftLimite`, by rank: the position `pc` of a process in
the code (0 before `if(processId() != 0) MPI_Recv`, 1 before
`if(processId() != processCount()-1) MPI_Send`, 2 after the exchange), its variable
`leftLimite`, and the message in flight to it, sent by its predecessor and not yet
received. -/
structure Exchange where
  pc : Nat → Nat
  leftLimite : Nat → Int
  inFlight : Nat → Option Int

/-- Every process before the exchange: `MortonIndex leftLimite = -1`. -/
def Exchange.init : Exchange := ⟨fun _ => 0, fun _ => -1, fun _ => none⟩

/-- One step of one process (of two processes for a rendezvous). -/
inductive ExchangeAction where
  | skipRecv (rank : Nat)
  | recv (rank : Nat)
  | skipSend (rank : Nat)
  | sendBuffered (rank : Nat)
  | rendezvous (rank : Nat)
deriving DecidableEq, Repr

/-- Modelled from the spec: the blocking point-to-point exchange (`MPI_Send` and `MPI_Recv`
are not part of the sources). The steps of `processCount` processes, `myParticles rank` being
the particles of a process:
* `skipRecv`: the process 0 does not receive;
* `recv`: a process of rank > 0 completes `MPI_Recv` from `processId()-1` with the message in
  flight to it, and stores it in `leftLimite`;
* `skipSend`: the last process does not send;
* `sendBuffered`: a process other than the last completes `MPI_Send` to `processId()+1`
  before the message is received, the message being buffered (when `buffering` is allowed);
* `rendezvous`: `MPI_Send` of a process and `MPI_Recv` of its successor complete together.
A step that is not enabled gives `none`: a receive blocks until a message is there, a send
without buffering until the receiver is at its receive. -/
def Exchange.step (processCount : Nat) (myParticles : Nat → List Int) (buffering : Bool)
    (s : Exchange) : ExchangeAction → Option Exchange
  | .skipRecv rank =>
    if rank < processCount ∧ s.pc rank = 0 ∧ rank = 0 then
      some ⟨Function.update s.pc rank 1, s.leftLimite, s.inFlight⟩
    else none
  | .recv rank =>
    if rank < processCount ∧ s.pc rank = 0 ∧ rank ≠ 0 then
      match s.inFlight rank with
      | some message =>
        some ⟨Function.update s.pc rank 1, Function.update s.leftLimite rank message,
          Function.update s.inFlight rank none⟩
      | none => none
    else none
  | .skipSend rank =>
    if rank < processCount ∧ s.pc rank = 1 ∧ rank = processCount - 1 then
      some ⟨Function.update s.pc rank 2, s.leftLimite, s.inFlight⟩
    else none
  | .sendBuffered rank =>
    if buffering = true ∧ rank < processCount ∧ s.pc rank = 1 ∧ rank ≠ processCount - 1 then
      match myLeftLimite (myParticles rank) with
      | some message =>
        some ⟨Function.update s.pc rank 2, s.leftLimite,
          Function.update s.inFlight (rank + 1) (some message)⟩
      | none => none
    else none
  | .rendezvous rank =>
    if rank < processCount ∧ s.pc rank = 1 ∧ rank ≠ processCount - 1 ∧ s.pc (rank + 1) = 0
        ∧ s.inFlight (rank + 1) = none then
      match myLeftLimite (myParticles rank) with
      | some message =>
        some ⟨Function.update (Function.update s.pc rank 2) (rank + 1) 1,
          Function.update s.leftLimite (rank + 1) message, s.inFlight⟩
      | none => none
    else none

/-- An execution: the steps of a list of actions from the initial state, `none` when a step
of the list is not enabled. -/
def Exchange.run (processCount : Nat) (myParticles : Nat → List Int) (buffering : Bool)
    (actions : List ExchangeAction) : Option Exchange :=
  actions.foldlM (Exchange.step processCount myParticles buffering) Exchange.init

/-- Every process is past the exchange. -/
def Exchange.finished (processCount : Nat) (s : Exchange) : Prop :=
  ∀ rank, rank < processCount → s.pc rank = 2

/-- What holds in every state of an execution: a process that has not received holds `-1`; a
process of rank > 0 past its receive holds the last Morton index of its predecessor, which is
past its send; a message in flight is the last Morton index of the sender, which is past its
send, to a receiver that is before its receive; the successor of a process past its send has
received or has the message in flight. -/
def Exchange.Invariant (processCount : Nat) (myParticles : Nat → List Int) (s : Exchange) :
    Prop :=
  (∀ rank, s.pc rank ≤ 2) ∧
  (∀ rank, s.pc rank = 0 → s.leftLimite rank = -1) ∧
  s.leftLimite 0 = -1 ∧
  (∀ rank, 0 < rank → 1 ≤ s.pc rank →
    rank < processCount ∧ s.pc (rank - 1) = 2 ∧
      myLeftLimite (myParticles (rank - 1)) = some (s.leftLimite rank) ∧
      s.inFlight rank = none) ∧
  (∀ rank message, s.inFlight rank = some message →
    0 < rank ∧ rank < processCount ∧ s.pc rank = 0 ∧ s.pc (rank - 1) = 2 ∧
      myLeftLimite (myParticles (rank - 1)) = some message) ∧
  (∀ rank, rank + 1 < processCount → s.pc rank = 2 →
    1 ≤ s.pc (rank + 1) ∨ ∃ message, s.inFlight (rank + 1) = some message) ∧
  (∀ rank, processCount ≤ rank → s.pc rank = 0)

/-- The progress of an execution: the sum of the positions of the processes. -/
def Exchange.progress (processCount : Nat) (s : Exchange) : Nat :=
  ((List.range processCount).map s.pc).sum

/-! ## The list block allocator and its unit test -/

/-- The static members `TestObject::counter` and `TestObject::dealloced` of
`utestListBlockAllocator.cpp`. -/
structure TestCounters where
  counter : Int
  dealloced : Int
deriving DecidableEq, Repr

/-- An object of the class `TestObject`: the member `int array[SizeArray]`. -/
structure TestObject where
  array : Nat → Int

/-- The constant `SizeArray`. -/
def SizeArray : Nat := 50

/-- The default constructor `TestObject()`: `memset(array, 0, ...)` and `++counter`. -/
def TestObject.construct (counters : TestCounters) : TestObject × TestCounters :=
  (⟨fun _ => 0⟩, ⟨counters.counter + 1, counters.dealloced⟩)

/-- The destructor `~TestObject()`: `++dealloced`. -/
def TestObject.destruct (counters : TestCounters) : TestCounters :=
  ⟨counters.counter, counters.dealloced + 1⟩

/-- A pointer `TestObject*` handed out by the allocator: the block and the slot of the block
that hold the object. -/
structure ObjectPointer where
  block : Nat
  slot : Nat
deriving DecidableEq, Repr

/-- Modelled from the spec: `FListBlockAllocator<TestObject, 10>`
(`Containers/FBlockAllocator.hpp` is not among the sources). A list of blocks of 10 slots:
`blocks` holds the allocated blocks in the order in which they are searched, `nextBlock` is
the identity of the next block to allocate, `objects block slot` is the object constructed in
a slot, `none` for a free slot. -/
structure FListBlockAllocator where
  blocks : List Nat
  nextBlock : Nat
  objects : Nat → Nat → Option TestObject

/-- The allocator after its construction: no block. -/
def FListBlockAllocator.empty : FListBlockAllocator := ⟨[], 0, fun _ _ => none⟩

/-- The slots after the slot of the pointer `p` has been given the content `content`. -/
def FListBlockAllocator.put (objects : Nat → Nat → Option TestObject) (p : ObjectPointer)
    (content : Option TestObject) : Nat → Nat → Option TestObject :=
  Function.update objects p.block (Function.update (objects p.block) p.slot content)

/-- The first free slot of a block of 10 slots. -/
def FListBlockAllocator.freeSlot (a : FListBlockAllocator) (block : Nat) : Option Nat :=
  (List.range 10).find? (fun slot => (a.objects block slot).isNone)

/-- What ends a call of the allocator abnormally: the pointer holds no object. -/
inductive AllocatorFault where
  | noSuchObject
deriving DecidableEq, Repr

/-- Modelled from the spec: `newObject()`. The object is constructed, by the default
constructor, in the first free slot of the first block that has one; when every block is full
a new block is allocated and the object is constructed in its first slot. -/
def FListBlockAllocator.newObject (state : FListBlockAllocator × TestCounters) :
    ObjectPointer × (FListBlockAllocator × TestCounters) :=
  let constructed := TestObject.construct state.2
  match state.1.blocks.findSome?
      (fun block => (state.1.freeSlot block).map (fun slot => (⟨block, slot⟩ : ObjectPointer)))
    with
  | some p =>
    (p, (⟨state.1.blocks, state.1.nextBlock,
        FListBlockAllocator.put state.1.objects p (some constructed.1)⟩,
      constructed.2))
  | none =>
    (⟨state.1.nextBlock, 0⟩,
      (⟨state.1.nextBlock :: state.1.blocks, state.1.nextBlock + 1,
        FListBlockAllocator.put state.1.objects ⟨state.1.nextBlock, 0⟩ (some constructed.1)⟩,
      constructed.2))

/-- Modelled from the spec: `deleteObject(p)`. The object is destroyed and its slot is free
again; a block without object is released. -/
def FListBlockAllocator.deleteObject (state : FListBlockAllocator × TestCounters)
    (p : ObjectPointer) : Except AllocatorFault (FListBlockAllocator × TestCounters) :=
  match state.1.objects p.block p.slot with
  | none => .error .noSuchObject
  | some _ =>
    let objects := FListBlockAllocator.put state.1.objects p none
    let blocks :=
      if (List.range 10).all (fun slot => (objects p.block slot).isNone) then
        state.1.blocks.erase p.block
      else state.1.blocks
    .ok (⟨blocks, state.1.nextBlock, objects⟩, TestObject.destruct state.2)

/-- The statement `p->array[idxval] += value` on an object of the allocator. -/
def FListBlockAllocator.addAssign (state : FListBlockAllocator × TestCounters)
    (p : ObjectPointer) (idxval : Nat) (value : Int) :
    Except AllocatorFault (FListBlockAllocator × TestCounters) :=
  match state.1.objects p.block p.slot with
  | none => .error .noSuchObject
  | some object =>
    .ok (⟨state.1.blocks, state.1.nextBlock,
        FListBlockAllocator.put state.1.objects p
          (some ⟨Function.update object.array idxval (object.array idxval + value)⟩)⟩,
      state.2)

/-- The expression `p->array[idxval]` on an object of the allocator. -/
def FListBlockAllocator.read (state : FListBlockAllocator × TestCounters)
    (p : ObjectPointer) (idxval : Nat) : Except AllocatorFault Int :=
  match state.1.objects p.block p.slot with
  | none => .error .noSuchObject
  | some object => .ok (object.array idxval)

/-- A call of the user of the allocator. -/
inductive AllocatorCall where
  | newObject
  | deleteObject (p : ObjectPointer)
  | addAssign (p : ObjectPointer) (idxval : Nat) (value : Int)
deriving DecidableEq, Repr

/-- The call is a `newObject()`. -/
def AllocatorCall.isNew : AllocatorCall → Bool
  | .newObject => true
  | _ => false

/-- The call is a `deleteObject(...)`. -/
def AllocatorCall.isDelete : AllocatorCall → Bool
  | .deleteObject _ => true
  | _ => false

/-- The object the call deletes or writes, if any. -/
def AllocatorCall.target : AllocatorCall → Option ObjectPointer
  | .newObject => none
  | .deleteObject p => some p
  | .addAssign p _ _ => some p

/-- One call on the allocator. -/
def FListBlockAllocator.call (state : FListBlockAllocator × TestCounters) :
    AllocatorCall → Except AllocatorFault (FListBlockAllocator × TestCounters)
  | .newObject => .ok (FListBlockAllocator.newObject state).2
  | .deleteObject p => FListBlockAllocator.deleteObject state p
  | .addAssign p idxval value => FListBlockAllocator.addAssign state p idxval value

/-- A sequence of calls on the allocator. -/
def FListBlockAllocator.calls (state : FListBlockAllocator × TestCounters)
    (sequence : List AllocatorCall) :
    Except AllocatorFault (FListBlockAllocator × TestCounters) :=
  sequence.foldlM FListBlockAllocator.call state

/-- The allocated blocks have the identities below `nextBlock`; no object lies in a block
that is not allocated yet or beyond the 10 slots of a block. -/
def FListBlockAllocator.Valid (a : FListBlockAllocator) : Prop :=
  (∀ block ∈ a.blocks, block < a.nextBlock) ∧
  (∀ block slot, a.nextBlock ≤ block → a.objects block slot = none) ∧
  (∀ block slot, 10 ≤ slot → a.objects block slot = none)

/-- The number of the objects of a block. -/
def FListBlockAllocator.blockCount (objects : Nat → Nat → Option TestObject) (block : Nat) :
    Nat :=
  ((List.range 10).map (fun slot => if (objects block slot).isSome then 1 else 0)).sum

/-- The number of the objects of the allocator that are constructed and not destroyed. -/
def FListBlockAllocator.liveCount (a : FListBlockAllocator) : Nat :=
  ((List.range a.nextBlock).map (FListBlockAllocator.blockCount a.objects)).sum

/-- Body of the first loop of `TestBlock::TestBlockFunction`: `dl1` and `dl2` are allocated,
`dl1` is deleted, `ptr[idx]` is allocated, `dl2` is deleted. -/
def TestBlock.allocate
    (state : (FListBlockAllocator × TestCounters) × List ObjectPointer) (_idx : Nat) :
    Except AllocatorFault ((FListBlockAllocator × TestCounters) × List ObjectPointer) := do
  let dl1 := FListBlockAllocator.newObject state.1
  let dl2 := FListBlockAllocator.newObject dl1.2
  let alloc ← FListBlockAllocator.deleteObject dl2.2 dl1.1
  let p := FListBlockAllocator.newObject alloc
  let alloc ← FListBlockAllocator.deleteObject p.2 dl2.1
  pure (alloc, state.2 ++ [p.1])

/-- The pointer `ptr[idx]`; outside the array the pointer of no object. -/
def TestBlock.ptr (ptr : List ObjectPointer) (idx : Nat) : ObjectPointer :=
  ptr.getD idx ⟨0, 10⟩

/-- The method `TestBlock::TestBlockFunction` after `PreTest` (both counters 0), for the
constant `NbAlloc`: the allocations, the loop `ptr[idx]->array[idxval] += (idxval * idx)`,
the assertions on the values, the deletions, and the two assertions on the counters. The
result is the list of the outcomes of the `uassert`, in order. -/
def TestBlock.TestBlockFunction (NbAlloc : Nat) : Except AllocatorFault (List Bool) := do
  let alloc : FListBlockAllocator × TestCounters := (FListBlockAllocator.empty, ⟨0, 0⟩)
  let allocated ← (List.range NbAlloc).foldlM TestBlock.allocate (alloc, [])
  let ptr := allocated.2
  let alloc ← (List.range NbAlloc).foldlM
    (fun alloc idx =>
      (List.range SizeArray).foldlM
        (fun alloc idxval =>
          FListBlockAllocator.addAssign alloc (TestBlock.ptr ptr idx) idxval
            ((idxval : Int) * (idx : Int)))
        alloc)
    allocated.1
  let values ← (List.range NbAlloc).mapM
    (fun idx =>
      (List.range SizeArray).mapM
        (fun idxval => do
          let value ← FListBlockAllocator.read alloc (TestBlock.ptr ptr idx) idxval
          pure (decide (value = (idxval : Int) * (idx : Int)))))
  let alloc ← (List.range NbAlloc).foldlM
    (fun alloc idx => FListBlockAllocator.deleteObject alloc (TestBlock.ptr ptr idx))
    alloc
  pure (values.flatten ++
    [decide (alloc.2.counter = 3 * (NbAlloc : Int)),
     decide (alloc.2.counter = alloc.2.dealloced)])

/-! ## Example tree -/

/-- Cell with the given level, Morton index and coordinate. -/
def mkCell (level mortonIndex : Nat) (x y z : Int) : CellClass :=
  ⟨mortonIndex, level, ⟨x, y, z⟩⟩

/-- A tree of height 4 with four leaves, at the coordinates (0,0,0), (0,0,1), (0,0,2) and
(7,7,7). Level 1 holds the cells 0 and 7, level 2 the cells 0, 1 and 63, level 3 the cells
0, 1, 8 and 511. The neighbour queries are tabulated: position `((dx+3)*7 + (dy+3))*7 + dz+3`
for an interaction neighbour at offset (dx,dy,dz), `((dx+1)*3 + (dy+1))*3 + dz+1` for a
leaf neighbour. With separation 1 the leaf (0,0,1) has an empty interaction list. -/
def exTree : FOctree where
  height := 4
  cells := fun l =>
    match l with
    | 0 => [mkCell 0 0 0 0 0]
    | 1 => [mkCell 1 0 0 0 0, mkCell 1 7 1 1 1]
    | 2 => [mkCell 2 0 0 0 0, mkCell 2 1 0 0 1, mkCell 2 63 3 3 3]
    | 3 => [mkCell 3 0 0 0 0, mkCell 3 1 0 0 1, mkCell 3 8 0 0 2, mkCell 3 511 7 7 7]
    | _ => []
  listSrc := fun c => 100 + c.mortonIndex
  listTargets := fun c => 100 + c.mortonIndex
  getInteractionNeighbors := fun c l s =>
    if l = 2 then
      if c = ⟨0, 0, 0⟩ then
        (if s < 1 then [(some (mkCell 2 1 0 0 1), 172)] else [])
          ++ [(some (mkCell 2 63 3 3 3), 342)]
      else if c = ⟨0, 0, 1⟩ then
        (if s < 1 then [(some (mkCell 2 0 0 0 0), 170)] else [])
          ++ [(some (mkCell 2 63 3 3 3), 341)]
      else if c = ⟨3, 3, 3⟩ then
        [(some (mkCell 2 0 0 0 0), 0), (some (mkCell 2 1 0 0 1), 1)]
      else []
    else if l = 3 then
      if c = ⟨0, 0, 0⟩ then
        (if s < 1 then [(some (mkCell 3 1 0 0 1), 172)] else [])
          ++ [(some (mkCell 3 8 0 0 2), 173)]
      else if c = ⟨0, 0, 1⟩ then
        if s < 1 then [(some (mkCell 3 0 0 0 0), 170), (some (mkCell 3 8 0 0 2), 172)]
        else []
      else if c = ⟨0, 0, 2⟩ then
        [(some (mkCell 3 0 0 0 0), 169)]
          ++ (if s < 1 then [(some (mkCell 3 1 0 0 1), 170)] else [])
      else []
    else []
  getLeafsNeighbors := fun c _ =>
    if c = ⟨0, 0, 0⟩ then [(some 101, 14)]
    else if c = ⟨0, 0, 1⟩ then [(some 100, 12), (some 108, 14)]
    else if c = ⟨0, 0, 2⟩ then [(some 101, 12)]
    else []

/-- The engine on the example tree with the given working levels and leaf-level separation
criterion. -/
def exAlgo (upper lower sep : Int) : FFmmAlgorithm := ⟨exTree, sep, upper, lower⟩

/-- The task engine on the example tree with the given working levels and leaf-level
separation criterion, on two threads. -/
def exTask (upper lower sep : Int) : FFmmAlgorithmTestTask := ⟨exTree, 2, sep, upper, lower⟩

/-- The flag values `1 << 0`, ..., `1 << 5`. -/
def exOps : FFmmOperations := ⟨1, 2, 4, 8, 16, 32⟩

/-- The tree built from an empty particle set: height 4, no cell on any level, no
neighbour. -/
def exEmptyTree : FOctree where
  height := 4
  cells := fun _ => []
  listSrc := fun c => 100 + c.mortonIndex
  listTargets := fun c => 100 + c.mortonIndex
  getInteractionNeighbors := fun _ _ _ => []
  getLeafsNeighbors := fun _ _ => []

/-- The engine on the empty tree, working levels 2 to 4 (the whole tree), separation
criterion 1. -/
def exEmptyAlgo : FFmmAlgorithm := ⟨exEmptyTree, 1, 2, 4⟩

/-- The tree of height 4 built from a single particle, in the leaf at the coordinate
(5,3,6): one cell per level, with the Morton indices 350, 43, 5 and 0; no cell has a
neighbour. -/
def exSingleTree : FOctree where
  height := 4
  cells := fun l =>
    match l with
    | 0 => [mkCell 0 0 0 0 0]
    | 1 => [mkCell 1 5 1 0 1]
    | 2 => [mkCell 2 43 2 1 3]
    | 3 => [mkCell 3 350 5 3 6]
    | _ => []
  listSrc := fun c => 100 + c.mortonIndex
  listTargets := fun c => 100 + c.mortonIndex
  getInteractionNeighbors := fun _ _ _ => []
  getLeafsNeighbors := fun _ _ => []

/-- The engine on the single-particle tree, working levels 2 to 4 (the whole tree),
separation criterion 1. -/
def exSingleAlgo : FFmmAlgorithm := ⟨exSingleTree, 1, 2, 4⟩

/-- Data for the example tree before a run: every value is zero; the container `k` holds
`k % 3 + 1` particles, so the four leaves hold 2, 3, 1 and 3 particles. -/
def exState : FTestState where
  dataUp := fun _ => 0
  dataDown := fun _ => 0
  particles := fun k => List.replicate (k % 3 + 1) 0

/-- An exclusion scheme of 27 shapes: the shape of a coordinate is given by its components
modulo 3, so that two leaves of the same shape are never neighbours. -/
def exExclusion : P2PExclusionClass :=
  ⟨27, fun c => (c.x % 3) * 9 + (c.y % 3) * 3 + c.z % 3⟩

/-- The arrays `Mul` and `Loc` of a kernel of 2 nodes after
`allocateMemoryForPermutedExpansions`: a buffer of 48 entries in each of the 16 slots, null
elsewhere. -/
def exBuffers : List (Option Nat) :=
  (List.range 343).map (fun idx => if idx ∈ permutedSlots then some (24 * 2) else none)

/-! ## Structure of a well-formed tree -/

theorem FOctree.length_le_width (t : FOctree) (l : Nat) (hl : l < t.height) :
    (t.cells l).length ≤ t.width := by
  unfold FOctree.width
  generalize t.height = h at hl
  induction h with
  | zero => omega
  | succ n ih =>
    rw [List.range_succ, List.map_append, List.foldr_append]
    have hmono : ∀ (xs : List Nat) (a b : Nat), a ≤ b → a ≤ xs.foldr max b := by
      intro xs
      induction xs with
      | nil => intro a b h; simpa using h
      | cons x xs ihx =>
        intro a b h
        simp only [List.foldr_cons]
        exact le_trans (ihx a b h) (le_max_right _ _)
    have hfold : ∀ (xs : List Nat) (a b : Nat), a ≤ b → xs.foldr max a ≤ xs.foldr max b := by
      intro xs
      induction xs with
      | nil => intro a b h; simpa using h
      | cons x xs ihx =>
        intro a b h
        simp only [List.foldr_cons]
        exact max_le_max le_rfl (ihx a b h)
    by_cases h : l < n
    · exact le_trans (ih h) (hfold _ _ _ (Nat.zero_le _))
    · have : l = n := by omega
      subst this
      apply hmono
      simp

theorem FOctree.cells_ne_nil (t : FOctree) (hwf : t.WellFormed) (hne : t.leaves ≠ []) :
    ∀ k l, l + k + 1 = t.height → 1 ≤ l → t.cells l ≠ [] := by
  intro k
  induction k with
  | zero =>
    intro l hl _
    have : l = t.height - 1 := by omega
    subst this
    exact hne
  | succ k ih =>
    intro l hl h1
    have hnext : t.cells (l + 1) ≠ [] := ih (l + 1) (by omega) (by omega)
    obtain ⟨c, hc⟩ := List.exists_mem_of_ne_nil _ hnext
    obtain ⟨p, hp, _⟩ := hwf.2.2.2.1 l (by omega) h1 (by omega) c hc
    exact List.ne_nil_of_mem hp

theorem FOctree.level_ne_nil (t : FOctree) (hwf : t.WellFormed) (hne : t.leaves ≠ [])
    (l : Nat) (h1 : 1 ≤ l) (hl : l < t.height) : t.cells l ≠ [] :=
  t.cells_ne_nil hwf hne (t.height - 1 - l) l (by omega) h1

/-- In a well-formed tree the first cell of a level is the parent of the first cell of the
next level. -/
theorem FOctree.head_parent (t : FOctree) (hwf : t.WellFormed) (l : Nat) (h1 : 1 ≤ l)
    (hl : l + 1 < t.height) (a0 c0 : CellClass) (as cs : List CellClass)
    (ha : t.cells l = a0 :: as) (hc : t.cells (l + 1) = c0 :: cs) :
    c0.mortonIndex / 8 = a0.mortonIndex := by
  obtain ⟨_, hsort, _, hpar, hchild⟩ := hwf
  have hsa := hsort l (by omega)
  have hsc := hsort (l + 1) hl
  rw [ha] at hsa
  rw [hc] at hsc
  rw [List.pairwise_cons] at hsa hsc
  obtain ⟨p, hp, hpm⟩ := hpar l (by omega) h1 hl c0 (by rw [hc]; simp)
  obtain ⟨d, hd, hdm⟩ := hchild l (by omega) h1 hl a0 (by rw [ha]; simp)
  have h1 : a0.mortonIndex ≤ p.mortonIndex := by
    rw [ha] at hp
    rcases List.mem_cons.1 hp with h | h
    · rw [h]
    · exact le_of_lt (hsa.1 p h)
  have h2 : c0.mortonIndex ≤ d.mortonIndex := by
    rw [hc] at hd
    rcases List.mem_cons.1 hd with h | h
    · rw [h]
    · exact le_of_lt (hsc.1 d h)
  have h3 : c0.mortonIndex / 8 ≤ d.mortonIndex / 8 := Nat.div_le_div_right h2
  omega

theorem Iterator.moveDown_leftmost (t : FOctree) (hwf : t.WellFormed) (hne : t.leaves ≠ [])
    (l : Nat) (h1 : 1 ≤ l) (hl : l + 1 < t.height) :
    Iterator.moveDown t ⟨l, 0⟩ = ⟨l + 1, 0⟩ := by
  obtain ⟨a0, as, ha⟩ := List.exists_cons_of_ne_nil (t.level_ne_nil hwf hne l h1 (by omega))
  obtain ⟨c0, cs, hc⟩ :=
    List.exists_cons_of_ne_nil (t.level_ne_nil hwf hne (l + 1) (by omega) hl)
  have hp := t.head_parent hwf l h1 hl a0 c0 as cs ha hc
  simp [Iterator.moveDown, hl, Iterator.getCurrentGlobalIndex, ha, hc, List.findIdx_cons, hp]

theorem Iterator.moveUp_leftmost (t : FOctree) (hwf : t.WellFormed) (hne : t.leaves ≠ [])
    (l : Nat) (h1 : 1 ≤ l) (hl : l + 1 < t.height) :
    Iterator.moveUp t ⟨l + 1, 0⟩ = ⟨l, 0⟩ := by
  obtain ⟨a0, as, ha⟩ := List.exists_cons_of_ne_nil (t.level_ne_nil hwf hne l h1 (by omega))
  obtain ⟨c0, cs, hc⟩ :=
    List.exists_cons_of_ne_nil (t.level_ne_nil hwf hne (l + 1) (by omega) hl)
  have hp := t.head_parent hwf l h1 hl a0 c0 as cs ha hc
  have h2 : 1 < l + 1 := by omega
  simp [Iterator.moveUp, h2, Iterator.getCurrentGlobalIndex, ha, hc, List.findIdx_cons, hp]

theorem Iterator.moveDown_iterate (t : FOctree) (hwf : t.WellFormed) (hne : t.leaves ≠ []) :
    ∀ k l, 1 ≤ l → l + k < t.height →
      (Iterator.moveDown t)^[k] ⟨l, 0⟩ = ⟨l + k, 0⟩ := by
  intro k
  induction k with
  | zero => intro l _ _; rfl
  | succ k ih =>
    intro l h1 hl
    rw [Function.iterate_succ_apply, Iterator.moveDown_leftmost t hwf hne l h1 (by omega),
      ih (l + 1) (by omega) (by omega)]
    congr 1
    omega

theorem Iterator.moveUp_iterate (t : FOctree) (hwf : t.WellFormed) (hne : t.leaves ≠ []) :
    ∀ k l, 1 ≤ l → l + k < t.height →
      (Iterator.moveUp t)^[k] ⟨l + k, 0⟩ = ⟨l, 0⟩ := by
  intro k
  induction k with
  | zero => intro l _ _; rfl
  | succ k ih =>
    intro l h1 hl
    rw [Function.iterate_succ_apply]
    have : (⟨l + (k + 1), 0⟩ : Iterator) = ⟨(l + k) + 1, 0⟩ := rfl
    rw [this, Iterator.moveUp_leftmost t hwf hne (l + k) (by omega) (by omega),
      ih l h1 (by omega)]

/-! ## The cell loop -/

/-- The loop over a level: started on cell `i` of level `l` with enough fuel, it runs the
body once on every cell from `i` to the end of the level, left to right. -/
theorem doWhileMoveRight_eq {α : Type} (t : FOctree)
    (body : Iterator → Except Fault (List α)) (g : CellClass → List α) (l : Nat)
    (hbody : ∀ i c, (t.cells l)[i]? = some c → body ⟨l, i⟩ = .ok (g c)) :
    ∀ fuel i, i < (t.cells l).length → (t.cells l).length - i ≤ fuel →
      doWhileMoveRight t body fuel ⟨l, i⟩ = .ok (((t.cells l).drop i).flatMap g) := by
  intro fuel
  induction fuel with
  | zero => intro i hi hf; omega
  | succ fuel ih =>
    intro i hi hf
    have hget : (t.cells l)[i]? = some ((t.cells l)[i]) := List.getElem?_eq_getElem hi
    rw [List.drop_eq_getElem_cons hi, List.flatMap_cons]
    unfold doWhileMoveRight
    rw [hbody i _ hget]
    by_cases hnext : i + 1 < (t.cells l).length
    · have hrec := ih (i + 1) hnext (by omega)
      simp [Iterator.moveRight, hnext, hrec, bind, Except.bind, pure, Except.pure]
    · have hdrop : (t.cells l).drop (i + 1) = [] := List.drop_eq_nil_of_le (by omega)
      simp [Iterator.moveRight, hnext, hdrop, bind, Except.bind, pure, Except.pure]

theorem doWhileMoveRight_level {α : Type} (t : FOctree)
    (body : Iterator → Except Fault (List α)) (g : CellClass → List α) (l : Nat)
    (hl : l < t.height) (hne : t.cells l ≠ [])
    (hbody : ∀ i c, (t.cells l)[i]? = some c → body ⟨l, i⟩ = .ok (g c))
    (fuel : Nat) (hfuel : t.width ≤ fuel) :
    doWhileMoveRight t body fuel ⟨l, 0⟩ = .ok ((t.cells l).flatMap g) := by
  have hlen : 0 < (t.cells l).length := List.length_pos.2 hne
  have := doWhileMoveRight_eq t body g l hbody fuel 0 hlen
    (by have := t.length_le_width l hl; omega)
  simpa using this

/-! ## The trace of each pass -/

theorem FFmmAlgorithm.bottomPassBody_eq (a : FFmmAlgorithm) (l i : Nat) (c : CellClass)
    (hc : (a.tree.cells l)[i]? = some c) :
    a.bottomPassBody ⟨l, i⟩ = .ok [a.tree.p2mCall c] := by
  simp [FFmmAlgorithm.bottomPassBody, Iterator.getCurrentCell, Iterator.getCurrentListSrc,
    hc, FOctree.p2mCall, bind, Except.bind, pure, Except.pure, Except.map]

theorem FFmmAlgorithm.bottomPass_trace (a : FFmmAlgorithm) (fuel : Nat)
    (hwf : a.tree.WellFormed) (hne : a.tree.leaves ≠ []) (hfuel : a.tree.width ≤ fuel) :
    a.bottomPass fuel = .ok (a.tree.leaves.map a.tree.p2mCall) := by
  have h := doWhileMoveRight_level a.tree a.bottomPassBody (fun c => [a.tree.p2mCall c])
    (a.tree.height - 1) (by have := hwf.1; omega) hne
    (fun i c hc => a.bottomPassBody_eq _ i c hc) fuel hfuel
  rw [List.map_eq_flatMap]
  exact h

theorem FFmmAlgorithm.upwardPassBody_eq (a : FFmmAlgorithm) (hwf : a.tree.WellFormed)
    (l i : Nat) (hl : l + 1 < a.tree.height) (c : CellClass)
    (hc : (a.tree.cells l)[i]? = some c) :
    a.upwardPassBody ⟨l, i⟩ = .ok [a.tree.m2mCall c] := by
  have hlev : c.level = l :=
    hwf.2.2.1 l (by omega) c (List.getElem?_mem hc)
  simp [FFmmAlgorithm.upwardPassBody, Iterator.getCurrentCell, Iterator.getCurrentChildren,
    hc, hl, FOctree.m2mCall, FOctree.children, hlev, bind, Except.bind, pure, Except.pure,
    Except.map]

theorem FFmmAlgorithm.downardPassBody_eq (a : FFmmAlgorithm) (hwf : a.tree.WellFormed)
    (l i : Nat) (hl : l + 1 < a.tree.height) (c : CellClass)
    (hc : (a.tree.cells l)[i]? = some c) :
    a.downardPassBody ⟨l, i⟩ = .ok [a.tree.l2lCall c] := by
  have hlev : c.level = l :=
    hwf.2.2.1 l (by omega) c (List.getElem?_mem hc)
  simp [FFmmAlgorithm.downardPassBody, Iterator.getCurrentCell, Iterator.getCurrentChildren,
    hc, hl, FOctree.l2lCall, FOctree.children, hlev, bind, Except.bind, pure, Except.pure,
    Except.map]

theorem FFmmAlgorithm.transferPassBody_eq (a : FFmmAlgorithm) (idxLevel : Int)
    (l i : Nat) (c : CellClass) (hc : (a.tree.cells l)[i]? = some c) :
    a.transferPassBody idxLevel (a.separationCriteria idxLevel) ⟨l, i⟩
      = .ok (a.m2lCalls idxLevel c) := by
  by_cases h : a.tree.getInteractionNeighbors c.coordinate idxLevel
      (a.separationCriteria idxLevel) = []
  · simp [FFmmAlgorithm.transferPassBody, Iterator.getCurrentCell,
      Iterator.getCurrentGlobalCoordinate, hc, FFmmAlgorithm.m2lCalls, h, bind, Except.bind,
      pure, Except.pure, Except.map]
  · simp [FFmmAlgorithm.transferPassBody, Iterator.getCurrentCell,
      Iterator.getCurrentGlobalCoordinate, hc, FFmmAlgorithm.m2lCalls, h, FOctree.m2lCall,
      bind, Except.bind, pure, Except.pure, Except.map]

theorem FFmmAlgorithm.directPassBody_eq (a : FFmmAlgorithm) (p2pEnabled l2pEnabled : Bool)
    (l i : Nat) (c : CellClass) (hc : (a.tree.cells l)[i]? = some c) :
    a.directPassBody p2pEnabled l2pEnabled ⟨l, i⟩
      = .ok (a.tree.directCalls p2pEnabled l2pEnabled c) := by
  cases p2pEnabled <;> cases l2pEnabled <;>
    simp [FFmmAlgorithm.directPassBody, Iterator.getCurrentCell,
      Iterator.getCurrentGlobalCoordinate, Iterator.getCurrentListTargets,
      Iterator.getCurrentListSrc, hc, FOctree.directCalls, FOctree.l2pCall, FOctree.p2pCalls,
      FFmmAlgorithm.OctreeHeight, bind, Except.bind, pure, Except.pure, Except.map]

theorem FFmmAlgorithm.directPass_trace (a : FFmmAlgorithm) (fuel : Nat)
    (p2pEnabled l2pEnabled : Bool)
    (hwf : a.tree.WellFormed) (hne : a.tree.leaves ≠ []) (hfuel : a.tree.width ≤ fuel) :
    a.directPass fuel p2pEnabled l2pEnabled
      = .ok (a.tree.leaves.flatMap (a.tree.directCalls p2pEnabled l2pEnabled)) :=
  doWhileMoveRight_level a.tree (a.directPassBody p2pEnabled l2pEnabled)
    (a.tree.directCalls p2pEnabled l2pEnabled)
    (a.tree.height - 1) (by have := hwf.1; omega) hne
    (fun i c hc => a.directPassBody_eq _ _ _ i c hc) fuel hfuel

theorem FFmmAlgorithm.upwardPassLevels_eq (a : FFmmAlgorithm) (fuel : Nat)
    (hwf : a.tree.WellFormed) (hne : a.tree.leaves ≠ []) (hfuel : a.tree.width ≤ fuel) :
    ∀ n s it, (n ≠ 0 → it = ⟨s, 0⟩ ∧ n ≤ s ∧ s + 1 < a.tree.height) →
      a.upwardPassLevels fuel n it it
        = .ok ((List.range' (s + 1 - n) n).reverse.flatMap
            (fun l => (a.tree.cells l).map a.tree.m2mCall)) := by
  intro n
  induction n with
  | zero => intro s it _; simp [FFmmAlgorithm.upwardPassLevels, pure, Except.pure]
  | succ n ih =>
    intro s it h
    obtain ⟨rfl, hn, hs⟩ := h (by omega)
    have hloop := doWhileMoveRight_level a.tree a.upwardPassBody
      (fun c => [a.tree.m2mCall c]) s (by omega)
      (a.tree.level_ne_nil hwf hne s (by omega) (by omega))
      (fun i c hc => a.upwardPassBody_eq hwf s i hs c hc) fuel hfuel
    have hrest := ih (s - 1) (Iterator.moveUp a.tree ⟨s, 0⟩) (by
      intro hn0
      refine ⟨?_, by omega, by omega⟩
      have h := Iterator.moveUp_leftmost a.tree hwf hne (s - 1) (by omega) (by omega)
      have e : s - 1 + 1 = s := by omega
      rw [e] at h
      exact h)
    have e1 : s + 1 - (n + 1) = s - n := by omega
    have e2 : s - 1 + 1 - n = s - n := by omega
    have e3 : s - n + 1 * n = s := by omega
    rw [e2] at hrest
    unfold FFmmAlgorithm.upwardPassLevels
    rw [hloop, e1, List.range'_concat, e3]
    simp [hrest, bind, Except.bind, pure, Except.pure, List.map_eq_flatMap]

theorem FFmmAlgorithm.upwardPass_trace (a : FFmmAlgorithm) (fuel : Nat)
    (hwf : a.tree.WellFormed) (hne : a.tree.leaves ≠ []) (hfuel : a.tree.width ≤ fuel)
    (hup : 1 ≤ a.upperWorkingLevel) :
    a.upwardPass fuel
      = .ok ((List.range' a.upperWorkingLevel.toNat
            (min (a.OctreeHeight - 2) (a.lowerWorkingLevel - 1)
              - a.upperWorkingLevel + 1).toNat).reverse.flatMap
          (fun l => (a.tree.cells l).map a.tree.m2mCall)) := by
  unfold FFmmAlgorithm.upwardPass
  simp only []
  generalize hn : (min (a.OctreeHeight - 2) (a.lowerWorkingLevel - 1)
    - a.upperWorkingLevel + 1).toNat = n
  have hH : a.OctreeHeight = (a.tree.height : Int) := rfl
  have h2 := hwf.1
  rw [a.upwardPassLevels_eq fuel hwf hne hfuel n
    (min (a.OctreeHeight - 2) (a.lowerWorkingLevel - 1)).toNat]
  · by_cases hn0 : n = 0
    · subst hn0; simp
    · have e : (min (a.OctreeHeight - 2) (a.lowerWorkingLevel - 1)).toNat + 1 - n
          = a.upperWorkingLevel.toNat := by omega
      rw [e]
  · intro hn0
    refine ⟨?_, by omega, by omega⟩
    have hstep : Iterator.moveUp a.tree
        (Iterator.gotoBottomLeft a.tree (Iterator.new a.tree))
        = ⟨a.tree.height - 2, 0⟩ := by
      have h := Iterator.moveUp_leftmost a.tree hwf hne (a.tree.height - 2) (by omega)
        (by omega)
      have e : a.tree.height - 2 + 1 = a.tree.height - 1 := by omega
      rw [e] at h
      exact h
    rw [hstep]
    have hit := Iterator.moveUp_iterate a.tree hwf hne
      ((a.OctreeHeight - 2) - (a.lowerWorkingLevel - 1)).toNat
      (min (a.OctreeHeight - 2) (a.lowerWorkingLevel - 1)).toNat (by omega) (by omega)
    have e : (min (a.OctreeHeight - 2) (a.lowerWorkingLevel - 1)).toNat
        + ((a.OctreeHeight - 2) - (a.lowerWorkingLevel - 1)).toNat
        = a.tree.height - 2 := by omega
    rw [e] at hit
    exact hit

theorem FFmmAlgorithm.transferPassLevels_eq (a : FFmmAlgorithm) (fuel : Nat)
    (hwf : a.tree.WellFormed) (hne : a.tree.leaves ≠ []) (hfuel : a.tree.width ≤ fuel) :
    ∀ n l it, (n ≠ 0 → it = ⟨l, 0⟩ ∧ 1 ≤ l ∧ l + n ≤ a.tree.height) →
      a.transferPassLevels fuel n (l : Int) it it
        = .ok ((List.range' l n).flatMap a.m2lLevel) := by
  intro n
  induction n with
  | zero => intro l it _; simp [FFmmAlgorithm.transferPassLevels, pure, Except.pure]
  | succ n ih =>
    intro l it h
    obtain ⟨rfl, h1, hl⟩ := h (by omega)
    have hloop := doWhileMoveRight_level a.tree
      (a.transferPassBody l (a.separationCriteria l)) (a.m2lCalls l) l (by omega)
      (a.tree.level_ne_nil hwf hne l h1 (by omega))
      (fun i c hc => a.transferPassBody_eq l l i c hc) fuel hfuel
    have hrest := ih (l + 1) (Iterator.moveDown a.tree ⟨l, 0⟩) (by
      intro hn0
      exact ⟨Iterator.moveDown_leftmost a.tree hwf hne l h1 (by omega), by omega, by omega⟩)
    have hcast : ((l : Int) + 1) = ((l + 1 : Nat) : Int) := by push_cast; rfl
    unfold FFmmAlgorithm.transferPassLevels
    simp only []
    rw [hloop, hcast, hrest, List.range'_succ, List.flatMap_cons]
    simp [FFmmAlgorithm.m2lLevel, bind, Except.bind, pure, Except.pure]

theorem FFmmAlgorithm.start_iterator (a : FFmmAlgorithm)
    (hwf : a.tree.WellFormed) (hne : a.tree.leaves ≠ [])
    (hup : 2 ≤ a.upperWorkingLevel) (hlt : a.upperWorkingLevel < a.OctreeHeight) :
    (Iterator.moveDown a.tree)^[(a.upperWorkingLevel - 2).toNat]
        (Iterator.moveDown a.tree (Iterator.new a.tree))
      = ⟨a.upperWorkingLevel.toNat, 0⟩ := by
  have hH : a.OctreeHeight = (a.tree.height : Int) := rfl
  have h := Iterator.moveDown_leftmost a.tree hwf hne 1 (by omega) (by omega)
  have hn : Iterator.new a.tree = ⟨1, 0⟩ := rfl
  rw [hn, h, Iterator.moveDown_iterate a.tree hwf hne _ 2 (by omega) (by omega)]
  congr 1
  omega

theorem FFmmAlgorithm.transferPass_trace (a : FFmmAlgorithm) (fuel : Nat)
    (hwf : a.tree.WellFormed) (hne : a.tree.leaves ≠ []) (hfuel : a.tree.width ≤ fuel)
    (hup : 2 ≤ a.upperWorkingLevel) (hlow : a.lowerWorkingLevel ≤ a.OctreeHeight) :
    a.transferPass fuel
      = .ok ((List.range' a.upperWorkingLevel.toNat
            (a.lowerWorkingLevel - a.upperWorkingLevel).toNat).flatMap a.m2lLevel) := by
  unfold FFmmAlgorithm.transferPass
  simp only []
  have hH : a.OctreeHeight = (a.tree.height : Int) := rfl
  have hcast : a.upperWorkingLevel = ((a.upperWorkingLevel.toNat : Nat) : Int) := by omega
  have h := a.transferPassLevels_eq fuel hwf hne hfuel
    (a.lowerWorkingLevel - a.upperWorkingLevel).toNat a.upperWorkingLevel.toNat
    ((Iterator.moveDown a.tree)^[(a.upperWorkingLevel - 2).toNat]
      (Iterator.moveDown a.tree (Iterator.new a.tree)))
    (fun hn0 => ⟨a.start_iterator hwf hne hup (by omega), by omega, by omega⟩)
  rw [← hcast] at h
  exact h

theorem FFmmAlgorithm.downardPassLevels_eq (a : FFmmAlgorithm) (fuel : Nat)
    (hwf : a.tree.WellFormed) (hne : a.tree.leaves ≠ []) (hfuel : a.tree.width ≤ fuel) :
    ∀ n l it, (n ≠ 0 → it = ⟨l, 0⟩ ∧ 1 ≤ l ∧ l + n < a.tree.height) →
      a.downardPassLevels fuel n it it
        = .ok ((List.range' l n).flatMap (fun k => (a.tree.cells k).map a.tree.l2lCall)) := by
  intro n
  induction n with
  | zero => intro l it _; simp [FFmmAlgorithm.downardPassLevels, pure, Except.pure]
  | succ n ih =>
    intro l it h
    obtain ⟨rfl, h1, hl⟩ := h (by omega)
    have hloop := doWhileMoveRight_level a.tree a.downardPassBody
      (fun c => [a.tree.l2lCall c]) l (by omega)
      (a.tree.level_ne_nil hwf hne l h1 (by omega))
      (fun i c hc => a.downardPassBody_eq hwf l i (by omega) c hc) fuel hfuel
    have hrest := ih (l + 1) (Iterator.moveDown a.tree ⟨l, 0⟩) (by
      intro hn0
      exact ⟨Iterator.moveDown_leftmost a.tree hwf hne l h1 (by omega), by omega, by omega⟩)
    unfold FFmmAlgorithm.downardPassLevels
    rw [hloop, List.range'_succ, List.flatMap_cons]
    simp [hrest, bind, Except.bind, pure, Except.pure, List.map_eq_flatMap]

theorem FFmmAlgorithm.downardPass_trace (a : FFmmAlgorithm) (fuel : Nat)
    (hwf : a.tree.WellFormed) (hne : a.tree.leaves ≠ []) (hfuel : a.tree.width ≤ fuel)
    (hup : 2 ≤ a.upperWorkingLevel) (hlow : a.lowerWorkingLevel ≤ a.OctreeHeight) :
    a.downardPass fuel
      = .ok ((List.range' a.upperWorkingLevel.toNat
            (a.lowerWorkingLevel - 1 - a.upperWorkingLevel).toNat).flatMap
          (fun k => (a.tree.cells k).map a.tree.l2lCall)) := by
  unfold FFmmAlgorithm.downardPass
  simp only []
  have hH : a.OctreeHeight = (a.tree.height : Int) := rfl
  apply a.downardPassLevels_eq fuel hwf hne hfuel
  intro hn0
  exact ⟨a.start_iterator hwf hne hup (by omega), by omega, by omega⟩

theorem FFmmAlgorithm.executeCore_trace (a : FFmmAlgorithm) (ops : FFmmOperations)
    (fuel : Nat) (operationsToProceed : Nat)
    (hwf : a.tree.WellFormed) (hne : a.tree.leaves ≠ []) (hfuel : a.tree.width ≤ fuel)
    (hup : 2 ≤ a.upperWorkingLevel) (hlow : a.lowerWorkingLevel ≤ a.OctreeHeight) :
    a.executeCore ops fuel operationsToProceed
      = .ok (a.expectedTrace ops operationsToProceed) := by
  unfold FFmmAlgorithm.executeCore FFmmAlgorithm.expectedTrace
  rw [a.bottomPass_trace fuel hwf hne hfuel, a.upwardPass_trace fuel hwf hne hfuel (by omega),
    a.transferPass_trace fuel hwf hne hfuel hup hlow,
    a.downardPass_trace fuel hwf hne hfuel hup hlow,
    a.directPass_trace fuel _ _ hwf hne hfuel]
  by_cases h1 : operationsToProceed &&& ops.FFmmP2M = 0 <;>
  by_cases h2 : operationsToProceed &&& ops.FFmmM2M = 0 <;>
  by_cases h3 : operationsToProceed &&& ops.FFmmM2L = 0 <;>
  by_cases h4 : operationsToProceed &&& ops.FFmmL2L = 0 <;>
  by_cases h5 : operationsToProceed &&& ops.FFmmP2P = 0 <;>
  by_cases h6 : operationsToProceed &&& ops.FFmmL2P = 0 <;>
  simp [h1, h2, h3, h4, h5, h6, bind, Except.bind, pure, Except.pure, FOctree.directCalls]

/-! ## Calls of a pass belong to the pass -/

theorem pairwise_le_of_const {α : Type} (f : α → Nat) (k : Nat) (l : List α)
    (h : ∀ e ∈ l, f e = k) : l.Pairwise (fun e1 e2 => f e1 ≤ f e2) := by
  rw [List.pairwise_iff_forall_sublist]
  intro x y hxy
  have hx := h x (hxy.subset (by simp))
  have hy := h y (hxy.subset (by simp))
  omega

theorem pairwise_le_append {α : Type} (f : α → Nat) (k : Nat) (l1 l2 : List α)
    (h1 : l1.Pairwise (fun e1 e2 => f e1 ≤ f e2)) (hle : ∀ e ∈ l1, f e ≤ k)
    (h2 : ∀ e ∈ l2, f e = k) : (l1 ++ l2).Pairwise (fun e1 e2 => f e1 ≤ f e2) := by
  rw [List.pairwise_append]
  refine ⟨h1, pairwise_le_of_const f k l2 h2, ?_⟩
  intro x hx y hy
  have := hle x hx
  have := h2 y hy
  omega

theorem FOctree.p2mCall_pass (t : FOctree) (ops : FFmmOperations) (cs : List CellClass) :
    ∀ e ∈ cs.map t.p2mCall, e.pass = 0 ∧ e.flag ops = ops.FFmmP2M := by
  intro e he
  obtain ⟨c, _, rfl⟩ := List.mem_map.1 he
  exact ⟨rfl, rfl⟩

theorem FOctree.m2mCall_pass (t : FOctree) (ops : FFmmOperations) (ls : List Nat) :
    ∀ e ∈ ls.flatMap (fun l => (t.cells l).map t.m2mCall),
      e.pass = 1 ∧ e.flag ops = ops.FFmmM2M := by
  intro e he
  obtain ⟨l, _, hl⟩ := List.mem_flatMap.1 he
  obtain ⟨c, _, rfl⟩ := List.mem_map.1 hl
  exact ⟨rfl, rfl⟩

theorem FOctree.l2lCall_pass (t : FOctree) (ops : FFmmOperations) (ls : List Nat) :
    ∀ e ∈ ls.flatMap (fun l => (t.cells l).map t.l2lCall),
      e.pass = 3 ∧ e.flag ops = ops.FFmmL2L := by
  intro e he
  obtain ⟨l, _, hl⟩ := List.mem_flatMap.1 he
  obtain ⟨c, _, rfl⟩ := List.mem_map.1 hl
  exact ⟨rfl, rfl⟩

theorem FFmmAlgorithm.mem_m2lCalls (a : FFmmAlgorithm) (l : Int) (c : CellClass) (e : Event)
    (he : e ∈ a.m2lCalls l c) :
    e = Event.getInteractionNeighbors c.coordinate l (a.separationCriteria l) ∨
    (a.tree.getInteractionNeighbors c.coordinate l (a.separationCriteria l) ≠ [] ∧
      e = FOctree.m2lCall c
        (a.tree.getInteractionNeighbors c.coordinate l (a.separationCriteria l))) := by
  unfold FFmmAlgorithm.m2lCalls at he
  rcases List.mem_cons.1 he with h | h
  · exact Or.inl h
  · by_cases hf : a.tree.getInteractionNeighbors c.coordinate l (a.separationCriteria l) = []
    · simp [hf] at h
    · right
      simp only [hf, if_false, List.mem_singleton] at h
      exact ⟨hf, h⟩

theorem FFmmAlgorithm.mem_m2lLevel (a : FFmmAlgorithm) (l : Nat) (e : Event)
    (he : e ∈ a.m2lLevel l) :
    (∃ c ∈ a.tree.cells l, e ∈ a.m2lCalls l c) ∨ e = Event.finishedLevelM2L l := by
  unfold FFmmAlgorithm.m2lLevel at he
  rcases List.mem_append.1 he with h | h
  · exact Or.inl (List.mem_flatMap.1 h)
  · exact Or.inr (List.mem_singleton.1 h)

theorem FFmmAlgorithm.m2lLevel_pass (a : FFmmAlgorithm) (ops : FFmmOperations)
    (ls : List Nat) :
    ∀ e ∈ ls.flatMap a.m2lLevel, e.pass = 2 ∧ e.flag ops = ops.FFmmM2L := by
  intro e he
  obtain ⟨l, _, hl⟩ := List.mem_flatMap.1 he
  rcases a.mem_m2lLevel l e hl with ⟨c, _, hc⟩ | rfl
  · rcases a.mem_m2lCalls l c e hc with rfl | ⟨_, rfl⟩
    · exact ⟨rfl, rfl⟩
    · exact ⟨rfl, rfl⟩
  · exact ⟨rfl, rfl⟩

theorem FOctree.directCalls_pass (t : FOctree) (ops : FFmmOperations)
    (p2pEnabled l2pEnabled : Bool) (cs : List CellClass) :
    ∀ e ∈ cs.flatMap (t.directCalls p2pEnabled l2pEnabled),
      e.pass = 4 ∧ ((l2pEnabled = true ∧ e.flag ops = ops.FFmmL2P) ∨
        (p2pEnabled = true ∧ e.flag ops = ops.FFmmP2P)) := by
  intro e he
  obtain ⟨c, _, hc⟩ := List.mem_flatMap.1 he
  unfold FOctree.directCalls at hc
  rcases List.mem_append.1 hc with h | h
  · cases l2pEnabled
    · simp at h
    · simp only [if_true, List.mem_singleton] at h
      subst h
      exact ⟨rfl, Or.inl ⟨rfl, rfl⟩⟩
  · cases p2pEnabled
    · simp at h
    · simp only [if_true, FOctree.p2pCalls, List.mem_cons, List.mem_singleton,
        List.not_mem_nil, or_false] at h
      rcases h with rfl | rfl
      · exact ⟨rfl, Or.inr ⟨rfl, rfl⟩⟩
      · exact ⟨rfl, Or.inr ⟨rfl, rfl⟩⟩

theorem FFmmAlgorithm.expectedTrace_flag (a : FFmmAlgorithm) (ops : FFmmOperations)
    (mask : Nat) : ∀ e ∈ a.expectedTrace ops mask, mask &&& e.flag ops ≠ 0 := by
  intro e he
  unfold FFmmAlgorithm.expectedTrace at he
  simp only [List.mem_append] at he
  rcases he with (((h | h) | h) | h) | h
  · by_cases hb : mask &&& ops.FFmmP2M = 0
    · simp [hb] at h
    · rw [if_pos hb] at h
      rw [(a.tree.p2mCall_pass ops _ e h).2]
      exact hb
  · by_cases hb : mask &&& ops.FFmmM2M = 0
    · simp [hb] at h
    · rw [if_pos hb] at h
      rw [(a.tree.m2mCall_pass ops _ e h).2]
      exact hb
  · by_cases hb : mask &&& ops.FFmmM2L = 0
    · simp [hb] at h
    · rw [if_pos hb] at h
      rw [(a.m2lLevel_pass ops _ e h).2]
      exact hb
  · by_cases hb : mask &&& ops.FFmmL2L = 0
    · simp [hb] at h
    · rw [if_pos hb] at h
      rw [(a.tree.l2lCall_pass ops _ e h).2]
      exact hb
  · rcases (a.tree.directCalls_pass ops _ _ _ e h).2 with ⟨hb, hf⟩ | ⟨hb, hf⟩
    · rw [hf]
      exact of_decide_eq_true hb
    · rw [hf]
      exact of_decide_eq_true hb

theorem FFmmAlgorithm.expectedTrace_sorted (a : FFmmAlgorithm) (ops : FFmmOperations)
    (mask : Nat) :
    (a.expectedTrace ops mask).Pairwise (fun e1 e2 => e1.pass ≤ e2.pass) := by
  unfold FFmmAlgorithm.expectedTrace
  have h0 : ∀ e ∈ (if mask &&& ops.FFmmP2M ≠ 0 then a.tree.leaves.map a.tree.p2mCall
      else []), e.pass = 0 := by
    intro e he
    split at he
    · exact (a.tree.p2mCall_pass ops _ e he).1
    · simp at he
  have h1 : ∀ e ∈ (if mask &&& ops.FFmmM2M ≠ 0 then
        (List.range' a.upperWorkingLevel.toNat
          (min (a.OctreeHeight - 2) (a.lowerWorkingLevel - 1)
            - a.upperWorkingLevel + 1).toNat).reverse.flatMap
          (fun l => (a.tree.cells l).map a.tree.m2mCall)
      else []), e.pass = 1 := by
    intro e he
    split at he
    · exact (a.tree.m2mCall_pass ops _ e he).1
    · simp at he
  have h2 : ∀ e ∈ (if mask &&& ops.FFmmM2L ≠ 0 then
        (List.range' a.upperWorkingLevel.toNat
          (a.lowerWorkingLevel - a.upperWorkingLevel).toNat).flatMap a.m2lLevel
      else []), e.pass = 2 := by
    intro e he
    split at he
    · exact (a.m2lLevel_pass ops _ e he).1
    · simp at he
  have h3 : ∀ e ∈ (if mask &&& ops.FFmmL2L ≠ 0 then
        (List.range' a.upperWorkingLevel.toNat
          (a.lowerWorkingLevel - 1 - a.upperWorkingLevel).toNat).flatMap
          (fun k => (a.tree.cells k).map a.tree.l2lCall)
      else []), e.pass = 3 := by
    intro e he
    split at he
    · exact (a.tree.l2lCall_pass ops _ e he).1
    · simp at he
  have h4 := fun e he => (a.tree.directCalls_pass ops
    (decide (mask &&& ops.FFmmP2P ≠ 0)) (decide (mask &&& ops.FFmmL2P ≠ 0))
    a.tree.leaves e he).1
  apply pairwise_le_append Event.pass 4 _ _ _ _ h4
  · apply pairwise_le_append Event.pass 3 _ _ _ _ h3
    · apply pairwise_le_append Event.pass 2 _ _ _ _ h2
      · apply pairwise_le_append Event.pass 1 _ _ _ _ h1
        · exact pairwise_le_of_const Event.pass 0 _ h0
        · intro e he
          have := h0 e he
          omega
      · intro e he
        rcases List.mem_append.1 he with h | h
        · have := h0 e h
          omega
        · have := h1 e h
          omega
    · intro e he
      simp only [List.mem_append] at he
      rcases he with (h | h) | h
      · have := h0 e h
        omega
      · have := h1 e h
        omega
      · have := h2 e h
        omega
  · intro e he
    simp only [List.mem_append] at he
    rcases he with ((h | h) | h) | h
    · have := h0 e h
      omega
    · have := h1 e h
      omega
    · have := h2 e h
      omega
    · have := h3 e h
      omega

/-! ## The order of the passes and the bottom pass -/

/-- C1: for every operation mask, `executeCore` runs the enabled passes in the order P2M,
M2M, M2L, L2L, direct pass. Each of the five passes returns, the run ends normally, and the
sequence of calls of the run is the sequence of the calls of `bottomPass` when P2M is
enabled, followed by the calls of `upwardPass` when M2M is enabled, of `transferPass` when
M2L is enabled, of `downardPass` when L2L is enabled and of `directPass` when P2P or L2P is
enabled; a disabled pass contributes nothing. The calls of the passes are of the passes 0 to 4
in this order and `bottomPass` issues one call per leaf. The run is the expected trace; in
it no call of an earlier pass comes after a call of a later pass, and every call it issues
belongs to an operation whose flag is set in the mask. -/
theorem FFmmAlgorithm.executeCore_runs_passes_in_order (a : FFmmAlgorithm)
    (ops : FFmmOperations) (fuel : Nat) (operationsToProceed : Nat)
    (hwf : a.tree.WellFormed) (hne : a.tree.leaves ≠ []) (hfuel : a.tree.width ≤ fuel)
    (hup : 2 ≤ a.upperWorkingLevel) (hlow : a.lowerWorkingLevel ≤ a.OctreeHeight) :
    ∃ trace p2m m2m m2l l2l near,
      a.executeCore ops fuel operationsToProceed = .ok trace ∧
      a.bottomPass fuel = .ok p2m ∧ a.upwardPass fuel = .ok m2m ∧
      a.transferPass fuel = .ok m2l ∧ a.downardPass fuel = .ok l2l ∧
      a.directPass fuel (decide (operationsToProceed &&& ops.FFmmP2P ≠ 0))
        (decide (operationsToProceed &&& ops.FFmmL2P ≠ 0)) = .ok near ∧
      trace = (if operationsToProceed &&& ops.FFmmP2M ≠ 0 then p2m else [])
        ++ (if operationsToProceed &&& ops.FFmmM2M ≠ 0 then m2m else [])
        ++ (if operationsToProceed &&& ops.FFmmM2L ≠ 0 then m2l else [])
        ++ (if operationsToProceed &&& ops.FFmmL2L ≠ 0 then l2l else [])
        ++ (if operationsToProceed &&& ops.FFmmP2P ≠ 0 ∨ operationsToProceed &&& ops.FFmmL2P ≠ 0
            then near else []) ∧
      trace = a.expectedTrace ops operationsToProceed ∧
      (∀ e ∈ p2m, e.pass = 0) ∧ (∀ e ∈ m2m, e.pass = 1) ∧ (∀ e ∈ m2l, e.pass = 2) ∧
      (∀ e ∈ l2l, e.pass = 3) ∧ (∀ e ∈ near, e.pass = 4) ∧
      p2m.length = a.tree.leaves.length ∧
      trace.Pairwise (fun e1 e2 => e1.pass ≤ e2.pass) ∧
      ∀ e ∈ trace, operationsToProceed &&& e.flag ops ≠ 0 := by
  refine ⟨a.expectedTrace ops operationsToProceed, _, _, _, _, _,
    a.executeCore_trace ops fuel operationsToProceed hwf hne hfuel hup hlow,
    a.bottomPass_trace fuel hwf hne hfuel,
    a.upwardPass_trace fuel hwf hne hfuel (by omega),
    a.transferPass_trace fuel hwf hne hfuel hup hlow,
    a.downardPass_trace fuel hwf hne hfuel hup hlow,
    a.directPass_trace fuel _ _ hwf hne hfuel, ?_, rfl,
    fun e he => (a.tree.p2mCall_pass ops _ e he).1,
    fun e he => (a.tree.m2mCall_pass ops _ e he).1,
    fun e he => (a.m2lLevel_pass ops _ e he).1,
    fun e he => (a.tree.l2lCall_pass ops _ e he).1,
    fun e he => (a.tree.directCalls_pass ops _ _ _ e he).1,
    List.length_map _ _,
    a.expectedTrace_sorted ops operationsToProceed,
    a.expectedTrace_flag ops operationsToProceed⟩
  unfold FFmmAlgorithm.expectedTrace
  congr 1
  by_cases h5 : operationsToProceed &&& ops.FFmmP2P = 0 <;>
  by_cases h6 : operationsToProceed &&& ops.FFmmL2P = 0 <;>
  simp [h5, h6, FOctree.directCalls]

theorem exTree_wellFormed : exTree.WellFormed := by decide

theorem exTree_leaves_ne_nil : exTree.leaves ≠ [] := by decide

theorem exTree_width : exTree.width ≤ 10 := by decide

/-- Witness for C1: the full run on the example tree with all six flags set: the run is the
calls of the five passes one after the other, the bottom pass issuing 4 calls. -/
theorem FFmmAlgorithm.executeCore_runs_passes_in_order_witness :
    ∃ trace p2m m2m m2l l2l near,
      (exAlgo 2 4 1).executeCore exOps 10 63 = .ok trace ∧
      (exAlgo 2 4 1).bottomPass 10 = .ok p2m ∧ (exAlgo 2 4 1).upwardPass 10 = .ok m2m ∧
      (exAlgo 2 4 1).transferPass 10 = .ok m2l ∧ (exAlgo 2 4 1).downardPass 10 = .ok l2l ∧
      (exAlgo 2 4 1).directPass 10 true true = .ok near ∧
      trace = p2m ++ m2m ++ m2l ++ l2l ++ near ∧
      p2m.length = 4 ∧
      trace.Pairwise (fun e1 e2 => e1.pass ≤ e2.pass) ∧
      ∀ e ∈ trace, 63 &&& e.flag exOps ≠ 0 :=
  match FFmmAlgorithm.executeCore_runs_passes_in_order (exAlgo 2 4 1) exOps 10 63
      exTree_wellFormed exTree_leaves_ne_nil exTree_width (by decide) (by decide) with
  | ⟨trace, p2m, m2m, m2l, l2l, near, h1, h2, h3, h4, h5, h6, h7, _, _, _, _, _, _, h14,
      h15, h16⟩ =>
    ⟨trace, p2m, m2m, m2l, l2l, near, h1, h2, h3, h4, h5, h6, h7, h14, h15, h16⟩

theorem FOctree.p2mCall_injective (t : FOctree) : Function.Injective t.p2mCall := by
  intro c d h
  simp only [FOctree.p2mCall, Event.P2M.injEq] at h
  exact h.2.1

theorem FOctree.nodup_cells (t : FOctree) (hwf : t.WellFormed) (l : Nat)
    (hl : l < t.height) : (t.cells l).Nodup := by
  have h := hwf.2.1 l hl
  unfold List.Nodup
  refine h.imp ?_
  intro c d hlt heq
  rw [heq] at hlt
  exact lt_irrefl _ hlt

/-- C2: in a tree with at least one leaf, `bottomPass` ends normally and its calls are
exactly one P2M per leaf, in the left-to-right order of the leaves (increasing Morton
index), each with the leaf's own multipole data, the leaf cell as symbolic data and the
source particle list of that leaf; every call is a P2M on a cell of the leaf level. -/
theorem FFmmAlgorithm.bottomPass_calls_P2M_once_per_leaf (a : FFmmAlgorithm) (fuel : Nat)
    (hwf : a.tree.WellFormed) (hne : a.tree.leaves ≠ []) (hfuel : a.tree.width ≤ fuel) :
    ∃ trace, a.bottomPass fuel = .ok trace ∧
      trace = a.tree.leaves.map
        (fun c => Event.P2M c.getMultipoleData c (a.tree.listSrc c)) ∧
      a.tree.leaves.Pairwise (fun c d => c.mortonIndex < d.mortonIndex) ∧
      (∀ c ∈ a.tree.leaves,
        trace.count (Event.P2M c.getMultipoleData c (a.tree.listSrc c)) = 1) ∧
      (∀ e ∈ trace, ∃ c ∈ a.tree.leaves, c.level = a.tree.height - 1 ∧
        e = Event.P2M c.getMultipoleData c (a.tree.listSrc c)) := by
  have hH : a.tree.height - 1 < a.tree.height := by have := hwf.1; omega
  refine ⟨_, a.bottomPass_trace fuel hwf hne hfuel, rfl, hwf.2.1 _ hH, ?_, ?_⟩
  · intro c hc
    have h := List.count_map_of_injective a.tree.leaves a.tree.p2mCall
      a.tree.p2mCall_injective c
    have h1 := List.count_eq_one_of_mem (a.tree.nodup_cells hwf _ hH) hc
    exact h.trans h1
  · intro e he
    obtain ⟨c, hc, rfl⟩ := List.mem_map.1 he
    exact ⟨c, hc, hwf.2.2.1 _ hH c hc, rfl⟩

/-- Witness for C2: the bottom pass on the example tree. -/
theorem FFmmAlgorithm.bottomPass_calls_P2M_once_per_leaf_witness :
    ∃ trace, (exAlgo 2 4 1).bottomPass 10 = .ok trace ∧
      trace = exTree.leaves.map
        (fun c => Event.P2M c.getMultipoleData c (exTree.listSrc c)) ∧
      exTree.leaves.Pairwise (fun c d => c.mortonIndex < d.mortonIndex) ∧
      (∀ c ∈ exTree.leaves,
        trace.count (Event.P2M c.getMultipoleData c (exTree.listSrc c)) = 1) ∧
      (∀ e ∈ trace, ∃ c ∈ exTree.leaves, c.level = exTree.height - 1 ∧
        e = Event.P2M c.getMultipoleData c (exTree.listSrc c)) :=
  FFmmAlgorithm.bottomPass_calls_P2M_once_per_leaf (exAlgo 2 4 1) 10
    exTree_wellFormed exTree_leaves_ne_nil exTree_width

/-! ## Passes that call one operator per cell and level -/

theorem FOctree.levelTrace_nodup (t : FOctree) (hwf : t.WellFormed)
    (call : CellClass → Event) (hcell : ∀ c, (call c).cell = some c)
    (ls : List Nat) (hls : ls.Nodup) (hH : ∀ l ∈ ls, l < t.height) :
    (ls.flatMap (fun l => (t.cells l).map call)).Nodup := by
  have hinj : Function.Injective call := by
    intro c d h
    have h1 := hcell c
    rw [h, hcell d] at h1
    exact (Option.some.inj h1).symm
  rw [List.nodup_flatMap]
  constructor
  · intro l hl
    exact (t.nodup_cells hwf l (hH l hl)).map hinj
  · have hne : ls.Pairwise (fun l k => l ≠ k) := hls
    have hmem : ls.Pairwise (fun l k => (l ∈ ls ∧ k ∈ ls) ∧ l ≠ k) :=
      (List.pairwise_iff_forall_sublist.2 (fun {l k} hsub =>
        ⟨⟨hsub.subset (by simp), hsub.subset (by simp)⟩,
          (List.pairwise_iff_forall_sublist.1 hne) hsub⟩))
    refine hmem.imp ?_
    intro l k hlk
    obtain ⟨⟨hl, hk⟩, hne⟩ := hlk
    intro e he1 he2
    obtain ⟨c, hc, rfl⟩ := List.mem_map.1 he1
    obtain ⟨d, hd, hcd⟩ := List.mem_map.1 he2
    have := hinj hcd
    subst this
    have h1 := hwf.2.2.1 l (hH l hl) d hc
    have h2 := hwf.2.2.1 k (hH k hk) d hd
    omega

theorem FOctree.levelTrace_count (t : FOctree) (hwf : t.WellFormed)
    (call : CellClass → Event) (hcell : ∀ c, (call c).cell = some c)
    (ls : List Nat) (hls : ls.Nodup) (hH : ∀ l ∈ ls, l < t.height)
    (l : Nat) (hl : l ∈ ls) (c : CellClass) (hc : c ∈ t.cells l) :
    (ls.flatMap (fun l => (t.cells l).map call)).count (call c) = 1 :=
  List.count_eq_one_of_mem (t.levelTrace_nodup hwf call hcell ls hls hH)
    (List.mem_flatMap.2 ⟨l, hl, List.mem_map.2 ⟨c, hc, rfl⟩⟩)

theorem FOctree.levelTrace_pairwise (t : FOctree) (hwf : t.WellFormed)
    (call : CellClass → Event) (hcell : ∀ c, (call c).cell = some c)
    (R : Nat → Nat → Prop) (hrefl : ∀ l, R l l)
    (ls : List Nat) (hR : ls.Pairwise R) (hH : ∀ l ∈ ls, l < t.height) :
    (ls.flatMap (fun l => (t.cells l).map call)).Pairwise
      (fun e1 e2 => ∀ c1 c2, e1.cell = some c1 → e2.cell = some c2 →
        R c1.level c2.level) := by
  have key : ∀ l ∈ ls, ∀ e ∈ (t.cells l).map call, ∀ c, e.cell = some c → c.level = l := by
    intro l hl e he c hce
    obtain ⟨d, hd, rfl⟩ := List.mem_map.1 he
    rw [hcell d] at hce
    have := Option.some.inj hce
    subst this
    exact hwf.2.2.1 l (hH l hl) d hd
  rw [List.pairwise_flatMap]
  constructor
  · intro l hl
    rw [List.pairwise_iff_forall_sublist]
    intro e1 e2 hsub c1 c2 h1 h2
    rw [key l hl e1 (hsub.subset (by simp)) c1 h1, key l hl e2 (hsub.subset (by simp)) c2 h2]
    exact hrefl l
  · have hmem : ls.Pairwise (fun l k => (l ∈ ls ∧ k ∈ ls) ∧ R l k) :=
      (List.pairwise_iff_forall_sublist.2 (fun {l k} hsub =>
        ⟨⟨hsub.subset (by simp), hsub.subset (by simp)⟩,
          (List.pairwise_iff_forall_sublist.1 hR) hsub⟩))
    refine hmem.imp ?_
    intro l k hlk e1 he1 e2 he2 c1 c2 h1 h2
    rw [key l hlk.1.1 e1 he1 c1 h1, key k hlk.1.2 e2 he2 c2 h2]
    exact hlk.2

theorem pairwise_gt_reverse_range' (s n : Nat) :
    (List.range' s n).reverse.Pairwise (fun l k => k ≤ l) := by
  rw [List.pairwise_reverse]
  exact (List.pairwise_lt_range' s n).imp (fun h => le_of_lt h)

/-- C3 (as stated, refuted): on the example tree of height 4 with the working levels 2 and
4, it is not the case that `upwardPass` calls M2M exactly once for every cell of each of the
levels 2, 1 and 0: the cells of the levels 1 and 0 receive no M2M call. -/
theorem FFmmAlgorithm.upwardPass_levels_to_root_counterexample :
    ¬ ∃ trace, (exAlgo 2 4 1).upwardPass 10 = .ok trace ∧
      ∀ l, l ≤ exTree.height - 2 → ∀ c ∈ exTree.cells l,
        (trace.filter (fun e => e.isM2M && decide (e.cell = some c))).length = 1 := by
  rintro ⟨trace, htrace, hall⟩
  have h : (exAlgo 2 4 1).upwardPass 10 = .ok ((exTree.cells 2).map exTree.m2mCall) := rfl
  rw [h] at htrace
  injection htrace with htrace
  subst htrace
  have h1 := hall 1 (by decide) (mkCell 1 0 0 0 0) (by decide)
  revert h1
  decide

/-- C3 (amended): with `1 <= upperWorkingLevel`, `upwardPass` ends normally and works
bottom-up over the levels `min(H-2, lowerWorkingLevel-1)` down to `upperWorkingLevel`: its
calls are the M2M calls of the cells of these levels, deepest level first and left to right
on a level, so that every M2M call at a level comes after all M2M calls at deeper levels,
every cell of these levels receives exactly one call, and no cell of another level (in
particular of a level above `upperWorkingLevel`) receives one. -/
theorem FFmmAlgorithm.upwardPass_levels (a : FFmmAlgorithm) (fuel : Nat)
    (hwf : a.tree.WellFormed) (hne : a.tree.leaves ≠ []) (hfuel : a.tree.width ≤ fuel)
    (hup : 1 ≤ a.upperWorkingLevel) :
    ∃ trace, a.upwardPass fuel = .ok trace ∧
      trace = (List.range' a.upperWorkingLevel.toNat
          (min (a.OctreeHeight - 2) (a.lowerWorkingLevel - 1)
            - a.upperWorkingLevel + 1).toNat).reverse.flatMap
          (fun l => (a.tree.cells l).map (fun c =>
            Event.M2M c.getMultipoleData c
              ((a.tree.children c).map (fun d => d.map CellClass.getMultipoleData))
              (a.tree.children c))) ∧
      trace.Pairwise (fun e1 e2 => ∀ c1 c2, e1.cell = some c1 → e2.cell = some c2 →
        c2.level ≤ c1.level) ∧
      (∀ l : Nat, a.upperWorkingLevel ≤ l → (l : Int) ≤ a.OctreeHeight - 2 →
        (l : Int) ≤ a.lowerWorkingLevel - 1 → ∀ c ∈ a.tree.cells l,
          trace.count (Event.M2M c.getMultipoleData c
              ((a.tree.children c).map (fun d => d.map CellClass.getMultipoleData))
              (a.tree.children c)) = 1) ∧
      (∀ e ∈ trace, ∃ c, e.cell = some c ∧ e.isM2M = true ∧ a.upperWorkingLevel ≤ c.level ∧
        (c.level : Int) ≤ a.OctreeHeight - 2 ∧ (c.level : Int) ≤ a.lowerWorkingLevel - 1) := by
  have hH : a.OctreeHeight = (a.tree.height : Int) := rfl
  have hrange : ∀ l ∈ (List.range' a.upperWorkingLevel.toNat
      (min (a.OctreeHeight - 2) (a.lowerWorkingLevel - 1)
        - a.upperWorkingLevel + 1).toNat).reverse,
      a.upperWorkingLevel ≤ l ∧ (l : Int) ≤ a.OctreeHeight - 2 ∧
        (l : Int) ≤ a.lowerWorkingLevel - 1 := by
    intro l hl
    rw [List.mem_reverse, List.mem_range'] at hl
    obtain ⟨i, hi, rfl⟩ := hl
    omega
  have hlt : ∀ l ∈ (List.range' a.upperWorkingLevel.toNat
      (min (a.OctreeHeight - 2) (a.lowerWorkingLevel - 1)
        - a.upperWorkingLevel + 1).toNat).reverse, l < a.tree.height := by
    intro l hl
    have := hrange l hl
    omega
  refine ⟨_, a.upwardPass_trace fuel hwf hne hfuel hup, rfl, ?_, ?_, ?_⟩
  · exact a.tree.levelTrace_pairwise hwf a.tree.m2mCall (fun _ => rfl)
      (fun l k => k ≤ l) (fun _ => le_rfl) _ (pairwise_gt_reverse_range' _ _) hlt
  · intro l h1 h2 h3 c hc
    exact a.tree.levelTrace_count hwf a.tree.m2mCall (fun _ => rfl) _
      (List.nodup_reverse.2 (List.nodup_range' _ _)) hlt l
      (by
        rw [List.mem_reverse, List.mem_range']
        exact ⟨l - a.upperWorkingLevel.toNat, by omega, by omega⟩) c hc
  · intro e he
    obtain ⟨l, hl, hblock⟩ := List.mem_flatMap.1 he
    obtain ⟨c, hc, rfl⟩ := List.mem_map.1 hblock
    have hlev := hwf.2.2.1 l (hlt l hl) c hc
    have := hrange l hl
    refine ⟨c, rfl, rfl, ?_, ?_, ?_⟩ <;> rw [hlev] <;> omega

/-- Witness for C3 (amended): the upward pass on the example tree, working levels 2 to 4. -/
theorem FFmmAlgorithm.upwardPass_levels_witness :
    ∃ trace, (exAlgo 2 4 1).upwardPass 10 = .ok trace ∧
      trace = (List.range' (exAlgo 2 4 1).upperWorkingLevel.toNat
          (min ((exAlgo 2 4 1).OctreeHeight - 2) ((exAlgo 2 4 1).lowerWorkingLevel - 1)
            - (exAlgo 2 4 1).upperWorkingLevel + 1).toNat).reverse.flatMap
          (fun l => (exTree.cells l).map (fun c =>
            Event.M2M c.getMultipoleData c
              ((exTree.children c).map (fun d => d.map CellClass.getMultipoleData))
              (exTree.children c))) ∧
      trace.Pairwise (fun e1 e2 => ∀ c1 c2, e1.cell = some c1 → e2.cell = some c2 →
        c2.level ≤ c1.level) ∧
      (∀ l : Nat, (exAlgo 2 4 1).upperWorkingLevel ≤ l →
        (l : Int) ≤ (exAlgo 2 4 1).OctreeHeight - 2 →
        (l : Int) ≤ (exAlgo 2 4 1).lowerWorkingLevel - 1 → ∀ c ∈ exTree.cells l,
          trace.count (Event.M2M c.getMultipoleData c
              ((exTree.children c).map (fun d => d.map CellClass.getMultipoleData))
              (exTree.children c)) = 1) ∧
      (∀ e ∈ trace, ∃ c, e.cell = some c ∧ e.isM2M = true ∧
        (exAlgo 2 4 1).upperWorkingLevel ≤ c.level ∧
        (c.level : Int) ≤ (exAlgo 2 4 1).OctreeHeight - 2 ∧
        (c.level : Int) ≤ (exAlgo 2 4 1).lowerWorkingLevel - 1) :=
  FFmmAlgorithm.upwardPass_levels (exAlgo 2 4 1) 10
    exTree_wellFormed exTree_leaves_ne_nil exTree_width (by decide)

/-! ## The transfer pass, level by level -/

theorem FFmmAlgorithm.m2lLevel_rank (a : FFmmAlgorithm) (hwf : a.tree.WellFormed)
    (l : Nat) (hl : l < a.tree.height) (e : Event) (he : e ∈ a.m2lLevel l) :
    (e.m2lRank = 2 * (l : Int) ∧ e.hook = none) ∨ e = Event.finishedLevelM2L l := by
  rcases a.mem_m2lLevel l e he with ⟨c, hc, hec⟩ | h
  · left
    rcases a.mem_m2lCalls l c e hec with rfl | ⟨_, rfl⟩
    · exact ⟨rfl, rfl⟩
    · have hlev := hwf.2.2.1 l hl c hc
      simp [FOctree.m2lCall, Event.m2lRank, Event.hook, hlev]
  · exact Or.inr h

theorem FFmmAlgorithm.transfer_sorted (a : FFmmAlgorithm) (hwf : a.tree.WellFormed)
    (u n : Nat) (hH : n ≠ 0 → u + n ≤ a.tree.height) :
    ((List.range' u n).flatMap a.m2lLevel).Pairwise
      (fun e1 e2 => e1.m2lRank ≤ e2.m2lRank) := by
  have hlt : ∀ l ∈ List.range' u n, l < a.tree.height := by
    intro l hl
    rw [List.mem_range'] at hl
    obtain ⟨i, hi, rfl⟩ := hl
    have := hH (by omega)
    omega
  have hbound : ∀ l ∈ List.range' u n, ∀ e ∈ a.m2lLevel l,
      2 * (l : Int) ≤ e.m2lRank ∧ e.m2lRank ≤ 2 * (l : Int) + 1 := by
    intro l hl e he
    rcases a.m2lLevel_rank hwf l (hlt l hl) e he with ⟨h, _⟩ | rfl
    · omega
    · simp [Event.m2lRank]
  rw [List.pairwise_flatMap]
  constructor
  · intro l hl
    unfold FFmmAlgorithm.m2lLevel
    rw [List.pairwise_append]
    refine ⟨?_, List.pairwise_singleton _ _, ?_⟩
    · rw [List.pairwise_iff_forall_sublist]
      intro e1 e2 hsub
      have key : ∀ e ∈ (a.tree.cells l).flatMap (a.m2lCalls l), e.m2lRank = 2 * (l : Int) := by
        intro e he
        rcases a.m2lLevel_rank hwf l (hlt l hl) e
            (by unfold FFmmAlgorithm.m2lLevel; exact List.mem_append_left _ he) with ⟨h, _⟩ | rfl
        · exact h
        · exfalso
          obtain ⟨c, _, hc⟩ := List.mem_flatMap.1 he
          rcases a.mem_m2lCalls l c _ hc with h | ⟨_, h⟩
          · exact Event.noConfusion h
          · unfold FOctree.m2lCall at h
            exact Event.noConfusion h
      rw [key e1 (hsub.subset (by simp)), key e2 (hsub.subset (by simp))]
    · intro e he e2 he2
      have h1 := hbound l hl e
        (by unfold FFmmAlgorithm.m2lLevel; exact List.mem_append_left _ he)
      rw [List.mem_singleton] at he2
      subst he2
      show e.m2lRank ≤ 2 * (l : Int) + 1
      omega
  · have hlt2 : (List.range' u n).Pairwise
        (fun l k => (l ∈ List.range' u n ∧ k ∈ List.range' u n) ∧ l < k) :=
      (List.pairwise_iff_forall_sublist.2 (fun {l k} hsub =>
        ⟨⟨hsub.subset (by simp), hsub.subset (by simp)⟩,
          (List.pairwise_iff_forall_sublist.1 (List.pairwise_lt_range' u n)) hsub⟩))
    refine hlt2.imp ?_
    intro l k hlk e1 he1 e2 he2
    have h1 := hbound l hlk.1.1 e1 he1
    have h2 := hbound k hlk.1.2 e2 he2
    have := hlk.2
    omega

theorem FFmmAlgorithm.filterMap_query_m2lCalls (a : FFmmAlgorithm) (l : Int)
    (c : CellClass) :
    (a.m2lCalls l c).filterMap Event.query
      = [(c.coordinate, l, a.separationCriteria l)] := by
  unfold FFmmAlgorithm.m2lCalls
  by_cases h : a.tree.getInteractionNeighbors c.coordinate l (a.separationCriteria l) = []
  · simp [h, Event.query]
  · simp [h, Event.query, FOctree.m2lCall]

theorem FFmmAlgorithm.filterMap_query_m2lLevel (a : FFmmAlgorithm) (l : Nat) :
    (a.m2lLevel l).filterMap Event.query
      = (a.tree.cells l).map (fun c => (c.coordinate, (l : Int), a.separationCriteria l)) := by
  unfold FFmmAlgorithm.m2lLevel
  rw [List.filterMap_append, List.filterMap_flatMap]
  simp only [a.filterMap_query_m2lCalls]
  simp [Event.query, List.map_eq_flatMap]

theorem FFmmAlgorithm.filterMap_hook_m2lCalls (a : FFmmAlgorithm) (l : Int)
    (c : CellClass) : (a.m2lCalls l c).filterMap Event.hook = [] := by
  unfold FFmmAlgorithm.m2lCalls
  by_cases h : a.tree.getInteractionNeighbors c.coordinate l (a.separationCriteria l) = []
  · simp [h, Event.hook]
  · simp [h, Event.hook, FOctree.m2lCall]

theorem FFmmAlgorithm.filterMap_hook_m2lLevel (a : FFmmAlgorithm) (l : Nat) :
    (a.m2lLevel l).filterMap Event.hook = [(l : Int)] := by
  unfold FFmmAlgorithm.m2lLevel
  rw [List.filterMap_append, List.filterMap_flatMap]
  simp only [a.filterMap_hook_m2lCalls]
  simp [Event.hook]

theorem FFmmAlgorithm.range_lt_height (a : FFmmAlgorithm)
    (hlow : a.lowerWorkingLevel ≤ a.OctreeHeight) (hup : 2 ≤ a.upperWorkingLevel) :
    ∀ l ∈ List.range' a.upperWorkingLevel.toNat
        (a.lowerWorkingLevel - a.upperWorkingLevel).toNat,
      l < a.tree.height ∧ a.upperWorkingLevel ≤ l ∧ (l : Int) < a.lowerWorkingLevel := by
  have hH : a.OctreeHeight = (a.tree.height : Int) := rfl
  intro l hl
  rw [List.mem_range'] at hl
  obtain ⟨i, hi, rfl⟩ := hl
  omega

/-- C4: `transferPass` is strictly top-down. It ends normally; it queries the interaction
list exactly once for every cell of each of the levels upperWorkingLevel, ...,
lowerWorkingLevel-1, level after level in increasing order and left to right on a level,
with the level argument equal to the level of the visited cell; and among its M2L calls
none for a cell of level l comes after one for a cell of a greater level. -/
theorem FFmmAlgorithm.transferPass_top_down (a : FFmmAlgorithm) (fuel : Nat)
    (hwf : a.tree.WellFormed) (hne : a.tree.leaves ≠ []) (hfuel : a.tree.width ≤ fuel)
    (hup : 2 ≤ a.upperWorkingLevel) (hlow : a.lowerWorkingLevel ≤ a.OctreeHeight) :
    ∃ trace, a.transferPass fuel = .ok trace ∧
      trace.filterMap Event.query
        = (List.range' a.upperWorkingLevel.toNat
            (a.lowerWorkingLevel - a.upperWorkingLevel).toNat).flatMap
          (fun l => (a.tree.cells l).map
            (fun c => (c.coordinate, (l : Int), a.separationCriteria l))) ∧
      (∀ l ∈ List.range' a.upperWorkingLevel.toNat
            (a.lowerWorkingLevel - a.upperWorkingLevel).toNat,
        a.upperWorkingLevel ≤ l ∧ (l : Int) < a.lowerWorkingLevel ∧
          ∀ c ∈ a.tree.cells l, c.level = l) ∧
      (trace.filter Event.isM2L).Pairwise
        (fun e1 e2 => ∀ c1 c2, e1.cell = some c1 → e2.cell = some c2 →
          c1.level ≤ c2.level) := by
  have hH : a.OctreeHeight = (a.tree.height : Int) := rfl
  refine ⟨_, a.transferPass_trace fuel hwf hne hfuel hup hlow, ?_, ?_, ?_⟩
  · rw [List.filterMap_flatMap]
    simp only [a.filterMap_query_m2lLevel]
  · intro l hl
    have h := a.range_lt_height hlow hup l hl
    exact ⟨h.2.1, h.2.2, hwf.2.2.1 l h.1⟩
  · have hs := (a.transfer_sorted hwf a.upperWorkingLevel.toNat
      (a.lowerWorkingLevel - a.upperWorkingLevel).toNat (by omega)).filter Event.isM2L
    refine hs.imp_of_mem ?_
    intro e1 e2 h1 h2 hr c1 c2 hc1 hc2
    have m1 := (List.mem_filter.1 h1).2
    have m2 := (List.mem_filter.1 h2).2
    cases e1 <;> simp [Event.isM2L] at m1
    cases e2 <;> simp [Event.isM2L] at m2
    simp only [Event.cell, Option.some.injEq] at hc1 hc2
    subst hc1 hc2
    simp only [Event.m2lRank] at hr
    omega

/-- Witness for C4: the transfer pass on the example tree, working levels 2 to 4. -/
theorem FFmmAlgorithm.transferPass_top_down_witness :
    ∃ trace, (exAlgo 2 4 1).transferPass 10 = .ok trace ∧
      trace.filterMap Event.query
        = (List.range' (exAlgo 2 4 1).upperWorkingLevel.toNat
            ((exAlgo 2 4 1).lowerWorkingLevel - (exAlgo 2 4 1).upperWorkingLevel).toNat).flatMap
          (fun l => (exTree.cells l).map
            (fun c => (c.coordinate, (l : Int), (exAlgo 2 4 1).separationCriteria l))) ∧
      (∀ l ∈ List.range' (exAlgo 2 4 1).upperWorkingLevel.toNat
            ((exAlgo 2 4 1).lowerWorkingLevel - (exAlgo 2 4 1).upperWorkingLevel).toNat,
        (exAlgo 2 4 1).upperWorkingLevel ≤ l ∧ (l : Int) < (exAlgo 2 4 1).lowerWorkingLevel ∧
          ∀ c ∈ exTree.cells l, c.level = l) ∧
      (trace.filter Event.isM2L).Pairwise
        (fun e1 e2 => ∀ c1 c2, e1.cell = some c1 → e2.cell = some c2 →
          c1.level ≤ c2.level) :=
  FFmmAlgorithm.transferPass_top_down (exAlgo 2 4 1) 10
    exTree_wellFormed exTree_leaves_ne_nil exTree_width (by decide) (by decide)

/-- C5: in `transferPass` the hook `finishedLevelM2L(level)` is invoked exactly once for
every processed level, in the order of the levels (the sequence of hook calls is exactly
upperWorkingLevel, ..., lowerWorkingLevel-1, whatever the interaction lists hold), and the
call for a level comes after every M2L call of that level and before every M2L call of a
deeper level: before it all M2L calls are on cells of level at most `l`, after it all are on
cells of a level greater than `l`. -/
theorem FFmmAlgorithm.transferPass_hook_once_per_level (a : FFmmAlgorithm) (fuel : Nat)
    (hwf : a.tree.WellFormed) (hne : a.tree.leaves ≠ []) (hfuel : a.tree.width ≤ fuel)
    (hup : 2 ≤ a.upperWorkingLevel) (hlow : a.lowerWorkingLevel ≤ a.OctreeHeight) :
    ∃ trace, a.transferPass fuel = .ok trace ∧
      trace.filterMap Event.hook
        = (List.range' a.upperWorkingLevel.toNat
            (a.lowerWorkingLevel - a.upperWorkingLevel).toNat).map
          (fun (l : Nat) => (l : Int)) ∧
      ∀ (before after : List Event) (l : Int),
        trace = before ++ Event.finishedLevelM2L l :: after →
          (∀ e ∈ before, ∀ c, e.isM2L = true → e.cell = some c → (c.level : Int) ≤ l) ∧
          (∀ e ∈ after, ∀ c, e.isM2L = true → e.cell = some c → l < (c.level : Int)) := by
  have hH : a.OctreeHeight = (a.tree.height : Int) := rfl
  refine ⟨_, a.transferPass_trace fuel hwf hne hfuel hup hlow, ?_, ?_⟩
  · rw [List.filterMap_flatMap]
    simp only [a.filterMap_hook_m2lLevel]
    exact (List.map_eq_flatMap _ _).symm
  · intro before after l hsplit
    have hs := a.transfer_sorted hwf a.upperWorkingLevel.toNat
      (a.lowerWorkingLevel - a.upperWorkingLevel).toNat (by omega)
    rw [hsplit, List.pairwise_append, List.pairwise_cons] at hs
    obtain ⟨_, ⟨hafter, _⟩, hbefore⟩ := hs
    constructor
    · intro e he c hm hc
      have h := hbefore e he (Event.finishedLevelM2L l) (List.mem_cons_self _ _)
      cases e <;> simp [Event.isM2L] at hm
      simp only [Event.cell, Option.some.injEq] at hc
      subst hc
      simp only [Event.m2lRank] at h
      omega
    · intro e he c hm hc
      have h := hafter e he
      cases e <;> simp [Event.isM2L] at hm
      simp only [Event.cell, Option.some.injEq] at hc
      subst hc
      simp only [Event.m2lRank] at h
      omega

/-- Witness for C5: the transfer pass on the example tree, working levels 2 to 4. -/
theorem FFmmAlgorithm.transferPass_hook_once_per_level_witness :
    ∃ trace, (exAlgo 2 4 1).transferPass 10 = .ok trace ∧
      trace.filterMap Event.hook
        = (List.range' (exAlgo 2 4 1).upperWorkingLevel.toNat
            ((exAlgo 2 4 1).lowerWorkingLevel - (exAlgo 2 4 1).upperWorkingLevel).toNat).map
          (fun (l : Nat) => (l : Int)) ∧
      ∀ (before after : List Event) (l : Int),
        trace = before ++ Event.finishedLevelM2L l :: after →
          (∀ e ∈ before, ∀ c, e.isM2L = true → e.cell = some c → (c.level : Int) ≤ l) ∧
          (∀ e ∈ after, ∀ c, e.isM2L = true → e.cell = some c → l < (c.level : Int)) :=
  FFmmAlgorithm.transferPass_hook_once_per_level (exAlgo 2 4 1) 10
    exTree_wellFormed exTree_leaves_ne_nil exTree_width (by decide) (by decide)

/-- C10: an empty interaction list is a no-op and never an early exit. `transferPass` ends
normally and its calls are, level after level, for every cell left to right the
interaction-list query followed by the M2L call exactly when the list is not empty, then
the hook of the level; so a cell receives an M2L call iff its list is not empty, every cell
of every processed level is queried (also those right of a cell with an empty list) and
the hook of every processed level is called. -/
theorem FFmmAlgorithm.transferPass_empty_list_is_noop (a : FFmmAlgorithm) (fuel : Nat)
    (hwf : a.tree.WellFormed) (hne : a.tree.leaves ≠ []) (hfuel : a.tree.width ≤ fuel)
    (hup : 2 ≤ a.upperWorkingLevel) (hlow : a.lowerWorkingLevel ≤ a.OctreeHeight) :
    ∃ trace, a.transferPass fuel = .ok trace ∧
      trace = (List.range' a.upperWorkingLevel.toNat
          (a.lowerWorkingLevel - a.upperWorkingLevel).toNat).flatMap
        (fun l => (a.tree.cells l).flatMap
            (fun c =>
              Event.getInteractionNeighbors c.coordinate l (a.separationCriteria l) ::
              (if a.tree.getInteractionNeighbors c.coordinate l (a.separationCriteria l) = []
                then []
                else [FOctree.m2lCall c
                  (a.tree.getInteractionNeighbors c.coordinate l (a.separationCriteria l))]))
          ++ [Event.finishedLevelM2L l]) ∧
      ∀ l ∈ List.range' a.upperWorkingLevel.toNat
          (a.lowerWorkingLevel - a.upperWorkingLevel).toNat,
        Event.finishedLevelM2L l ∈ trace ∧
        ∀ c ∈ a.tree.cells l,
          Event.getInteractionNeighbors c.coordinate l (a.separationCriteria l) ∈ trace ∧
          ((∃ e ∈ trace, e.isM2L = true ∧ e.cell = some c) ↔
            a.tree.getInteractionNeighbors c.coordinate l (a.separationCriteria l) ≠ []) := by
  have hH : a.OctreeHeight = (a.tree.height : Int) := rfl
  refine ⟨_, a.transferPass_trace fuel hwf hne hfuel hup hlow, rfl, ?_⟩
  intro l hl
  have hlH := (a.range_lt_height hlow hup l hl).1
  constructor
  · refine List.mem_flatMap.2 ⟨l, hl, ?_⟩
    unfold FFmmAlgorithm.m2lLevel
    exact List.mem_append_right _ (List.mem_singleton.2 rfl)
  · intro c hc
    have hblock : ∀ e ∈ a.m2lCalls l c,
        e ∈ (List.range' a.upperWorkingLevel.toNat
          (a.lowerWorkingLevel - a.upperWorkingLevel).toNat).flatMap a.m2lLevel := by
      intro e he
      refine List.mem_flatMap.2 ⟨l, hl, ?_⟩
      unfold FFmmAlgorithm.m2lLevel
      exact List.mem_append_left _ (List.mem_flatMap.2 ⟨c, hc, he⟩)
    refine ⟨hblock _ (by unfold FFmmAlgorithm.m2lCalls; exact List.mem_cons_self _ _), ?_, ?_⟩
    · rintro ⟨e, he, hm, hcell⟩
      obtain ⟨k, hk, hek⟩ := List.mem_flatMap.1 he
      have hkH := (a.range_lt_height hlow hup k hk).1
      rcases a.mem_m2lLevel k e hek with ⟨d, hd, hed⟩ | rfl
      · rcases a.mem_m2lCalls k d e hed with rfl | ⟨hfound, rfl⟩
        · simp [Event.isM2L] at hm
        · simp only [FOctree.m2lCall, Event.cell, Option.some.injEq] at hcell
          subst hcell
          have h1 := hwf.2.2.1 k hkH d hd
          have h2 := hwf.2.2.1 l hlH d hc
          have : k = l := by omega
          subst this
          exact hfound
      · simp [Event.isM2L] at hm
    · intro hfound
      refine ⟨FOctree.m2lCall c
        (a.tree.getInteractionNeighbors c.coordinate l (a.separationCriteria l)),
        hblock _ ?_, rfl, rfl⟩
      unfold FFmmAlgorithm.m2lCalls
      rw [if_neg hfound]
      simp

/-- Witness for C10: the transfer pass on the example tree, working levels 2 to 4; the leaf
(0,0,1) has an empty interaction list and the leaves to its right are still visited. -/
theorem FFmmAlgorithm.transferPass_empty_list_is_noop_witness :
    ∃ trace, (exAlgo 2 4 1).transferPass 10 = .ok trace ∧
      trace = (List.range' (exAlgo 2 4 1).upperWorkingLevel.toNat
          ((exAlgo 2 4 1).lowerWorkingLevel - (exAlgo 2 4 1).upperWorkingLevel).toNat).flatMap
        (fun l => (exTree.cells l).flatMap
            (fun c =>
              Event.getInteractionNeighbors c.coordinate l
                ((exAlgo 2 4 1).separationCriteria l) ::
              (if exTree.getInteractionNeighbors c.coordinate l
                  ((exAlgo 2 4 1).separationCriteria l) = []
                then []
                else [FOctree.m2lCall c
                  (exTree.getInteractionNeighbors c.coordinate l
                    ((exAlgo 2 4 1).separationCriteria l))]))
          ++ [Event.finishedLevelM2L l]) ∧
      ∀ l ∈ List.range' (exAlgo 2 4 1).upperWorkingLevel.toNat
          ((exAlgo 2 4 1).lowerWorkingLevel - (exAlgo 2 4 1).upperWorkingLevel).toNat,
        Event.finishedLevelM2L l ∈ trace ∧
        ∀ c ∈ exTree.cells l,
          Event.getInteractionNeighbors c.coordinate l
            ((exAlgo 2 4 1).separationCriteria l) ∈ trace ∧
          ((∃ e ∈ trace, e.isM2L = true ∧ e.cell = some c) ↔
            exTree.getInteractionNeighbors c.coordinate l
              ((exAlgo 2 4 1).separationCriteria l) ≠ []) :=
  FFmmAlgorithm.transferPass_empty_list_is_noop (exAlgo 2 4 1) 10
    exTree_wellFormed exTree_leaves_ne_nil exTree_width (by decide) (by decide)

/-- C7 (as stated, refuted): on the example tree of height 4 with the working levels 2 and
3, it is not the case that `downardPass` calls L2L exactly once for every cell of each level
from upperWorkingLevel = 2 to H-2 = 2: the pass issues no call at all. -/
theorem FFmmAlgorithm.downardPass_levels_to_leaf_parents_counterexample :
    ¬ ∃ trace, (exAlgo 2 3 1).downardPass 10 = .ok trace ∧
      ∀ l : Nat, (exAlgo 2 3 1).upperWorkingLevel ≤ l → l ≤ exTree.height - 2 →
        ∀ c ∈ exTree.cells l,
          (trace.filter (fun e => e.isL2L && decide (e.cell = some c))).length = 1 := by
  rintro ⟨trace, htrace, hall⟩
  have h : (exAlgo 2 3 1).downardPass 10 = .ok [] := rfl
  rw [h] at htrace
  injection htrace with htrace
  subst htrace
  have h1 := hall 2 (by decide) (by decide) (mkCell 2 0 0 0 0) (by decide)
  revert h1
  decide

/-- C7 (amended): with `2 <= upperWorkingLevel` and `lowerWorkingLevel <= H`,
`downardPass` ends normally and is top-down over the levels `upperWorkingLevel` to
`lowerWorkingLevel - 2` (that is `H-2` when `lowerWorkingLevel = H`): its calls are the L2L
calls of the cells of these levels, level after level in increasing order and left to right
on a level, so that every L2L call at a level comes after all L2L calls at shallower levels,
every cell of these levels receives exactly one call, and the parent of a call is never a
cell of the leaf level. -/
theorem FFmmAlgorithm.downardPass_levels (a : FFmmAlgorithm) (fuel : Nat)
    (hwf : a.tree.WellFormed) (hne : a.tree.leaves ≠ []) (hfuel : a.tree.width ≤ fuel)
    (hup : 2 ≤ a.upperWorkingLevel) (hlow : a.lowerWorkingLevel ≤ a.OctreeHeight) :
    ∃ trace, a.downardPass fuel = .ok trace ∧
      trace = (List.range' a.upperWorkingLevel.toNat
          (a.lowerWorkingLevel - 1 - a.upperWorkingLevel).toNat).flatMap
          (fun l => (a.tree.cells l).map (fun c =>
            Event.L2L c.getLocalExpansionData c
              ((a.tree.children c).map (fun d => d.map CellClass.getLocalExpansionData))
              (a.tree.children c))) ∧
      trace.Pairwise (fun e1 e2 => ∀ c1 c2, e1.cell = some c1 → e2.cell = some c2 →
        c1.level ≤ c2.level) ∧
      (∀ l : Nat, a.upperWorkingLevel ≤ l → (l : Int) ≤ a.lowerWorkingLevel - 2 →
        ∀ c ∈ a.tree.cells l,
          trace.count (Event.L2L c.getLocalExpansionData c
              ((a.tree.children c).map (fun d => d.map CellClass.getLocalExpansionData))
              (a.tree.children c)) = 1) ∧
      (∀ e ∈ trace, ∃ c, e.cell = some c ∧ e.isL2L = true ∧ a.upperWorkingLevel ≤ c.level ∧
        (c.level : Int) ≤ a.lowerWorkingLevel - 2 ∧ (c.level : Int) < a.OctreeHeight - 1) := by
  have hH : a.OctreeHeight = (a.tree.height : Int) := rfl
  have hrange : ∀ l ∈ List.range' a.upperWorkingLevel.toNat
      (a.lowerWorkingLevel - 1 - a.upperWorkingLevel).toNat,
      a.upperWorkingLevel ≤ l ∧ (l : Int) ≤ a.lowerWorkingLevel - 2 := by
    intro l hl
    rw [List.mem_range'] at hl
    obtain ⟨i, hi, rfl⟩ := hl
    omega
  have hlt : ∀ l ∈ List.range' a.upperWorkingLevel.toNat
      (a.lowerWorkingLevel - 1 - a.upperWorkingLevel).toNat, l < a.tree.height := by
    intro l hl
    have := hrange l hl
    omega
  refine ⟨_, a.downardPass_trace fuel hwf hne hfuel hup hlow, rfl, ?_, ?_, ?_⟩
  · exact a.tree.levelTrace_pairwise hwf a.tree.l2lCall (fun _ => rfl)
      (fun l k => l ≤ k) (fun _ => le_rfl) _
      ((List.pairwise_lt_range' _ _).imp (fun h => le_of_lt h)) hlt
  · intro l h1 h2 c hc
    exact a.tree.levelTrace_count hwf a.tree.l2lCall (fun _ => rfl) _
      (List.nodup_range' _ _) hlt l
      (by
        rw [List.mem_range']
        exact ⟨l - a.upperWorkingLevel.toNat, by omega, by omega⟩) c hc
  · intro e he
    obtain ⟨l, hl, hblock⟩ := List.mem_flatMap.1 he
    obtain ⟨c, hc, rfl⟩ := List.mem_map.1 hblock
    have hlev := hwf.2.2.1 l (hlt l hl) c hc
    have := hrange l hl
    refine ⟨c, rfl, rfl, ?_, ?_, ?_⟩ <;> rw [hlev] <;> omega

/-- Witness for C7 (amended): the downward pass on the example tree, working levels 2 to
4. -/
theorem FFmmAlgorithm.downardPass_levels_witness :
    ∃ trace, (exAlgo 2 4 1).downardPass 10 = .ok trace ∧
      trace = (List.range' (exAlgo 2 4 1).upperWorkingLevel.toNat
          ((exAlgo 2 4 1).lowerWorkingLevel - 1 - (exAlgo 2 4 1).upperWorkingLevel).toNat).flatMap
          (fun l => (exTree.cells l).map (fun c =>
            Event.L2L c.getLocalExpansionData c
              ((exTree.children c).map (fun d => d.map CellClass.getLocalExpansionData))
              (exTree.children c))) ∧
      trace.Pairwise (fun e1 e2 => ∀ c1 c2, e1.cell = some c1 → e2.cell = some c2 →
        c1.level ≤ c2.level) ∧
      (∀ l : Nat, (exAlgo 2 4 1).upperWorkingLevel ≤ l →
        (l : Int) ≤ (exAlgo 2 4 1).lowerWorkingLevel - 2 →
        ∀ c ∈ exTree.cells l,
          trace.count (Event.L2L c.getLocalExpansionData c
              ((exTree.children c).map (fun d => d.map CellClass.getLocalExpansionData))
              (exTree.children c)) = 1) ∧
      (∀ e ∈ trace, ∃ c, e.cell = some c ∧ e.isL2L = true ∧
        (exAlgo 2 4 1).upperWorkingLevel ≤ c.level ∧
        (c.level : Int) ≤ (exAlgo 2 4 1).lowerWorkingLevel - 2 ∧
        (c.level : Int) < (exAlgo 2 4 1).OctreeHeight - 1) :=
  FFmmAlgorithm.downardPass_levels (exAlgo 2 4 1) 10
    exTree_wellFormed exTree_leaves_ne_nil exTree_width (by decide) (by decide)

theorem FFmmAlgorithm.expectedTrace_filter_direct (a : FFmmAlgorithm) (ops : FFmmOperations)
    (mask : Nat) :
    (a.expectedTrace ops mask).filter (fun e => decide (e.pass = 4))
      = a.tree.leaves.flatMap
          (a.tree.directCalls (decide (mask &&& ops.FFmmP2P ≠ 0))
            (decide (mask &&& ops.FFmmL2P ≠ 0))) := by
  have hnil : ∀ (l : List Event) (k : Nat), k ≠ 4 → (∀ e ∈ l, e.pass = k) →
      l.filter (fun e => decide (e.pass = 4)) = [] := by
    intro l k hk h
    rw [List.filter_eq_nil_iff]
    intro e he
    have := h e he
    simp only [decide_eq_true_eq]
    omega
  have hall : ∀ (l : List Event), (∀ e ∈ l, e.pass = 4) →
      l.filter (fun e => decide (e.pass = 4)) = l := by
    intro l h
    rw [List.filter_eq_self]
    intro e he
    simp [h e he]
  unfold FFmmAlgorithm.expectedTrace
  simp only [List.filter_append]
  rw [hnil _ 0 (by omega), hnil _ 1 (by omega), hnil _ 2 (by omega), hnil _ 3 (by omega),
    hall]
  · simp
  · exact fun e he => (a.tree.directCalls_pass ops _ _ _ e he).1
  · intro e he
    split at he
    · exact (a.tree.l2lCall_pass ops _ e he).1
    · simp at he
  · intro e he
    split at he
    · exact (a.m2lLevel_pass ops _ e he).1
    · simp at he
  · intro e he
    split at he
    · exact (a.tree.m2mCall_pass ops _ e he).1
    · simp at he
  · intro e he
    split at he
    · exact (a.tree.p2mCall_pass ops _ e he).1
    · simp at he

/-- C8: in a tree with at least one leaf and for every mask, the run ends normally and the
calls of its direct pass are, for every leaf once and left to right, the L2P call exactly
when the L2P flag is set, then the leaf-neighbour query at level `H-1` for the coordinate of
the leaf and the P2P call exactly when the P2P flag is set (no call of the direct pass
when neither flag is set). The P2P call receives the target and source particle lists of the leaf and the
neighbour array, the position array and the count returned by the query; it is issued also
when the count is 0. -/
theorem FFmmAlgorithm.executeCore_direct_pass (a : FFmmAlgorithm) (ops : FFmmOperations)
    (fuel : Nat) (operationsToProceed : Nat)
    (hwf : a.tree.WellFormed) (hne : a.tree.leaves ≠ []) (hfuel : a.tree.width ≤ fuel)
    (hup : 2 ≤ a.upperWorkingLevel) (hlow : a.lowerWorkingLevel ≤ a.OctreeHeight) :
    ∃ trace, a.executeCore ops fuel operationsToProceed = .ok trace ∧
      trace.filter (fun e => decide (e.pass = 4))
        = a.tree.leaves.flatMap (fun c =>
            (if operationsToProceed &&& ops.FFmmL2P ≠ 0 then
              [Event.L2P c.getLocalExpansionData c (a.tree.listTargets c)] else [])
            ++ (if operationsToProceed &&& ops.FFmmP2P ≠ 0 then
              [Event.getLeafsNeighbors c.coordinate (a.OctreeHeight - 1),
               Event.P2P c.coordinate (a.tree.listTargets c) (a.tree.listSrc c)
                ((a.tree.getLeafsNeighbors c.coordinate (a.OctreeHeight - 1)).map Prod.fst)
                ((a.tree.getLeafsNeighbors c.coordinate (a.OctreeHeight - 1)).map Prod.snd)
                (a.tree.getLeafsNeighbors c.coordinate (a.OctreeHeight - 1)).length]
              else [])) ∧
      a.tree.leaves.Nodup ∧
      (∀ c ∈ a.tree.leaves, operationsToProceed &&& ops.FFmmP2P ≠ 0 →
        a.tree.getLeafsNeighbors c.coordinate (a.OctreeHeight - 1) = [] →
        Event.P2P c.coordinate (a.tree.listTargets c) (a.tree.listSrc c) [] [] 0 ∈ trace) ∧
      (operationsToProceed &&& ops.FFmmP2P = 0 → operationsToProceed &&& ops.FFmmL2P = 0 →
        ∀ e ∈ trace, e.pass ≠ 4) := by
  have hH : a.tree.height - 1 < a.tree.height := by have := hwf.1; omega
  have hfilter := a.expectedTrace_filter_direct ops operationsToProceed
  refine ⟨_, a.executeCore_trace ops fuel operationsToProceed hwf hne hfuel hup hlow, ?_,
    a.tree.nodup_cells hwf _ hH, ?_, ?_⟩
  rotate_left 2
  · intro h5 h6 e he hpass
    have hmem : e ∈ (a.expectedTrace ops operationsToProceed).filter
        (fun e => decide (e.pass = 4)) := List.mem_filter.2 ⟨he, by simp [hpass]⟩
    rw [hfilter] at hmem
    obtain ⟨c, _, hc⟩ := List.mem_flatMap.1 hmem
    simp [FOctree.directCalls, h5, h6] at hc
  · rw [hfilter]
    congr 1
    funext c
    by_cases h5 : operationsToProceed &&& ops.FFmmP2P = 0 <;>
    by_cases h6 : operationsToProceed &&& ops.FFmmL2P = 0 <;>
    simp [h5, h6, FOctree.directCalls, FOctree.l2pCall, FOctree.p2pCalls,
      FFmmAlgorithm.OctreeHeight]
  · intro c hc hp2p hfound
    have hmem : Event.P2P c.coordinate (a.tree.listTargets c) (a.tree.listSrc c) [] [] 0
        ∈ (a.expectedTrace ops operationsToProceed).filter (fun e => decide (e.pass = 4)) := by
      rw [hfilter]
      refine List.mem_flatMap.2 ⟨c, hc, ?_⟩
      have hfound' : a.tree.getLeafsNeighbors c.coordinate ((a.tree.height : Int) - 1) = [] :=
        hfound
      simp [FOctree.directCalls, FOctree.p2pCalls, hp2p, hfound']
    exact (List.mem_filter.1 hmem).1

/-- Witness for C8: the full run on the example tree; the leaf (7,7,7) has no neighbour and
still receives its P2P call. -/
theorem FFmmAlgorithm.executeCore_direct_pass_witness :
    ∃ trace, (exAlgo 2 4 1).executeCore exOps 10 63 = .ok trace ∧
      trace.filter (fun e => decide (e.pass = 4))
        = exTree.leaves.flatMap (fun c =>
            (if 63 &&& exOps.FFmmL2P ≠ 0 then
              [Event.L2P c.getLocalExpansionData c (exTree.listTargets c)] else [])
            ++ (if 63 &&& exOps.FFmmP2P ≠ 0 then
              [Event.getLeafsNeighbors c.coordinate ((exAlgo 2 4 1).OctreeHeight - 1),
               Event.P2P c.coordinate (exTree.listTargets c) (exTree.listSrc c)
                ((exTree.getLeafsNeighbors c.coordinate
                  ((exAlgo 2 4 1).OctreeHeight - 1)).map Prod.fst)
                ((exTree.getLeafsNeighbors c.coordinate
                  ((exAlgo 2 4 1).OctreeHeight - 1)).map Prod.snd)
                (exTree.getLeafsNeighbors c.coordinate
                  ((exAlgo 2 4 1).OctreeHeight - 1)).length]
              else [])) ∧
      exTree.leaves.Nodup ∧
      (∀ c ∈ exTree.leaves, 63 &&& exOps.FFmmP2P ≠ 0 →
        exTree.getLeafsNeighbors c.coordinate ((exAlgo 2 4 1).OctreeHeight - 1) = [] →
        Event.P2P c.coordinate (exTree.listTargets c) (exTree.listSrc c) [] [] 0 ∈ trace) ∧
      (63 &&& exOps.FFmmP2P = 0 → 63 &&& exOps.FFmmL2P = 0 → ∀ e ∈ trace, e.pass ≠ 4) :=
  FFmmAlgorithm.executeCore_direct_pass (exAlgo 2 4 1) exOps 10 63
    exTree_wellFormed exTree_leaves_ne_nil exTree_width (by decide) (by decide)

/-! ## The M2L pass of the task engine -/

theorem FFmmAlgorithmTestTask.taskBody_eq (a : FFmmAlgorithmTestTask)
    (idxLevel : Int) (l i : Nat) (c : CellClass) (hc : (a.tree.cells l)[i]? = some c) :
    a.transferPassBody idxLevel (a.separationCriteria idxLevel) ⟨l, i⟩
      = .ok [TaskEvent.task none (a.sequential.m2lCalls idxLevel c)] := by
  have ht : a.sequential.tree = a.tree := rfl
  have hsep : a.separationCriteria idxLevel = a.sequential.separationCriteria idxLevel := rfl
  by_cases h : a.tree.getInteractionNeighbors c.coordinate idxLevel
      (a.sequential.separationCriteria idxLevel) = []
  · simp [FFmmAlgorithmTestTask.transferPassBody, Iterator.getCurrentCell,
      Iterator.getCurrentGlobalCoordinate, hc, hsep, ht, FFmmAlgorithm.m2lCalls, h, bind,
      Except.bind, pure, Except.pure, Except.map]
  · simp [FFmmAlgorithmTestTask.transferPassBody, Iterator.getCurrentCell,
      Iterator.getCurrentGlobalCoordinate, hc, hsep, ht, FFmmAlgorithm.m2lCalls, h,
      FOctree.m2lCall, bind, Except.bind, pure, Except.pure, Except.map]

theorem FFmmAlgorithmTestTask.transferPassWithoutFinalizeLevels_eq
    (a : FFmmAlgorithmTestTask) (fuel : Nat)
    (hwf : a.tree.WellFormed) (hne : a.tree.leaves ≠ []) (hfuel : a.tree.width ≤ fuel) :
    ∀ n l it, (n ≠ 0 → it = ⟨l, 0⟩ ∧ 1 ≤ l ∧ l + n ≤ a.tree.height) →
      a.transferPassWithoutFinalizeLevels fuel n (l : Int) it it
        = .ok ((List.range' l n).flatMap a.m2lTasks) := by
  intro n
  induction n with
  | zero =>
    intro l it _
    simp [FFmmAlgorithmTestTask.transferPassWithoutFinalizeLevels, pure, Except.pure]
  | succ n ih =>
    intro l it h
    obtain ⟨rfl, h1, hl⟩ := h (by omega)
    have hloop := doWhileMoveRight_level a.tree
      (a.transferPassBody l (a.separationCriteria l))
      (fun c => [TaskEvent.task none (a.sequential.m2lCalls l c)]) l (by omega)
      (a.tree.level_ne_nil hwf hne l h1 (by omega))
      (fun i c hc => a.taskBody_eq l l i c hc) fuel hfuel
    have hrest := ih (l + 1) (Iterator.moveDown a.tree ⟨l, 0⟩) (by
      intro hn0
      exact ⟨Iterator.moveDown_leftmost a.tree hwf hne l h1 (by omega), by omega, by omega⟩)
    have hcast : ((l : Int) + 1) = ((l + 1 : Nat) : Int) := by push_cast; rfl
    unfold FFmmAlgorithmTestTask.transferPassWithoutFinalizeLevels
    simp only []
    rw [hloop, hcast, hrest, List.range'_succ, List.flatMap_cons]
    simp [FFmmAlgorithmTestTask.m2lTasks, bind, Except.bind, pure, Except.pure,
      List.map_eq_flatMap]

theorem FFmmAlgorithmTestTask.transferPassWithFinalizeLevels_eq
    (a : FFmmAlgorithmTestTask) (numThreads fuel : Nat)
    (hwf : a.tree.WellFormed) (hne : a.tree.leaves ≠ []) (hfuel : a.tree.width ≤ fuel) :
    ∀ n l it, (n ≠ 0 → it = ⟨l, 0⟩ ∧ 1 ≤ l ∧ l + n ≤ a.tree.height) →
      a.transferPassWithFinalizeLevels numThreads fuel n (l : Int) it it
        = .ok ((List.range' l n).flatMap
            (fun k => a.m2lTasks k ++ FFmmAlgorithmTestTask.hookTasks numThreads k)) := by
  intro n
  induction n with
  | zero =>
    intro l it _
    simp [FFmmAlgorithmTestTask.transferPassWithFinalizeLevels, pure, Except.pure]
  | succ n ih =>
    intro l it h
    obtain ⟨rfl, h1, hl⟩ := h (by omega)
    have hloop := doWhileMoveRight_level a.tree
      (a.transferPassBody l (a.separationCriteria l))
      (fun c => [TaskEvent.task none (a.sequential.m2lCalls l c)]) l (by omega)
      (a.tree.level_ne_nil hwf hne l h1 (by omega))
      (fun i c hc => a.taskBody_eq l l i c hc) fuel hfuel
    have hrest := ih (l + 1) (Iterator.moveDown a.tree ⟨l, 0⟩) (by
      intro hn0
      exact ⟨Iterator.moveDown_leftmost a.tree hwf hne l h1 (by omega), by omega, by omega⟩)
    have hcast : ((l : Int) + 1) = ((l + 1 : Nat) : Int) := by push_cast; rfl
    unfold FFmmAlgorithmTestTask.transferPassWithFinalizeLevels
    simp only []
    rw [hloop, hcast, hrest, List.range'_succ, List.flatMap_cons]
    simp [FFmmAlgorithmTestTask.m2lTasks, FFmmAlgorithmTestTask.hookTasks, bind, Except.bind,
      pure, Except.pure, List.map_eq_flatMap]

theorem FFmmAlgorithmTestTask.task_start_iterator (a : FFmmAlgorithmTestTask)
    (hwf : a.tree.WellFormed) (hne : a.tree.leaves ≠ [])
    (hup : 2 ≤ a.upperWorkingLevel) (hlt : a.upperWorkingLevel < a.tree.height) :
    (Iterator.moveDown a.tree)^[(a.upperWorkingLevel - 2).toNat]
        (Iterator.moveDown a.tree (Iterator.new a.tree))
      = ⟨a.upperWorkingLevel.toNat, 0⟩ :=
  a.sequential.start_iterator hwf hne hup hlt

theorem FFmmAlgorithmTestTask.transferPassWithoutFinalize_trace
    (a : FFmmAlgorithmTestTask) (fuel : Nat)
    (hwf : a.tree.WellFormed) (hne : a.tree.leaves ≠ []) (hfuel : a.tree.width ≤ fuel)
    (hup : 2 ≤ a.upperWorkingLevel) (hlow : a.lowerWorkingLevel ≤ a.tree.height) :
    a.transferPassWithoutFinalize fuel
      = .ok ((List.range' a.upperWorkingLevel.toNat
            (a.lowerWorkingLevel - a.upperWorkingLevel).toNat).flatMap a.m2lTasks) := by
  unfold FFmmAlgorithmTestTask.transferPassWithoutFinalize
  simp only []
  have hcast : a.upperWorkingLevel = ((a.upperWorkingLevel.toNat : Nat) : Int) := by omega
  have h := a.transferPassWithoutFinalizeLevels_eq fuel hwf hne hfuel
    (a.lowerWorkingLevel - a.upperWorkingLevel).toNat a.upperWorkingLevel.toNat
    ((Iterator.moveDown a.tree)^[(a.upperWorkingLevel - 2).toNat]
      (Iterator.moveDown a.tree (Iterator.new a.tree)))
    (fun hn0 => ⟨a.task_start_iterator hwf hne hup (by omega), by omega, by omega⟩)
  rw [← hcast] at h
  exact h

theorem FFmmAlgorithmTestTask.transferPassWithFinalize_trace
    (a : FFmmAlgorithmTestTask) (numThreads fuel : Nat)
    (hwf : a.tree.WellFormed) (hne : a.tree.leaves ≠ []) (hfuel : a.tree.width ≤ fuel)
    (hup : 2 ≤ a.upperWorkingLevel) (hlow : a.lowerWorkingLevel ≤ a.tree.height) :
    a.transferPassWithFinalize numThreads fuel
      = .ok ((List.range' a.upperWorkingLevel.toNat
            (a.lowerWorkingLevel - a.upperWorkingLevel).toNat).flatMap
          (fun k => a.m2lTasks k ++ FFmmAlgorithmTestTask.hookTasks numThreads k)) := by
  unfold FFmmAlgorithmTestTask.transferPassWithFinalize
  simp only []
  have hcast : a.upperWorkingLevel = ((a.upperWorkingLevel.toNat : Nat) : Int) := by omega
  have h := a.transferPassWithFinalizeLevels_eq numThreads fuel hwf hne hfuel
    (a.lowerWorkingLevel - a.upperWorkingLevel).toNat a.upperWorkingLevel.toNat
    ((Iterator.moveDown a.tree)^[(a.upperWorkingLevel - 2).toNat]
      (Iterator.moveDown a.tree (Iterator.new a.tree)))
    (fun hn0 => ⟨a.task_start_iterator hwf hne hup (by omega), by omega, by omega⟩)
  rw [← hcast] at h
  exact h

theorem FFmmAlgorithm.query_mem_m2lCalls (a : FFmmAlgorithm) (k : Int) (d : CellClass)
    (c : FTreeCoordinate) (l s : Int)
    (h : Event.getInteractionNeighbors c l s ∈ a.m2lCalls k d) :
    c = d.coordinate ∧ l = k ∧ s = (if l = a.lowerWorkingLevel - 1
      then a.leafLevelSeparationCriteria else 1) := by
  have hsep : a.separationCriteria k
      = (if k = a.lowerWorkingLevel - 1 then a.leafLevelSeparationCriteria else 1) := by
    unfold FFmmAlgorithm.separationCriteria
    by_cases hk : k = a.lowerWorkingLevel - 1 <;> simp [hk]
  rcases a.mem_m2lCalls k d _ h with h | ⟨_, h⟩
  · simp only [Event.getInteractionNeighbors.injEq] at h
    obtain ⟨h1, h2, h3⟩ := h
    subst h2
    exact ⟨h1, rfl, h3.trans hsep⟩
  · unfold FOctree.m2lCall at h
    exact Event.noConfusion h

theorem FFmmAlgorithm.query_mem_trace (a : FFmmAlgorithm)
    (hup : 2 ≤ a.upperWorkingLevel) (hlow : a.lowerWorkingLevel ≤ a.OctreeHeight)
    (c : FTreeCoordinate) (l s : Int)
    (h : Event.getInteractionNeighbors c l s ∈ (List.range' a.upperWorkingLevel.toNat
      (a.lowerWorkingLevel - a.upperWorkingLevel).toNat).flatMap a.m2lLevel) :
    a.upperWorkingLevel ≤ l ∧ l < a.lowerWorkingLevel ∧
      s = (if l = a.lowerWorkingLevel - 1 then a.leafLevelSeparationCriteria else 1) := by
  obtain ⟨k, hk, hek⟩ := List.mem_flatMap.1 h
  have hr := a.range_lt_height hlow hup k hk
  rcases a.mem_m2lLevel k _ hek with ⟨d, _, hd⟩ | h
  · obtain ⟨_, h2, h3⟩ := a.query_mem_m2lCalls k d c l s hd
    subst h2
    exact ⟨hr.2.1, hr.2.2, h3⟩
  · exact Event.noConfusion h

theorem FFmmAlgorithmTestTask.query_mem_m2lTasks (a : FFmmAlgorithmTestTask)
    (hup : 2 ≤ a.upperWorkingLevel) (hlow : a.lowerWorkingLevel ≤ a.tree.height)
    (k : Nat) (hk : k ∈ List.range' a.upperWorkingLevel.toNat
      (a.lowerWorkingLevel - a.upperWorkingLevel).toNat)
    (t : TaskEvent) (ht : t ∈ a.m2lTasks k) (c : FTreeCoordinate) (l s : Int)
    (h : Event.getInteractionNeighbors c l s ∈ t.calls) :
    a.upperWorkingLevel ≤ l ∧ l < a.lowerWorkingLevel ∧
      s = (if l = a.lowerWorkingLevel - 1 then a.leafLevelSeparationCriteria else 1) := by
  have hr := a.sequential.range_lt_height hlow hup k hk
  obtain ⟨d, _, rfl⟩ := List.mem_map.1 ht
  obtain ⟨_, h2, h3⟩ := a.sequential.query_mem_m2lCalls k d c l s h
  subst h2
  exact ⟨hr.2.1, hr.2.2, h3⟩

theorem FFmmAlgorithmTestTask.query_not_mem_hookTasks (numThreads k : Nat) (t : TaskEvent)
    (ht : t ∈ FFmmAlgorithmTestTask.hookTasks numThreads k) (c : FTreeCoordinate)
    (l s : Int) : Event.getInteractionNeighbors c l s ∉ t.calls := by
  unfold FFmmAlgorithmTestTask.hookTasks at ht
  simp only [List.mem_append, List.mem_singleton, List.mem_map, List.mem_range] at ht
  rcases ht with (rfl | ⟨i, _, rfl⟩) | rfl <;> simp [TaskEvent.calls]

/-- C6 (as stated, refuted): on the example tree of height 4 with the working levels 2 and
3 and the leaf-level separation criterion 0, it is not the case that every interaction-list
query of `transferPass` receives the criterion 1 at an interior level and the leaf-level
criterion at the leaf level 3: the queries of the interior level 2 receive 0. -/
theorem FFmmAlgorithm.transferPass_leaf_criterion_counterexample :
    ¬ ∃ trace, (exAlgo 2 3 0).transferPass 10 = .ok trace ∧
      ∀ c l s, Event.getInteractionNeighbors c l s ∈ trace →
        s = (if l = (exAlgo 2 3 0).OctreeHeight - 1
          then (exAlgo 2 3 0).leafLevelSeparationCriteria else 1) := by
  rintro ⟨trace, htrace, hall⟩
  have h := (exAlgo 2 3 0).transferPass_trace 10 exTree_wellFormed exTree_leaves_ne_nil
    exTree_width (by decide) (by decide)
  rw [h] at htrace
  injection htrace with htrace
  subst htrace
  have h1 := hall ⟨0, 0, 0⟩ 2 0 (by decide)
  revert h1
  decide

/-- C6 (amended): in the M2L pass of `FFmmAlgorithm` and in both M2L passes of
`FFmmAlgorithmTestTask`, every interaction-list query is made at a level `l` with
`upperWorkingLevel <= l < lowerWorkingLevel` and receives the leaf-level separation criterion
when `l = lowerWorkingLevel - 1` and 1 at every other level; when `lowerWorkingLevel` is the
height of the tree this is the leaf-level criterion at the leaf level `H-1` and 1 at every
interior level. -/
theorem FFmmAlgorithmTestTask.transferPass_separation_criterion
    (a : FFmmAlgorithmTestTask) (numThreads fuel : Nat)
    (hwf : a.tree.WellFormed) (hne : a.tree.leaves ≠ []) (hfuel : a.tree.width ≤ fuel)
    (hup : 2 ≤ a.upperWorkingLevel) (hlow : a.lowerWorkingLevel ≤ a.tree.height) :
    (∃ trace, a.sequential.transferPass fuel = .ok trace ∧
      ∀ c l s, Event.getInteractionNeighbors c l s ∈ trace →
        a.upperWorkingLevel ≤ l ∧ l < a.lowerWorkingLevel ∧
        s = (if l = a.lowerWorkingLevel - 1 then a.leafLevelSeparationCriteria else 1) ∧
        (a.lowerWorkingLevel = a.tree.height →
          s = (if l = (a.tree.height : Int) - 1 then a.leafLevelSeparationCriteria else 1))) ∧
    (∃ tasks, a.transferPassWithoutFinalize fuel = .ok tasks ∧
      ∀ t ∈ tasks, ∀ c l s, Event.getInteractionNeighbors c l s ∈ t.calls →
        a.upperWorkingLevel ≤ l ∧ l < a.lowerWorkingLevel ∧
        s = (if l = a.lowerWorkingLevel - 1 then a.leafLevelSeparationCriteria else 1) ∧
        (a.lowerWorkingLevel = a.tree.height →
          s = (if l = (a.tree.height : Int) - 1 then a.leafLevelSeparationCriteria else 1))) ∧
    (∃ tasks, a.transferPassWithFinalize numThreads fuel = .ok tasks ∧
      ∀ t ∈ tasks, ∀ c l s, Event.getInteractionNeighbors c l s ∈ t.calls →
        a.upperWorkingLevel ≤ l ∧ l < a.lowerWorkingLevel ∧
        s = (if l = a.lowerWorkingLevel - 1 then a.leafLevelSeparationCriteria else 1) ∧
        (a.lowerWorkingLevel = a.tree.height →
          s = (if l = (a.tree.height : Int) - 1 then a.leafLevelSeparationCriteria else 1))) := by
  have key : ∀ l s : Int, a.upperWorkingLevel ≤ l ∧ l < a.lowerWorkingLevel ∧
      s = (if l = a.lowerWorkingLevel - 1 then a.leafLevelSeparationCriteria else 1) →
      a.upperWorkingLevel ≤ l ∧ l < a.lowerWorkingLevel ∧
      s = (if l = a.lowerWorkingLevel - 1 then a.leafLevelSeparationCriteria else 1) ∧
      (a.lowerWorkingLevel = a.tree.height →
        s = (if l = (a.tree.height : Int) - 1
          then a.leafLevelSeparationCriteria else 1)) := by
    rintro l s ⟨h1, h2, h3⟩
    refine ⟨h1, h2, h3, ?_⟩
    intro hlh
    rw [← hlh]
    exact h3
  refine ⟨⟨_, a.sequential.transferPass_trace fuel hwf hne hfuel hup hlow, ?_⟩,
    ⟨_, a.transferPassWithoutFinalize_trace fuel hwf hne hfuel hup hlow, ?_⟩,
    ⟨_, a.transferPassWithFinalize_trace numThreads fuel hwf hne hfuel hup hlow, ?_⟩⟩
  · intro c l s h
    exact key l s (a.sequential.query_mem_trace hup hlow c l s h)
  · intro t ht c l s h
    obtain ⟨k, hk, htk⟩ := List.mem_flatMap.1 ht
    exact key l s (a.query_mem_m2lTasks hup hlow k hk t htk c l s h)
  · intro t ht c l s h
    obtain ⟨k, hk, htk⟩ := List.mem_flatMap.1 ht
    rcases List.mem_append.1 htk with h1 | h1
    · exact key l s (a.query_mem_m2lTasks hup hlow k hk t h1 c l s h)
    · exact absurd h (FFmmAlgorithmTestTask.query_not_mem_hookTasks numThreads k t h1 c l s)

/-- Witness for C6 (amended): the three M2L passes on the example tree with the working
levels 2 and 3 and the leaf-level separation criterion 0, on two threads. -/
theorem FFmmAlgorithmTestTask.transferPass_separation_criterion_witness :
    (∃ trace, (exTask 2 3 0).sequential.transferPass 10 = .ok trace ∧
      ∀ c l s, Event.getInteractionNeighbors c l s ∈ trace →
        (exTask 2 3 0).upperWorkingLevel ≤ l ∧ l < (exTask 2 3 0).lowerWorkingLevel ∧
        s = (if l = (exTask 2 3 0).lowerWorkingLevel - 1
          then (exTask 2 3 0).leafLevelSeparationCriteria else 1) ∧
        ((exTask 2 3 0).lowerWorkingLevel = exTree.height →
          s = (if l = (exTree.height : Int) - 1
            then (exTask 2 3 0).leafLevelSeparationCriteria else 1))) ∧
    (∃ tasks, (exTask 2 3 0).transferPassWithoutFinalize 10 = .ok tasks ∧
      ∀ t ∈ tasks, ∀ c l s, Event.getInteractionNeighbors c l s ∈ t.calls →
        (exTask 2 3 0).upperWorkingLevel ≤ l ∧ l < (exTask 2 3 0).lowerWorkingLevel ∧
        s = (if l = (exTask 2 3 0).lowerWorkingLevel - 1
          then (exTask 2 3 0).leafLevelSeparationCriteria else 1) ∧
        ((exTask 2 3 0).lowerWorkingLevel = exTree.height →
          s = (if l = (exTree.height : Int) - 1
            then (exTask 2 3 0).leafLevelSeparationCriteria else 1))) ∧
    (∃ tasks, (exTask 2 3 0).transferPassWithFinalize 2 10 = .ok tasks ∧
      ∀ t ∈ tasks, ∀ c l s, Event.getInteractionNeighbors c l s ∈ t.calls →
        (exTask 2 3 0).upperWorkingLevel ≤ l ∧ l < (exTask 2 3 0).lowerWorkingLevel ∧
        s = (if l = (exTask 2 3 0).lowerWorkingLevel - 1
          then (exTask 2 3 0).leafLevelSeparationCriteria else 1) ∧
        ((exTask 2 3 0).lowerWorkingLevel = exTree.height →
          s = (if l = (exTree.height : Int) - 1
            then (exTask 2 3 0).leafLevelSeparationCriteria else 1))) :=
  FFmmAlgorithmTestTask.transferPass_separation_criterion (exTask 2 3 0) 2 10
    exTree_wellFormed exTree_leaves_ne_nil exTree_width (by decide) (by decide)

/-! ## The near-field filter of FChebSymKernel_i -/

theorem FChebSymKernel_i.P2POuter.foldl_eq (pre rest : List (Option ContainerClass × Int)) :
    ∀ acc : List (Option ContainerClass),
      (List.range' pre.length rest.length).foldl
        (fun neighbours i =>
          if ((pre ++ rest).map Prod.snd).getD i 0 < 14
          then neighbours ++ [((pre ++ rest).map Prod.fst).getD i none]
          else neighbours) acc
        = acc ++ (rest.filter (fun q => decide (q.2 < 14))).map Prod.fst := by
  induction rest generalizing pre with
  | nil => intro acc; simp
  | cons x rest ih =>
    intro acc
    have h := ih (pre ++ [x])
    simp only [List.append_assoc, List.singleton_append, List.length_append,
      List.length_singleton] at h
    have hs : ((pre ++ x :: rest).map Prod.snd).getD pre.length 0 = x.2 := by
      rw [List.getD_eq_getElem?_getD, List.map_append,
        List.getElem?_append_right (by simp)]
      simp
    have hf : ((pre ++ x :: rest).map Prod.fst).getD pre.length none = x.1 := by
      rw [List.getD_eq_getElem?_getD, List.map_append,
        List.getElem?_append_right (by simp)]
      simp
    rw [List.length_cons, List.range'_succ, List.foldl_cons, h, hs, hf]
    by_cases hx : x.2 < 14
    · simp [hx]
    · simp [hx]

/-- The loop of `P2POuter` keeps, in order, the neighbours whose position index is below
14. -/
theorem FChebSymKernel_i.P2POuter.neighbours_eq (found : List (Option ContainerClass × Int)) :
    FChebSymKernel_i.P2POuter.neighbours (found.map Prod.fst) (found.map Prod.snd)
        found.length
      = (found.filter (fun q => decide (q.2 < 14))).map Prod.fst := by
  unfold FChebSymKernel_i.P2POuter.neighbours
  have h := FChebSymKernel_i.P2POuter.foldl_eq [] found []
  simp only [List.length_nil, List.nil_append] at h
  rw [Int.toNat_ofNat, List.range_eq_range']
  exact h

theorem sum_map_ite_eq {α : Type} (l : List α) (hl : l.Nodup) (a : α) (ha : a ∈ l)
    (key : α → Nat) (hkey : ∀ c ∈ l, key c = key a → c = a) (g : α → Nat) :
    (l.map (fun c => if key c = key a then g c else 0)).sum = g a := by
  induction l with
  | nil => simp at ha
  | cons c l ih =>
    rw [List.nodup_cons] at hl
    rw [List.map_cons, List.sum_cons]
    by_cases hca : c = a
    · subst hca
      have hzero : (l.map (fun d => if key d = key c then g d else 0)).sum = 0 := by
        apply List.sum_eq_zero
        intro n hn
        obtain ⟨d, hd, rfl⟩ := List.mem_map.1 hn
        have hne : key d ≠ key c := by
          intro hk
          have := hkey d (List.mem_cons_of_mem _ hd) hk
          subst this
          exact hl.1 hd
        simp [hne]
      simp [hzero]
    · have hne : key c ≠ key a := fun hk => hca (hkey c (List.mem_cons_self _ _) hk)
      have ha' : a ∈ l := by
        rcases List.mem_cons.1 ha with h | h
        · exact absurd h.symm hca
        · exact h
      rw [if_neg hne, zero_add]
      exact ih hl.2 ha' (fun d hd => hkey d (List.mem_cons_of_mem _ hd))

theorem leafOffsets_nodup : leafOffsets.Nodup := by decide

theorem mem_leafOffsets (d : FTreeCoordinate) :
    d ∈ leafOffsets ↔ (-1 ≤ d.x ∧ d.x ≤ 1) ∧ (-1 ≤ d.y ∧ d.y ≤ 1) ∧ (-1 ≤ d.z ∧ d.z ≤ 1) := by
  obtain ⟨x, y, z⟩ := d
  constructor
  · intro h
    simp only [leafOffsets, List.mem_flatMap, List.mem_map, List.mem_cons, List.mem_singleton,
      List.not_mem_nil, or_false, FTreeCoordinate.mk.injEq] at h
    obtain ⟨dx, hdx, dy, hdy, dz, hdz, rfl, rfl, rfl⟩ := h
    dsimp only
    omega
  · dsimp only
    rintro ⟨hx, hy, hz⟩
    simp only [leafOffsets, List.mem_flatMap, List.mem_map, List.mem_cons, List.mem_singleton,
      List.not_mem_nil, or_false, FTreeCoordinate.mk.injEq]
    exact ⟨x, by omega, y, by omega, z, by omega, rfl, rfl, rfl⟩

theorem FTreeCoordinate.add_sub (c d : FTreeCoordinate) : c.add (d.sub c) = d := by
  obtain ⟨cx, cy, cz⟩ := c
  obtain ⟨dx, dy, dz⟩ := d
  simp [FTreeCoordinate.add, FTreeCoordinate.sub]

theorem FTreeCoordinate.eq_sub_of_add (c d e : FTreeCoordinate) (h : e = c.add d) :
    d = e.sub c := by
  obtain ⟨cx, cy, cz⟩ := c
  obtain ⟨dx, dy, dz⟩ := d
  subst h
  simp [FTreeCoordinate.add, FTreeCoordinate.sub]

theorem FTreeCoordinate.sub_eq_zero (c d : FTreeCoordinate) (h : d.sub c = ⟨0, 0, 0⟩) :
    d = c := by
  obtain ⟨cx, cy, cz⟩ := c
  obtain ⟨dx, dy, dz⟩ := d
  simp only [FTreeCoordinate.sub, FTreeCoordinate.mk.injEq] at h ⊢
  omega

/-- The slot of `getLeafsNeighborsByOffset` for the offset `d` around the leaf `A` holds the
container of the leaf `Y` iff `d` is the offset from `A` to `Y` and `Y` is not `A`. -/
theorem FOctree.neighbourSlot_iff (t : FOctree) (hg : t.LeafGeometry)
    (A Y : CellClass) (hA : A ∈ t.leaves) (hY : Y ∈ t.leaves) (d : FTreeCoordinate) (p : Int) :
    (if d ≠ ⟨0, 0, 0⟩ ∧ (A.coordinate.add d).inBox (2 ^ ((t.height : Int) - 1).toNat) then
      (t.leaves.find? (fun c => decide (c.coordinate = A.coordinate.add d))).map
        (fun leaf => (some (t.listSrc leaf), leafNeighborPosition d))
      else none) = some (some (t.listSrc Y), p)
    ↔ d = Y.coordinate.sub A.coordinate ∧ A ≠ Y ∧ p = leafNeighborPosition d := by
  obtain ⟨_, hbox, hcoord, hsrc, _⟩ := hg
  constructor
  · intro h
    split at h
    · rename_i hcond
      rw [Option.map_eq_some'] at h
      obtain ⟨leaf, hfind, hq⟩ := h
      have hmem := List.mem_of_find?_eq_some hfind
      have hc := List.find?_some hfind
      simp only [decide_eq_true_eq] at hc
      simp only [Prod.mk.injEq, Option.some.injEq] at hq
      have hleaf := hsrc leaf hmem Y hY hq.1
      subst hleaf
      have hd := FTreeCoordinate.eq_sub_of_add _ _ _ hc
      refine ⟨hd, ?_, hq.2.symm⟩
      intro hAY
      subst hAY
      apply hcond.1
      rw [hd]
      obtain ⟨cx, cy, cz⟩ := A.coordinate
      simp [FTreeCoordinate.sub]
    · exact Option.noConfusion h
  · rintro ⟨rfl, hAY, rfl⟩
    have hadd : A.coordinate.add (Y.coordinate.sub A.coordinate) = Y.coordinate :=
      FTreeCoordinate.add_sub _ _
    have hne : Y.coordinate.sub A.coordinate ≠ ⟨0, 0, 0⟩ := by
      intro h0
      exact hAY (hcoord A hA Y hY (FTreeCoordinate.sub_eq_zero _ _ h0).symm)
    rw [hadd, if_pos ⟨hne, hbox Y hY⟩]
    cases hfind : t.leaves.find? (fun c => decide (c.coordinate = Y.coordinate)) with
    | none =>
      rw [List.find?_eq_none] at hfind
      exact absurd (by simp) (hfind Y hY)
    | some leaf =>
      have hmem := List.mem_of_find?_eq_some hfind
      have hc := List.find?_some hfind
      simp only [decide_eq_true_eq] at hc
      have := hcoord leaf hmem Y hY hc
      subst this
      rfl

/-- How often `P2POuter` keeps the leaf `Y` among the neighbours of the leaf `A`: once when
`Y` is a neighbour of `A`, other than `A`, at a position index below 14, never otherwise. -/
theorem FOctree.kept_count (t : FOctree) (hg : t.LeafGeometry)
    (A Y : CellClass) (hA : A ∈ t.leaves) (hY : Y ∈ t.leaves) :
    (((getLeafsNeighborsByOffset t.leaves t.listSrc A.coordinate
          ((t.height : Int) - 1)).filter (fun q => decide (q.2 < 14))).map Prod.fst).count
        (some (t.listSrc Y))
      = if A.coordinate.adjacent Y.coordinate ∧ A ≠ Y ∧
          leafNeighborPosition (Y.coordinate.sub A.coordinate) < 14 then 1 else 0 := by
  have hslot := t.neighbourSlot_iff hg A Y hA hY
  rw [List.count_eq_countP, List.countP_map, List.countP_filter]
  unfold getLeafsNeighborsByOffset
  rw [List.countP_filterMap]
  have hcongr : ∀ d ∈ leafOffsets,
      ((Option.map (fun a => ((fun x => x == some (t.listSrc Y)) ∘ Prod.fst) a
          && decide (a.2 < 14))
        (if d ≠ ⟨0, 0, 0⟩ ∧ (A.coordinate.add d).inBox (2 ^ ((t.height : Int) - 1).toNat) then
          (t.leaves.find? (fun c => decide (c.coordinate = A.coordinate.add d))).map
            (fun leaf => (some (t.listSrc leaf), leafNeighborPosition d))
          else none)).getD false = true)
      ↔ (decide (d = Y.coordinate.sub A.coordinate ∧ A ≠ Y ∧
          leafNeighborPosition (Y.coordinate.sub A.coordinate) < 14) = true) := by
    intro d _
    rw [decide_eq_true_eq]
    constructor
    · intro h
      cases hval : (if d ≠ ⟨0, 0, 0⟩ ∧
          (A.coordinate.add d).inBox (2 ^ ((t.height : Int) - 1).toNat) then
          (t.leaves.find? (fun c => decide (c.coordinate = A.coordinate.add d))).map
            (fun leaf => (some (t.listSrc leaf), leafNeighborPosition d))
          else none) with
      | none => rw [hval] at h; simp at h
      | some q =>
        rw [hval] at h
        obtain ⟨q1, q2⟩ := q
        simp only [Option.map_some', Option.getD_some, Function.comp_apply, Bool.and_eq_true,
          beq_iff_eq, decide_eq_true_eq] at h
        obtain ⟨h1, h2⟩ := h
        subst h1
        obtain ⟨hd, hAY, hp⟩ := (hslot d q2).1 hval
        subst hp
        rw [← hd]
        exact ⟨rfl, hAY, h2⟩
    · rintro ⟨hd, hAY, hp⟩
      have hval := (hslot d (leafNeighborPosition d)).2 ⟨hd, hAY, rfl⟩
      rw [hval]
      rw [← hd] at hp
      simp [hp]
  rw [List.countP_congr hcongr]
  by_cases hcond : A.coordinate.adjacent Y.coordinate ∧ A ≠ Y ∧
      leafNeighborPosition (Y.coordinate.sub A.coordinate) < 14
  · rw [if_pos hcond]
    have hmem : Y.coordinate.sub A.coordinate ∈ leafOffsets := by
      rw [mem_leafOffsets]
      have h := hcond.1
      unfold FTreeCoordinate.adjacent at h
      simp only [FTreeCoordinate.sub]
      omega
    have hcount := List.count_eq_one_of_mem leafOffsets_nodup hmem
    rw [List.count_eq_countP] at hcount
    rw [← hcount]
    apply List.countP_congr
    intro d _
    simp only [decide_eq_true_eq, beq_iff_eq]
    constructor
    · exact fun h => h.1
    · exact fun h => ⟨h, hcond.2.1, hcond.2.2⟩
  · rw [if_neg hcond, List.countP_eq_zero]
    intro d hd
    simp only [decide_eq_true_eq]
    rintro ⟨rfl, hAY, hp⟩
    apply hcond
    refine ⟨?_, hAY, hp⟩
    rw [mem_leafOffsets] at hd
    unfold FTreeCoordinate.adjacent
    simp only [FTreeCoordinate.sub] at hd
    omega

theorem FChebSymKernel_i.mutualUpdates_flatMap (x y : ContainerClass) (l : List CellClass)
    (f : CellClass → List DirectCall) :
    FChebSymKernel_i.mutualUpdates x y (l.flatMap f)
      = (l.map (fun c => FChebSymKernel_i.mutualUpdates x y (f c))).sum := by
  induction l with
  | nil => simp [FChebSymKernel_i.mutualUpdates]
  | cons c l ih =>
    unfold FChebSymKernel_i.mutualUpdates at ih ⊢
    rw [List.flatMap_cons, List.map_append, List.sum_append, ih]
    simp

theorem FChebSymKernel_i.directCalls_flatMap (l : List CellClass)
    (f : CellClass → List Event) :
    FChebSymKernel_i.directCalls (l.flatMap f)
      = l.flatMap (fun c => FChebSymKernel_i.directCalls (f c)) := by
  induction l with
  | nil => simp [FChebSymKernel_i.directCalls]
  | cons c l ih =>
    rw [List.flatMap_cons, List.flatMap_cons, ← ih]
    unfold FChebSymKernel_i.directCalls
    rw [List.flatMap_append]

/-- The mutual updates that the direct pass triggers on one leaf: the kernel hands to the
mutual computation on the particles of the leaf the neighbours kept by `P2POuter`. -/
theorem FOctree.mutualUpdates_leaf (t : FOctree) (hg : t.LeafGeometry) (l2pEnabled : Bool)
    (c : CellClass) (hc : c ∈ t.leaves) (x y : ContainerClass) :
    FChebSymKernel_i.mutualUpdates x y
        (FChebSymKernel_i.directCalls (t.directCalls true l2pEnabled c))
      = if t.listSrc c = x then
          (((getLeafsNeighborsByOffset t.leaves t.listSrc c.coordinate
            ((t.height : Int) - 1)).filter (fun q => decide (q.2 < 14))).map Prod.fst).count
            (some y)
        else 0 := by
  have hN := hg.1 c hc
  have hsimple := hg.2.2.2.2 c hc
  have hkeep := FChebSymKernel_i.P2POuter.neighbours_eq
    (getLeafsNeighborsByOffset t.leaves t.listSrc c.coordinate ((t.height : Int) - 1))
  cases l2pEnabled <;>
    simp [FOctree.directCalls, FOctree.p2pCalls, FOctree.l2pCall,
      FChebSymKernel_i.directCalls, FChebSymKernel_i.P2P, FChebSymKernel_i.P2P_do_inner,
      FChebSymKernel_i.P2POuter, FChebSymKernel_i.mutualUpdates, DirectCall.mutual, hN,
      hsimple, hkeep]

/-- The number of mutual updates of a direct pass in which the leaf `A` passes the leaf
`Y`. -/
theorem FOctree.mutualUpdates_pass (t : FOctree) (hwf : t.WellFormed) (hg : t.LeafGeometry)
    (l2pEnabled : Bool) (A Y : CellClass) (hA : A ∈ t.leaves) (hY : Y ∈ t.leaves) :
    FChebSymKernel_i.mutualUpdates (t.listSrc A) (t.listSrc Y)
        (FChebSymKernel_i.directCalls (t.leaves.flatMap (t.directCalls true l2pEnabled)))
      = if A.coordinate.adjacent Y.coordinate ∧ A ≠ Y ∧
          leafNeighborPosition (Y.coordinate.sub A.coordinate) < 14 then 1 else 0 := by
  have hH : t.height - 1 < t.height := by have := hwf.1; omega
  rw [FChebSymKernel_i.directCalls_flatMap, FChebSymKernel_i.mutualUpdates_flatMap]
  have hterm : ∀ c ∈ t.leaves,
      FChebSymKernel_i.mutualUpdates (t.listSrc A) (t.listSrc Y)
        (FChebSymKernel_i.directCalls (t.directCalls true l2pEnabled c))
      = (fun c => if t.listSrc c = t.listSrc A then
          (((getLeafsNeighborsByOffset t.leaves t.listSrc c.coordinate
            ((t.height : Int) - 1)).filter (fun q => decide (q.2 < 14))).map Prod.fst).count
            (some (t.listSrc Y))
        else 0) c :=
    fun c hc => t.mutualUpdates_leaf hg l2pEnabled c hc _ _
  rw [List.map_congr_left hterm]
  rw [sum_map_ite_eq t.leaves (t.nodup_cells hwf _ hH) A hA t.listSrc
    (fun c hc h => hg.2.2.2.1 c hc A hA h)
    (fun c => (((getLeafsNeighborsByOffset t.leaves t.listSrc c.coordinate
      ((t.height : Int) - 1)).filter (fun q => decide (q.2 < 14))).map Prod.fst).count
      (some (t.listSrc Y)))]
  exact t.kept_count hg A Y hA hY

/-- The position index of an offset and that of the mirrored offset add up to 26 and the
centre 13 does not occur: for two distinct neighbouring coordinates, exactly one of the two
sees the other at a position index below 14. -/
theorem leafNeighborPosition_mirror (c d : FTreeCoordinate) (hadj : c.adjacent d)
    (hne : c ≠ d) :
    leafNeighborPosition (d.sub c) < 14 ↔ ¬ leafNeighborPosition (c.sub d) < 14 := by
  unfold FTreeCoordinate.adjacent at hadj
  obtain ⟨cx, cy, cz⟩ := c
  obtain ⟨dx, dy, dz⟩ := d
  simp only [ne_eq, FTreeCoordinate.mk.injEq] at hne
  simp only [leafNeighborPosition, FTreeCoordinate.sub] at hadj ⊢
  omega

/-- C9: for every pair of distinct leaves A and B that are geometric neighbours, exactly
one P2P mutual update is issued for the pair during one direct pass. In a tree whose
leaf-neighbour query lists the neighbours by offset with the position index
`(dx+1)*9 + (dy+1)*3 + (dz+1)` and whose leaves hold their targets as sources, the direct
pass ends normally and, `P2POuter` keeping a neighbour iff its position index is below 14,
the number of mutual computations in which A passes B plus the number in which B passes A
is 1; A passes B exactly when the position of B around A is below 14; and no leaf passes
itself. -/
theorem FFmmAlgorithm.directPass_mutual_update_once (a : FFmmAlgorithm) (fuel : Nat)
    (l2pEnabled : Bool)
    (hwf : a.tree.WellFormed) (hne : a.tree.leaves ≠ []) (hfuel : a.tree.width ≤ fuel)
    (hg : a.tree.LeafGeometry) (A B : CellClass) (hA : A ∈ a.tree.leaves)
    (hB : B ∈ a.tree.leaves) (hAB : A ≠ B) (hadj : A.coordinate.adjacent B.coordinate) :
    ∃ trace, a.directPass fuel true l2pEnabled = .ok trace ∧
      FChebSymKernel_i.mutualUpdates (a.tree.listSrc A) (a.tree.listSrc B)
          (FChebSymKernel_i.directCalls trace)
        + FChebSymKernel_i.mutualUpdates (a.tree.listSrc B) (a.tree.listSrc A)
          (FChebSymKernel_i.directCalls trace) = 1 ∧
      (FChebSymKernel_i.mutualUpdates (a.tree.listSrc A) (a.tree.listSrc B)
          (FChebSymKernel_i.directCalls trace) = 1
        ↔ leafNeighborPosition (B.coordinate.sub A.coordinate) < 14) ∧
      ∀ C ∈ a.tree.leaves,
        FChebSymKernel_i.mutualUpdates (a.tree.listSrc C) (a.tree.listSrc C)
          (FChebSymKernel_i.directCalls trace) = 0 := by
  refine ⟨_, a.directPass_trace fuel true l2pEnabled hwf hne hfuel, ?_, ?_, ?_⟩
  · rw [a.tree.mutualUpdates_pass hwf hg l2pEnabled A B hA hB,
      a.tree.mutualUpdates_pass hwf hg l2pEnabled B A hB hA]
    have hadj' : B.coordinate.adjacent A.coordinate := by
      unfold FTreeCoordinate.adjacent at hadj ⊢
      omega
    have hne' : A.coordinate ≠ B.coordinate :=
      fun h => hAB (hg.2.2.1 A hA B hB h)
    have hpos := leafNeighborPosition_mirror A.coordinate B.coordinate hadj hne'
    by_cases hp : leafNeighborPosition (B.coordinate.sub A.coordinate) < 14
    · have hq := hpos.1 hp
      simp [hadj, hadj', hAB, Ne.symm hAB, hp, hq]
    · have hq : leafNeighborPosition (A.coordinate.sub B.coordinate) < 14 := by
        by_contra hq
        exact hp (hpos.2 hq)
      simp [hadj, hadj', hAB, Ne.symm hAB, hp, hq]
  · rw [a.tree.mutualUpdates_pass hwf hg l2pEnabled A B hA hB]
    by_cases hp : leafNeighborPosition (B.coordinate.sub A.coordinate) < 14
    · simp [hadj, hAB, hp]
    · simp [hadj, hAB, hp]
  · intro C hC
    rw [a.tree.mutualUpdates_pass hwf hg l2pEnabled C C hC hC]
    simp

theorem exTree_leafGeometry : exTree.LeafGeometry := by decide

/-- Witness for C9: the leaves (0,0,0) and (0,0,1) of the example tree. -/
theorem FFmmAlgorithm.directPass_mutual_update_once_witness :
    ∃ trace, (exAlgo 2 4 1).directPass 10 true true = .ok trace ∧
      FChebSymKernel_i.mutualUpdates (exTree.listSrc (mkCell 3 0 0 0 0))
          (exTree.listSrc (mkCell 3 1 0 0 1)) (FChebSymKernel_i.directCalls trace)
        + FChebSymKernel_i.mutualUpdates (exTree.listSrc (mkCell 3 1 0 0 1))
          (exTree.listSrc (mkCell 3 0 0 0 0)) (FChebSymKernel_i.directCalls trace) = 1 ∧
      (FChebSymKernel_i.mutualUpdates (exTree.listSrc (mkCell 3 0 0 0 0))
          (exTree.listSrc (mkCell 3 1 0 0 1)) (FChebSymKernel_i.directCalls trace) = 1
        ↔ leafNeighborPosition
            ((mkCell 3 1 0 0 1).coordinate.sub (mkCell 3 0 0 0 0).coordinate) < 14) ∧
      ∀ C ∈ exTree.leaves,
        FChebSymKernel_i.mutualUpdates (exTree.listSrc C) (exTree.listSrc C)
          (FChebSymKernel_i.directCalls trace) = 0 :=
  FFmmAlgorithm.directPass_mutual_update_once (exAlgo 2 4 1) 10 true
    exTree_wellFormed exTree_leaves_ne_nil exTree_width exTree_leafGeometry
    (mkCell 3 0 0 0 0) (mkCell 3 1 0 0 1) (by decide) (by decide) (by decide) (by decide)

/-! ## The arrays handed to the kernel -/

theorem FOctree.children_length (t : FOctree) (c : CellClass) : (t.children c).length = 8 := by
  simp [FOctree.children]

theorem FOctree.children_getD (t : FOctree) (c : CellClass) (i : Nat) (hi : i < 8) :
    (t.children c).getD i none
      = (t.cells (c.level + 1)).find? (fun d => d.mortonIndex == 8 * c.mortonIndex + i) := by
  simp [FOctree.children, List.getD_eq_getElem?_getD, List.getElem?_map,
    List.getElem?_range hi]

theorem getD_map_option {α β : Type} (f : α → β) (l : List (Option α)) (i : Nat) :
    (l.map (fun c => c.map f)).getD i none = ((l.getD i none).map f) := by
  simp only [List.getD_eq_getElem?_getD, List.getElem?_map]
  cases l[i]? <;> simp

/-- C11: the arrays handed to the kernel are slot-aligned views of the tree. In a
well-formed tree with a leaf, working levels from 2 up and at most the height: every M2M call
(resp. L2L call) of the upward (resp. downward) pass is on a cell of the tree, its two child
arrays have 8 slots, and for every i in 0..7 the i-th symbolic pointer is child i of the
parent (the cell of the next level with Morton index 8 m + i, null when there is none), the
i-th multipole (resp. local-expansion) pointer is the data of that child, and is null iff the
child is absent; every M2L call of the transfer pass on a cell of level l is made with the
list found by getInteractionNeighbors for the cell at level l: the count passed is the count
returned, the position array is the one returned, and for every i below the count the i-th
symbolic pointer is neighbors[i], the i-th multipole pointer the multipole data of
neighbors[i], null iff neighbors[i] is null. -/
theorem FFmmAlgorithm.kernel_arrays_slot_aligned (a : FFmmAlgorithm) (fuel : Nat)
    (hwf : a.tree.WellFormed) (hne : a.tree.leaves ≠ []) (hfuel : a.tree.width ≤ fuel)
    (hup : 2 ≤ a.upperWorkingLevel) (hlow : a.lowerWorkingLevel ≤ a.OctreeHeight) :
    ∃ up tr dn, a.upwardPass fuel = .ok up ∧ a.transferPass fuel = .ok tr ∧
      a.downardPass fuel = .ok dn ∧
      (∀ pm ps cm cs, Event.M2M pm ps cm cs ∈ up →
        ps ∈ a.tree.cells ps.level ∧ pm = ps.getMultipoleData ∧
        cm.length = 8 ∧ cs.length = 8 ∧
        ∀ i, i < 8 →
          cs.getD i none = (a.tree.cells (ps.level + 1)).find?
            (fun d => d.mortonIndex == 8 * ps.mortonIndex + i) ∧
          cm.getD i none = (cs.getD i none).map CellClass.getMultipoleData ∧
          (cm.getD i none = none ↔ cs.getD i none = none)) ∧
      (∀ pl ps cl cs, Event.L2L pl ps cl cs ∈ dn →
        ps ∈ a.tree.cells ps.level ∧ pl = ps.getLocalExpansionData ∧
        cl.length = 8 ∧ cs.length = 8 ∧
        ∀ i, i < 8 →
          cs.getD i none = (a.tree.cells (ps.level + 1)).find?
            (fun d => d.mortonIndex == 8 * ps.mortonIndex + i) ∧
          cl.getD i none = (cs.getD i none).map CellClass.getLocalExpansionData ∧
          (cl.getD i none = none ↔ cs.getD i none = none)) ∧
      (∀ tl ts nm ns np counter, Event.M2L tl ts nm ns np counter ∈ tr →
        ts ∈ a.tree.cells ts.level ∧ tl = ts.getLocalExpansionData ∧
        counter = ((a.tree.getInteractionNeighbors ts.coordinate ts.level
          (a.separationCriteria ts.level)).length : Int) ∧
        0 < counter ∧
        np = (a.tree.getInteractionNeighbors ts.coordinate ts.level
          (a.separationCriteria ts.level)).map Prod.snd ∧
        ns = (a.tree.getInteractionNeighbors ts.coordinate ts.level
          (a.separationCriteria ts.level)).map Prod.fst ∧
        nm.length = ns.length ∧ (ns.length : Int) = counter ∧
        ∀ i : Nat, (i : Int) < counter →
          nm.getD i none = (ns.getD i none).map CellClass.getMultipoleData ∧
          (nm.getD i none = none ↔ ns.getD i none = none)) := by
  have hH : a.OctreeHeight = (a.tree.height : Int) := rfl
  refine ⟨_, _, _, a.upwardPass_trace fuel hwf hne hfuel (by omega),
    a.transferPass_trace fuel hwf hne hfuel hup hlow,
    a.downardPass_trace fuel hwf hne hfuel hup hlow, ?_, ?_, ?_⟩
  · intro pm ps cm cs he
    obtain ⟨l, hl, hel⟩ := List.mem_flatMap.1 he
    obtain ⟨c, hc, hec⟩ := List.mem_map.1 hel
    have hlH : l < a.tree.height := by
      have := List.mem_reverse.1 hl
      rw [List.mem_range'_1] at this
      omega
    have hlev := hwf.2.2.1 l hlH c hc
    simp only [FOctree.m2mCall, Event.M2M.injEq] at hec
    obtain ⟨rfl, rfl, rfl, rfl⟩ := hec
    refine ⟨by rw [hlev]; exact hc, rfl, by simp [FOctree.children_length],
      FOctree.children_length _ _, ?_⟩
    intro i hi
    refine ⟨FOctree.children_getD _ _ i hi, getD_map_option _ _ i, ?_⟩
    rw [getD_map_option]
    cases (a.tree.children c).getD i none <;> simp
  · intro pl ps cl cs he
    obtain ⟨l, hl, hel⟩ := List.mem_flatMap.1 he
    obtain ⟨c, hc, hec⟩ := List.mem_map.1 hel
    have hlH : l < a.tree.height := by
      rw [List.mem_range'_1] at hl
      omega
    have hlev := hwf.2.2.1 l hlH c hc
    simp only [FOctree.l2lCall, Event.L2L.injEq] at hec
    obtain ⟨rfl, rfl, rfl, rfl⟩ := hec
    refine ⟨by rw [hlev]; exact hc, rfl, by simp [FOctree.children_length],
      FOctree.children_length _ _, ?_⟩
    intro i hi
    refine ⟨FOctree.children_getD _ _ i hi, getD_map_option _ _ i, ?_⟩
    rw [getD_map_option]
    cases (a.tree.children c).getD i none <;> simp
  · intro tl ts nm ns np counter he
    obtain ⟨l, hl, hel⟩ := List.mem_flatMap.1 he
    have hlH := (a.range_lt_height hlow hup l hl).1
    rcases a.mem_m2lLevel l _ hel with ⟨c, hc, hec⟩ | h
    · rcases a.mem_m2lCalls l c _ hec with h | ⟨hfound, h⟩
      · cases h
      · have hlev := hwf.2.2.1 l hlH c hc
        simp only [FOctree.m2lCall, Event.M2L.injEq] at h
        obtain ⟨rfl, rfl, rfl, rfl, rfl, rfl⟩ := h
        rw [hlev]
        refine ⟨hc, rfl, rfl, ?_, rfl, rfl, by simp, by simp, ?_⟩
        · have := List.length_pos.2 hfound
          omega
        · intro i _
          refine ⟨getD_map_option _ _ i, ?_⟩
          rw [getD_map_option]
          cases ((a.tree.getInteractionNeighbors ts.coordinate (l : Int)
            (a.separationCriteria l)).map Prod.fst).getD i none <;> simp
    · cases h

/-- Witness for C11: the example tree of height 4 with the working levels 2 to 4 and
separation criterion 1. -/
theorem FFmmAlgorithm.kernel_arrays_slot_aligned_witness :
    ∃ up tr dn, (exAlgo 2 4 1).upwardPass 10 = .ok up ∧ (exAlgo 2 4 1).transferPass 10 = .ok tr ∧
      (exAlgo 2 4 1).downardPass 10 = .ok dn ∧
      (∀ pm ps cm cs, Event.M2M pm ps cm cs ∈ up →
        ps ∈ exTree.cells ps.level ∧ pm = ps.getMultipoleData ∧
        cm.length = 8 ∧ cs.length = 8 ∧
        ∀ i, i < 8 →
          cs.getD i none = (exTree.cells (ps.level + 1)).find?
            (fun d => d.mortonIndex == 8 * ps.mortonIndex + i) ∧
          cm.getD i none = (cs.getD i none).map CellClass.getMultipoleData ∧
          (cm.getD i none = none ↔ cs.getD i none = none)) ∧
      (∀ pl ps cl cs, Event.L2L pl ps cl cs ∈ dn →
        ps ∈ exTree.cells ps.level ∧ pl = ps.getLocalExpansionData ∧
        cl.length = 8 ∧ cs.length = 8 ∧
        ∀ i, i < 8 →
          cs.getD i none = (exTree.cells (ps.level + 1)).find?
            (fun d => d.mortonIndex == 8 * ps.mortonIndex + i) ∧
          cl.getD i none = (cs.getD i none).map CellClass.getLocalExpansionData ∧
          (cl.getD i none = none ↔ cs.getD i none = none)) ∧
      (∀ tl ts nm ns np counter, Event.M2L tl ts nm ns np counter ∈ tr →
        ts ∈ exTree.cells ts.level ∧ tl = ts.getLocalExpansionData ∧
        counter = ((exTree.getInteractionNeighbors ts.coordinate ts.level
          ((exAlgo 2 4 1).separationCriteria ts.level)).length : Int) ∧
        0 < counter ∧
        np = (exTree.getInteractionNeighbors ts.coordinate ts.level
          ((exAlgo 2 4 1).separationCriteria ts.level)).map Prod.snd ∧
        ns = (exTree.getInteractionNeighbors ts.coordinate ts.level
          ((exAlgo 2 4 1).separationCriteria ts.level)).map Prod.fst ∧
        nm.length = ns.length ∧ (ns.length : Int) = counter ∧
        ∀ i : Nat, (i : Int) < counter →
          nm.getD i none = (ns.getD i none).map CellClass.getMultipoleData ∧
          (nm.getD i none = none ↔ ns.getD i none = none)) :=
  FFmmAlgorithm.kernel_arrays_slot_aligned (exAlgo 2 4 1) 10
    exTree_wellFormed exTree_leaves_ne_nil exTree_width (by decide) (by decide)

/-! ## Construction -/

theorem mapM_copyKernel (k : KernelClass) (n : Nat) :
    (List.range n).mapM (fun _ => copyKernel (some k)) = .ok (List.replicate n k) := by
  have h : ∀ l : List Nat, l.mapM (fun _ => copyKernel (some k))
      = (.ok (List.replicate l.length k) : Except ConstructionFault (List KernelClass)) := by
    intro l
    induction l with
    | nil => rfl
    | cons x xs ih =>
      rw [List.mapM_cons, ih]
      rfl
  simpa using h (List.range n)

theorem FFmmAlgorithm.construct_eq (t : FOctree) (k : KernelClass) (s : Int) :
    FFmmAlgorithm.construct (some t) (some k) s
      = if s < 3 then .ok ⟨some t, some k, t.height, s, t.height⟩
        else .error (.assertion "Separation criteria should be < 3") := by
  by_cases h : s < 3 <;>
  simp [FFmmAlgorithm.construct, getHeight, FAssertLF, h, bind, Except.bind, pure, Except.pure]

theorem FFmmAlgorithmTestTask.task_construct_eq (t : FOctree) (k : KernelClass) (s : Int)
    (numThreads : Nat) :
    FFmmAlgorithmTestTask.construct (some t) (some k) s numThreads
      = if s < 3 then
          .ok ⟨some t, List.replicate numThreads k, numThreads, t.height, s, t.height⟩
        else .error (.assertion "Separation criteria should be < 3") := by
  simp only [FFmmAlgorithmTestTask.construct, mapM_copyKernel]
  by_cases h : s < 3 <;>
  simp [getHeight, FAssertLF, h, bind, Except.bind, pure, Except.pure]

/-- C12: constructing `FFmmAlgorithm` or `FFmmAlgorithmTestTask` on a tree and a kernel
(both not null) with the leaf-level separation criterion s ends in the failure of the
assertion 'Separation criteria should be < 3' iff s >= 3; for s < 3 the construction
succeeds and the member leafLevelSeparationCriteria is s. -/
theorem FFmmAlgorithm.construct_separation_criterion (t : FOctree) (k : KernelClass) (s : Int)
    (numThreads : Nat) :
    (FFmmAlgorithm.construct (some t) (some k) s
      = if s < 3 then .ok ⟨some t, some k, t.height, s, t.height⟩
        else .error (.assertion "Separation criteria should be < 3")) ∧
    (FFmmAlgorithmTestTask.construct (some t) (some k) s numThreads
      = if s < 3 then
          .ok ⟨some t, List.replicate numThreads k, numThreads, t.height, s, t.height⟩
        else .error (.assertion "Separation criteria should be < 3")) ∧
    ((∃ fault, FFmmAlgorithm.construct (some t) (some k) s = .error fault) ↔ 3 ≤ s) ∧
    ((∃ fault, FFmmAlgorithmTestTask.construct (some t) (some k) s numThreads = .error fault)
      ↔ 3 ≤ s) ∧
    (FFmmAlgorithm.construct (some t) (some k) s
        = .error (.assertion "Separation criteria should be < 3") ↔ 3 ≤ s) ∧
    (FFmmAlgorithmTestTask.construct (some t) (some k) s numThreads
        = .error (.assertion "Separation criteria should be < 3") ↔ 3 ≤ s) ∧
    ((∃ m, FFmmAlgorithm.construct (some t) (some k) s = .ok m ∧
        m.leafLevelSeparationCriteria = s) ↔ s < 3) ∧
    ((∃ m, FFmmAlgorithmTestTask.construct (some t) (some k) s numThreads = .ok m ∧
        m.leafLevelSeparationCriteria = s) ↔ s < 3) := by
  have h1 := FFmmAlgorithm.construct_eq t k s
  have h2 := FFmmAlgorithmTestTask.task_construct_eq t k s numThreads
  refine ⟨h1, h2, ?_⟩
  by_cases h : s < 3
  · rw [if_pos h] at h1 h2
    rw [h1, h2]
    simp [h]
  · rw [if_neg h] at h1 h2
    rw [h1, h2]
    simp [h]
    omega

/-- Witness for C12: the example tree, a kernel, two threads; criterion 3 is refused,
criterion 2 and the negative criterion -5 are accepted. -/
theorem FFmmAlgorithm.construct_separation_criterion_witness :
    FFmmAlgorithm.construct (some exTree) (some 0) 3
      = .error (.assertion "Separation criteria should be < 3") ∧
    FFmmAlgorithmTestTask.construct (some exTree) (some 0) 3 2
      = .error (.assertion "Separation criteria should be < 3") ∧
    FFmmAlgorithm.construct (some exTree) (some 0) 2 = .ok ⟨some exTree, some 0, 4, 2, 4⟩ ∧
    FFmmAlgorithmTestTask.construct (some exTree) (some 0) (-5) 2
      = .ok ⟨some exTree, [0, 0], 2, 4, -5, 4⟩ :=
  ⟨(FFmmAlgorithm.construct_separation_criterion exTree 0 3 2).1,
   (FFmmAlgorithm.construct_separation_criterion exTree 0 3 2).2.1,
   (FFmmAlgorithm.construct_separation_criterion exTree 0 2 2).1,
   (FFmmAlgorithm.construct_separation_criterion exTree 0 (-5) 2).2.1⟩

/-- C13 (the code departs from the claim and from its own documentation): with a null tree
both constructors dereference the null pointer in the member initialiser
`OctreeHeight(tree->getHeight())`, before the body and its `FAssertLF(tree, ...)` are
reached: the construction does not end in the diagnostic 'tree cannot be null', whatever the
kernel and the separation criterion. With a tree and a null kernel the construction does end
in the diagnostic 'kernels cannot be null', no member of the kernel being accessed. -/
theorem FFmmAlgorithm.construct_null_tree (k : Option KernelClass) (s : Int)
    (numThreads : Nat) (t : FOctree) :
    FFmmAlgorithm.construct none k s = .error .nullDereference ∧
    FFmmAlgorithmTestTask.construct none k s numThreads = .error .nullDereference ∧
    FFmmAlgorithm.construct none k s ≠ .error (.assertion "tree cannot be null") ∧
    FFmmAlgorithmTestTask.construct none k s numThreads
      ≠ .error (.assertion "tree cannot be null") ∧
    FFmmAlgorithm.construct (some t) none s = .error (.assertion "kernels cannot be null") ∧
    FFmmAlgorithmTestTask.construct (some t) none s numThreads
      = .error (.assertion "kernels cannot be null") := by
  have h1 : FFmmAlgorithm.construct none k s = .error .nullDereference := rfl
  have h2 : FFmmAlgorithmTestTask.construct none k s numThreads = .error .nullDereference := rfl
  refine ⟨h1, h2, ?_, ?_, rfl, rfl⟩
  · rw [h1]; simp
  · rw [h2]; simp

/-! ## The empty tree -/

theorem Iterator.getCurrentCell_empty (t : FOctree) (hempty : ∀ l, t.cells l = [])
    (it : Iterator) : it.getCurrentCell t = .error .invalidAccess := by
  simp [Iterator.getCurrentCell, hempty]

theorem doWhileMoveRight_fault {α : Type} (t : FOctree)
    (body : Iterator → Except Fault (List α)) (fuel : Nat) (it : Iterator) (e : Fault)
    (h : body it = .error e) : doWhileMoveRight t body (fuel + 1) it = .error e := by
  simp [doWhileMoveRight, h, bind, Except.bind]

theorem FFmmAlgorithm.bottomPass_empty (a : FFmmAlgorithm) (hempty : ∀ l, a.tree.cells l = [])
    (fuel : Nat) : a.bottomPass (fuel + 1) = .error .invalidAccess := by
  unfold FFmmAlgorithm.bottomPass
  apply doWhileMoveRight_fault
  simp [FFmmAlgorithm.bottomPassBody, Iterator.getCurrentCell_empty _ hempty, bind, Except.bind]

theorem FFmmAlgorithm.upwardPass_empty (a : FFmmAlgorithm) (hempty : ∀ l, a.tree.cells l = [])
    (fuel : Nat) :
    a.upwardPass (fuel + 1)
      = if min (a.OctreeHeight - 2) (a.lowerWorkingLevel - 1) - a.upperWorkingLevel + 1 ≤ 0
        then .ok [] else .error .invalidAccess := by
  unfold FFmmAlgorithm.upwardPass
  simp only []
  generalize (min (a.OctreeHeight - 2) (a.lowerWorkingLevel - 1)
    - a.upperWorkingLevel + 1) = k
  cases hn : k.toNat with
  | zero =>
    rw [if_pos (by omega)]
    rfl
  | succ n =>
    rw [if_neg (by omega)]
    unfold FFmmAlgorithm.upwardPassLevels
    rw [doWhileMoveRight_fault _ _ _ _ .invalidAccess]
    · rfl
    · simp [FFmmAlgorithm.upwardPassBody, Iterator.getCurrentCell_empty _ hempty, bind,
        Except.bind]

theorem FFmmAlgorithm.transferPass_empty (a : FFmmAlgorithm)
    (hempty : ∀ l, a.tree.cells l = []) (fuel : Nat) :
    a.transferPass (fuel + 1)
      = if a.lowerWorkingLevel - a.upperWorkingLevel ≤ 0 then .ok []
        else .error .invalidAccess := by
  unfold FFmmAlgorithm.transferPass
  simp only []
  generalize (a.lowerWorkingLevel - a.upperWorkingLevel) = k
  cases hn : k.toNat with
  | zero =>
    rw [if_pos (by omega)]
    rfl
  | succ n =>
    rw [if_neg (by omega)]
    unfold FFmmAlgorithm.transferPassLevels
    simp only []
    rw [doWhileMoveRight_fault _ _ _ _ .invalidAccess]
    · rfl
    · simp [FFmmAlgorithm.transferPassBody, Iterator.getCurrentGlobalCoordinate,
        Iterator.getCurrentCell_empty _ hempty, bind, Except.bind, Except.map]

theorem FFmmAlgorithm.downardPass_empty (a : FFmmAlgorithm)
    (hempty : ∀ l, a.tree.cells l = []) (fuel : Nat) :
    a.downardPass (fuel + 1)
      = if a.lowerWorkingLevel - 1 - a.upperWorkingLevel ≤ 0 then .ok []
        else .error .invalidAccess := by
  unfold FFmmAlgorithm.downardPass
  simp only []
  generalize (a.lowerWorkingLevel - 1 - a.upperWorkingLevel) = k
  cases hn : k.toNat with
  | zero =>
    rw [if_pos (by omega)]
    rfl
  | succ n =>
    rw [if_neg (by omega)]
    unfold FFmmAlgorithm.downardPassLevels
    rw [doWhileMoveRight_fault _ _ _ _ .invalidAccess]
    · rfl
    · simp [FFmmAlgorithm.downardPassBody, Iterator.getCurrentCell_empty _ hempty, bind,
        Except.bind]

theorem FFmmAlgorithm.directPass_empty (a : FFmmAlgorithm)
    (hempty : ∀ l, a.tree.cells l = []) (fuel : Nat) (p2pEnabled l2pEnabled : Bool)
    (h : p2pEnabled = true ∨ l2pEnabled = true) :
    a.directPass (fuel + 1) p2pEnabled l2pEnabled = .error .invalidAccess := by
  unfold FFmmAlgorithm.directPass
  apply doWhileMoveRight_fault
  cases l2pEnabled <;> cases p2pEnabled <;>
  simp [FFmmAlgorithm.directPassBody, Iterator.getCurrentGlobalCoordinate,
    Iterator.getCurrentCell_empty _ hempty, bind, Except.bind, Except.map, pure,
    Except.pure] at h ⊢

/-- C14 (as stated, refuted): on the tree built from an empty particle set (height 4, no
cell on any level), with the working levels 2 to 4 and every pass enabled, no amount of
loop fuel makes the run complete: `executeCore` never returns a trace, so it does not
complete as a sequence of no-ops. -/
theorem FFmmAlgorithm.executeCore_empty_tree_counterexample :
    ¬ ∃ fuel trace, exEmptyAlgo.executeCore exOps fuel 63 = .ok trace := by
  rintro ⟨fuel, trace, h⟩
  cases fuel with
  | zero =>
    have e : exEmptyAlgo.executeCore exOps 0 63 = .error .outOfFuel := rfl
    rw [e] at h
    cases h
  | succ n =>
    have e : exEmptyAlgo.executeCore exOps (n + 1) 63 = .error .invalidAccess := rfl
    rw [e] at h
    cases h

/-- C14 (amended): in a tree with no cell on any level, the loop `do { ... }
while(moveRight())` of a pass runs its body once and the body uses the current cell of an
empty level, which does not exist. A run either completes with the empty trace or ends in an
invalid access; it completes (as a no-op, the empty trace) exactly when no such loop is
entered: P2M, P2P and L2P are disabled and each of M2M, M2L, L2L is disabled or has an empty
range of levels. In particular a run with P2M enabled (such as the run with every pass
enabled) ends in an invalid access. The statement is silent on what the kernel is handed
before the run ends. -/
theorem FFmmAlgorithm.executeCore_empty_tree (a : FFmmAlgorithm) (ops : FFmmOperations)
    (fuel : Nat) (operationsToProceed : Nat)
    (hempty : ∀ l, a.tree.cells l = []) (hfuel : 0 < fuel) :
    (a.executeCore ops fuel operationsToProceed = .ok [] ∨
      a.executeCore ops fuel operationsToProceed = .error .invalidAccess) ∧
    (a.executeCore ops fuel operationsToProceed = .ok [] ↔
      operationsToProceed &&& ops.FFmmP2M = 0 ∧ operationsToProceed &&& ops.FFmmP2P = 0 ∧
      operationsToProceed &&& ops.FFmmL2P = 0 ∧
      (operationsToProceed &&& ops.FFmmM2M ≠ 0 →
        min (a.OctreeHeight - 2) (a.lowerWorkingLevel - 1) - a.upperWorkingLevel + 1 ≤ 0) ∧
      (operationsToProceed &&& ops.FFmmM2L ≠ 0 →
        a.lowerWorkingLevel - a.upperWorkingLevel ≤ 0) ∧
      (operationsToProceed &&& ops.FFmmL2L ≠ 0 →
        a.lowerWorkingLevel - 1 - a.upperWorkingLevel ≤ 0)) ∧
    (operationsToProceed &&& ops.FFmmP2M ≠ 0 →
      a.executeCore ops fuel operationsToProceed = .error .invalidAccess) := by
  obtain ⟨f, rfl⟩ : ∃ f, fuel = f + 1 := ⟨fuel - 1, by omega⟩
  unfold FFmmAlgorithm.executeCore
  rw [a.bottomPass_empty hempty, a.upwardPass_empty hempty, a.transferPass_empty hempty,
    a.downardPass_empty hempty]
  by_cases h1 : operationsToProceed &&& ops.FFmmP2M = 0
  · by_cases h5 : operationsToProceed &&& ops.FFmmP2P = 0
    · by_cases h6 : operationsToProceed &&& ops.FFmmL2P = 0
      · by_cases h2 : operationsToProceed &&& ops.FFmmM2M = 0 <;>
        by_cases h3 : operationsToProceed &&& ops.FFmmM2L = 0 <;>
        by_cases h4 : operationsToProceed &&& ops.FFmmL2L = 0 <;>
        by_cases k2 : min (a.OctreeHeight - 2) (a.lowerWorkingLevel - 1)
          - a.upperWorkingLevel + 1 ≤ 0 <;>
        by_cases k3 : a.lowerWorkingLevel - a.upperWorkingLevel ≤ 0 <;>
        by_cases k4 : a.lowerWorkingLevel - 1 - a.upperWorkingLevel ≤ 0 <;>
        simp [h1, h2, h3, h4, h5, h6, k2, k3, k4, bind, Except.bind, pure, Except.pure]
      · rw [a.directPass_empty hempty f _ _ (Or.inr (by simpa using h6))]
        by_cases h2 : operationsToProceed &&& ops.FFmmM2M = 0 <;>
        by_cases h3 : operationsToProceed &&& ops.FFmmM2L = 0 <;>
        by_cases h4 : operationsToProceed &&& ops.FFmmL2L = 0 <;>
        by_cases k2 : min (a.OctreeHeight - 2) (a.lowerWorkingLevel - 1)
          - a.upperWorkingLevel + 1 ≤ 0 <;>
        by_cases k3 : a.lowerWorkingLevel - a.upperWorkingLevel ≤ 0 <;>
        by_cases k4 : a.lowerWorkingLevel - 1 - a.upperWorkingLevel ≤ 0 <;>
        simp [h1, h2, h3, h4, h5, h6, k2, k3, k4, bind, Except.bind, pure, Except.pure]
    · rw [a.directPass_empty hempty f _ _ (Or.inl (by simpa using h5))]
      by_cases h2 : operationsToProceed &&& ops.FFmmM2M = 0 <;>
      by_cases h3 : operationsToProceed &&& ops.FFmmM2L = 0 <;>
      by_cases h4 : operationsToProceed &&& ops.FFmmL2L = 0 <;>
      by_cases k2 : min (a.OctreeHeight - 2) (a.lowerWorkingLevel - 1)
        - a.upperWorkingLevel + 1 ≤ 0 <;>
      by_cases k3 : a.lowerWorkingLevel - a.upperWorkingLevel ≤ 0 <;>
      by_cases k4 : a.lowerWorkingLevel - 1 - a.upperWorkingLevel ≤ 0 <;>
      simp [h1, h2, h3, h4, h5, k2, k3, k4, bind, Except.bind, pure, Except.pure]
  · simp [h1, bind, Except.bind, pure, Except.pure]

/-- Witness for C14: the empty tree of height 4 with the working levels 2 to 4, every pass
enabled. -/
theorem FFmmAlgorithm.executeCore_empty_tree_witness :
    (∀ l, exEmptyAlgo.tree.cells l = []) ∧
    (exEmptyAlgo.executeCore exOps 10 63 = .ok [] ∨
      exEmptyAlgo.executeCore exOps 10 63 = .error .invalidAccess) ∧
    (exEmptyAlgo.executeCore exOps 10 63 = .ok [] ↔
      63 &&& exOps.FFmmP2M = 0 ∧ 63 &&& exOps.FFmmP2P = 0 ∧
      63 &&& exOps.FFmmL2P = 0 ∧
      (63 &&& exOps.FFmmM2M ≠ 0 →
        min (exEmptyAlgo.OctreeHeight - 2) (exEmptyAlgo.lowerWorkingLevel - 1)
          - exEmptyAlgo.upperWorkingLevel + 1 ≤ 0) ∧
      (63 &&& exOps.FFmmM2L ≠ 0 →
        exEmptyAlgo.lowerWorkingLevel - exEmptyAlgo.upperWorkingLevel ≤ 0) ∧
      (63 &&& exOps.FFmmL2L ≠ 0 →
        exEmptyAlgo.lowerWorkingLevel - 1 - exEmptyAlgo.upperWorkingLevel ≤ 0)) ∧
    (63 &&& exOps.FFmmP2M ≠ 0 →
      exEmptyAlgo.executeCore exOps 10 63 = .error .invalidAccess) :=
  ⟨fun _ => rfl,
    FFmmAlgorithm.executeCore_empty_tree exEmptyAlgo exOps 10 63 (fun _ => rfl) (by decide)⟩

/-! ## The tree of a single particle -/

theorem FFmmAlgorithm.expectedTrace_filter_bottom (a : FFmmAlgorithm) (ops : FFmmOperations)
    (mask : Nat) :
    (a.expectedTrace ops mask).filter (fun e => decide (e.pass = 0))
      = if mask &&& ops.FFmmP2M ≠ 0 then a.tree.leaves.map a.tree.p2mCall else [] := by
  have hnil : ∀ (l : List Event) (k : Nat), k ≠ 0 → (∀ e ∈ l, e.pass = k) →
      l.filter (fun e => decide (e.pass = 0)) = [] := by
    intro l k hk h
    rw [List.filter_eq_nil_iff]
    intro e he
    have := h e he
    simp only [decide_eq_true_eq]
    omega
  have hall : ∀ (l : List Event), (∀ e ∈ l, e.pass = 0) →
      l.filter (fun e => decide (e.pass = 0)) = l := by
    intro l h
    rw [List.filter_eq_self]
    intro e he
    simp [h e he]
  unfold FFmmAlgorithm.expectedTrace
  simp only [List.filter_append]
  rw [hall, hnil _ 1 (by omega), hnil _ 2 (by omega), hnil _ 3 (by omega),
    hnil _ 4 (by omega)]
  · simp
  · exact fun e he => (a.tree.directCalls_pass ops _ _ _ e he).1
  · intro e he
    split at he
    · exact (a.tree.l2lCall_pass ops _ e he).1
    · simp at he
  · intro e he
    split at he
    · exact (a.m2lLevel_pass ops _ e he).1
    · simp at he
  · intro e he
    split at he
    · exact (a.tree.m2mCall_pass ops _ e he).1
    · simp at he
  · intro e he
    split at he
    · exact (a.tree.p2mCall_pass ops _ e he).1
    · simp at he

theorem FFmmAlgorithm.expectedTrace_filter_transfer (a : FFmmAlgorithm)
    (ops : FFmmOperations) (mask : Nat) :
    (a.expectedTrace ops mask).filter (fun e => decide (e.pass = 2))
      = if mask &&& ops.FFmmM2L ≠ 0 then
          (List.range' a.upperWorkingLevel.toNat
            (a.lowerWorkingLevel - a.upperWorkingLevel).toNat).flatMap a.m2lLevel
        else [] := by
  have hnil : ∀ (l : List Event) (k : Nat), k ≠ 2 → (∀ e ∈ l, e.pass = k) →
      l.filter (fun e => decide (e.pass = 2)) = [] := by
    intro l k hk h
    rw [List.filter_eq_nil_iff]
    intro e he
    have := h e he
    simp only [decide_eq_true_eq]
    omega
  have hall : ∀ (l : List Event), (∀ e ∈ l, e.pass = 2) →
      l.filter (fun e => decide (e.pass = 2)) = l := by
    intro l h
    rw [List.filter_eq_self]
    intro e he
    simp [h e he]
  unfold FFmmAlgorithm.expectedTrace
  simp only [List.filter_append]
  rw [hnil _ 0 (by omega), hnil _ 1 (by omega), hall, hnil _ 3 (by omega),
    hnil _ 4 (by omega)]
  · simp
  · exact fun e he => (a.tree.directCalls_pass ops _ _ _ e he).1
  · intro e he
    split at he
    · exact (a.tree.l2lCall_pass ops _ e he).1
    · simp at he
  · intro e he
    split at he
    · exact (a.m2lLevel_pass ops _ e he).1
    · simp at he
  · intro e he
    split at he
    · exact (a.tree.m2mCall_pass ops _ e he).1
    · simp at he
  · intro e he
    split at he
    · exact (a.tree.p2mCall_pass ops _ e he).1
    · simp at he

theorem countP_filter_pass (p : Event → Bool) (k : Nat) (hp : ∀ e, p e = true → e.pass = k)
    (l : List Event) :
    l.countP p = (l.filter (fun e => decide (e.pass = k))).countP p := by
  rw [List.countP_filter]
  apply List.countP_congr
  intro e _
  constructor
  · intro h
    simp [h, hp e h]
  · intro h
    simp only [Bool.and_eq_true] at h
    exact h.1

theorem FChebSymKernel_i.directCalls_filter (l : List Event) :
    FChebSymKernel_i.directCalls l
      = FChebSymKernel_i.directCalls (l.filter (fun e => decide (e.pass = 4))) := by
  induction l with
  | nil => rfl
  | cons e l ih =>
    unfold FChebSymKernel_i.directCalls at ih ⊢
    cases e <;> simp [List.filter_cons, Event.pass, ih]

theorem FFmmAlgorithm.interaction_list_single (a : FFmmAlgorithm)
    (hothers : a.NeighboursAreOthers) (l : Nat) (hone : (a.tree.cells l).length = 1)
    (c : CellClass) (hc : c ∈ a.tree.cells l) :
    a.tree.getInteractionNeighbors c.coordinate l (a.separationCriteria l) = [] := by
  rw [List.eq_nil_iff_forall_not_mem]
  intro p hp
  obtain ⟨d, hd, hdc, _⟩ := hothers.1 l c hc p hp
  obtain ⟨x, hx⟩ := List.length_eq_one.1 hone
  rw [hx, List.mem_singleton] at hc hd
  exact hdc (hd.trans hc.symm)

theorem FFmmAlgorithm.leaf_neighbours_single (a : FFmmAlgorithm)
    (hothers : a.NeighboursAreOthers) (leaf : CellClass) (hleaf : a.tree.leaves = [leaf]) :
    a.tree.getLeafsNeighbors leaf.coordinate ((a.tree.height : Int) - 1) = [] := by
  rw [List.eq_nil_iff_forall_not_mem]
  intro p hp
  obtain ⟨d, hd, hdc, _⟩ := hothers.2 leaf (by rw [hleaf]; exact List.mem_singleton.2 rfl) p hp
  rw [hleaf, List.mem_singleton] at hd
  exact hdc hd

/-- C15: in a well-formed tree with exactly one leaf and one cell on every level from 1 on,
whose neighbour queries return other cells of the tree and whose leaf has the same target
and source particles, a run with P2M, L2P and P2P enabled (in particular a full run) over
working levels from 2 up and at most the height ends normally and issues exactly one P2M
call and exactly one L2P call, both on the leaf, no M2L call (every interaction list is
empty) and exactly one P2P call, with an empty neighbour array and the count 0; from it
`FChebSymKernel_i::P2P` hands through `P2POuter` an empty neighbour list of size 0 to the
mutual computation, its only other call is the inner computation on the particles of the
leaf. -/
theorem FFmmAlgorithm.executeCore_single_particle (a : FFmmAlgorithm) (ops : FFmmOperations)
    (fuel operationsToProceed : Nat) (leaf : CellClass)
    (hwf : a.tree.WellFormed) (hleaf : a.tree.leaves = [leaf])
    (hone : ∀ l, 1 ≤ l → l < a.tree.height → (a.tree.cells l).length = 1)
    (hothers : a.NeighboursAreOthers)
    (hsimple : a.tree.listTargets leaf = a.tree.listSrc leaf)
    (hfuel : a.tree.width ≤ fuel)
    (hup : 2 ≤ a.upperWorkingLevel) (hlow : a.lowerWorkingLevel ≤ a.OctreeHeight)
    (hP2M : operationsToProceed &&& ops.FFmmP2M ≠ 0)
    (hL2P : operationsToProceed &&& ops.FFmmL2P ≠ 0)
    (hP2P : operationsToProceed &&& ops.FFmmP2P ≠ 0) :
    ∃ trace, a.executeCore ops fuel operationsToProceed = .ok trace ∧
      trace.countP Event.isP2M = 1 ∧
      Event.P2M leaf.getMultipoleData leaf (a.tree.listSrc leaf) ∈ trace ∧
      trace.countP Event.isL2P = 1 ∧
      Event.L2P leaf.getLocalExpansionData leaf (a.tree.listTargets leaf) ∈ trace ∧
      trace.countP Event.isM2L = 0 ∧
      (∀ l, 1 ≤ l → l < a.tree.height → ∀ c ∈ a.tree.cells l,
        a.tree.getInteractionNeighbors c.coordinate l (a.separationCriteria l) = []) ∧
      trace.countP Event.isP2P = 1 ∧
      Event.P2P leaf.coordinate (a.tree.listTargets leaf) (a.tree.listSrc leaf) [] [] 0
        ∈ trace ∧
      FChebSymKernel_i.directCalls trace
        = [DirectCall.P2P (a.tree.listTargets leaf) [] 0,
           DirectCall.P2PInner (a.tree.listTargets leaf)] := by
  have hH : a.OctreeHeight = (a.tree.height : Int) := rfl
  have hne : a.tree.leaves ≠ [] := by rw [hleaf]; simp
  have hfound := a.leaf_neighbours_single hothers leaf hleaf
  have hdirect : (a.expectedTrace ops operationsToProceed).filter
      (fun e => decide (e.pass = 4))
      = [Event.L2P leaf.getLocalExpansionData leaf (a.tree.listTargets leaf),
         Event.getLeafsNeighbors leaf.coordinate ((a.tree.height : Int) - 1),
         Event.P2P leaf.coordinate (a.tree.listTargets leaf) (a.tree.listSrc leaf) [] []
           0] := by
    rw [a.expectedTrace_filter_direct, hleaf]
    simp [FOctree.directCalls, FOctree.p2pCalls, FOctree.l2pCall, hL2P, hP2P, hfound]
  have hbottom : (a.expectedTrace ops operationsToProceed).filter
      (fun e => decide (e.pass = 0))
      = [Event.P2M leaf.getMultipoleData leaf (a.tree.listSrc leaf)] := by
    rw [a.expectedTrace_filter_bottom, if_pos hP2M, hleaf]
    rfl
  refine ⟨_, a.executeCore_trace ops fuel operationsToProceed hwf hne hfuel hup hlow,
    ?_, ?_, ?_, ?_, ?_, ?_, ?_, ?_, ?_⟩
  · rw [countP_filter_pass Event.isP2M 0 (by intro e; cases e <;> simp [Event.isP2M, Event.pass]),
      hbottom]
    rfl
  · have : Event.P2M leaf.getMultipoleData leaf (a.tree.listSrc leaf)
        ∈ (a.expectedTrace ops operationsToProceed).filter (fun e => decide (e.pass = 0)) := by
      rw [hbottom]; exact List.mem_singleton.2 rfl
    exact (List.mem_filter.1 this).1
  · rw [countP_filter_pass Event.isL2P 4 (by intro e; cases e <;> simp [Event.isL2P, Event.pass]),
      hdirect]
    rfl
  · have : Event.L2P leaf.getLocalExpansionData leaf (a.tree.listTargets leaf)
        ∈ (a.expectedTrace ops operationsToProceed).filter (fun e => decide (e.pass = 4)) := by
      rw [hdirect]; simp
    exact (List.mem_filter.1 this).1
  · rw [countP_filter_pass Event.isM2L 2 (by intro e; cases e <;> simp [Event.isM2L, Event.pass]),
      a.expectedTrace_filter_transfer, List.countP_eq_zero]
    intro e he
    split at he
    · obtain ⟨l, hl, hel⟩ := List.mem_flatMap.1 he
      have hlH := a.range_lt_height hlow hup l hl
      rcases a.mem_m2lLevel l e hel with ⟨c, hc, hec⟩ | rfl
      · rcases a.mem_m2lCalls l c e hec with rfl | ⟨hf, _⟩
        · simp [Event.isM2L]
        · have h1 : 1 ≤ l := by
            rw [List.mem_range'_1] at hl
            omega
          exact absurd (a.interaction_list_single hothers l (hone l h1 hlH.1) c hc) hf
      · simp [Event.isM2L]
    · simp at he
  · intro l h1 hl c hc
    exact a.interaction_list_single hothers l (hone l h1 hl) c hc
  · rw [countP_filter_pass Event.isP2P 4 (by intro e; cases e <;> simp [Event.isP2P, Event.pass]),
      hdirect]
    rfl
  · have : Event.P2P leaf.coordinate (a.tree.listTargets leaf) (a.tree.listSrc leaf) [] [] 0
        ∈ (a.expectedTrace ops operationsToProceed).filter (fun e => decide (e.pass = 4)) := by
      rw [hdirect]; simp
    exact (List.mem_filter.1 this).1
  · rw [FChebSymKernel_i.directCalls_filter, hdirect]
    simp [FChebSymKernel_i.directCalls, FChebSymKernel_i.P2P, FChebSymKernel_i.P2P_do_inner,
      FChebSymKernel_i.P2POuter, FChebSymKernel_i.P2POuter.neighbours, hsimple]

theorem exSingleTree_wellFormed : exSingleTree.WellFormed := by decide

theorem exSingleTree_one (l : Nat) (h1 : 1 ≤ l) (hl : l < exSingleTree.height) :
    (exSingleTree.cells l).length = 1 := by
  have h4 : l < 4 := hl
  interval_cases l <;> rfl

theorem exSingleAlgo_others : exSingleAlgo.NeighboursAreOthers :=
  ⟨fun _ _ _ p hp => absurd hp (List.not_mem_nil p),
   fun _ _ p hp => absurd hp (List.not_mem_nil p)⟩

/-- Witness for C15: the tree of height 4 built from one particle, a full run (mask 63)
over the working levels 2 to 4. -/
theorem FFmmAlgorithm.executeCore_single_particle_witness :
    ∃ trace, exSingleAlgo.executeCore exOps 10 63 = .ok trace ∧
      trace.countP Event.isP2M = 1 ∧
      Event.P2M (mkCell 3 350 5 3 6).getMultipoleData (mkCell 3 350 5 3 6)
        (exSingleAlgo.tree.listSrc (mkCell 3 350 5 3 6)) ∈ trace ∧
      trace.countP Event.isL2P = 1 ∧
      Event.L2P (mkCell 3 350 5 3 6).getLocalExpansionData (mkCell 3 350 5 3 6)
        (exSingleAlgo.tree.listTargets (mkCell 3 350 5 3 6)) ∈ trace ∧
      trace.countP Event.isM2L = 0 ∧
      (∀ l, 1 ≤ l → l < exSingleAlgo.tree.height → ∀ c ∈ exSingleAlgo.tree.cells l,
        exSingleAlgo.tree.getInteractionNeighbors c.coordinate l
          (exSingleAlgo.separationCriteria l) = []) ∧
      trace.countP Event.isP2P = 1 ∧
      Event.P2P (mkCell 3 350 5 3 6).coordinate
        (exSingleAlgo.tree.listTargets (mkCell 3 350 5 3 6))
        (exSingleAlgo.tree.listSrc (mkCell 3 350 5 3 6)) [] [] 0 ∈ trace ∧
      FChebSymKernel_i.directCalls trace
        = [DirectCall.P2P (exSingleAlgo.tree.listTargets (mkCell 3 350 5 3 6)) [] 0,
           DirectCall.P2PInner (exSingleAlgo.tree.listTargets (mkCell 3 350 5 3 6))] :=
  FFmmAlgorithm.executeCore_single_particle exSingleAlgo exOps 10 63 (mkCell 3 350 5 3 6)
    exSingleTree_wellFormed rfl exSingleTree_one exSingleAlgo_others rfl (by decide)
    (by decide) (by decide) (by decide) (by decide) (by decide)

/-! ## The M2M operator of FChebSymKernel_i -/

theorem FChebSymKernel_i.M2M_children {V : Type} [AddCommMonoid V] (op : Nat → V → V)
    (ChildMultipoles : List (Option (Nat → V))) (idxRhs : Nat) (order : List Nat) :
    ∀ parent : Nat → V,
      order.foldl
        (fun parent ChildIndex =>
          match ChildMultipoles.getD ChildIndex none with
          | some child =>
            Function.update parent idxRhs
              (applyM2M op ChildIndex (child idxRhs) (parent idxRhs))
          | none => parent)
        parent
      = Function.update parent idxRhs
          (parent idxRhs
            + (order.map (FChebSymKernel_i.contribution op ChildMultipoles idxRhs)).sum) := by
  induction order with
  | nil => intro parent; simp
  | cons i order ih =>
    intro parent
    rw [List.foldl_cons, ih, List.map_cons, List.sum_cons]
    cases hch : ChildMultipoles.getD i none with
    | none =>
      have hc : FChebSymKernel_i.contribution op ChildMultipoles idxRhs i = 0 := by
        unfold FChebSymKernel_i.contribution
        rw [hch]
      simp only [hc, zero_add]
    | some child =>
      have hc : FChebSymKernel_i.contribution op ChildMultipoles idxRhs i
          = op i (child idxRhs) := by
        unfold FChebSymKernel_i.contribution
        rw [hch]
      simp only [hc, applyM2M, Function.update_same, Function.update_idem, add_assoc]

theorem FChebSymKernel_i.M2M_rhs {V : Type} [AddCommMonoid V] (op : Nat → V → V)
    (ChildMultipoles : List (Option (Nat → V))) (order : List Nat) (rhs : List Nat)
    (hnd : rhs.Nodup) :
    ∀ (parent : Nat → V) (r : Nat),
      rhs.foldl
        (fun parent idxRhs =>
          order.foldl
            (fun parent ChildIndex =>
              match ChildMultipoles.getD ChildIndex none with
              | some child =>
                Function.update parent idxRhs
                  (applyM2M op ChildIndex (child idxRhs) (parent idxRhs))
              | none => parent)
            parent)
        parent r
      = if r ∈ rhs then
          parent r + (order.map (FChebSymKernel_i.contribution op ChildMultipoles r)).sum
        else parent r := by
  induction rhs with
  | nil => intro parent r; simp
  | cons k rhs ih =>
    intro parent r
    have hk := (List.nodup_cons.1 hnd).1
    rw [List.foldl_cons, ih (List.nodup_cons.1 hnd).2, FChebSymKernel_i.M2M_children]
    by_cases hr : r ∈ rhs
    · have hrk : r ≠ k := fun h => hk (h ▸ hr)
      simp [hr, hrk, Function.update_noteq hrk]
    · by_cases hrk : r = k
      · subst hrk
        simp [hr]
      · simp [hr, hrk, Function.update_noteq hrk]

theorem FChebSymKernel_i.M2MInOrder_eq {V : Type} [AddCommMonoid V] (op : Nat → V → V)
    (NVALS : Nat) (order : List Nat) (ParentMultipole : Nat → V)
    (ChildMultipoles : List (Option (Nat → V))) (idxRhs : Nat) :
    FChebSymKernel_i.M2MInOrder op NVALS order ParentMultipole ChildMultipoles idxRhs
      = if idxRhs < NVALS then
          ParentMultipole idxRhs
            + (order.map (FChebSymKernel_i.contribution op ChildMultipoles idxRhs)).sum
        else ParentMultipole idxRhs := by
  unfold FChebSymKernel_i.M2MInOrder
  rw [FChebSymKernel_i.M2M_rhs op ChildMultipoles order _ (List.nodup_range NVALS)]
  simp [List.mem_range]

/-- C18: over exact arithmetic (a commutative addition), with the operator of
`applyM2M` as a parameter: for every right-hand side below `NVALS` the parent expansion
after `FChebSymKernel_i::M2M` is its previous value plus the sum over the child indices 0..7
of the contributions, the contribution of a present child being the operator of its index
applied to the child expansion and that of an absent (null) child being zero; the other
right-hand sides are unchanged; and visiting the children in any other order (any
permutation of 0..7) gives the same parent. -/
theorem FChebSymKernel_i.M2M_sum_of_present_children {V : Type} [AddCommMonoid V]
    (op : Nat → V → V) (NVALS : Nat) (ParentMultipole : Nat → V)
    (ChildMultipoles : List (Option (Nat → V))) :
    (∀ idxRhs, idxRhs < NVALS →
      FChebSymKernel_i.M2M op NVALS ParentMultipole ChildMultipoles idxRhs
        = ParentMultipole idxRhs
          + ((List.range 8).map (fun ChildIndex =>
              match ChildMultipoles.getD ChildIndex none with
              | some child => op ChildIndex (child idxRhs)
              | none => 0)).sum) ∧
    (∀ idxRhs, NVALS ≤ idxRhs →
      FChebSymKernel_i.M2M op NVALS ParentMultipole ChildMultipoles idxRhs
        = ParentMultipole idxRhs) ∧
    (∀ order : List Nat, order.Perm (List.range 8) →
      FChebSymKernel_i.M2MInOrder op NVALS order ParentMultipole ChildMultipoles
        = FChebSymKernel_i.M2M op NVALS ParentMultipole ChildMultipoles) := by
  refine ⟨?_, ?_, ?_⟩
  · intro idxRhs h
    unfold FChebSymKernel_i.M2M
    rw [FChebSymKernel_i.M2MInOrder_eq, if_pos h]
    rfl
  · intro idxRhs h
    unfold FChebSymKernel_i.M2M
    rw [FChebSymKernel_i.M2MInOrder_eq, if_neg (by omega)]
  · intro order hperm
    funext idxRhs
    unfold FChebSymKernel_i.M2M
    rw [FChebSymKernel_i.M2MInOrder_eq, FChebSymKernel_i.M2MInOrder_eq,
      (hperm.map _).sum_eq]

/-- Witness for C18: integer expansions with one right-hand side, the operator of child
`i` multiplying by `i + 1`; the parent holds 10, the children 0 and 2 hold 1 and 2, the
other children are absent: the parent becomes 10 + 1 * 1 + 3 * 2 = 17, the right-hand side 1
is unchanged, and visiting the children from 7 down to 0 gives the same parent. -/
theorem FChebSymKernel_i.M2M_sum_of_present_children_witness :
    FChebSymKernel_i.M2M (fun i (v : Int) => (i + 1) * v) 1 (fun _ => 10)
        [some (fun _ => 1), none, some (fun _ => 2)] 0 = 17 ∧
    FChebSymKernel_i.M2M (fun i (v : Int) => (i + 1) * v) 1 (fun _ => 10)
        [some (fun _ => 1), none, some (fun _ => 2)] 1 = 10 ∧
    FChebSymKernel_i.M2MInOrder (fun i (v : Int) => (i + 1) * v) 1 [7, 6, 5, 4, 3, 2, 1, 0]
        (fun _ => 10) [some (fun _ => 1), none, some (fun _ => 2)]
      = FChebSymKernel_i.M2M (fun i (v : Int) => (i + 1) * v) 1 (fun _ => 10)
        [some (fun _ => 1), none, some (fun _ => 2)] :=
  ⟨((FChebSymKernel_i.M2M_sum_of_present_children (fun i (v : Int) => (i + 1) * v) 1
      (fun _ => 10) [some (fun _ => 1), none, some (fun _ => 2)]).1 0 (by decide)).trans
      (by decide),
   (FChebSymKernel_i.M2M_sum_of_present_children (fun i (v : Int) => (i + 1) * v) 1
      (fun _ => 10) [some (fun _ => 1), none, some (fun _ => 2)]).2.1 1 (by decide),
   (FChebSymKernel_i.M2M_sum_of_present_children (fun i (v : Int) => (i + 1) * v) 1
      (fun _ => 10) [some (fun _ => 1), none, some (fun _ => 2)]).2.2 [7, 6, 5, 4, 3, 2, 1, 0]
      (by decide)⟩

/-! ## The grouped tree keeps every particle -/

theorem FGroupTree.step_perm (groupSize : Nat) (blocks : List (List GroupLeaf))
    (p : Particle) :
    (FGroupTree.particlesOf (FGroupTree.step groupSize blocks p)).Perm
      (p :: FGroupTree.particlesOf blocks) := by
  unfold FGroupTree.step FGroupTree.particlesOf
  match blocks with
  | [] => simp
  | [] :: rest => simp
  | (leaf :: leaves) :: rest =>
    simp only []
    split
    · simp only [List.flatMap_cons, List.append_assoc]
      exact List.perm_middle
    · split
      · simp
      · simp

theorem FGroupTree.foldl_perm (groupSize : Nat) (ps : List Particle) :
    ∀ blocks : List (List GroupLeaf),
      (FGroupTree.particlesOf (ps.foldl (FGroupTree.step groupSize) blocks)).Perm
        (ps ++ FGroupTree.particlesOf blocks) := by
  induction ps with
  | nil => intro blocks; simp
  | cons p ps ih =>
    intro blocks
    rw [List.foldl_cons]
    refine (ih _).trans ?_
    refine ((FGroupTree.step_perm groupSize blocks p).append_left ps).trans ?_
    exact List.perm_middle

theorem FGroupTree.particlesOf_reverse (blocks : List (List GroupLeaf)) :
    (FGroupTree.particlesOf (blocks.reverse.map List.reverse)).Perm
      (FGroupTree.particlesOf blocks) := by
  unfold FGroupTree.particlesOf
  rw [List.flatMap_map]
  refine (List.Perm.flatMap_right _ (List.reverse_perm blocks)).trans ?_
  apply List.Perm.flatMap_left
  intro block _
  exact List.Perm.flatMap_right _ (List.reverse_perm block)

theorem FGroupTree.build_perm (groupSize : Nat) (particles : List Particle) :
    (FGroupTree.particlesOf (FGroupTree.build groupSize particles)).Perm particles := by
  unfold FGroupTree.build
  refine (FGroupTree.particlesOf_reverse _).trans ?_
  refine (FGroupTree.foldl_perm groupSize _ []).trans ?_
  simp only [FGroupTree.particlesOf, List.flatMap_nil, List.append_nil]
  exact List.perm_insertionSort _ particles

theorem offsetParticles_eq (tree : List (List GroupLeaf)) :
    offsetParticles tree = (FGroupTree.particlesOf tree).length := by
  have hleaf : ∀ (block : List GroupLeaf) (s : Nat),
      block.foldl (fun offsetParticles leafTarget =>
          offsetParticles + leafTarget.particles.length) s
        = s + (block.flatMap (fun leaf => leaf.particles)).length := by
    intro block
    induction block with
    | nil => intro s; simp
    | cons leaf block ih =>
      intro s
      rw [List.foldl_cons, ih]
      simp [Nat.add_assoc]
  have hblock : ∀ (t : List (List GroupLeaf)) (s : Nat),
      t.foldl (fun s block => block.foldl (fun offsetParticles leafTarget =>
          offsetParticles + leafTarget.particles.length) s) s
        = s + (FGroupTree.particlesOf t).length := by
    intro t
    induction t with
    | nil => intro s; simp [FGroupTree.particlesOf]
    | cons block t ih =>
      intro s
      rw [List.foldl_cons, ih, hleaf]
      simp [FGroupTree.particlesOf, Nat.add_assoc]
  unfold offsetParticles FGroupTree.forEachCellLeaf
  rw [hblock]
  simp

/-- C17: for every input particle container (the particles with their Morton indices at
the leaf level, whatever the tree height) and every block size, the leaves of the grouped
tree hold the input particles, every particle once (a permutation of the input), and the
validation loop over `forEachCellLeaf` that sums the per-leaf particle counts ends with
`offsetParticles` equal to the number of input particles. -/
theorem FGroupTree.no_particle_lost (groupSize : Nat) (particles : List Particle) :
    (FGroupTree.particlesOf (FGroupTree.build groupSize particles)).Perm particles ∧
    offsetParticles (FGroupTree.build groupSize particles) = particles.length ∧
    FGroupTree.forEachCellLeaf (FGroupTree.build groupSize particles)
      (fun offsetParticles leafTarget => offsetParticles + leafTarget.particles.length) 0
      = particles.length :=
  ⟨FGroupTree.build_perm groupSize particles,
   (offsetParticles_eq _).trans (FGroupTree.build_perm groupSize particles).length_eq,
   (offsetParticles_eq _).trans (FGroupTree.build_perm groupSize particles).length_eq⟩

/-- Witness for C17: five particles with the Morton indices 3, 1, 3, 2, 1 and the block size
2: a block with the leaves 1 and 2, a block with the leaf 3; the counts add up to 5. -/
theorem FGroupTree.no_particle_lost_witness :
    FGroupTree.build 2 [⟨0, 3⟩, ⟨1, 1⟩, ⟨2, 3⟩, ⟨3, 2⟩, ⟨4, 1⟩]
      = [[⟨1, [⟨1, 1⟩, ⟨4, 1⟩]⟩, ⟨2, [⟨3, 2⟩]⟩], [⟨3, [⟨0, 3⟩, ⟨2, 3⟩]⟩]] ∧
    offsetParticles (FGroupTree.build 2 [⟨0, 3⟩, ⟨1, 1⟩, ⟨2, 3⟩, ⟨3, 2⟩, ⟨4, 1⟩]) = 5 :=
  ⟨by decide, (FGroupTree.no_particle_lost 2 [⟨0, 3⟩, ⟨1, 1⟩, ⟨2, 3⟩, ⟨3, 2⟩, ⟨4, 1⟩]).2.1⟩

/-! ## Every particle is impacted by every other particle once -/

theorem FTreeCoordinate.adjacent_half (c d : FTreeCoordinate) (h : c.adjacent d) :
    c.half.adjacent d.half := by
  unfold FTreeCoordinate.adjacent FTreeCoordinate.half at *
  dsimp only
  omega

theorem FTreeCoordinate.adjacent_self (c : FTreeCoordinate) : c.adjacent c := by
  unfold FTreeCoordinate.adjacent
  omega

theorem FTreeCoordinate.far_add_adjacent (k : Nat) :
    ∀ a b : FTreeCoordinate,
      FTreeCoordinate.far k a b + (if a.adjacent b then 1 else 0)
        = if (FTreeCoordinate.half^[k] a).adjacent (FTreeCoordinate.half^[k] b) then 1
          else 0 := by
  induction k with
  | zero => intro a b; simp [FTreeCoordinate.far]
  | succ k ih =>
    intro a b
    have h := ih a.half b.half
    have e : FTreeCoordinate.far (k + 1) a b
        = (if a.wellSeparated b then 1 else 0) + FTreeCoordinate.far k a.half b.half := rfl
    rw [Function.iterate_succ_apply, Function.iterate_succ_apply, ← h, e]
    unfold FTreeCoordinate.wellSeparated
    by_cases hab : a.adjacent b
    · simp [hab, FTreeCoordinate.adjacent_half a b hab]
    · by_cases hh : a.half.adjacent b.half
      · simp [hab, hh]
        ring
      · simp [hab, hh]

theorem FTreeCoordinate.inBox_half (c : FTreeCoordinate) (k : Nat)
    (h : c.inBox (2 ^ (k + 1))) : c.half.inBox (2 ^ k) := by
  unfold FTreeCoordinate.inBox FTreeCoordinate.half at *
  dsimp only
  rw [pow_succ] at h
  generalize (2 : Int) ^ k = m at h ⊢
  omega

theorem FTreeCoordinate.inBox_iterate (j : Nat) :
    ∀ (k : Nat) (c : FTreeCoordinate), c.inBox (2 ^ (k + j)) →
      (FTreeCoordinate.half^[j] c).inBox (2 ^ k) := by
  induction j with
  | zero => intro k c h; simpa using h
  | succ j ih =>
    intro k c h
    rw [Function.iterate_succ_apply]
    apply ih
    apply FTreeCoordinate.inBox_half
    rw [Nat.add_assoc]
    exact h

theorem FTreeCoordinate.adjacent_of_inBox (c d : FTreeCoordinate) (hc : c.inBox 2)
    (hd : d.inBox 2) : c.adjacent d := by
  unfold FTreeCoordinate.inBox at hc hd
  unfold FTreeCoordinate.adjacent
  omega

/-- Two cells in the box of level `k + 1` are neighbours, or their ancestors are in the
interaction list of each other at exactly one of the levels from `k + 1` up to level 2. -/
theorem FTreeCoordinate.far_partition (k : Nat) (a b : FTreeCoordinate)
    (ha : a.inBox (2 ^ (k + 1))) (hb : b.inBox (2 ^ (k + 1))) :
    FTreeCoordinate.far k a b + (if a.adjacent b then 1 else 0) = 1 := by
  rw [FTreeCoordinate.far_add_adjacent]
  have h1 := FTreeCoordinate.inBox_iterate k 1 a (by rw [Nat.add_comm]; exact ha)
  have h2 := FTreeCoordinate.inBox_iterate k 1 b (by rw [Nat.add_comm]; exact hb)
  rw [pow_one] at h1 h2
  rw [if_pos (FTreeCoordinate.adjacent_of_inBox _ _ h1 h2)]

theorem sum_map_ite_unique {α : Type} (l : List α) (hl : l.Nodup) (a : α) (ha : a ∈ l)
    (p : α → Prop) [DecidablePred p] (hp : ∀ c ∈ l, p c ↔ c = a) (g : α → Int) :
    (l.map (fun c => if p c then g c else 0)).sum = g a := by
  induction l with
  | nil => simp at ha
  | cons c l ih =>
    rw [List.nodup_cons] at hl
    rw [List.map_cons, List.sum_cons]
    by_cases hca : c = a
    · subst hca
      have hzero : (l.map (fun d => if p d then g d else 0)).sum = 0 := by
        apply List.sum_eq_zero
        intro n hn
        obtain ⟨d, hd, rfl⟩ := List.mem_map.1 hn
        have hne : ¬ p d := by
          intro hk
          have := (hp d (List.mem_cons_of_mem _ hd)).1 hk
          subst this
          exact hl.1 hd
        simp [hne]
      rw [hzero, if_pos ((hp c (List.mem_cons_self _ _)).2 rfl)]
      simp
    · have hne : ¬ p c := fun hk => hca ((hp c (List.mem_cons_self _ _)).1 hk)
      have ha' : a ∈ l := by
        rcases List.mem_cons.1 ha with h | h
        · exact absurd h.symm hca
        · exact h
      rw [if_neg hne, zero_add]
      exact ih hl.2 ha' (fun d hd => hp d (List.mem_cons_of_mem _ hd))

theorem sum_map_ite_none {α : Type} (l : List α) (p : α → Prop) [DecidablePred p]
    (hp : ∀ c ∈ l, ¬ p c) (g : α → Int) :
    (l.map (fun c => if p c then g c else 0)).sum = 0 := by
  apply List.sum_eq_zero
  intro n hn
  obtain ⟨d, hd, rfl⟩ := List.mem_map.1 hn
  simp [hp d hd]

theorem sum_map_filter_ite {α : Type} (l : List α) (p : α → Bool) (g : α → Int) :
    ((l.filter p).map g).sum = (l.map (fun c => if p c = true then g c else 0)).sum := by
  induction l with
  | nil => rfl
  | cons c l ih =>
    by_cases h : p c = true
    · simp [List.filter_cons, h, ih]
    · simp [List.filter_cons, h, ih]

theorem sum_map_sum_swap {α β : Type} (l₁ : List α) (l₂ : List β) (f : α → β → Int) :
    (l₁.map (fun a => (l₂.map (fun b => f a b)).sum)).sum
      = (l₂.map (fun b => (l₁.map (fun a => f a b)).sum)).sum := by
  induction l₁ with
  | nil => simp
  | cons a l₁ ih =>
    simp only [List.map_cons, List.sum_cons, ih]
    rw [← List.sum_map_add]

theorem mortonIndex_injective (l : List CellClass)
    (hl : l.Pairwise (fun a b => a.mortonIndex < b.mortonIndex)) (c d : CellClass)
    (hc : c ∈ l) (hd : d ∈ l) (h : c.mortonIndex = d.mortonIndex) : c = d := by
  induction l with
  | nil => simp at hc
  | cons x xs ih =>
    rw [List.pairwise_cons] at hl
    rcases List.mem_cons.1 hc with rfl | hc' <;> rcases List.mem_cons.1 hd with rfl | hd'
    · rfl
    · have := hl.1 d hd'
      omega
    · have := hl.1 c hc'
      omega
    · exact ih hl.2 hc' hd'

theorem find_mortonIndex (l : List CellClass)
    (hl : l.Pairwise (fun a b => a.mortonIndex < b.mortonIndex)) (d : CellClass) (hd : d ∈ l)
    (m : Nat) (hm : m = d.mortonIndex) :
    l.find? (fun x => x.mortonIndex == m) = some d := by
  subst hm
  induction l with
  | nil => simp at hd
  | cons x xs ih =>
    by_cases hx : x.mortonIndex = d.mortonIndex
    · have := mortonIndex_injective (x :: xs) hl x d (List.mem_cons_self _ _) hd hx
      subst this
      simp
    · rw [List.find?_cons_of_neg _ (by simpa using hx)]
      rcases List.mem_cons.1 hd with rfl | hd'
      · exact absurd rfl hx
      · exact ih (List.pairwise_cons.1 hl).2 hd'

theorem FOctree.mem_kids (t : FOctree) (hwf : t.WellFormed) (c : CellClass)
    (hc : c.level + 1 < t.height) (d : CellClass) :
    d ∈ t.kids c ↔ d ∈ t.cells (c.level + 1) ∧ d.mortonIndex / 8 = c.mortonIndex := by
  unfold FOctree.kids FOctree.children
  rw [List.filterMap_map, List.mem_filterMap]
  constructor
  · rintro ⟨i, hi, h⟩
    simp only [Function.comp, id] at h
    have h1 := List.mem_of_find?_eq_some h
    have h2 := List.find?_some h
    simp only [beq_iff_eq] at h2
    have := List.mem_range.1 hi
    exact ⟨h1, by omega⟩
  · rintro ⟨h1, h2⟩
    refine ⟨d.mortonIndex % 8, List.mem_range.2 (Nat.mod_lt _ (by omega)), ?_⟩
    simp only [Function.comp, id]
    exact find_mortonIndex _ (hwf.2.1 _ hc) d h1 _ (by omega)

theorem FOctree.nodup_kids (t : FOctree) (c : CellClass) : (t.kids c).Nodup := by
  unfold FOctree.kids FOctree.children
  rw [List.filterMap_map]
  refine List.Nodup.filterMap ?_ (List.nodup_range 8)
  intro i j d hi hj
  simp only [Function.comp, id, Option.mem_def] at hi hj
  have h1 := List.find?_some hi
  have h2 := List.find?_some hj
  simp only [beq_iff_eq] at h1 h2
  omega

theorem FOctree.mem_kids_coordinate (t : FOctree) (hwf : t.WellFormed) (hg : t.Geometry)
    (l : Nat) (h1 : 1 ≤ l) (hl : l + 1 < t.height) (c : CellClass) (hc : c ∈ t.cells l)
    (d : CellClass) :
    d ∈ t.kids c ↔ d ∈ t.cells (l + 1) ∧ d.coordinate.half = c.coordinate := by
  have hlev : c.level = l := hwf.2.2.1 l (by omega) c hc
  rw [t.mem_kids hwf c (by omega) d, hlev]
  constructor
  · rintro ⟨hd, hm⟩
    exact ⟨hd, (hg.2.2.1 l (by omega) h1 hl d hd c hc hm.symm).symm⟩
  · rintro ⟨hd, hh⟩
    refine ⟨hd, ?_⟩
    obtain ⟨p, hp, hpm⟩ := hwf.2.2.2.1 l (by omega) h1 hl d hd
    have hpc := hg.2.2.1 l (by omega) h1 hl d hd p hp hpm
    have : p = c := hg.2.1 l (by omega) h1 p hp c hc (hpc.trans hh)
    subst this
    exact hpm.symm

theorem FOctree.kids_sum (t : FOctree) (hwf : t.WellFormed) (hg : t.Geometry)
    (l : Nat) (h1 : 1 ≤ l) (hl : l + 1 < t.height) (c : CellClass) (hc : c ∈ t.cells l)
    (f : CellClass → Int) :
    ((t.kids c).map f).sum
      = ((t.cells (l + 1)).map
          (fun d => if d.coordinate.half = c.coordinate then f d else 0)).sum := by
  have hperm : (t.kids c).Perm
      ((t.cells (l + 1)).filter (fun d => decide (d.coordinate.half = c.coordinate))) := by
    rw [List.perm_ext_iff_of_nodup (t.nodup_kids c) ((t.nodup_cells hwf _ hl).filter _)]
    intro d
    rw [t.mem_kids_coordinate hwf hg l h1 hl c hc d, List.mem_filter]
    simp
  rw [(hperm.map f).sum_eq, sum_map_filter_ite]
  simp

theorem FOctree.cell_of_ancestor (t : FOctree) (hwf : t.WellFormed) (hg : t.Geometry)
    (B : CellClass) (hB : B ∈ t.leaves) :
    ∀ j l, l + j = t.height - 1 → 1 ≤ l →
      ∃ c ∈ t.cells l, c.coordinate = t.ancestor l B := by
  have hH := hwf.1
  intro j
  induction j with
  | zero =>
    intro l hl _
    have : l = t.height - 1 := by omega
    subst this
    refine ⟨B, hB, ?_⟩
    simp [FOctree.ancestor]
  | succ j ih =>
    intro l hl h1
    obtain ⟨c, hc, hcc⟩ := ih (l + 1) (by omega) (by omega)
    obtain ⟨p, hp, hpm⟩ := hwf.2.2.2.1 l (by omega) h1 (by omega) c hc
    refine ⟨p, hp, ?_⟩
    rw [hg.2.2.1 l (by omega) h1 (by omega) c hc p hp hpm, hcc]
    unfold FOctree.ancestor
    rw [← Function.iterate_succ_apply' FTreeCoordinate.half]
    congr 1
    omega

theorem FOctree.ancestor_half (t : FOctree) (l : Nat) (hl : l + 1 < t.height)
    (B : CellClass) : (t.ancestor (l + 1) B).half = t.ancestor l B := by
  unfold FOctree.ancestor
  rw [← Function.iterate_succ_apply' FTreeCoordinate.half]
  congr 1
  omega

/-- A sum over the cells of a level, weighted by the particles below each cell, is a sum
over the leaves at their ancestor of that level. -/
theorem FOctree.level_sum (t : FOctree) (hwf : t.WellFormed) (hg : t.Geometry) (l : Nat)
    (h1 : 1 ≤ l) (hl : l < t.height) (n : CellClass → Int) (w : FTreeCoordinate → Int) :
    ((t.cells l).map (fun d => w d.coordinate
        * t.leafSum n (fun B => if t.ancestor l B = d.coordinate then 1 else 0))).sum
      = t.leafSum n (fun B => w (t.ancestor l B)) := by
  unfold FOctree.leafSum
  simp only [← List.sum_map_mul_left]
  rw [sum_map_sum_swap]
  congr 1
  apply List.map_congr_left
  intro B hB
  obtain ⟨c, hc, hcc⟩ := t.cell_of_ancestor hwf hg B hB (t.height - 1 - l) l (by omega) h1
  have h := sum_map_ite_unique (t.cells l) (t.nodup_cells hwf l hl) c hc
    (fun d => t.ancestor l B = d.coordinate)
    (fun d hd => by
      constructor
      · intro h
        exact hg.2.1 l hl h1 d hd c hc (h.symm.trans hcc.symm)
      · intro h
        subst h
        exact hcc.symm)
    (fun d => w d.coordinate * n B)
  rw [← hcc, mul_comm (n B), ← h, hcc]
  congr 1
  apply List.map_congr_left
  intro d _
  by_cases hd : t.ancestor l B = d.coordinate <;> simp [hd]

theorem FTestKernels.run_cons (st : FTestState) (e : Event) (trace : List Event) :
    FTestKernels.run st (e :: trace) = FTestKernels.run (FTestKernels.apply st e) trace := rfl

theorem FTestKernels.run_append (st : FTestState) (tr₁ tr₂ : List Event) :
    FTestKernels.run st (tr₁ ++ tr₂) = FTestKernels.run (FTestKernels.run st tr₁) tr₂ :=
  List.foldl_append _ _ _ _

theorem FTestKernels.run_bottom (t : FOctree) (cs : List CellClass) :
    ∀ st : FTestState,
      FTestKernels.run st (cs.map t.p2mCall)
        = { st with
            dataUp := (fun x =>
              if x ∈ cs then st.getNbParticles (t.listSrc x) else st.dataUp x) } := by
  induction cs with
  | nil => intro st; simp [FTestKernels.run]
  | cons c cs ih =>
    intro st
    rw [List.map_cons, FTestKernels.run_cons, ih]
    simp only [FOctree.p2mCall, FTestKernels.apply, FTestKernels.P2M,
      FTestState.getNbParticles, CellClass.getMultipoleData]
    congr 1
    funext x
    by_cases hx : x ∈ cs
    · simp [hx]
    · by_cases hxc : x = c
      · subst hxc
        simp [hx]
      · simp [hx, hxc, Function.update_noteq hxc]

theorem multipole_owner_sum (f : CellClass → Int) (l : List (Option CellClass)) :
    (((l.map (fun c => c.map CellClass.getMultipoleData)).filterMap id).map
        (fun m => f m.owner)).sum
      = ((l.filterMap id).map f).sum := by
  induction l with
  | nil => rfl
  | cons o l ih =>
    cases o with
    | none => simpa using ih
    | some c =>
      have e1 : (List.map (fun c => Option.map CellClass.getMultipoleData c) (some c :: l)).filterMap
          id = c.getMultipoleData
            :: (List.map (fun c => Option.map CellClass.getMultipoleData c) l).filterMap id := rfl
      have e2 : (some c :: l).filterMap id = c :: l.filterMap id := rfl
      rw [e1, e2, List.map_cons, List.map_cons, List.sum_cons, List.sum_cons, ih]
      rfl

theorem FTestKernels.run_upward_level (t : FOctree) (cs : List CellClass) (hnd : cs.Nodup)
    (hdisj : ∀ c ∈ cs, ∀ d ∈ t.kids c, d ∉ cs) :
    ∀ st : FTestState,
      FTestKernels.run st (cs.map t.m2mCall)
        = { st with
            dataUp := (fun x =>
              if x ∈ cs then st.dataUp x + ((t.kids x).map st.dataUp).sum
              else st.dataUp x) } := by
  induction cs with
  | nil => intro st; simp [FTestKernels.run]
  | cons c cs ih =>
    intro st
    have hc := (List.nodup_cons.1 hnd).1
    rw [List.map_cons, FTestKernels.run_cons,
      ih (List.nodup_cons.1 hnd).2
        (fun c' hc' d hd hdcs => hdisj c' (List.mem_cons_of_mem _ hc') d hd
          (List.mem_cons_of_mem _ hdcs))]
    simp only [FOctree.m2mCall, FTestKernels.apply, FTestKernels.M2M,
      CellClass.getMultipoleData, multipole_owner_sum]
    congr 1
    funext x
    have hkids : t.kids c = (t.children c).filterMap id := rfl
    rw [← hkids]
    by_cases hxc : x = c
    · subst hxc
      simp [hc]
    · by_cases hx : x ∈ cs
      · have hsum : ((t.kids x).map (Function.update st.dataUp c
            (st.dataUp c + ((t.kids c).map st.dataUp).sum))).sum
            = ((t.kids x).map st.dataUp).sum := by
          congr 1
          apply List.map_congr_left
          intro d hd
          have hdc : d ≠ c := by
            intro h
            subst h
            exact hdisj x (List.mem_cons_of_mem _ hx) d hd (List.mem_cons_self _ _)
          exact Function.update_noteq hdc _ _
        simp [hx, hxc, Function.update_noteq hxc, hsum]
      · simp [hx, hxc, Function.update_noteq hxc]

theorem FTestKernels.run_m2lCalls (a : FFmmAlgorithm) (l : Int) (c : CellClass)
    (st : FTestState) :
    FTestKernels.run st (a.m2lCalls l c)
      = { st with
          dataDown := (Function.update st.dataDown c
            (st.dataDown c
              + ((((a.tree.getInteractionNeighbors c.coordinate l
                  (a.separationCriteria l)).map Prod.fst).filterMap id).map
                    st.dataUp).sum)) } := by
  unfold FFmmAlgorithm.m2lCalls
  by_cases hf : a.tree.getInteractionNeighbors c.coordinate l (a.separationCriteria l) = []
  · rw [if_pos hf, hf]
    simp [FTestKernels.run, FTestKernels.apply]
  · rw [if_neg hf]
    simp only [FTestKernels.run, List.foldl_cons, List.foldl_nil, FTestKernels.apply,
      FOctree.m2lCall, FTestKernels.M2L, CellClass.getLocalExpansionData, Int.toNat_ofNat]
    rw [List.take_of_length_le (by simp), multipole_owner_sum]

theorem FTestKernels.run_transfer_cells (a : FFmmAlgorithm) (l : Int) (cs : List CellClass)
    (hnd : cs.Nodup) :
    ∀ st : FTestState,
      FTestKernels.run st (cs.flatMap (a.m2lCalls l))
        = { st with
            dataDown := (fun x =>
              if x ∈ cs then
                st.dataDown x
                  + ((((a.tree.getInteractionNeighbors x.coordinate l
                      (a.separationCriteria l)).map Prod.fst).filterMap id).map
                        st.dataUp).sum
              else st.dataDown x) } := by
  induction cs with
  | nil => intro st; simp [FTestKernels.run]
  | cons c cs ih =>
    intro st
    have hc := (List.nodup_cons.1 hnd).1
    rw [List.flatMap_cons, FTestKernels.run_append, FTestKernels.run_m2lCalls,
      ih (List.nodup_cons.1 hnd).2]
    simp only []
    congr 1
    funext x
    by_cases hxc : x = c
    · subst hxc
      simp [hc]
    · by_cases hx : x ∈ cs
      · simp [hx, hxc, Function.update_noteq hxc]
      · simp [hx, hxc, Function.update_noteq hxc]

theorem FTestKernels.run_transfer_level (a : FFmmAlgorithm) (l : Nat) (hnd : (a.tree.cells l).Nodup)
    (st : FTestState) :
    FTestKernels.run st (a.m2lLevel l)
      = { st with
          dataDown := (fun x =>
            if x ∈ a.tree.cells l then
              st.dataDown x
                + ((((a.tree.getInteractionNeighbors x.coordinate l
                    (a.separationCriteria l)).map Prod.fst).filterMap id).map
                      st.dataUp).sum
            else st.dataDown x) } := by
  unfold FFmmAlgorithm.m2lLevel
  rw [FTestKernels.run_append, FTestKernels.run_transfer_cells a l _ hnd]
  rfl

theorem local_owner_foldl (c : CellClass) (l : List (Option CellClass)) :
    ∀ f : CellClass → Int,
      ((l.map (fun d => d.map CellClass.getLocalExpansionData)).filterMap id).foldl
          (fun dataDown (child : local_expansion_t) =>
            Function.update dataDown child.owner (dataDown child.owner + dataDown c)) f
        = (l.filterMap id).foldl
          (fun dataDown d => Function.update dataDown d (dataDown d + dataDown c)) f := by
  induction l with
  | nil => intro f; rfl
  | cons o l ih =>
    intro f
    cases o with
    | none => exact ih f
    | some d => exact ih _

theorem foldl_add_parent (c : CellClass) (ks : List CellClass) (hnd : ks.Nodup)
    (hc : c ∉ ks) :
    ∀ f : CellClass → Int,
      ks.foldl (fun dataDown d => Function.update dataDown d (dataDown d + dataDown c)) f
        = fun x => if x ∈ ks then f x + f c else f x := by
  induction ks with
  | nil => intro f; simp
  | cons d ks ih =>
    intro f
    have hd := (List.nodup_cons.1 hnd).1
    have hcd : c ≠ d := fun h => hc (h ▸ List.mem_cons_self _ _)
    have hcks : c ∉ ks := fun h => hc (List.mem_cons_of_mem _ h)
    rw [List.foldl_cons, ih (List.nodup_cons.1 hnd).2 hcks]
    funext x
    by_cases hxd : x = d
    · subst hxd
      simp [hd]
    · by_cases hx : x ∈ ks
      · simp [hx, hxd, Function.update_noteq hxd, Function.update_noteq hcd]
      · simp [hx, hxd, Function.update_noteq hxd]

theorem FTestKernels.run_downward_level (t : FOctree) (cs : List CellClass)
    (hdisj : ∀ c ∈ cs, ∀ d ∈ t.kids c, d ∉ cs) :
    ∀ st : FTestState,
      FTestKernels.run st (cs.map t.l2lCall)
        = { st with
            dataDown := (fun x =>
              st.dataDown x
                + (cs.map (fun c => if x ∈ t.kids c then st.dataDown c else 0)).sum) } := by
  induction cs with
  | nil => intro st; simp [FTestKernels.run]
  | cons c cs ih =>
    intro st
    have hck : c ∉ t.kids c := fun h => hdisj c (List.mem_cons_self _ _) c h
      (List.mem_cons_self _ _)
    rw [List.map_cons, FTestKernels.run_cons,
      ih (fun c' hc' d hd hdcs => hdisj c' (List.mem_cons_of_mem _ hc') d hd
          (List.mem_cons_of_mem _ hdcs))]
    simp only [FOctree.l2lCall, FTestKernels.apply, FTestKernels.L2L,
      CellClass.getLocalExpansionData, local_owner_foldl]
    have hkids : (t.children c).filterMap id = t.kids c := rfl
    rw [hkids, foldl_add_parent c (t.kids c) (t.nodup_kids c) hck]
    congr 1
    funext x
    have hsum : (cs.map (fun c' => if x ∈ t.kids c' then
          (if c' ∈ t.kids c then st.dataDown c' + st.dataDown c else st.dataDown c')
          else 0)).sum
        = (cs.map (fun c' => if x ∈ t.kids c' then st.dataDown c' else 0)).sum := by
      congr 1
      apply List.map_congr_left
      intro c' hc'
      have : c' ∉ t.kids c := fun h => hdisj c (List.mem_cons_self _ _) c' h
        (List.mem_cons_of_mem _ hc')
      simp [this]
    rw [hsum, List.map_cons, List.sum_cons]
    by_cases hx : x ∈ t.kids c
    · simp [hx]
      ring
    · simp [hx]

theorem FTestKernels.run_direct_leaf (t : FOctree) (c : CellClass) (st : FTestState) :
    FTestKernels.run st (t.directCalls true true c)
      = { st with
          particles := (Function.update st.particles (t.listTargets c)
            ((st.particles (t.listTargets c)).map (fun v => v + st.dataDown c
              + ((((((t.getLeafsNeighbors c.coordinate ((t.height : Int) - 1)).map
                  Prod.fst).filterMap id).map st.getNbParticles).sum
                + st.getNbParticles (t.listSrc c) - 1))))) } := by
  have hnb : ∀ (f : List Int → List Int) (hf : ∀ l, (f l).length = l.length),
      (fun k => (((Function.update st.particles (t.listTargets c)
        (f (st.particles (t.listTargets c)))) k).length : Int))
        = fun k => ((st.particles k).length : Int) := by
    intro f hf
    funext k
    by_cases hk : k = t.listTargets c
    · subst hk
      simp [hf]
    · simp [Function.update_noteq hk]
  simp only [FOctree.directCalls, FOctree.l2pCall, FOctree.p2pCalls, if_true,
    List.singleton_append, FTestKernels.run, List.foldl_cons, List.foldl_nil,
    FTestKernels.apply, FTestKernels.L2P, FTestKernels.P2P, CellClass.getLocalExpansionData,
    Int.toNat_ofNat, Function.update_same, Function.update_idem, List.map_map]
  rw [List.take_of_length_le (by simp)]
  unfold FTestState.getNbParticles
  simp only []
  rw [hnb (fun l => l.map (fun v => v + st.dataDown c)) (fun l => by simp)]
  have hk := congrFun (hnb (fun l => l.map (fun v => v + st.dataDown c)) (fun l => by simp))
    (t.listSrc c)
  simp only [] at hk
  rw [hk]
  rfl

theorem FTestKernels.run_direct (t : FOctree) (cs : List CellClass) (hnd : cs.Nodup)
    (hinj : ∀ c ∈ cs, ∀ d ∈ cs, t.listTargets c = t.listTargets d → c = d) :
    ∀ st : FTestState,
      (FTestKernels.run st (cs.flatMap (t.directCalls true true))).dataDown = st.dataDown ∧
      (∀ k, ((FTestKernels.run st (cs.flatMap (t.directCalls true true))).particles k).length
        = (st.particles k).length) ∧
      (∀ k, (∀ c ∈ cs, t.listTargets c ≠ k) →
        (FTestKernels.run st (cs.flatMap (t.directCalls true true))).particles k
          = st.particles k) ∧
      (∀ c ∈ cs,
        (FTestKernels.run st (cs.flatMap (t.directCalls true true))).particles
            (t.listTargets c)
          = (st.particles (t.listTargets c)).map (fun v => v + st.dataDown c
              + ((((((t.getLeafsNeighbors c.coordinate ((t.height : Int) - 1)).map
                  Prod.fst).filterMap id).map st.getNbParticles).sum
                + st.getNbParticles (t.listSrc c) - 1)))) := by
  induction cs with
  | nil => intro st; simp [FTestKernels.run]
  | cons c cs ih =>
    intro st
    have hc := (List.nodup_cons.1 hnd).1
    rw [List.flatMap_cons, FTestKernels.run_append, FTestKernels.run_direct_leaf]
    obtain ⟨h1, h2, h3, h4⟩ := ih (List.nodup_cons.1 hnd).2
      (fun c' hc' d hd => hinj c' (List.mem_cons_of_mem _ hc') d (List.mem_cons_of_mem _ hd))
      { st with
          particles := (Function.update st.particles (t.listTargets c)
            ((st.particles (t.listTargets c)).map (fun v => v + st.dataDown c
              + ((((((t.getLeafsNeighbors c.coordinate ((t.height : Int) - 1)).map
                  Prod.fst).filterMap id).map st.getNbParticles).sum
                + st.getNbParticles (t.listSrc c) - 1))))) }
    have hlen : ∀ k, ((Function.update st.particles (t.listTargets c)
        ((st.particles (t.listTargets c)).map (fun v => v + st.dataDown c
          + ((((((t.getLeafsNeighbors c.coordinate ((t.height : Int) - 1)).map
              Prod.fst).filterMap id).map st.getNbParticles).sum
            + st.getNbParticles (t.listSrc c) - 1))))) k).length
        = (st.particles k).length := by
      intro k
      by_cases hk : k = t.listTargets c
      · subst hk
        simp
      · simp [Function.update_noteq hk]
    have hnb : FTestState.getNbParticles
        { st with
          particles := (Function.update st.particles (t.listTargets c)
            ((st.particles (t.listTargets c)).map (fun v => v + st.dataDown c
              + ((((((t.getLeafsNeighbors c.coordinate ((t.height : Int) - 1)).map
                  Prod.fst).filterMap id).map st.getNbParticles).sum
                + st.getNbParticles (t.listSrc c) - 1))))) }
        = st.getNbParticles := by
      funext k
      exact congrArg (fun n : Nat => (n : Int)) (hlen k)
    refine ⟨h1, ?_, ?_, ?_⟩
    · intro k
      rw [h2 k]
      exact hlen k
    · intro k hk
      rw [h3 k (fun c' hc' => hk c' (List.mem_cons_of_mem _ hc'))]
      simp only []
      exact Function.update_noteq (hk c (List.mem_cons_self _ _)).symm _ _
    · intro c' hc'
      rcases List.mem_cons.1 hc' with rfl | hc'
      · have hothers : ∀ d ∈ cs, t.listTargets d ≠ t.listTargets c' := by
          intro d hd hdc
          have := hinj d (List.mem_cons_of_mem _ hd) c' (List.mem_cons_self _ _) hdc
          exact hc (this ▸ hd)
        rw [h3 _ hothers]
        simp only [Function.update_same]
      · rw [h4 c' hc', hnb]
        have hne : t.listTargets c' ≠ t.listTargets c := by
          intro h
          have := hinj c' (List.mem_cons_of_mem _ hc') c (List.mem_cons_self _ _) h
          exact hc (this ▸ hc')
        simp only [Function.update_noteq hne]

theorem FOctree.leafSum_add (t : FOctree) (n w₁ w₂ : CellClass → Int) :
    t.leafSum n w₁ + t.leafSum n w₂ = t.leafSum n (fun B => w₁ B + w₂ B) := by
  unfold FOctree.leafSum
  rw [← List.sum_map_add]
  congr 1
  apply List.map_congr_left
  intro B _
  ring

theorem FOctree.leafSum_congr (t : FOctree) (n w₁ w₂ : CellClass → Int)
    (h : ∀ B ∈ t.leaves, w₁ B = w₂ B) : t.leafSum n w₁ = t.leafSum n w₂ := by
  unfold FOctree.leafSum
  congr 1
  apply List.map_congr_left
  intro B hB
  rw [h B hB]

theorem FOctree.cells_level_unique (t : FOctree) (hwf : t.WellFormed) (j k : Nat)
    (hj : j < t.height) (hk : k < t.height) (c : CellClass) (hcj : c ∈ t.cells j)
    (hck : c ∈ t.cells k) : j = k := by
  have h1 := hwf.2.2.1 j hj c hcj
  have h2 := hwf.2.2.1 k hk c hck
  omega

theorem FOctree.kids_not_mem (t : FOctree) (hwf : t.WellFormed) (l : Nat)
    (hl : l + 1 < t.height) :
    ∀ c ∈ t.cells l, ∀ d ∈ t.kids c, d ∉ t.cells l := by
  intro c hc d hd hdl
  have hlev : c.level = l := hwf.2.2.1 l (by omega) c hc
  have hd1 := ((t.mem_kids hwf c (by omega) d).1 hd).1
  rw [hlev] at hd1
  have := t.cells_level_unique hwf l (l + 1) (by omega) hl d hdl hd1
  omega

/-- The upward values after the M2M calls of the levels `s + m - 1` down to `s`. -/
theorem FTestKernels.run_upward (t : FOctree) (hwf : t.WellFormed) (hg : t.Geometry)
    (n : CellClass → Int) (s : Nat) (hs : 1 ≤ s) :
    ∀ (m : Nat) (st : FTestState), (m ≠ 0 → s + m + 1 ≤ t.height) →
      (∀ j, s + m ≤ j → j < t.height → ∀ c ∈ t.cells j, st.dataUp c = t.weightBelow n j c) →
      (∀ j, s ≤ j → j < s + m → j < t.height → ∀ c ∈ t.cells j, st.dataUp c = 0) →
      (FTestKernels.run st ((List.range' s m).reverse.flatMap
          (fun l => (t.cells l).map t.m2mCall))).dataDown = st.dataDown ∧
      (FTestKernels.run st ((List.range' s m).reverse.flatMap
          (fun l => (t.cells l).map t.m2mCall))).particles = st.particles ∧
      (∀ j, s ≤ j → j < t.height → ∀ c ∈ t.cells j,
        (FTestKernels.run st ((List.range' s m).reverse.flatMap
          (fun l => (t.cells l).map t.m2mCall))).dataUp c = t.weightBelow n j c) := by
  intro m
  induction m with
  | zero =>
    intro st _ h1 _
    exact ⟨rfl, rfl, fun j hj hjH c hc => h1 j (by omega) hjH c hc⟩
  | succ m ih =>
    intro st hm h1 h0
    have hH : s + m + 1 < t.height := by have := hm (by omega); omega
    rw [List.range'_concat, Nat.one_mul, List.reverse_append, List.reverse_singleton,
      List.singleton_append, List.flatMap_cons, FTestKernels.run_append,
      FTestKernels.run_upward_level t _ (t.nodup_cells hwf _ (by omega))
        (t.kids_not_mem hwf (s + m) hH)]
    have hstep := ih
      { st with
        dataUp := (fun x =>
          if x ∈ t.cells (s + m) then st.dataUp x + ((t.kids x).map st.dataUp).sum
          else st.dataUp x) }
      (by intro _; omega)
      (by
        intro j hj hjH c hc
        simp only []
        by_cases hcm : c ∈ t.cells (s + m)
        · have hjm : j = s + m := t.cells_level_unique hwf j (s + m) hjH (by omega) c hc hcm
          subst hjm
          rw [if_pos hcm, h0 (s + m) (by omega) (by omega) (by omega) c hc, zero_add,
            t.kids_sum hwf hg (s + m) (by omega) hH c hc]
          have hcongr : ∀ d ∈ t.cells (s + m + 1),
              (if d.coordinate.half = c.coordinate then st.dataUp d else 0)
                = (fun x : FTreeCoordinate => if x.half = c.coordinate then (1 : Int) else 0)
                    d.coordinate
                  * t.leafSum n (fun B =>
                      if t.ancestor (s + m + 1) B = d.coordinate then 1 else 0) := by
            intro d hd
            rw [h1 (s + m + 1) (by omega) hH d hd]
            unfold FOctree.weightBelow
            by_cases hdc : d.coordinate.half = c.coordinate <;> simp [hdc]
          rw [List.map_congr_left hcongr]
          refine (t.level_sum hwf hg (s + m + 1) (by omega) hH n
            (fun x : FTreeCoordinate => if x.half = c.coordinate then (1 : Int) else 0)).trans ?_
          unfold FOctree.weightBelow
          apply t.leafSum_congr
          intro B _
          simp only [t.ancestor_half (s + m) hH B]
        · rw [if_neg hcm]
          have hjm : s + m + 1 ≤ j := by
            rcases Nat.lt_or_ge (s + m) j with h | h
            · exact h
            · have : j = s + m := by omega
              subst this
              exact absurd hc hcm
          exact h1 j hjm hjH c hc)
      (by
        intro j hj hjm hjH c hc
        simp only []
        have hcm : c ∉ t.cells (s + m) := by
          intro hcm
          have := t.cells_level_unique hwf j (s + m) hjH (by omega) c hc hcm
          omega
        rw [if_neg hcm]
        exact h0 j hj (by omega) hjH c hc)
    exact hstep

theorem filterMap_id_map_some {α : Type} (l : List α) : (l.map some).filterMap id = l := by
  induction l with
  | nil => rfl
  | cons x l ih => simp

/-- The downward values after the M2L calls of the levels `s` to `s + m - 1`, the
separation criterion being 1 on every level. -/
theorem FTestKernels.run_transfer (t : FOctree) (hwf : t.WellFormed) (hg : t.Geometry)
    (n : CellClass → Int) (a : FFmmAlgorithm) (ha : a.tree = t)
    (hsep : ∀ l : Nat, a.separationCriteria l = 1) :
    ∀ (m s : Nat) (st : FTestState), 2 ≤ s → (m ≠ 0 → s + m ≤ t.height) →
      (∀ j, 2 ≤ j → j < t.height → ∀ c ∈ t.cells j, st.dataUp c = t.weightBelow n j c) →
      (FTestKernels.run st ((List.range' s m).flatMap a.m2lLevel)).dataUp = st.dataUp ∧
      (FTestKernels.run st ((List.range' s m).flatMap a.m2lLevel)).particles
        = st.particles ∧
      (∀ j, j < t.height → ∀ c ∈ t.cells j,
        (FTestKernels.run st ((List.range' s m).flatMap a.m2lLevel)).dataDown c
          = st.dataDown c + (if s ≤ j ∧ j < s + m then t.weightListed n j c else 0)) := by
  subst ha
  intro m
  induction m with
  | zero =>
    intro s st _ _ _
    refine ⟨rfl, rfl, ?_⟩
    intro j _ c _
    have : ¬ (s ≤ j ∧ j < s + 0) := by omega
    simp [FTestKernels.run, this]
  | succ m ih =>
    intro s st hs hm hup
    have hH : s < a.tree.height := by have := hm (by omega); omega
    rw [List.range'_succ, List.flatMap_cons, FTestKernels.run_append,
      FTestKernels.run_transfer_level a s (a.tree.nodup_cells hwf s hH)]
    obtain ⟨h1, h2, h3⟩ := ih (s + 1)
      { st with
        dataDown := (fun x =>
          if x ∈ a.tree.cells s then
            st.dataDown x
              + ((((a.tree.getInteractionNeighbors x.coordinate s
                  (a.separationCriteria s)).map Prod.fst).filterMap id).map
                    st.dataUp).sum
          else st.dataDown x) }
      (by omega) (by intro _; omega) hup
    refine ⟨h1, h2, ?_⟩
    intro j hj c hc
    rw [h3 j hj c hc]
    simp only []
    by_cases hcs : c ∈ a.tree.cells s
    · have hjs : j = s := a.tree.cells_level_unique hwf j s hj hH c hc hcs
      subst hjs
      rw [if_pos hcs, if_neg (by omega), if_pos (by omega), add_zero, hsep]
      congr 1
      have hperm := hg.2.2.2.2.2.2 j hH hs c hc
      rw [((hperm.filterMap id).map st.dataUp).sum_eq, filterMap_id_map_some,
        sum_map_filter_ite]
      have hcongr : ∀ d ∈ a.tree.cells j,
          (if decide (c.coordinate.wellSeparated d.coordinate) = true then st.dataUp d else 0)
            = (fun x : FTreeCoordinate =>
                if c.coordinate.wellSeparated x then (1 : Int) else 0) d.coordinate
              * a.tree.leafSum n (fun B =>
                  if a.tree.ancestor j B = d.coordinate then 1 else 0) := by
        intro d hd
        rw [hup j hs hj d hd]
        unfold FOctree.weightBelow
        by_cases hdc : c.coordinate.wellSeparated d.coordinate <;> simp [hdc]
      rw [List.map_congr_left hcongr]
      exact a.tree.level_sum hwf hg j (by omega) hj n
        (fun x : FTreeCoordinate => if c.coordinate.wellSeparated x then (1 : Int) else 0)
    · rw [if_neg hcs]
      have hjs : j ≠ s := fun h => hcs (h ▸ hc)
      by_cases hr : s + 1 ≤ j ∧ j < s + 1 + m
      · rw [if_pos hr, if_pos (by omega)]
      · rw [if_neg hr, if_neg (by omega)]

/-- The downward values after the L2L calls of the parent levels `s` to `s + m - 1`. -/
theorem FTestKernels.run_downward (t : FOctree) (hwf : t.WellFormed) (hg : t.Geometry)
    (n : CellClass → Int) :
    ∀ (m s : Nat) (st : FTestState), 2 ≤ s → (m ≠ 0 → s + m + 1 ≤ t.height) →
      (∀ j, 2 ≤ j → j ≤ s → j < t.height → ∀ c ∈ t.cells j,
        st.dataDown c = t.weightFar n j c) →
      (∀ j, s < j → j < t.height → ∀ c ∈ t.cells j, st.dataDown c = t.weightListed n j c) →
      (FTestKernels.run st ((List.range' s m).flatMap
          (fun k => (t.cells k).map t.l2lCall))).particles = st.particles ∧
      (∀ j, 2 ≤ j → j ≤ s + m → j < t.height → ∀ c ∈ t.cells j,
        (FTestKernels.run st ((List.range' s m).flatMap
          (fun k => (t.cells k).map t.l2lCall))).dataDown c = t.weightFar n j c) := by
  intro m
  induction m with
  | zero =>
    intro s st _ _ h1 _
    exact ⟨rfl, fun j hj hjs hjH c hc => h1 j hj (by omega) hjH c hc⟩
  | succ m ih =>
    intro s st hs hm h1 h2
    have hH : s + 1 < t.height := by have := hm (by omega); omega
    rw [List.range'_succ, List.flatMap_cons, FTestKernels.run_append,
      FTestKernels.run_downward_level t _ (t.kids_not_mem hwf s hH)]
    have hnokid : ∀ j, j ≠ s + 1 → j < t.height → ∀ x ∈ t.cells j,
        ((t.cells s).map (fun c => if x ∈ t.kids c then st.dataDown c else 0)).sum = 0 := by
      intro j hj hjH x hx
      apply sum_map_ite_none
      intro c hc hxc
      have hx1 := ((t.mem_kids_coordinate hwf hg s (by omega) hH c hc x).1 hxc).1
      exact hj (t.cells_level_unique hwf j (s + 1) hjH hH x hx hx1)
    obtain ⟨h3, h4⟩ := ih (s + 1)
      { st with
        dataDown := (fun x =>
          st.dataDown x
            + ((t.cells s).map (fun c => if x ∈ t.kids c then st.dataDown c else 0)).sum) }
      (by omega) (by intro _; omega)
      (by
        intro j hj hjs hjH x hx
        simp only []
        by_cases hjs1 : j = s + 1
        · subst hjs1
          obtain ⟨p, hp, hpm⟩ := hwf.2.2.2.1 s (by omega) (by omega) hH x hx
          have hpc := hg.2.2.1 s (by omega) (by omega) hH x hx p hp hpm
          have hsum := sum_map_ite_unique (t.cells s) (t.nodup_cells hwf s (by omega)) p hp
            (fun c => x ∈ t.kids c)
            (fun c hc => by
              show x ∈ t.kids c ↔ c = p
              rw [t.mem_kids_coordinate hwf hg s (by omega) hH c hc x]
              constructor
              · rintro ⟨_, hh⟩
                exact hg.2.1 s (by omega) (by omega) c hc p hp (hh.symm.trans hpc.symm)
              · intro h
                subst h
                exact ⟨hx, hpc.symm⟩)
            st.dataDown
          rw [hsum, h2 (s + 1) (by omega) hH x hx, h1 s hs (le_refl _) (by omega) p hp]
          unfold FOctree.weightListed FOctree.weightFar
          rw [t.leafSum_add]
          apply t.leafSum_congr
          intro B _
          have e : s + 1 - 1 = (s - 1) + 1 := by omega
          rw [e]
          show _ = (if x.coordinate.wellSeparated (t.ancestor (s + 1) B) then 1 else 0)
            + FTreeCoordinate.far (s - 1) x.coordinate.half (t.ancestor (s + 1) B).half
          rw [t.ancestor_half s hH B, hpc]
        · rw [hnokid j hjs1 hjH x hx, add_zero]
          exact h1 j hj (by omega) hjH x hx)
      (by
        intro j hj hjH x hx
        simp only []
        rw [hnokid j (by omega) hjH x hx, add_zero]
        exact h2 j (by omega) hjH x hx)
    refine ⟨h3, ?_⟩
    intro j hj hjs hjH c hc
    exact h4 j hj (by omega) hjH c hc

theorem FOctree.weightBelow_leaf (t : FOctree) (hwf : t.WellFormed) (hg : t.Geometry)
    (n : CellClass → Int) (c : CellClass) (hc : c ∈ t.leaves) :
    t.weightBelow n (t.height - 1) c = n c := by
  have hH := hwf.1
  unfold FOctree.weightBelow FOctree.leafSum
  have h := sum_map_ite_unique t.leaves (t.nodup_cells hwf _ (by omega)) c hc
    (fun B => t.ancestor (t.height - 1) B = c.coordinate)
    (fun B hB => by
      show t.ancestor (t.height - 1) B = c.coordinate ↔ B = c
      simp only [FOctree.ancestor, Nat.sub_self, Function.iterate_zero, id]
      constructor
      · intro h
        exact hg.2.1 (t.height - 1) (by omega) (by omega) B hB c hc h
      · intro h
        rw [h])
    n
  rw [← h]
  congr 1
  apply List.map_congr_left
  intro B _
  by_cases hB : t.ancestor (t.height - 1) B = c.coordinate <;> simp [hB]

theorem FOctree.weightFar_two (t : FOctree) (n : CellClass → Int) (c : CellClass) :
    t.weightFar n 2 c = t.weightListed n 2 c := by
  unfold FOctree.weightFar FOctree.weightListed
  apply t.leafSum_congr
  intro B _
  show (if c.coordinate.wellSeparated (t.ancestor 2 B) then 1 else 0)
    + FTreeCoordinate.far 0 c.coordinate.half (t.ancestor 2 B).half = _
  simp [FTreeCoordinate.far]

/-- The particles counted by the near field and by the far field of a leaf are all the
particles of the tree. -/
theorem FOctree.weight_total (t : FOctree) (hwf : t.WellFormed) (hg : t.Geometry)
    (st : FTestState) (A : CellClass) (hA : A ∈ t.leaves) :
    t.weightFar (fun B => st.getNbParticles (t.listSrc B)) (t.height - 1) A
      + ((((((t.getLeafsNeighbors A.coordinate ((t.height : Int) - 1)).map
          Prod.fst).filterMap id).map st.getNbParticles).sum
        + st.getNbParticles (t.listSrc A) - 1))
      = t.getNbParticles st - 1 := by
  have hH := hwf.1
  have hperm := hg.2.2.2.2.2.1 A hA
  have hnear : ((((t.getLeafsNeighbors A.coordinate ((t.height : Int) - 1)).map
      Prod.fst).filterMap id).map st.getNbParticles).sum
      = (t.leaves.map (fun B => if decide (B ≠ A ∧ A.coordinate.adjacent B.coordinate) = true
          then st.getNbParticles (t.listSrc B) else 0)).sum := by
    rw [((hperm.filterMap id).map st.getNbParticles).sum_eq]
    have e : (t.leaves.filter (fun d => decide (d ≠ A ∧ A.coordinate.adjacent
        d.coordinate))).map (fun d => some (t.listSrc d))
        = ((t.leaves.filter (fun d => decide (d ≠ A ∧ A.coordinate.adjacent
          d.coordinate))).map t.listSrc).map some := by
      rw [List.map_map]
      rfl
    rw [e, filterMap_id_map_some, List.map_map, sum_map_filter_ite]
    rfl
  have hown : st.getNbParticles (t.listSrc A)
      = (t.leaves.map (fun B => if B = A then st.getNbParticles (t.listSrc B) else 0)).sum :=
    (sum_map_ite_unique t.leaves (t.nodup_cells hwf _ (by omega)) A hA (fun B => B = A)
      (fun B _ => Iff.rfl) (fun B => st.getNbParticles (t.listSrc B))).symm
  have hsum : t.weightFar (fun B => st.getNbParticles (t.listSrc B)) (t.height - 1) A
      + ((t.leaves.map (fun B => if decide (B ≠ A ∧ A.coordinate.adjacent B.coordinate) = true
          then st.getNbParticles (t.listSrc B) else 0)).sum
        + (t.leaves.map (fun B => if B = A then st.getNbParticles (t.listSrc B) else 0)).sum)
      = t.getNbParticles st := by
    unfold FOctree.weightFar FOctree.leafSum FOctree.getNbParticles
    rw [← List.sum_map_add, ← List.sum_map_add]
    congr 1
    apply List.map_congr_left
    intro B hB
    have hpart := FTreeCoordinate.far_partition (t.height - 1 - 1) A.coordinate B.coordinate
      (by
        have := hg.1 A hA
        have e : t.height - 1 - 1 + 1 = t.height - 1 := by omega
        rw [e]
        exact this)
      (by
        have := hg.1 B hB
        have e : t.height - 1 - 1 + 1 = t.height - 1 := by omega
        rw [e]
        exact this)
    have hanc : t.ancestor (t.height - 1) B = B.coordinate := by
      simp [FOctree.ancestor]
    simp only [hanc]
    by_cases hBA : B = A
    · subst hBA
      have hadj := FTreeCoordinate.adjacent_self B.coordinate
      simp only [hadj, if_true] at hpart
      simp only [ne_eq, not_true_eq_false, false_and, decide_False, if_true]
      have h0 : FTreeCoordinate.far (t.height - 1 - 1) B.coordinate B.coordinate = 0 := by
        omega
      rw [h0]
      simp
    · by_cases hadj : A.coordinate.adjacent B.coordinate
      · simp only [hadj, if_true] at hpart
        have h0 : FTreeCoordinate.far (t.height - 1 - 1) A.coordinate B.coordinate = 0 := by
          omega
        rw [h0]
        simp [hBA, hadj]
      · simp only [hadj, if_false, add_zero] at hpart
        rw [hpart]
        simp [hBA, hadj]
  rw [hnear]
  rw [hown] at *
  omega

/-- The data after the four far-field passes P2M, M2M, M2L and L2L of the whole tree
(levels 2 to `height - 1`, separation criterion 1), from data that is zero on every cell: the
particles are untouched and the downward value of a leaf counts the particles below the
cells of the interaction lists of the leaf and of its ancestors. -/
theorem FTestKernels.run_far_field (t : FOctree) (hwf : t.WellFormed) (hg : t.Geometry)
    (a : FFmmAlgorithm) (ha : a.tree = t) (hsep : ∀ l : Nat, a.separationCriteria l = 1)
    (st : FTestState) (hup : ∀ c, st.dataUp c = 0) (hdown : ∀ c, st.dataDown c = 0) :
    (FTestKernels.run (FTestKernels.run (FTestKernels.run
        (FTestKernels.run st (t.leaves.map t.p2mCall))
        ((List.range' 2 (t.height - 3)).reverse.flatMap (fun l => (t.cells l).map t.m2mCall)))
        ((List.range' 2 (t.height - 2)).flatMap a.m2lLevel))
        ((List.range' 2 (t.height - 3)).flatMap
          (fun k => (t.cells k).map t.l2lCall))).particles = st.particles ∧
    ∀ A ∈ t.leaves,
      (FTestKernels.run (FTestKernels.run (FTestKernels.run
        (FTestKernels.run st (t.leaves.map t.p2mCall))
        ((List.range' 2 (t.height - 3)).reverse.flatMap (fun l => (t.cells l).map t.m2mCall)))
        ((List.range' 2 (t.height - 2)).flatMap a.m2lLevel))
        ((List.range' 2 (t.height - 3)).flatMap
          (fun k => (t.cells k).map t.l2lCall))).dataDown A
        = t.weightFar (fun B => st.getNbParticles (t.listSrc B)) (t.height - 1) A := by
  have hH := hwf.1
  have h1 := FTestKernels.run_bottom t t.leaves st
  obtain ⟨u1, u2, u3⟩ := FTestKernels.run_upward t hwf hg
    (fun B => st.getNbParticles (t.listSrc B)) 2 (by omega) (t.height - 3)
    (FTestKernels.run st (t.leaves.map t.p2mCall)) (by omega)
    (by
      intro j hj hjH c hc
      have hjl : j = t.height - 1 := by omega
      subst hjl
      rw [h1, t.weightBelow_leaf hwf hg _ c hc]
      have hcl : c ∈ t.leaves := hc
      simp [hcl])
    (by
      intro j hj hjm hjH c hc
      have hcl : c ∉ t.leaves := by
        intro hcl
        have := t.cells_level_unique hwf j (t.height - 1) hjH (by omega) c hc hcl
        omega
      rw [h1]
      simp [hcl, hup])
  obtain ⟨t1, t2, t3⟩ := FTestKernels.run_transfer t hwf hg
    (fun B => st.getNbParticles (t.listSrc B)) a ha hsep (t.height - 2) 2
    (FTestKernels.run (FTestKernels.run st (t.leaves.map t.p2mCall))
      ((List.range' 2 (t.height - 3)).reverse.flatMap (fun l => (t.cells l).map t.m2mCall)))
    (le_refl _) (by omega) u3
  have hd2 : ∀ c, (FTestKernels.run (FTestKernels.run st (t.leaves.map t.p2mCall))
      ((List.range' 2 (t.height - 3)).reverse.flatMap
        (fun l => (t.cells l).map t.m2mCall))).dataDown c = 0 := by
    intro c
    rw [u1, h1]
    exact hdown c
  obtain ⟨d1, d2⟩ := FTestKernels.run_downward t hwf hg
    (fun B => st.getNbParticles (t.listSrc B)) (t.height - 3) 2
    (FTestKernels.run (FTestKernels.run (FTestKernels.run st (t.leaves.map t.p2mCall))
      ((List.range' 2 (t.height - 3)).reverse.flatMap (fun l => (t.cells l).map t.m2mCall)))
      ((List.range' 2 (t.height - 2)).flatMap a.m2lLevel))
    (le_refl _) (by omega)
    (by
      intro j hj hj2 hjH c hc
      have : j = 2 := by omega
      subst this
      rw [t3 2 hjH c hc, hd2, if_pos (by omega), zero_add, t.weightFar_two])
    (by
      intro j hj hjH c hc
      rw [t3 j hjH c hc, hd2, if_pos (by omega), zero_add])
  refine ⟨?_, ?_⟩
  · rw [d1, t2, u2, h1]
  · intro A hA
    by_cases h3 : 3 ≤ t.height
    · exact d2 (t.height - 1) (by omega) (by omega) (by omega) A hA
    · have e3 : t.height - 3 = 0 := by omega
      have e2 : t.height - 2 = 0 := by omega
      have hfar : t.weightFar (fun B => st.getNbParticles (t.listSrc B)) (t.height - 1) A
          = 0 := by
        unfold FOctree.weightFar FOctree.leafSum
        apply List.sum_eq_zero
        intro x hx
        obtain ⟨B, _, rfl⟩ := List.mem_map.1 hx
        have e1 : t.height - 1 - 1 = 0 := by omega
        rw [e1]
        simp [FTreeCoordinate.far]
      rw [hfar]
      simp only [e3, e2, List.range'_zero, List.reverse_nil, List.flatMap_nil,
        FTestKernels.run, List.foldl_nil]
      have := h1
      unfold FTestKernels.run at this
      rw [this]
      exact hdown A

theorem map_add_of_zero (l : List Int) (h : ∀ v ∈ l, v = 0) (x : Int) :
    l.map (fun v => v + x) = List.replicate l.length x := by
  rw [List.eq_replicate_iff]
  refine ⟨by simp, ?_⟩
  intro b hb
  obtain ⟨v, hv, rfl⟩ := List.mem_map.1 hb
  rw [h v hv, zero_add]

/-- C16: with the counting test kernel, on a well-formed tree with a leaf whose geometry
and neighbour queries are those of an octree, a full run over the levels 2 to H-1 with the
separation criterion 1 (working levels 2 and H, every operation enabled), started from data
that is zero on every cell and every particle, ends normally; after the P2M pass, which comes
first, the upward value of every leaf cell is the number of particles of the leaf; after the
run every particle of every leaf holds N - 1, N being the number of particles of the tree. -/
theorem FFmmAlgorithm.counting_kernel_every_particle_once (t : FOctree)
    (ops : FFmmOperations) (fuel operationsToProceed : Nat) (st : FTestState)
    (hwf : t.WellFormed) (hne : t.leaves ≠ []) (hg : t.Geometry) (hfuel : t.width ≤ fuel)
    (hP2M : operationsToProceed &&& ops.FFmmP2M ≠ 0)
    (hM2M : operationsToProceed &&& ops.FFmmM2M ≠ 0)
    (hM2L : operationsToProceed &&& ops.FFmmM2L ≠ 0)
    (hL2L : operationsToProceed &&& ops.FFmmL2L ≠ 0)
    (hL2P : operationsToProceed &&& ops.FFmmL2P ≠ 0)
    (hP2P : operationsToProceed &&& ops.FFmmP2P ≠ 0)
    (hup : ∀ c, st.dataUp c = 0) (hdown : ∀ c, st.dataDown c = 0)
    (hpart : ∀ k, ∀ v ∈ st.particles k, v = 0) :
    ∃ p2m rest,
      (⟨t, 1, 2, t.height⟩ : FFmmAlgorithm).bottomPass fuel = .ok p2m ∧
      (⟨t, 1, 2, t.height⟩ : FFmmAlgorithm).executeCore ops fuel operationsToProceed
        = .ok (p2m ++ rest) ∧
      (∀ leaf ∈ t.leaves,
        (FTestKernels.run st p2m).dataUp leaf = st.getNbParticles (t.listSrc leaf)) ∧
      (∀ leaf ∈ t.leaves,
        (FTestKernels.run st (p2m ++ rest)).particles (t.listTargets leaf)
          = List.replicate (st.particles (t.listTargets leaf)).length
              (t.getNbParticles st - 1)) := by
  have hH := hwf.1
  have hsep : ∀ l : Nat, (⟨t, 1, 2, t.height⟩ : FFmmAlgorithm).separationCriteria l = 1 := by
    intro l
    unfold FFmmAlgorithm.separationCriteria
    split <;> rfl
  have htr := (⟨t, 1, 2, t.height⟩ : FFmmAlgorithm).executeCore_trace ops fuel
    operationsToProceed hwf hne hfuel (le_refl _) (le_refl _)
  have hnU : (min ((⟨t, 1, 2, t.height⟩ : FFmmAlgorithm).OctreeHeight - 2)
      ((⟨t, 1, 2, t.height⟩ : FFmmAlgorithm).lowerWorkingLevel - 1)
      - (⟨t, 1, 2, t.height⟩ : FFmmAlgorithm).upperWorkingLevel + 1).toNat
      = t.height - 3 := by
    show (min ((t.height : Int) - 2) ((t.height : Int) - 1) - 2 + 1).toNat = t.height - 3
    omega
  have hnT : ((⟨t, 1, 2, t.height⟩ : FFmmAlgorithm).lowerWorkingLevel
      - (⟨t, 1, 2, t.height⟩ : FFmmAlgorithm).upperWorkingLevel).toNat = t.height - 2 := by
    show ((t.height : Int) - 2).toNat = t.height - 2
    omega
  have hnD : ((⟨t, 1, 2, t.height⟩ : FFmmAlgorithm).lowerWorkingLevel - 1
      - (⟨t, 1, 2, t.height⟩ : FFmmAlgorithm).upperWorkingLevel).toNat = t.height - 3 := by
    show ((t.height : Int) - 1 - 2).toNat = t.height - 3
    omega
  have h2 : (⟨t, 1, 2, t.height⟩ : FFmmAlgorithm).upperWorkingLevel.toNat = 2 := rfl
  unfold FFmmAlgorithm.expectedTrace at htr
  rw [if_pos hP2M, if_pos hM2M, if_pos hM2L, if_pos hL2L, hnU, hnT, hnD, h2,
    decide_eq_true hP2P, decide_eq_true hL2P] at htr
  simp only [List.append_assoc] at htr
  refine ⟨_, _, (⟨t, 1, 2, t.height⟩ : FFmmAlgorithm).bottomPass_trace fuel hwf hne hfuel,
    htr, ?_, ?_⟩
  · intro leaf hleaf
    rw [FTestKernels.run_bottom]
    simp only []
    rw [if_pos hleaf]
  · intro leaf hleaf
    obtain ⟨f1, f2⟩ := FTestKernels.run_far_field t hwf hg ⟨t, 1, 2, t.height⟩ rfl hsep st
      hup hdown
    have hinj : ∀ c ∈ t.leaves, ∀ d ∈ t.leaves, t.listTargets c = t.listTargets d → c = d := by
      intro c hc d hd h
      rw [hg.2.2.2.2.1 c hc, hg.2.2.2.2.1 d hd] at h
      exact hg.2.2.2.1 c hc d hd h
    obtain ⟨_, _, _, g4⟩ := FTestKernels.run_direct t t.leaves
      (t.nodup_cells hwf _ (by omega)) hinj
      (FTestKernels.run (FTestKernels.run (FTestKernels.run
        (FTestKernels.run st (t.leaves.map t.p2mCall))
        ((List.range' 2 (t.height - 3)).reverse.flatMap (fun l => (t.cells l).map t.m2mCall)))
        ((List.range' 2 (t.height - 2)).flatMap
          (⟨t, 1, 2, t.height⟩ : FFmmAlgorithm).m2lLevel))
        ((List.range' 2 (t.height - 3)).flatMap (fun k => (t.cells k).map t.l2lCall)))
    have hnb : ∀ s : FTestState, s.particles = st.particles →
        s.getNbParticles = st.getNbParticles := by
      intro s hs
      funext k
      unfold FTestState.getNbParticles
      rw [hs]
    rw [FTestKernels.run_append, FTestKernels.run_append, FTestKernels.run_append,
      FTestKernels.run_append, g4 leaf hleaf, f1, f2 leaf hleaf, hnb _ f1]
    have htot := t.weight_total hwf hg st leaf hleaf
    have hfun : (fun v : Int => v
        + t.weightFar (fun B => st.getNbParticles (t.listSrc B)) (t.height - 1) leaf
        + ((((((t.getLeafsNeighbors leaf.coordinate ((t.height : Int) - 1)).map
            Prod.fst).filterMap id).map st.getNbParticles).sum
          + st.getNbParticles (t.listSrc leaf) - 1)))
        = fun v => v + (t.getNbParticles st - 1) := by
      funext v
      rw [← htot]
      ring
    rw [hfun]
    exact map_add_of_zero _ (hpart _) _

theorem exTree_geometry : exTree.Geometry := by decide

/-- Witness for C16: the example tree of height 4 whose four leaves hold 2, 3, 1 and 3
particles: after the full run every particle holds 8. -/
theorem FFmmAlgorithm.counting_kernel_every_particle_once_witness :
    ∃ p2m rest,
      (⟨exTree, 1, 2, exTree.height⟩ : FFmmAlgorithm).bottomPass 10 = .ok p2m ∧
      (⟨exTree, 1, 2, exTree.height⟩ : FFmmAlgorithm).executeCore exOps 10 63
        = .ok (p2m ++ rest) ∧
      (∀ leaf ∈ exTree.leaves,
        (FTestKernels.run exState p2m).dataUp leaf
          = exState.getNbParticles (exTree.listSrc leaf)) ∧
      (∀ leaf ∈ exTree.leaves,
        (FTestKernels.run exState (p2m ++ rest)).particles (exTree.listTargets leaf)
          = List.replicate (exState.particles (exTree.listTargets leaf)).length
              (exTree.getNbParticles exState - 1)) :=
  FFmmAlgorithm.counting_kernel_every_particle_once exTree exOps 10 63 exState
    exTree_wellFormed exTree_leaves_ne_nil exTree_geometry exTree_width
    (by decide) (by decide) (by decide) (by decide) (by decide) (by decide)
    (fun _ => rfl) (fun _ => rfl) (fun _ _ hv => List.eq_of_mem_replicate hv)

/-! ## The permuted expansions of FChebSymKernel_i -/

theorem permutedSlots_eq :
    permutedSlots
      = [269, 276, 277, 283, 284, 285, 318, 325, 326, 332, 333, 334, 339, 340, 341, 342] := by
  decide

/-- Setting the slot `idx` of an array that holds `v` exactly in the slots of `S` gives the
array that holds `v` exactly in the slots of `idx :: S`. -/
theorem set_slots (v : Option Nat) (S : List Nat) (N idx : Nat) :
    ((List.range N).map (fun n => if n ∈ S then v else none)).set idx v
      = (List.range N).map (fun n => if n ∈ idx :: S then v else none) := by
  apply List.ext_getElem?
  intro n
  by_cases hn : n < N
  · rw [List.getElem?_set]
    by_cases e : idx = n
    · subst e
      simp [List.getElem?_map, List.getElem?_range hn, hn]
    · have e2 : ¬ n = idx := fun h => e h.symm
      simp [List.getElem?_map, List.getElem?_range hn, e, e2]
  · rw [List.getElem?_eq_none (by simp; omega), List.getElem?_eq_none (by simp; omega)]

/-- The entry of a slot outside `S` in the array that holds `v` exactly in the slots of
`S`. -/
theorem get_slots (v : Option Nat) (S : List Nat) (N idx : Nat) (h : idx < N) (hS : idx ∉ S) :
    ((List.range N).map (fun n => if n ∈ S then v else none))[idx]? = some none := by
  simp [List.getElem?_map, List.getElem?_range h, hS]

/-- The array of null pointers holds a buffer in no slot. -/
theorem replicate_slots (v : Option Nat) (N : Nat) :
    (List.replicate N none : List (Option Nat))
      = (List.range N).map (fun n => if n ∈ ([] : List Nat) then v else none) := by
  apply List.ext_getElem?
  intro n
  by_cases hn : n < N
  · simp [List.getElem?_replicate, List.getElem?_map, List.getElem?_range hn, hn]
  · rw [List.getElem?_eq_none (by simp; omega), List.getElem?_eq_none (by simp; omega)]

/-- The body of the innermost allocation loop on arrays that hold a buffer exactly in the
slots of `S`, for a slot that is not in `S`. -/
theorem allocateSlot_ok (nnodes i j k : Nat) (S : List Nat)
    (hidx : (i + 3) * 7 * 7 + (j + 3) * 7 + (k + 3) < 343)
    (hS : (i + 3) * 7 * 7 + (j + 3) * 7 + (k + 3) ∉ S) :
    FChebSymKernel_i.allocateSlot nnodes i j k
        ((List.range 343).map (fun n => if n ∈ S then some (24 * nnodes) else none),
         (List.range 343).map (fun n => if n ∈ S then some (24 * nnodes) else none))
      = .ok ((List.range 343).map (fun n =>
                if n ∈ ((i + 3) * 7 * 7 + (j + 3) * 7 + (k + 3)) :: S then some (24 * nnodes)
                else none),
             (List.range 343).map (fun n =>
                if n ∈ ((i + 3) * 7 * 7 + (j + 3) * 7 + (k + 3)) :: S then some (24 * nnodes)
                else none)) := by
  unfold FChebSymKernel_i.allocateSlot
  have h32 : (i + 3) * 7 * 7 + (j + 3) * 7 + (k + 3) < 2 ^ 32 := by omega
  simp only [Nat.mod_eq_of_lt h32]
  simp only [get_slots _ S 343 _ hidx hS, set_slots _ S 343 _]
  simp

/-- A step that returns hands its result to the rest of the function. -/
theorem kernel_ok_bind {α β : Type} (a : α) (f : α → Except KernelFault β) :
    (Except.ok a >>= f) = f a := rfl

/-- The arrays `Mul` and `Loc` after the allocation: a buffer of `24 * nnodes` entries in the
slots of `permutedSlots`, null elsewhere. -/
theorem allocate_eq (nnodes : Nat) :
    FChebSymKernel_i.allocateMemoryForPermutedExpansions nnodes PermutedExpansions.null
      = .ok ⟨some ((List.range 343).map
                (fun idx => if idx ∈ permutedSlots then some (24 * nnodes) else none)),
             some ((List.range 343).map
                (fun idx => if idx ∈ permutedSlots then some (24 * nnodes) else none)),
             some 343⟩ := by
  have r2 : List.range' 2 2 = [2, 3] := rfl
  have r1 : List.range 1 = [0] := rfl
  have r2' : List.range 2 = [0, 1] := rfl
  have r3 : List.range 3 = [0, 1, 2] := rfl
  have r4 : List.range 4 = [0, 1, 2, 3] := rfl
  have h0 := replicate_slots (some (24 * nnodes)) 343
  unfold FChebSymKernel_i.allocateMemoryForPermutedExpansions
  simp only [PermutedExpansions.null, r2, r1, r2', r3, r4, List.foldlM_cons, List.foldlM_nil,
    Nat.reduceAdd, h0]
  simp only [and_self, not_true_eq_false, if_false]
  iterate 16
    rw [allocateSlot_ok]
    simp only [kernel_ok_bind, pure_bind]
  · have e : ∀ n : Nat,
        (n ∈ [(3 + 3) * 7 * 7 + (3 + 3) * 7 + (3 + 3), (3 + 3) * 7 * 7 + (3 + 3) * 7 + (2 + 3),
          (3 + 3) * 7 * 7 + (3 + 3) * 7 + (1 + 3), (3 + 3) * 7 * 7 + (3 + 3) * 7 + (0 + 3),
          (3 + 3) * 7 * 7 + (2 + 3) * 7 + (2 + 3), (3 + 3) * 7 * 7 + (2 + 3) * 7 + (1 + 3),
          (3 + 3) * 7 * 7 + (2 + 3) * 7 + (0 + 3), (3 + 3) * 7 * 7 + (1 + 3) * 7 + (1 + 3),
          (3 + 3) * 7 * 7 + (1 + 3) * 7 + (0 + 3), (3 + 3) * 7 * 7 + (0 + 3) * 7 + (0 + 3),
          (2 + 3) * 7 * 7 + (2 + 3) * 7 + (2 + 3), (2 + 3) * 7 * 7 + (2 + 3) * 7 + (1 + 3),
          (2 + 3) * 7 * 7 + (2 + 3) * 7 + (0 + 3), (2 + 3) * 7 * 7 + (1 + 3) * 7 + (1 + 3),
          (2 + 3) * 7 * 7 + (1 + 3) * 7 + (0 + 3), (2 + 3) * 7 * 7 + (0 + 3) * 7 + (0 + 3)])
        = (n ∈ permutedSlots) := by
      intro n
      have hrev : [(3 + 3) * 7 * 7 + (3 + 3) * 7 + (3 + 3),
          (3 + 3) * 7 * 7 + (3 + 3) * 7 + (2 + 3), (3 + 3) * 7 * 7 + (3 + 3) * 7 + (1 + 3),
          (3 + 3) * 7 * 7 + (3 + 3) * 7 + (0 + 3), (3 + 3) * 7 * 7 + (2 + 3) * 7 + (2 + 3),
          (3 + 3) * 7 * 7 + (2 + 3) * 7 + (1 + 3), (3 + 3) * 7 * 7 + (2 + 3) * 7 + (0 + 3),
          (3 + 3) * 7 * 7 + (1 + 3) * 7 + (1 + 3), (3 + 3) * 7 * 7 + (1 + 3) * 7 + (0 + 3),
          (3 + 3) * 7 * 7 + (0 + 3) * 7 + (0 + 3), (2 + 3) * 7 * 7 + (2 + 3) * 7 + (2 + 3),
          (2 + 3) * 7 * 7 + (2 + 3) * 7 + (1 + 3), (2 + 3) * 7 * 7 + (2 + 3) * 7 + (0 + 3),
          (2 + 3) * 7 * 7 + (1 + 3) * 7 + (1 + 3), (2 + 3) * 7 * 7 + (1 + 3) * 7 + (0 + 3),
          (2 + 3) * 7 * 7 + (0 + 3) * 7 + (0 + 3)] = permutedSlots.reverse := by decide
      rw [hrev, List.mem_reverse]
    simp only [e]
    rfl
  all_goals decide


/-- The number of buffers and of null pointers of an array that holds a buffer exactly in
the slots of `permutedSlots`. -/
theorem count_slots (v : Nat) (l : List Nat) :
    (l.map (fun idx => if idx ∈ permutedSlots then some v else none)).countP
        (fun p => p.isSome) = l.countP (fun idx => decide (idx ∈ permutedSlots)) ∧
    (l.map (fun idx => if idx ∈ permutedSlots then some v else none)).countP
        (fun p => p.isNone) = l.countP (fun idx => decide (idx ∉ permutedSlots)) := by
  induction l with
  | nil => simp
  | cons a l ih =>
    by_cases h : a ∈ permutedSlots <;> simp [List.countP_cons, h, ih.1, ih.2]

set_option maxRecDepth 100000 in
theorem count_permutedSlots :
    (List.range 343).countP (fun idx => decide (idx ∈ permutedSlots)) = 16 ∧
    (List.range 343).countP (fun idx => decide (idx ∉ permutedSlots)) = 327 := by
  decide

/-- C27: `allocateMemoryForPermutedExpansions`, called on the null members of a fresh kernel,
returns without a failed assertion; the slot indices `(i+3)*49 + (j+3)*7 + (k+3)` for
`2 ≤ i ≤ 3`, `0 ≤ j ≤ i`, `0 ≤ k ≤ j` are 16 pairwise distinct values below 343; exactly
these 16 slots of `Mul` and of `Loc` hold a buffer (of `24 * nnodes` entries) and the other
327 slots are null. -/
theorem FChebSymKernel_i.allocate_sixteen_slots (nnodes : Nat) :
    permutedSlots.length = 16 ∧ permutedSlots.Nodup ∧ (∀ idx ∈ permutedSlots, idx < 343) ∧
    ∃ Loc Mul : List (Option Nat),
      FChebSymKernel_i.allocateMemoryForPermutedExpansions nnodes PermutedExpansions.null
        = .ok ⟨some Loc, some Mul, some 343⟩ ∧
      Loc.length = 343 ∧ Mul.length = 343 ∧
      (∀ idx, idx < 343 →
        Mul[idx]? = some (if idx ∈ permutedSlots then some (24 * nnodes) else none) ∧
        Loc[idx]? = some (if idx ∈ permutedSlots then some (24 * nnodes) else none)) ∧
      Mul.countP (fun p => p.isSome) = 16 ∧ Mul.countP (fun p => p.isNone) = 327 ∧
      Loc.countP (fun p => p.isSome) = 16 ∧ Loc.countP (fun p => p.isNone) = 327 := by
  refine ⟨by decide, by decide, by decide, _, _, allocate_eq nnodes, ?_, ?_, ?_, ?_⟩
  · rw [List.length_map, List.length_range]
  · rw [List.length_map, List.length_range]
  · intro idx h
    rw [List.getElem?_map, List.getElem?_range h]
    exact ⟨rfl, rfl⟩
  · rw [(count_slots _ _).1, (count_slots _ _).2, count_permutedSlots.1, count_permutedSlots.2]
    exact ⟨rfl, rfl, rfl, rfl⟩

/-! ## The unrolled loops of the M2L operator -/

/-- The loop `for (n = start; n < bound; ++n)` runs its body at `start`, ..., `bound - 1`. -/
theorem forUnsigned_one {σ : Type} (bound : Nat) (body : Nat → σ → σ) (hb : bound < 2 ^ 32) :
    ∀ (fuel n : Nat) (s : σ), n ≤ bound → bound - n < fuel →
      forUnsigned bound 1 body fuel n s
        = some ((List.range' n (bound - n)).foldl (fun s n => body n s) s) := by
  intro fuel
  induction fuel with
  | zero => intro n s _ h; omega
  | succ fuel ih =>
    intro n s hn hf
    unfold forUnsigned
    by_cases h : n < bound
    · rw [if_pos h, Nat.mod_eq_of_lt (by omega), ih (n + 1) (body n s) (by omega) (by omega)]
      have e : bound - n = (bound - (n + 1)) + 1 := by omega
      rw [e, List.range'_succ, List.foldl_cons]
    · rw [if_neg h]
      have e : bound - n = 0 := by omega
      rw [e]
      rfl

/-- The loop `for (n = 4*t; n < 4*q; n += 4)` runs its body at `4*t`, `4*(t+1)`, ...,
`4*(q-1)`. -/
theorem forUnsigned_four {σ : Type} (q : Nat) (body : Nat → σ → σ) (hb : 4 * q < 2 ^ 32) :
    ∀ (fuel t : Nat) (s : σ), t ≤ q → q - t < fuel →
      forUnsigned (4 * q) 4 body fuel (4 * t) s
        = some ((List.range' t (q - t)).foldl (fun s t => body (4 * t) s) s) := by
  intro fuel
  induction fuel with
  | zero => intro t s _ h; omega
  | succ fuel ih =>
    intro t s ht hf
    unfold forUnsigned
    by_cases h : 4 * t < 4 * q
    · rw [if_pos h, Nat.mod_eq_of_lt (by omega)]
      have e4 : 4 * t + 4 = 4 * (t + 1) := by omega
      rw [e4, ih (t + 1) (body (4 * t) s) (by omega) (by omega)]
      have e : q - t = (q - (t + 1)) + 1 := by omega
      rw [e, List.range'_succ, List.foldl_cons]
    · rw [if_neg h]
      have e : q - t = 0 := by omega
      rw [e]
      rfl

/-- Four statements per trip over `q` trips are the statements at `0`, ..., `4*q - 1`. -/
theorem foldl_four {σ : Type} (statement : Nat → σ → σ) (s : σ) (q : Nat) :
    (List.range q).foldl
        (fun s t =>
          statement (4 * t + 3) (statement (4 * t + 2) (statement (4 * t + 1)
            (statement (4 * t) s)))) s
      = (List.range (4 * q)).foldl (fun s n => statement n s) s := by
  induction q with
  | zero => rfl
  | succ q ih =>
    have e : 4 * (q + 1) = 4 * q + 1 + 1 + 1 + 1 := by omega
    rw [List.range_succ, List.foldl_append, ih, e, List.range_succ, List.range_succ,
      List.range_succ, List.range_succ]
    simp only [List.foldl_append, List.foldl_cons, List.foldl_nil]

/-- The unrolled loops run the statement at `0`, ..., `nnodes - 1`, in this order. -/
theorem unrolledLoop_eq {σ : Type} (nnodes : Nat) (statement : Nat → σ → σ) (fuel : Nat)
    (s : σ) (hn : nnodes < 2 ^ 32) (hf : nnodes < fuel) :
    FChebSymKernel_i.unrolledLoop nnodes statement fuel s
      = some ((List.range nnodes).foldl (fun s n => statement n s) s) := by
  unfold FChebSymKernel_i.unrolledLoop
  have hq : nnodes / 4 * 4 = 4 * (nnodes / 4) := Nat.mul_comm _ _
  have hle : 4 * (nnodes / 4) ≤ nnodes := Nat.mul_div_le nnodes 4
  have h4 := forUnsigned_four (nnodes / 4)
    (fun n s =>
      statement ((n + 3) % 2 ^ 32)
        (statement ((n + 2) % 2 ^ 32) (statement ((n + 1) % 2 ^ 32) (statement n s))))
    (by omega) fuel 0 s (Nat.zero_le _) (by omega)
  rw [hq, h4, Option.some_bind,
    forUnsigned_one nnodes statement hn fuel _ _ hle (by omega)]
  simp only []
  have hbody : ∀ (l : List Nat) (s : σ), (∀ t ∈ l, t < nnodes / 4) →
      l.foldl (fun s t =>
        statement ((4 * t + 3) % 2 ^ 32)
          (statement ((4 * t + 2) % 2 ^ 32) (statement ((4 * t + 1) % 2 ^ 32)
            (statement (4 * t) s)))) s
      = l.foldl (fun s t =>
          statement (4 * t + 3) (statement (4 * t + 2) (statement (4 * t + 1)
            (statement (4 * t) s)))) s := by
    intro l
    induction l with
    | nil => intro s _; rfl
    | cons a l ih =>
      intro s h
      have ha : a < nnodes / 4 := h a (List.mem_cons_self _ _)
      rw [List.foldl_cons, List.foldl_cons, Nat.mod_eq_of_lt (by omega),
        Nat.mod_eq_of_lt (by omega), Nat.mod_eq_of_lt (by omega)]
      exact ih _ (fun t ht => h t (List.mem_cons_of_mem _ ht))
  rw [Nat.sub_zero, ← List.range_eq_range', hbody _ _ (fun t ht => List.mem_range.1 ht),
    foldl_four, ← List.foldl_append]
  congr 2
  have e : nnodes = 4 * (nnodes / 4) + (nnodes - 4 * (nnodes / 4)) := by omega
  conv_rhs => rw [e]
  rw [List.range_eq_range', List.range_eq_range']
  have h := List.range'_append_1 0 (4 * (nnodes / 4)) (nnodes - 4 * (nnodes / 4))
  rw [Nat.zero_add] at h
  rw [h, Nat.add_comm]

/-- The reference loop runs the statement at `0`, ..., `nnodes - 1`, in this order. -/
theorem referenceLoop_eq {σ : Type} (nnodes : Nat) (statement : Nat → σ → σ) (fuel : Nat)
    (s : σ) (hn : nnodes < 2 ^ 32) (hf : nnodes < fuel) :
    FChebSymKernel_i.referenceLoop nnodes statement fuel s
      = some ((List.range nnodes).foldl (fun s n => statement n s) s) := by
  unfold FChebSymKernel_i.referenceLoop
  rw [forUnsigned_one nnodes statement hn fuel 0 s (Nat.zero_le _) (by omega), Nat.sub_zero,
    ← List.range_eq_range']

/-- Recording the index of every statement executed, in order, gives `0`, ..., `n - 1`. -/
theorem foldl_record (n : Nat) :
    (List.range n).foldl (fun (trace : List Nat) n => trace ++ [n]) [] = List.range n := by
  induction n with
  | zero => rfl
  | succ n ih => rw [List.range_succ, List.foldl_append, ih]; rfl

/-- The gather-add statements at `0`, ..., `k - 1` add `loc[pvec[n]]` once to every entry
`n < k` of the local expansion and leave the other entries. -/
theorem foldl_addStatement {V : Type} [Add V] (pvec : Nat → Nat) (loc L : Nat → V) (k : Nat) :
    ∀ n, (List.range k).foldl (fun L n => FChebSymKernel_i.addStatement pvec loc n L) L n
      = if n < k then L n + loc (pvec n) else L n := by
  induction k with
  | zero => intro n; rfl
  | succ k ih =>
    intro n
    rw [List.range_succ, List.foldl_append, List.foldl_cons, List.foldl_nil]
    have e0 : ∀ M : Nat → V, FChebSymKernel_i.addStatement pvec loc k M
        = Function.update M k (M k + loc (pvec k)) := fun _ => rfl
    rw [e0]
    by_cases e : n = k
    · subst e
      rw [Function.update_same, ih, if_neg (Nat.lt_irrefl _), if_pos (Nat.lt_succ_self _)]
    · rw [Function.update_noteq e, ih]
      by_cases h : n < k
      · rw [if_pos h, if_pos (by omega)]
      · rw [if_neg h, if_neg (by omega)]

/-- C28: for every number of nodes `nnodes` (an `unsigned int`, so below `2^32`) and enough
fuel, the explicitly unrolled scatter and gather-add of `FChebSymKernel_i::M2L` return, and
return what the loops without unrolling return: the scatter performs the assignments
`mul[pvec[n]] = MultiExp[n]` for `n = 0, ..., nnodes-1` in increasing `n`, the gather-add
performs `LocalExpansion[n] += loc[pvec[n]]` for the same `n`, so that every entry below
`nnodes` receives its term once and no other entry is touched; the indices at which the
statement of an unrolled loop is executed are `0, ..., nnodes-1`, in this order, each once. -/
theorem FChebSymKernel_i.M2L_unrolled_eq_reference {V : Type} [Add V] (nnodes fuel : Nat)
    (pvec : Nat → Nat) (MultiExp loc mul LocalExpansion : Nat → V)
    (hn : nnodes < 2 ^ 32) (hf : nnodes < fuel) :
    FChebSymKernel_i.permuteAndCopy nnodes pvec MultiExp fuel mul
      = FChebSymKernel_i.referenceLoop nnodes (FChebSymKernel_i.copyStatement pvec MultiExp)
          fuel mul ∧
    FChebSymKernel_i.permuteAndCopy nnodes pvec MultiExp fuel mul
      = some ((List.range nnodes).foldl
          (fun mul n => Function.update mul (pvec n) (MultiExp n)) mul) ∧
    FChebSymKernel_i.permuteAndAdd nnodes pvec loc fuel LocalExpansion
      = FChebSymKernel_i.referenceLoop nnodes (FChebSymKernel_i.addStatement pvec loc)
          fuel LocalExpansion ∧
    FChebSymKernel_i.permuteAndAdd nnodes pvec loc fuel LocalExpansion
      = some ((List.range nnodes).foldl
          (fun L n => Function.update L n (L n + loc (pvec n))) LocalExpansion) ∧
    (∃ L, FChebSymKernel_i.permuteAndAdd nnodes pvec loc fuel LocalExpansion = some L ∧
      ∀ n, L n = if n < nnodes then LocalExpansion n + loc (pvec n) else LocalExpansion n) ∧
    FChebSymKernel_i.unrolledLoop nnodes (fun n (trace : List Nat) => trace ++ [n]) fuel []
      = some (List.range nnodes) := by
  unfold FChebSymKernel_i.permuteAndCopy FChebSymKernel_i.permuteAndAdd
  rw [unrolledLoop_eq nnodes _ fuel mul hn hf, unrolledLoop_eq nnodes _ fuel LocalExpansion hn hf,
    referenceLoop_eq nnodes _ fuel mul hn hf, referenceLoop_eq nnodes _ fuel LocalExpansion hn hf,
    unrolledLoop_eq nnodes _ fuel [] hn hf, foldl_record]
  exact ⟨rfl, rfl, rfl, rfl, ⟨_, rfl, foldl_addStatement pvec loc LocalExpansion nnodes⟩, rfl⟩

/-- Witness of C28 for 7 nodes (not a multiple of 4) and the fuel 8: the permutation
reverses the nodes, the multipole expansion holds `10 + n` at the node `n`. -/
theorem FChebSymKernel_i.M2L_unrolled_eq_reference_witness :
    (7 < 2 ^ 32 ∧ 7 < 8) ∧
    (FChebSymKernel_i.permuteAndCopy 7 (fun n => 6 - n) (fun n => (10 + n : Int)) 8
        (fun _ => 0)).map (fun mul => (List.range 8).map mul)
      = some [16, 15, 14, 13, 12, 11, 10, 0] ∧
    (FChebSymKernel_i.permuteAndAdd 7 (fun n => 6 - n) (fun n => (10 + n : Int)) 8
        (fun _ => 1)).map (fun L => (List.range 8).map L)
      = some [17, 16, 15, 14, 13, 12, 11, 1] ∧
    FChebSymKernel_i.unrolledLoop 7 (fun n (trace : List Nat) => trace ++ [n]) 8 []
      = some [0, 1, 2, 3, 4, 5, 6] :=
  ⟨⟨by decide, by decide⟩,
   by
    rw [(FChebSymKernel_i.M2L_unrolled_eq_reference 7 8 (fun n => 6 - n)
      (fun n => (10 + n : Int)) (fun n => (10 + n : Int)) (fun _ => 0) (fun _ => 1)
      (by decide) (by decide)).2.1]
    decide,
   by
    rw [(FChebSymKernel_i.M2L_unrolled_eq_reference 7 8 (fun n => 6 - n)
      (fun n => (10 + n : Int)) (fun n => (10 + n : Int)) (fun _ => 0) (fun _ => 1)
      (by decide) (by decide)).2.2.2.1]
    decide,
   (FChebSymKernel_i.M2L_unrolled_eq_reference 7 8 (fun n => 6 - n)
      (fun n => (10 + n : Int)) (fun n => (10 + n : Int)) (fun _ => 0) (fun _ => 1)
      (by decide) (by decide)).2.2.2.2.2⟩

/-! ## The blocks of the permuted expansions -/

/-- Setting the entry `i` of the table of `f` gives the table of the function that differs
from `f` at `i` only. -/
theorem set_map_range (f g : Nat → Nat) (N i : Nat) (v : Nat)
    (h : ∀ n, g n = if i = n then v else f n) :
    ((List.range N).map f).set i v = (List.range N).map g := by
  apply List.ext_getElem?
  intro n
  by_cases hn : n < N
  · rw [List.getElem?_set, List.getElem?_map, List.getElem?_map, List.getElem?_range hn,
      List.length_map, List.length_range, Option.map_some', Option.map_some', h n]
    by_cases e : i = n
    · rw [if_pos e, if_pos e, if_pos (e ▸ hn)]
    · rw [if_neg e, if_neg e]
  · rw [List.getElem?_eq_none (by simp; omega), List.getElem?_eq_none (by simp; omega)]

/-- The accesses of the block `count` of a buffer that holds `count + 1` blocks of `nnodes`
entries are inside the buffer when the permutation vector maps the nodes to nodes. -/
theorem blockAccesses_ok (nnodes : Nat) (pvec : Nat → Nat) (size count : Nat)
    (hpvec : ∀ m, m < nnodes → pvec m < nnodes) (hsize : (count + 1) * nnodes ≤ size) :
    FChebSymKernel_i.blockAccesses nnodes pvec (some size) count = .ok () := by
  unfold FChebSymKernel_i.blockAccesses
  simp only []
  rw [if_pos]
  rw [List.all_eq_true]
  intro n hn
  have hn' := List.mem_range.1 hn
  have h1 := hpvec n hn'
  have h2 := Nat.mod_le (count * nnodes) (2 ^ 32)
  rw [Nat.succ_mul] at hsize
  simp only [decide_eq_true_eq]
  omega

/-- The state of a permute pass after `k` neighbours, when the accesses of every neighbour to
its block are valid: `countExp` holds for every class the number of the neighbours seen of
that class, and the neighbour `n` took the block of the number of the earlier neighbours of
its class. -/
theorem permute_fold (nnodes : Nat) (buffers : List (Option Nat)) (pindices : List Nat)
    (pvectors : Nat → Nat → Nat) (neighborPositions : List Int) (size : Nat)
    (hsize : size ≤ neighborPositions.length)
    (hpos : ∀ n, n < size → 0 ≤ neighborPositions.getD n 0 ∧
      (neighborPositions.getD n 0).toNat < pindices.length)
    (hclass : ∀ n, n < size → FChebSymKernel_i.classOf pindices neighborPositions n < 343)
    (hacc : ∀ n, n < size → ∃ buffer,
      buffers[FChebSymKernel_i.classOf pindices neighborPositions n]? = some buffer ∧
      FChebSymKernel_i.blockAccesses nnodes (pvectors (neighborPositions.getD n 0).toNat) buffer
        ((List.range n).countP (fun m =>
          decide (FChebSymKernel_i.classOf pindices neighborPositions m
            = FChebSymKernel_i.classOf pindices neighborPositions n))) = .ok ()) :
    ∀ k, k ≤ size →
      (List.range k).foldlM
          (fun state idxExistingNeigh =>
            FChebSymKernel_i.permuteBlock nnodes buffers pindices pvectors neighborPositions
              state idxExistingNeigh)
          (List.replicate 343 0, [])
        = .ok ((List.range 343).map (fun p =>
                (List.range k).countP (fun m =>
                  decide (FChebSymKernel_i.classOf pindices neighborPositions m = p))),
               (List.range k).map (fun n =>
                (FChebSymKernel_i.classOf pindices neighborPositions n,
                 (List.range n).countP (fun m =>
                  decide (FChebSymKernel_i.classOf pindices neighborPositions m
                    = FChebSymKernel_i.classOf pindices neighborPositions n))))) := by
  intro k
  induction k with
  | zero =>
    intro _
    have e : (List.replicate 343 0 : List Nat)
        = (List.range 343).map (fun p =>
            (List.range 0).countP (fun m =>
              decide (FChebSymKernel_i.classOf pindices neighborPositions m = p))) := by
      apply List.ext_getElem?
      intro n
      by_cases hn : n < 343
      · rw [List.getElem?_map, List.getElem?_range hn, List.getElem?_replicate, if_pos hn]
        rfl
      · rw [List.getElem?_eq_none (by rw [List.length_replicate]; omega),
          List.getElem?_eq_none (by rw [List.length_map, List.length_range]; omega)]
    rw [← e]
    rfl
  | succ k ih =>
    intro hk
    have hk' : k < size := hk
    rw [List.range_succ, List.foldlM_append, ih (by omega)]
    have hget : neighborPositions[k]? = some (neighborPositions.getD k 0) := by
      rw [List.getD_eq_getElem?_getD, List.getElem?_eq_getElem (by omega)]
      rfl
    have hidx := hpos k hk'
    have hpidx : pindices[(neighborPositions.getD k 0).toNat]?
        = some (FChebSymKernel_i.classOf pindices neighborPositions k) := by
      unfold FChebSymKernel_i.classOf
      rw [List.getD_eq_getElem?_getD pindices, List.getElem?_eq_getElem hidx.2]
      rfl
    have hcount : ((List.range 343).map (fun p =>
          (List.range k).countP (fun m =>
            decide (FChebSymKernel_i.classOf pindices neighborPositions m = p))))[
              FChebSymKernel_i.classOf pindices neighborPositions k]?
        = some ((List.range k).countP (fun m =>
            decide (FChebSymKernel_i.classOf pindices neighborPositions m
              = FChebSymKernel_i.classOf pindices neighborPositions k))) := by
      rw [List.getElem?_map, List.getElem?_range (hclass k hk')]
      rfl
    obtain ⟨buffer, hbuffer, haccess⟩ := hacc k hk'
    have hstep : FChebSymKernel_i.permuteBlock nnodes buffers pindices pvectors
        neighborPositions
        ((List.range 343).map (fun p =>
            (List.range k).countP (fun m =>
              decide (FChebSymKernel_i.classOf pindices neighborPositions m = p))),
         (List.range k).map (fun n =>
            (FChebSymKernel_i.classOf pindices neighborPositions n,
             (List.range n).countP (fun m =>
              decide (FChebSymKernel_i.classOf pindices neighborPositions m
                = FChebSymKernel_i.classOf pindices neighborPositions n))))) k
        = .ok ((List.range 343).map (fun p =>
                (List.range (k + 1)).countP (fun m =>
                  decide (FChebSymKernel_i.classOf pindices neighborPositions m = p))),
               (List.range (k + 1)).map (fun n =>
                (FChebSymKernel_i.classOf pindices neighborPositions n,
                 (List.range n).countP (fun m =>
                  decide (FChebSymKernel_i.classOf pindices neighborPositions m
                    = FChebSymKernel_i.classOf pindices neighborPositions n))))) := by
      unfold FChebSymKernel_i.permuteBlock
      simp only [hget, if_neg (not_lt.2 hidx.1), hpidx, hcount, hbuffer, haccess]
      rw [set_map_range _ (fun p =>
            (List.range (k + 1)).countP (fun m =>
              decide (FChebSymKernel_i.classOf pindices neighborPositions m = p)))]
      · rw [List.range_succ, List.map_append]
        rfl
      · intro n
        rw [List.range_succ, List.countP_append]
        by_cases e : FChebSymKernel_i.classOf pindices neighborPositions k = n
        · subst e
          simp
        · simp [e]
    simp only [List.foldlM_cons, List.foldlM_nil, bind, Except.bind, hstep]
    rw [← List.range_succ]
    rfl

/-- The number of the earlier neighbours of the class of a neighbour, plus one, is at most
the number of the neighbours of the class. -/
theorem count_succ_le (c : Nat → Nat) (n size : Nat) (hn : n < size) :
    (List.range n).countP (fun m => decide (c m = c n)) + 1
      ≤ (List.range size).countP (fun m => decide (c m = c n)) := by
  have hsub : (List.range (n + 1)).Sublist (List.range size) := List.range_sublist.2 hn
  have hle := hsub.countP_le (fun m => decide (c m = c n))
  rw [List.range_succ, List.countP_append] at hle
  have h1 : [n].countP (fun m => decide (c m = c n)) = 1 := by simp
  rw [h1] at hle
  exact hle

/-- An earlier neighbour of the same class took an earlier block. -/
theorem countP_class_lt (c : Nat → Nat) (i j : Nat) (hij : i < j) (hc : c i = c j) :
    (List.range i).countP (fun m => decide (c m = c i))
      < (List.range j).countP (fun m => decide (c m = c j)) := by
  have hsub : (List.range (i + 1)).Sublist (List.range j) := List.range_sublist.2 hij
  have hle := hsub.countP_le (fun m => decide (c m = c j))
  rw [List.range_succ, List.countP_append] at hle
  have h1 : [i].countP (fun m => decide (c m = c j)) = 1 := by simp [hc]
  rw [h1, ← hc] at hle
  rw [← hc]
  omega

/-- Distinct neighbours never share a pair (class, count). -/
theorem blocks_nodup (c : Nat → Nat) (n : Nat) :
    ((List.range n).map (fun i =>
      (c i, (List.range i).countP (fun m => decide (c m = c i))))).Nodup := by
  apply List.Nodup.map_on _ (List.nodup_range n)
  intro i _ j _ h
  have h1 : c i = c j := congrArg Prod.fst h
  have h2 : (List.range i).countP (fun m => decide (c m = c i))
      = (List.range j).countP (fun m => decide (c m = c j)) := congrArg Prod.snd h
  rcases Nat.lt_trichotomy i j with hlt | heq | hgt
  · have := countP_class_lt c i j hlt h1
    omega
  · exact heq
  · have := countP_class_lt c j i hgt h1.symm
    omega

/-- The indicator of one class sums to 1 over the classes below `N` when the class is below
`N`. -/
theorem sum_indicator (a N : Nat) :
    ((List.range N).map (fun p => if a = p then 1 else 0)).sum = if a < N then 1 else 0 := by
  induction N with
  | zero => rfl
  | succ N ih =>
    rw [List.sum_range_succ, ih]
    by_cases h : a < N
    · rw [if_pos h, if_neg (by omega), if_pos (by omega)]
    · by_cases e : a = N
      · rw [if_neg h, if_pos e, if_pos (by omega)]
      · rw [if_neg h, if_neg e, if_neg (by omega)]

/-- The counts of the classes sum to the number of neighbours. -/
theorem sum_class_counts (c : Nat → Nat) (N : Nat) (l : List Nat) (h : ∀ m ∈ l, c m < N) :
    ((List.range N).map (fun p => l.countP (fun m => decide (c m = p)))).sum = l.length := by
  induction l with
  | nil => simp
  | cons a l ih =>
    have e : (fun p => (a :: l).countP (fun m => decide (c m = p)))
        = (fun p => l.countP (fun m => decide (c m = p)) + (if c a = p then 1 else 0)) := by
      funext p
      rw [List.countP_cons]
      by_cases hp : c a = p <;> simp [hp]
    rw [e, List.sum_map_add, ih (fun m hm => h m (List.mem_cons_of_mem _ hm)), sum_indicator,
      if_pos (h a (List.mem_cons_self _ _)), List.length_cons]

/-- The same fallible step with the same result on every right-hand side. -/
theorem mapM_const_ok {β : Type} (x : β) (f : Nat → Except KernelFault β)
    (h : ∀ i, f i = .ok x) (n : Nat) :
    (List.range n).mapM f = .ok (List.replicate n x) := by
  have hl : ∀ l : List Nat, l.mapM f
      = (.ok (List.replicate l.length x) : Except KernelFault (List β)) := by
    intro l
    induction l with
    | nil => rfl
    | cons a l ih =>
      rw [List.mapM_cons, ih, h a]
      rfl
  simpa using hl (List.range n)

/-- The example arrays hold a buffer of 48 entries in each of the 16 slots. -/
theorem exBuffers_slot (p : Nat) (hp : p ∈ permutedSlots) :
    exBuffers[p]? = some (some 48) := by
  have hslot : ∀ q ∈ permutedSlots, q < 343 := by decide
  unfold exBuffers
  rw [List.getElem?_map, List.getElem?_range (hslot p hp), Option.map_some', if_pos hp]

set_option maxRecDepth 100000 in
/-- The allocated arrays hold no buffer at the slot of a class that is not one of the 16: a
neighbour of the class 5 makes the permute-and-copy pass end in an access through a null
pointer. -/
theorem FChebSymKernel_i.permuteAndCopyBlocks_null_slot :
    FChebSymKernel_i.permuteAndCopyBlocks 2 exBuffers [3, 5, 5, 7] (fun _ m => m)
      [1, 2, 1, 3] 4 = .error .nullPointer := by
  rfl

set_option maxRecDepth 100000 in
/-- A buffer of `24 * nnodes` entries holds 24 blocks: with 25 neighbours of the class 269
the permute-and-copy pass ends in an access outside the buffer. -/
theorem FChebSymKernel_i.permuteAndCopyBlocks_block_overflow :
    FChebSymKernel_i.permuteAndCopyBlocks 2 exBuffers [269] (fun _ m => m)
      (List.replicate 25 0) 25 = .error .outOfBounds := by
  rfl

/-- C29: for a neighbour list of `inSize` positions that are inside the table `pindices`,
whose classes are below 343 and own in `Mul` and in `Loc` a buffer with room for one block
of `nnodes` entries per neighbour of the class, the permutation vectors mapping the nodes to
nodes, the permute-and-copy pass and the permute-and-add pass of `FChebSymKernel_i::M2L`
return without an invalid access, for every right-hand side, and give every neighbour the
same block: the neighbour `n` gets in both passes the pair (`pidx`, `count`) with
`pidx = pindices[neighborPositions[n]]` and `count` the number of the earlier neighbours
`m < n` of the same class, so that it reads `Loc[pidx]` at the offset `count*nnodes` at which
it wrote `Mul[pidx]`, a block that lies inside both buffers; distinct neighbours never share
a pair; after each pass `countExp[pidx]` is the number of the neighbours of the class `pidx`,
and the counts sum to `inSize`. -/
theorem FChebSymKernel_i.M2L_same_blocks (NVALS nnodes : Nat) (Mul Loc : List (Option Nat))
    (pindices : List Nat) (pvectors : Nat → Nat → Nat)
    (neighborPositions : List Int) (inSize : Int)
    (hsize : inSize ≤ neighborPositions.length)
    (hpos : ∀ n : Nat, (n : Int) < inSize → 0 ≤ neighborPositions.getD n 0 ∧
      (neighborPositions.getD n 0).toNat < pindices.length)
    (hclass : ∀ n : Nat, (n : Int) < inSize →
      FChebSymKernel_i.classOf pindices neighborPositions n < 343)
    (hpvec : ∀ n : Nat, (n : Int) < inSize → ∀ m, m < nnodes →
      pvectors (neighborPositions.getD n 0).toNat m < nnodes)
    (hbuffers : ∀ n : Nat, (n : Int) < inSize → ∃ sizeMul sizeLoc,
      Mul[FChebSymKernel_i.classOf pindices neighborPositions n]? = some (some sizeMul) ∧
      Loc[FChebSymKernel_i.classOf pindices neighborPositions n]? = some (some sizeLoc) ∧
      (List.range inSize.toNat).countP (fun m =>
          decide (FChebSymKernel_i.classOf pindices neighborPositions m
            = FChebSymKernel_i.classOf pindices neighborPositions n)) * nnodes ≤ sizeMul ∧
      (List.range inSize.toNat).countP (fun m =>
          decide (FChebSymKernel_i.classOf pindices neighborPositions m
            = FChebSymKernel_i.classOf pindices neighborPositions n)) * nnodes ≤ sizeLoc) :
    ∃ (countExp : List Nat) (blocks : List (Nat × Nat)),
      FChebSymKernel_i.permuteAndCopyBlocks nnodes Mul pindices pvectors neighborPositions
        inSize = .ok (countExp, blocks) ∧
      FChebSymKernel_i.permuteAndAddBlocks nnodes Loc pindices pvectors neighborPositions
        inSize = .ok (countExp, blocks) ∧
      FChebSymKernel_i.M2LBlocks NVALS nnodes Mul Loc pindices pvectors neighborPositions
          inSize
        = .ok (List.replicate NVALS
            (blocks, FChebSymKernel_i.multiplied countExp, blocks)) ∧
      blocks = (List.range inSize.toNat).map (fun n =>
        (FChebSymKernel_i.classOf pindices neighborPositions n,
         (List.range n).countP (fun m =>
            decide (FChebSymKernel_i.classOf pindices neighborPositions m
              = FChebSymKernel_i.classOf pindices neighborPositions n)))) ∧
      blocks.Nodup ∧
      countExp.length = 343 ∧
      (∀ pidx, pidx < 343 → countExp[pidx]? = some ((List.range inSize.toNat).countP (fun m =>
        decide (FChebSymKernel_i.classOf pindices neighborPositions m = pidx)))) ∧
      countExp.sum = inSize.toNat ∧
      (∀ b ∈ blocks, ∃ sizeMul sizeLoc,
        Mul[b.1]? = some (some sizeMul) ∧ Loc[b.1]? = some (some sizeLoc) ∧
        (b.2 + 1) * nnodes ≤ sizeMul ∧ (b.2 + 1) * nnodes ≤ sizeLoc) := by
  have hblock : ∀ n, n < inSize.toNat → ∃ sizeMul sizeLoc,
      Mul[FChebSymKernel_i.classOf pindices neighborPositions n]? = some (some sizeMul) ∧
      Loc[FChebSymKernel_i.classOf pindices neighborPositions n]? = some (some sizeLoc) ∧
      ((List.range n).countP (fun m =>
          decide (FChebSymKernel_i.classOf pindices neighborPositions m
            = FChebSymKernel_i.classOf pindices neighborPositions n)) + 1) * nnodes
        ≤ sizeMul ∧
      ((List.range n).countP (fun m =>
          decide (FChebSymKernel_i.classOf pindices neighborPositions m
            = FChebSymKernel_i.classOf pindices neighborPositions n)) + 1) * nnodes
        ≤ sizeLoc := by
    intro n hn
    obtain ⟨sizeMul, sizeLoc, hM, hL, h1, h2⟩ := hbuffers n (by omega)
    have hle := Nat.mul_le_mul_right nnodes
      (count_succ_le (FChebSymKernel_i.classOf pindices neighborPositions) n inSize.toNat hn)
    exact ⟨sizeMul, sizeLoc, hM, hL, le_trans hle h1, le_trans hle h2⟩
  have hcopy := permute_fold nnodes Mul pindices pvectors neighborPositions inSize.toNat
    (by omega) (fun n hn => hpos n (by omega)) (fun n hn => hclass n (by omega))
    (fun n hn => by
      obtain ⟨sizeMul, _, hM, _, h1, _⟩ := hblock n hn
      exact ⟨some sizeMul, hM,
        blockAccesses_ok nnodes _ sizeMul _ (hpvec n (by omega)) h1⟩)
    inSize.toNat (le_refl _)
  have hadd := permute_fold nnodes Loc pindices pvectors neighborPositions inSize.toNat
    (by omega) (fun n hn => hpos n (by omega)) (fun n hn => hclass n (by omega))
    (fun n hn => by
      obtain ⟨_, sizeLoc, _, hL, _, h2⟩ := hblock n hn
      exact ⟨some sizeLoc, hL,
        blockAccesses_ok nnodes _ sizeLoc _ (hpvec n (by omega)) h2⟩)
    inSize.toNat (le_refl _)
  have hcopy' : FChebSymKernel_i.permuteAndCopyBlocks nnodes Mul pindices pvectors
      neighborPositions inSize = .ok (_, _) := hcopy
  have hadd' : FChebSymKernel_i.permuteAndAddBlocks nnodes Loc pindices pvectors
      neighborPositions inSize = .ok (_, _) := hadd
  refine ⟨_, _, hcopy', hadd', ?_, rfl, blocks_nodup _ _, ?_, ?_, ?_, ?_⟩
  · unfold FChebSymKernel_i.M2LBlocks
    apply mapM_const_ok
    intro _
    rw [hcopy', hadd']
    rfl
  · rw [List.length_map, List.length_range]
  · intro pidx h
    rw [List.getElem?_map, List.getElem?_range h]
    rfl
  · rw [sum_class_counts _ 343 _ (fun m hm => hclass m (by
      have := List.mem_range.1 hm
      omega)), List.length_range]
  · intro b hb
    obtain ⟨n, hn, rfl⟩ := List.mem_map.1 hb
    exact hblock n (List.mem_range.1 hn)

/-- Witness of C29 on the arrays allocated for 2 nodes: four neighbours at the positions 1,
2, 1, 3 of a table of four classes 269, 277, 277, 342 (three of the 16 allocated slots), the
permutation vector that exchanges the two nodes, and two right-hand sides: the first three
neighbours are of the class 277, both passes return and use the same blocks, the counts sum
to 4. -/
theorem FChebSymKernel_i.M2L_same_blocks_witness :
    FChebSymKernel_i.allocateMemoryForPermutedExpansions 2 PermutedExpansions.null
      = .ok ⟨some exBuffers, some exBuffers, some 343⟩ ∧
    ∃ (countExp : List Nat) (blocks : List (Nat × Nat)),
      FChebSymKernel_i.permuteAndCopyBlocks 2 exBuffers [269, 277, 277, 342]
        (fun _ m => 1 - m) [1, 2, 1, 3] 4 = .ok (countExp, blocks) ∧
      FChebSymKernel_i.permuteAndAddBlocks 2 exBuffers [269, 277, 277, 342]
        (fun _ m => 1 - m) [1, 2, 1, 3] 4 = .ok (countExp, blocks) ∧
      FChebSymKernel_i.M2LBlocks 2 2 exBuffers exBuffers [269, 277, 277, 342]
          (fun _ m => 1 - m) [1, 2, 1, 3] 4
        = .ok (List.replicate 2 (blocks, FChebSymKernel_i.multiplied countExp, blocks)) ∧
      blocks = [(277, 0), (277, 1), (277, 2), (342, 0)] ∧
      blocks.Nodup ∧ countExp.sum = 4 :=
  ⟨allocate_eq 2,
    match FChebSymKernel_i.M2L_same_blocks 2 2 exBuffers exBuffers [269, 277, 277, 342]
        (fun _ m => 1 - m) [1, 2, 1, 3] 4 (by decide)
        (fun n hn => by
          have h : n < 4 := by omega
          interval_cases n <;> decide)
        (fun n hn => by
          have h : n < 4 := by omega
          interval_cases n <;> decide)
        (fun n _ m hm => by
          show 1 - m < 2
          omega)
        (fun n hn => by
          have h : n < 4 := by omega
          interval_cases n <;>
            exact ⟨48, 48, exBuffers_slot _ (by decide), exBuffers_slot _ (by decide),
              by decide, by decide⟩) with
    | ⟨countExp, blocks, h1, h2, h3, h4, h5, _, _, h8, _⟩ =>
      ⟨countExp, blocks, h1, h2, h3, h4.trans (by decide), h5, h8⟩⟩

/-! ## The buffers of the M2L operator -/

/-- The entry of the table of the classes at the position of an offset of the 7x7x7 cube is
the class of the offset. -/
theorem pindicesTable_position (d : FTreeCoordinate)
    (hx : -3 ≤ d.x ∧ d.x ≤ 3) (hy : -3 ≤ d.y ∧ d.y ≤ 3) (hz : -3 ≤ d.z ∧ d.z ≤ 3) :
    0 ≤ interactionPosition d ∧ (interactionPosition d).toNat < 343 ∧
    pindicesTable.getD (interactionPosition d).toNat 0 = symmetryClass d := by
  have h0 : 0 ≤ interactionPosition d := by unfold interactionPosition; omega
  have h1 : (interactionPosition d).toNat < 343 := by unfold interactionPosition; omega
  refine ⟨h0, h1, ?_⟩
  unfold pindicesTable
  rw [List.getD_eq_getElem?_getD, List.getElem?_map, List.getElem?_range h1]
  have e : interactionOffset (interactionPosition d).toNat = d := by
    unfold interactionOffset interactionPosition
    cases d with
    | mk x y z =>
      simp only [FTreeCoordinate.mk.injEq]
      simp only [] at hx hy hz
      omega
  rw [Option.map_some', Option.getD_some, e]

set_option maxRecDepth 1000000 in
set_option maxHeartbeats 4000000 in
/-- The standard interaction list of every parity: 189 offsets of the 7x7x7 cube, the class
of every offset among the allocated slots, at most 24 offsets of a class. -/
theorem standard_facts :
    ∀ px, px < 2 → ∀ py, py < 2 → ∀ pz, pz < 2 →
      (standardInteractionOffsets px py pz).length = 189 ∧
      (∀ d ∈ standardInteractionOffsets px py pz,
        (-3 ≤ d.x ∧ d.x ≤ 3) ∧ (-3 ≤ d.y ∧ d.y ≤ 3) ∧ (-3 ≤ d.z ∧ d.z ≤ 3) ∧
          symmetryClass d ∈ permutedSlots) ∧
      ∀ slot ∈ permutedSlots,
        (standardInteractionOffsets px py pz).countP
          (fun d => decide (symmetryClass d = slot)) ≤ 24 := by
  intro px hx py hy pz hz
  interval_cases px <;> interval_cases py <;> interval_cases pz <;> decide!

/-- Counting the neighbours by their index is counting the positions of the list. -/
theorem countP_range_getD (l : List Int) (q : Int → Bool) :
    (List.range l.length).countP (fun m => q (l.getD m 0)) = l.countP q := by
  have e : l = (List.range l.length).map (fun m => l.getD m 0) := by
    apply List.ext_getElem?
    intro n
    by_cases hn : n < l.length
    · rw [List.getElem?_map, List.getElem?_range hn, Option.map_some',
        List.getD_eq_getElem?_getD, List.getElem?_eq_getElem hn]
      rfl
    · rw [List.getElem?_eq_none (by omega),
        List.getElem?_eq_none (by rw [List.length_map, List.length_range]; omega)]
  conv_rhs => rw [e]
  rw [List.countP_map]
  rfl

/-- At most 24 positions of a duplicate-free part of a standard interaction list are of the
same class. -/
theorem class_count_le (px py pz : Nat) (hx : px < 2) (hy : py < 2) (hz : pz < 2)
    (neighborPositions : List Int) (hnodup : neighborPositions.Nodup)
    (hsub : ∀ pos ∈ neighborPositions, pos ∈ standardInteractionPositions px py pz)
    (p : Nat) :
    neighborPositions.countP (fun pos => decide (pindicesTable.getD pos.toNat 0 = p)) ≤ 24 ∧
    (neighborPositions.countP (fun pos => decide (pindicesTable.getD pos.toNat 0 = p)) ≠ 0 →
      p ∈ permutedSlots) := by
  obtain ⟨_, hC, hD⟩ := standard_facts px hx py hy pz hz
  have hperm : List.Subperm neighborPositions (standardInteractionPositions px py pz) :=
    List.subperm_of_subset hnodup hsub
  have hle := hperm.countP_le (fun pos => decide (pindicesTable.getD pos.toNat 0 = p))
  have hstd : (standardInteractionPositions px py pz).countP
        (fun pos => decide (pindicesTable.getD pos.toNat 0 = p))
      = (standardInteractionOffsets px py pz).countP (fun d => decide (symmetryClass d = p)) := by
    unfold standardInteractionPositions
    rw [List.countP_map]
    apply List.countP_congr
    intro d hd
    obtain ⟨h1, h2, h3, _⟩ := hC d hd
    simp only [Function.comp, (pindicesTable_position d h1 h2 h3).2.2]
  rw [hstd] at hle
  by_cases hp : p ∈ permutedSlots
  · exact ⟨le_trans hle (hD p hp), fun _ => hp⟩
  · have h0 : (standardInteractionOffsets px py pz).countP
        (fun d => decide (symmetryClass d = p)) = 0 := by
      rw [List.countP_eq_zero]
      intro d hd
      have := (hC d hd).2.2.2
      simp only [decide_eq_true_eq]
      intro e
      exact hp (e ▸ this)
    rw [h0] at hle
    exact ⟨by omega, fun h => absurd (Nat.le_zero.1 hle) h⟩

/-- C30: for a cell of any parity (`px`, `py`, `pz` in 0, 1), the standard interaction list
with the separation criterion 1 has 189 positions; for every neighbour list of distinct
positions of it (at most 189), with the class of a position the slot of the absolute values
of its offset sorted decreasingly and permutation vectors that map the nodes to nodes, the
permute passes of `FChebSymKernel_i::M2L` on the arrays allocated by
`allocateMemoryForPermutedExpansions` return without an invalid access, and
every neighbour is given a block (`pidx`, `count`) whose class `pidx` is one of the 16 slots
allocated by `allocateMemoryForPermutedExpansions` (a buffer of `24 * nnodes` entries in
`Mul` and in `Loc`) and whose `count` is below 24, so that the entry `count*nnodes + m` of
every node `m < nnodes` lies inside the buffer; every class multiplied is an allocated slot
and has at most 24 neighbours, so that the `rank * count` entries written to `Compressed`
are at most `nnodes * 24` when `rank ≤ nnodes`. -/
theorem FChebSymKernel_i.M2L_buffers_suffice (px py pz : Nat)
    (hx : px < 2) (hy : py < 2) (hz : pz < 2) (nnodes rank : Nat)
    (pvectors : Nat → Nat → Nat)
    (neighborPositions : List Int) (hnodup : neighborPositions.Nodup)
    (hsub : ∀ pos ∈ neighborPositions, pos ∈ standardInteractionPositions px py pz)
    (hrank : rank ≤ nnodes)
    (hpvec : ∀ pos ∈ neighborPositions, ∀ m, m < nnodes → pvectors pos.toNat m < nnodes) :
    (standardInteractionPositions px py pz).length = 189 ∧
    neighborPositions.length ≤ 189 ∧
    ∃ (countExp : List Nat) (blocks : List (Nat × Nat)) (Loc Mul : List (Option Nat)),
      FChebSymKernel_i.permuteAndCopyBlocks nnodes Mul pindicesTable pvectors
        neighborPositions neighborPositions.length = .ok (countExp, blocks) ∧
      FChebSymKernel_i.permuteAndAddBlocks nnodes Loc pindicesTable pvectors
        neighborPositions neighborPositions.length = .ok (countExp, blocks) ∧
      FChebSymKernel_i.allocateMemoryForPermutedExpansions nnodes PermutedExpansions.null
        = .ok ⟨some Loc, some Mul, some 343⟩ ∧
      blocks.length = neighborPositions.length ∧
      (∀ b ∈ blocks, b.1 ∈ permutedSlots ∧
        Mul[b.1]? = some (some (24 * nnodes)) ∧ Loc[b.1]? = some (some (24 * nnodes)) ∧
        b.2 < 24 ∧ ∀ m, m < nnodes → b.2 * nnodes + m < 24 * nnodes) ∧
      (∀ b ∈ FChebSymKernel_i.multiplied countExp, b.1 ∈ permutedSlots ∧
        Mul[b.1]? = some (some (24 * nnodes)) ∧ Loc[b.1]? = some (some (24 * nnodes)) ∧
        b.2 ≤ 24 ∧ rank * b.2 ≤ nnodes * 24) := by
  obtain ⟨hA, hC, _⟩ := standard_facts px hx py hy pz hz
  have hlenstd : (standardInteractionPositions px py pz).length = 189 := by
    unfold standardInteractionPositions
    rw [List.length_map, hA]
  have hlen : neighborPositions.length ≤ 189 := by
    rw [← hlenstd]
    exact (List.subperm_of_subset hnodup hsub).length_le
  have hmemn : ∀ n, n < neighborPositions.length →
      neighborPositions.getD n 0 ∈ neighborPositions := by
    intro n hn
    rw [List.getD_eq_getElem?_getD, List.getElem?_eq_getElem hn]
    exact List.getElem_mem _
  -- every neighbour is at a position of the table, of a class among the slots
  have hpos : ∀ n, n < neighborPositions.length →
      0 ≤ neighborPositions.getD n 0 ∧ (neighborPositions.getD n 0).toNat < 343 ∧
      FChebSymKernel_i.classOf pindicesTable neighborPositions n ∈ permutedSlots := by
    intro n hn
    have hmem := hsub _ (hmemn n hn)
    unfold standardInteractionPositions at hmem
    obtain ⟨d, hd, e⟩ := List.mem_map.1 hmem
    obtain ⟨h1, h2, h3, h4⟩ := hC d hd
    obtain ⟨p0, p1, p2⟩ := pindicesTable_position d h1 h2 h3
    unfold FChebSymKernel_i.classOf
    rw [← e, p2]
    exact ⟨p0, p1, h4⟩
  have htable : pindicesTable.length = 343 := by
    unfold pindicesTable
    rw [List.length_map, List.length_range]
  have hslot : ∀ p ∈ permutedSlots, p < 343 := by decide
  have htotal : ∀ p, (List.range neighborPositions.length).countP (fun m =>
        decide (FChebSymKernel_i.classOf pindicesTable neighborPositions m = p))
      = neighborPositions.countP (fun pos => decide (pindicesTable.getD pos.toNat 0 = p)) :=
    fun p => countP_range_getD neighborPositions
      (fun pos => decide (pindicesTable.getD pos.toNat 0 = p))
  have hbuf : ∀ p ∈ permutedSlots,
      ((List.range 343).map
        (fun idx => if idx ∈ permutedSlots then some (24 * nnodes) else none))[p]?
        = some (some (24 * nnodes)) := by
    intro p hp
    rw [List.getElem?_map, List.getElem?_range (hslot p hp), Option.map_some', if_pos hp]
  -- every neighbour takes one of the 24 blocks of the buffer of its class
  have hcount : ∀ n, n < neighborPositions.length →
      (List.range n).countP (fun m =>
        decide (FChebSymKernel_i.classOf pindicesTable neighborPositions m
          = FChebSymKernel_i.classOf pindicesTable neighborPositions n)) < 24 := by
    intro n hn
    have hle := count_succ_le (FChebSymKernel_i.classOf pindicesTable neighborPositions) n
      neighborPositions.length hn
    rw [htotal] at hle
    have h24 := (class_count_le px py pz hx hy hz neighborPositions hnodup hsub
      (FChebSymKernel_i.classOf pindicesTable neighborPositions n)).1
    omega
  have hfold := permute_fold nnodes
    ((List.range 343).map
      (fun idx => if idx ∈ permutedSlots then some (24 * nnodes) else none))
    pindicesTable pvectors neighborPositions neighborPositions.length
    (le_refl _) (fun n hn => ⟨(hpos n hn).1, by rw [htable]; exact (hpos n hn).2.1⟩)
    (fun n hn => hslot _ (hpos n hn).2.2)
    (fun n hn => ⟨some (24 * nnodes), hbuf _ (hpos n hn).2.2,
      blockAccesses_ok nnodes _ (24 * nnodes) _ (hpvec _ (hmemn n hn))
        (Nat.mul_le_mul_right nnodes (hcount n hn))⟩)
    neighborPositions.length (le_refl _)
  refine ⟨hlenstd, hlen, _, _, _, _, hfold, hfold, allocate_eq nnodes, ?_, ?_, ?_⟩
  · rw [List.length_map, List.length_range]
  · intro b hb
    obtain ⟨n, hn, rfl⟩ := List.mem_map.1 hb
    have hn' : n < neighborPositions.length := List.mem_range.1 hn
    have hp := (hpos n hn').2.2
    have hc := hcount n hn'
    refine ⟨hp, hbuf _ hp, hbuf _ hp, hc, ?_⟩
    intro m hm
    have h2 := Nat.mul_le_mul_right nnodes (Nat.succ_le_of_lt hc)
    rw [Nat.succ_mul] at h2
    show (List.range n).countP _ * nnodes + m < 24 * nnodes
    omega
  · intro b hb
    unfold FChebSymKernel_i.multiplied at hb
    obtain ⟨p, hp, e⟩ := List.mem_filterMap.1 hb
    have hp' : p < 343 := List.mem_range.1 hp
    rw [List.getElem?_map, List.getElem?_range hp', Option.map_some'] at e
    simp only [htotal] at e
    have hc := class_count_le px py pz hx hy hz neighborPositions hnodup hsub p
    by_cases h0 : neighborPositions.countP
        (fun pos => decide (pindicesTable.getD pos.toNat 0 = p)) ≠ 0
    · rw [if_pos h0] at e
      cases e
      exact ⟨hc.2 h0, hbuf _ (hc.2 h0), hbuf _ (hc.2 h0), hc.1, Nat.mul_le_mul hrank hc.1⟩
    · rw [if_neg h0] at e
      cases e

/-- Witness of C30: a cell of even coordinates with the four neighbours at the offsets
(2,0,0), (-2,0,0), (0,2,0) and (3,3,3), that is at the positions 269, 73, 185 and 342, for
27 nodes, the rank 9 and the permutation vectors that leave the nodes in place: the first
three neighbours are of the class 269 and take the blocks 0, 1 and 2 of its buffer. -/
theorem FChebSymKernel_i.M2L_buffers_suffice_witness :
    ∃ (countExp : List Nat) (blocks : List (Nat × Nat)) (Loc Mul : List (Option Nat)),
      FChebSymKernel_i.allocateMemoryForPermutedExpansions 27 PermutedExpansions.null
        = .ok ⟨some Loc, some Mul, some 343⟩ ∧
      FChebSymKernel_i.permuteAndCopyBlocks 27 Mul pindicesTable (fun _ m => m)
        [269, 73, 185, 342] (([269, 73, 185, 342] : List Int).length : Int)
        = .ok (countExp, blocks) ∧
      FChebSymKernel_i.permuteAndAddBlocks 27 Loc pindicesTable (fun _ m => m)
        [269, 73, 185, 342] (([269, 73, 185, 342] : List Int).length : Int)
        = .ok (countExp, blocks) ∧
      (∀ b ∈ blocks, b.1 ∈ permutedSlots ∧ b.2 < 24 ∧
        ∀ m, m < 27 → b.2 * 27 + m < 24 * 27) ∧
      (∀ b ∈ FChebSymKernel_i.multiplied countExp, b.2 ≤ 24 ∧ 9 * b.2 ≤ 27 * 24) :=
  match FChebSymKernel_i.M2L_buffers_suffice 0 0 0 (by decide) (by decide) (by decide) 27 9
      (fun _ m => m) [269, 73, 185, 342] (by decide) (by decide) (by decide)
      (fun _ _ _ hm => hm) with
  | ⟨_, _, countExp, blocks, Loc, Mul, h1, h2, h3, _, h5, h6⟩ =>
    ⟨countExp, blocks, Loc, Mul, h3, h1, h2,
      fun b hb => ⟨(h5 b hb).1, (h5 b hb).2.2.2.1, (h5 b hb).2.2.2.2⟩,
      fun b hb => ⟨(h6 b hb).2.2.2.1, (h6 b hb).2.2.2.2⟩⟩

/-! ## The passes of the task engine -/

theorem FFmmAlgorithmTestTask.task_bottomPassBody_eq (a : FFmmAlgorithmTestTask) (l i : Nat)
    (c : CellClass) (hc : (a.tree.cells l)[i]? = some c) :
    a.bottomPassBody ⟨l, i⟩ = .ok [TaskEvent.task none [a.tree.p2mCall c]] := by
  simp [FFmmAlgorithmTestTask.bottomPassBody, Iterator.getCurrentCell,
    Iterator.getCurrentListSrc, hc, FOctree.p2mCall, bind, Except.bind, pure, Except.pure,
    Except.map]

theorem FFmmAlgorithmTestTask.task_bottomPass_trace (a : FFmmAlgorithmTestTask) (fuel : Nat)
    (hwf : a.tree.WellFormed) (hne : a.tree.leaves ≠ []) (hfuel : a.tree.width ≤ fuel) :
    a.bottomPass fuel
      = .ok (FFmmAlgorithmTestTask.cellTasks (fun c => [a.tree.p2mCall c]) a.tree.leaves) := by
  have h := doWhileMoveRight_level a.tree a.bottomPassBody
    (fun c => [TaskEvent.task none [a.tree.p2mCall c]])
    (a.tree.height - 1) (by have := hwf.1; omega) hne
    (fun i c hc => a.task_bottomPassBody_eq _ i c hc) fuel hfuel
  unfold FFmmAlgorithmTestTask.bottomPass FFmmAlgorithmTestTask.cellTasks
  simp only [Iterator.gotoBottomLeft]
  rw [h, List.map_eq_flatMap]
  rfl

theorem FFmmAlgorithmTestTask.L2PPassBody_eq (a : FFmmAlgorithmTestTask) (l i : Nat)
    (c : CellClass) (hc : (a.tree.cells l)[i]? = some c) :
    a.L2PPassBody ⟨l, i⟩ = .ok [TaskEvent.task none [a.tree.l2pCall c]] := by
  simp [FFmmAlgorithmTestTask.L2PPassBody, Iterator.getCurrentCell,
    Iterator.getCurrentListTargets, hc, FOctree.l2pCall, bind, Except.bind, pure, Except.pure,
    Except.map]

theorem FFmmAlgorithmTestTask.L2PPass_trace (a : FFmmAlgorithmTestTask) (fuel : Nat)
    (hwf : a.tree.WellFormed) (hne : a.tree.leaves ≠ []) (hfuel : a.tree.width ≤ fuel) :
    a.L2PPass fuel
      = .ok (FFmmAlgorithmTestTask.cellTasks (fun c => [a.tree.l2pCall c]) a.tree.leaves) := by
  have h := doWhileMoveRight_level a.tree a.L2PPassBody
    (fun c => [TaskEvent.task none [a.tree.l2pCall c]])
    (a.tree.height - 1) (by have := hwf.1; omega) hne
    (fun i c hc => a.L2PPassBody_eq _ i c hc) fuel hfuel
  unfold FFmmAlgorithmTestTask.L2PPass FFmmAlgorithmTestTask.cellTasks
  simp only [Iterator.gotoBottomLeft]
  rw [h, List.map_eq_flatMap]
  rfl

theorem FFmmAlgorithmTestTask.task_upwardPassBody_eq (a : FFmmAlgorithmTestTask)
    (hwf : a.tree.WellFormed) (l i : Nat) (hl : l + 1 < a.tree.height) (c : CellClass)
    (hc : (a.tree.cells l)[i]? = some c) :
    a.upwardPassBody ⟨l, i⟩ = .ok [TaskEvent.task none [a.tree.m2mCall c]] := by
  have hlev : c.level = l :=
    hwf.2.2.1 l (by omega) c (List.getElem?_mem hc)
  simp [FFmmAlgorithmTestTask.upwardPassBody, Iterator.getCurrentCell,
    Iterator.getCurrentChildren, hc, hl, FOctree.m2mCall, FOctree.children, hlev, bind,
    Except.bind, pure, Except.pure, Except.map]

theorem FFmmAlgorithmTestTask.task_downardPassBody_eq (a : FFmmAlgorithmTestTask)
    (hwf : a.tree.WellFormed) (l i : Nat) (hl : l + 1 < a.tree.height) (c : CellClass)
    (hc : (a.tree.cells l)[i]? = some c) :
    a.downardPassBody ⟨l, i⟩ = .ok [TaskEvent.task none [a.tree.l2lCall c]] := by
  have hlev : c.level = l :=
    hwf.2.2.1 l (by omega) c (List.getElem?_mem hc)
  simp [FFmmAlgorithmTestTask.downardPassBody, Iterator.getCurrentCell,
    Iterator.getCurrentChildren, hc, hl, FOctree.l2lCall, FOctree.children, hlev, bind,
    Except.bind, pure, Except.pure, Except.map]

theorem FFmmAlgorithmTestTask.upwardPassLevels_task_eq (a : FFmmAlgorithmTestTask)
    (fuel : Nat)
    (hwf : a.tree.WellFormed) (hne : a.tree.leaves ≠ []) (hfuel : a.tree.width ≤ fuel) :
    ∀ n s it, (n ≠ 0 → it = ⟨s, 0⟩ ∧ n ≤ s ∧ s + 1 < a.tree.height) →
      a.upwardPassLevels fuel n it it
        = .ok ((List.range' (s + 1 - n) n).reverse.flatMap
            (fun l => FFmmAlgorithmTestTask.cellTasks (fun c => [a.tree.m2mCall c])
              (a.tree.cells l))) := by
  intro n
  induction n with
  | zero => intro s it _; simp [FFmmAlgorithmTestTask.upwardPassLevels, pure, Except.pure]
  | succ n ih =>
    intro s it h
    obtain ⟨rfl, hn, hs⟩ := h (by omega)
    have hloop := doWhileMoveRight_level a.tree a.upwardPassBody
      (fun c => [TaskEvent.task none [a.tree.m2mCall c]]) s (by omega)
      (a.tree.level_ne_nil hwf hne s (by omega) (by omega))
      (fun i c hc => a.task_upwardPassBody_eq hwf s i hs c hc) fuel hfuel
    have hrest := ih (s - 1) (Iterator.moveUp a.tree ⟨s, 0⟩) (by
      intro hn0
      refine ⟨?_, by omega, by omega⟩
      have h := Iterator.moveUp_leftmost a.tree hwf hne (s - 1) (by omega) (by omega)
      have e : s - 1 + 1 = s := by omega
      rw [e] at h
      exact h)
    have e1 : s + 1 - (n + 1) = s - n := by omega
    have e2 : s - 1 + 1 - n = s - n := by omega
    have e3 : s - n + 1 * n = s := by omega
    rw [e2] at hrest
    unfold FFmmAlgorithmTestTask.upwardPassLevels
    rw [hloop, e1, List.range'_concat, e3]
    simp [hrest, FFmmAlgorithmTestTask.cellTasks, bind, Except.bind, pure, Except.pure,
      List.map_eq_flatMap]

theorem FFmmAlgorithmTestTask.task_upwardPass_trace (a : FFmmAlgorithmTestTask) (fuel : Nat)
    (hwf : a.tree.WellFormed) (hne : a.tree.leaves ≠ []) (hfuel : a.tree.width ≤ fuel)
    (hup : 1 ≤ a.upperWorkingLevel) :
    a.upwardPass fuel
      = .ok ((List.range' a.upperWorkingLevel.toNat
            (min (a.OctreeHeight - 2) (a.lowerWorkingLevel - 1)
              - a.upperWorkingLevel + 1).toNat).reverse.flatMap
          (fun l => FFmmAlgorithmTestTask.cellTasks (fun c => [a.tree.m2mCall c])
            (a.tree.cells l))) := by
  unfold FFmmAlgorithmTestTask.upwardPass
  simp only []
  generalize hn : (min (a.OctreeHeight - 2) (a.lowerWorkingLevel - 1)
    - a.upperWorkingLevel + 1).toNat = n
  have hH : a.OctreeHeight = (a.tree.height : Int) := rfl
  have h2 := hwf.1
  rw [a.upwardPassLevels_task_eq fuel hwf hne hfuel n
    (min (a.OctreeHeight - 2) (a.lowerWorkingLevel - 1)).toNat]
  · by_cases hn0 : n = 0
    · subst hn0; simp
    · have e : (min (a.OctreeHeight - 2) (a.lowerWorkingLevel - 1)).toNat + 1 - n
          = a.upperWorkingLevel.toNat := by omega
      rw [e]
  · intro hn0
    refine ⟨?_, by omega, by omega⟩
    have hstep : Iterator.moveUp a.tree
        (Iterator.gotoBottomLeft a.tree (Iterator.new a.tree))
        = ⟨a.tree.height - 2, 0⟩ := by
      have h := Iterator.moveUp_leftmost a.tree hwf hne (a.tree.height - 2) (by omega)
        (by omega)
      have e : a.tree.height - 2 + 1 = a.tree.height - 1 := by omega
      rw [e] at h
      exact h
    rw [hstep]
    have hit := Iterator.moveUp_iterate a.tree hwf hne
      ((a.OctreeHeight - 2) - (a.lowerWorkingLevel - 1)).toNat
      (min (a.OctreeHeight - 2) (a.lowerWorkingLevel - 1)).toNat (by omega) (by omega)
    have e : (min (a.OctreeHeight - 2) (a.lowerWorkingLevel - 1)).toNat
        + ((a.OctreeHeight - 2) - (a.lowerWorkingLevel - 1)).toNat
        = a.tree.height - 2 := by omega
    rw [e] at hit
    exact hit

theorem FFmmAlgorithmTestTask.downardPassLevels_task_eq (a : FFmmAlgorithmTestTask)
    (fuel : Nat)
    (hwf : a.tree.WellFormed) (hne : a.tree.leaves ≠ []) (hfuel : a.tree.width ≤ fuel) :
    ∀ n l it, (n ≠ 0 → it = ⟨l, 0⟩ ∧ 1 ≤ l ∧ l + n < a.tree.height) →
      a.downardPassLevels fuel n it it
        = .ok ((List.range' l n).flatMap
            (fun k => FFmmAlgorithmTestTask.cellTasks (fun c => [a.tree.l2lCall c])
              (a.tree.cells k))) := by
  intro n
  induction n with
  | zero => intro l it _; simp [FFmmAlgorithmTestTask.downardPassLevels, pure, Except.pure]
  | succ n ih =>
    intro l it h
    obtain ⟨rfl, h1, hl⟩ := h (by omega)
    have hloop := doWhileMoveRight_level a.tree a.downardPassBody
      (fun c => [TaskEvent.task none [a.tree.l2lCall c]]) l (by omega)
      (a.tree.level_ne_nil hwf hne l h1 (by omega))
      (fun i c hc => a.task_downardPassBody_eq hwf l i (by omega) c hc) fuel hfuel
    have hrest := ih (l + 1) (Iterator.moveDown a.tree ⟨l, 0⟩) (by
      intro hn0
      exact ⟨Iterator.moveDown_leftmost a.tree hwf hne l h1 (by omega), by omega, by omega⟩)
    unfold FFmmAlgorithmTestTask.downardPassLevels
    rw [hloop, List.range'_succ, List.flatMap_cons]
    simp [hrest, FFmmAlgorithmTestTask.cellTasks, bind, Except.bind, pure, Except.pure,
      List.map_eq_flatMap]

theorem FFmmAlgorithmTestTask.task_downardPass_trace (a : FFmmAlgorithmTestTask) (fuel : Nat)
    (hwf : a.tree.WellFormed) (hne : a.tree.leaves ≠ []) (hfuel : a.tree.width ≤ fuel)
    (hup : 2 ≤ a.upperWorkingLevel) (hlow : a.lowerWorkingLevel ≤ a.tree.height) :
    a.downardPass fuel
      = .ok ((List.range' a.upperWorkingLevel.toNat
            (a.lowerWorkingLevel - 1 - a.upperWorkingLevel).toNat).flatMap
          (fun k => FFmmAlgorithmTestTask.cellTasks (fun c => [a.tree.l2lCall c])
            (a.tree.cells k))) := by
  unfold FFmmAlgorithmTestTask.downardPass
  simp only []
  apply a.downardPassLevels_task_eq fuel hwf hne hfuel
  intro hn0
  exact ⟨a.task_start_iterator hwf hne hup (by omega), by omega, by omega⟩

/-- A fallible map whose steps all return gives the list of their results. -/
theorem mapM_ok {α β : Type} (f : α → Except Fault β) (g : α → β) (l : List α)
    (h : ∀ x ∈ l, f x = .ok (g x)) : l.mapM f = .ok (l.map g) := by
  induction l with
  | nil => rfl
  | cons a l ih =>
    rw [List.mapM_cons, h a (List.mem_cons_self _ _),
      ih (fun x hx => h x (List.mem_cons_of_mem _ hx))]
    rfl

/-- A loop that appends what every step returns gives the concatenation of the results. -/
theorem foldlM_append_ok {α β : Type} (f : α → Except Fault (List β)) (g : α → List β)
    (l : List α) (h : ∀ x ∈ l, f x = .ok (g x)) (init : List β) :
    l.foldlM (fun created x => do
        let tasks ← f x
        pure (created ++ tasks)) init
      = .ok (init ++ l.flatMap g) := by
  induction l generalizing init with
  | nil => simp [pure, Except.pure]
  | cons a l ih =>
    rw [List.foldlM_cons, h a (List.mem_cons_self _ _)]
    have e := ih (fun x hx => h x (List.mem_cons_of_mem _ hx)) (init ++ g a)
    simp only [List.flatMap_cons, ← List.append_assoc]
    simpa [bind, Except.bind, pure, Except.pure] using e

theorem FFmmAlgorithmTestTask.directPassFill_eq (a : FFmmAlgorithmTestTask)
    (exclusion : P2PExclusionClass) (hwf : a.tree.WellFormed)
    (hshape : ∀ c ∈ a.tree.leaves,
      0 ≤ exclusion.GetShapeIdx c.coordinate ∧
        exclusion.GetShapeIdx c.coordinate < exclusion.SizeShape)
    (i : Nat) (c : CellClass) (hc : (a.tree.cells (a.tree.height - 1))[i]? = some c) :
    a.directPassFill exclusion ⟨a.tree.height - 1, i⟩
      = .ok [(exclusion.GetShapeIdx c.coordinate,
          ⟨a.tree.height - 1, a.tree.leaves.indexOf c⟩)] := by
  have hmem : c ∈ a.tree.leaves := List.getElem?_mem hc
  have hnd : a.tree.leaves.Nodup :=
    a.tree.nodup_cells hwf (a.tree.height - 1) (by have := hwf.1; omega)
  have hi : i < a.tree.leaves.length := by
    by_contra hcon
    have hnone : a.tree.leaves[i]? = none := List.getElem?_eq_none (by omega)
    have hc' : a.tree.leaves[i]? = some c := hc
    rw [hnone] at hc'
    cases hc'
  have hidx : a.tree.leaves.indexOf c = i := by
    have hget : a.tree.leaves[i] = c := by
      have hc' : a.tree.leaves[i]? = some c := hc
      rw [List.getElem?_eq_getElem hi] at hc'
      exact Option.some.inj hc'
    rw [← hget]
    exact List.indexOf_getElem hnd i hi
  have hs := hshape c hmem
  simp [FFmmAlgorithmTestTask.directPassFill, Iterator.getCurrentGlobalCoordinate,
    Iterator.getCurrentCell, hc, hs.1, hs.2, hidx, bind, Except.bind, pure, Except.pure,
    Except.map]

theorem FFmmAlgorithmTestTask.directPassTask_eq (a : FFmmAlgorithmTestTask) (c : CellClass)
    (hc : c ∈ a.tree.leaves) :
    a.directPassTask ⟨a.tree.height - 1, a.tree.leaves.indexOf c⟩
      = .ok (TaskEvent.task none (a.tree.p2pCalls c)) := by
  have hget : (a.tree.cells (a.tree.height - 1))[a.tree.leaves.indexOf c]? = some c := by
    have hlt : a.tree.leaves.indexOf c < a.tree.leaves.length := List.indexOf_lt_length.2 hc
    have h1 : a.tree.leaves[a.tree.leaves.indexOf c]? = some c := by
      rw [List.getElem?_eq_getElem hlt]
      exact congrArg some (List.indexOf_get hlt)
    exact h1
  simp [FFmmAlgorithmTestTask.directPassTask, Iterator.getCurrentGlobalCoordinate,
    Iterator.getCurrentCell, Iterator.getCurrentListTargets, Iterator.getCurrentListSrc, hget,
    FOctree.p2pCalls, FFmmAlgorithmTestTask.OctreeHeight, bind, Except.bind, pure, Except.pure,
    Except.map]

theorem FFmmAlgorithmTestTask.task_directPass_trace (a : FFmmAlgorithmTestTask)
    (exclusion : P2PExclusionClass) (fuel : Nat)
    (hwf : a.tree.WellFormed) (hne : a.tree.leaves ≠ []) (hfuel : a.tree.width ≤ fuel)
    (hshape : ∀ c ∈ a.tree.leaves,
      0 ≤ exclusion.GetShapeIdx c.coordinate ∧
        exclusion.GetShapeIdx c.coordinate < exclusion.SizeShape) :
    a.directPass exclusion fuel
      = .ok ((List.range exclusion.SizeShape.toNat).flatMap
          (fun idxShape => FFmmAlgorithmTestTask.cellTasks a.tree.p2pCalls
            (a.leavesOfShape exclusion idxShape))) := by
  have hloop := doWhileMoveRight_level a.tree (a.directPassFill exclusion)
    (fun c => [(exclusion.GetShapeIdx c.coordinate,
      (⟨a.tree.height - 1, a.tree.leaves.indexOf c⟩ : Iterator))])
    (a.tree.height - 1) (by have := hwf.1; omega) hne
    (fun i c hc => a.directPassFill_eq exclusion hwf hshape i c hc) fuel hfuel
  have hpushed : ∀ idxShape : Nat,
      FFmmAlgorithmTestTask.shape
        ((a.tree.cells (a.tree.height - 1)).flatMap
          (fun c => [(exclusion.GetShapeIdx c.coordinate,
            (⟨a.tree.height - 1, a.tree.leaves.indexOf c⟩ : Iterator))])) idxShape
        = (a.leavesOfShape exclusion idxShape).map
            (fun c => (⟨a.tree.height - 1, a.tree.leaves.indexOf c⟩ : Iterator)) := by
    intro idxShape
    unfold FFmmAlgorithmTestTask.shape FFmmAlgorithmTestTask.leavesOfShape FOctree.leaves
    rw [← List.map_eq_flatMap, List.filter_map, List.map_map]
    rfl
  have hshapeTasks : ∀ idxShape : Nat,
      a.directPassShape ((a.leavesOfShape exclusion idxShape).map
        (fun c => (⟨a.tree.height - 1, a.tree.leaves.indexOf c⟩ : Iterator)))
        = .ok (FFmmAlgorithmTestTask.cellTasks a.tree.p2pCalls
            (a.leavesOfShape exclusion idxShape)) := by
    intro idxShape
    unfold FFmmAlgorithmTestTask.directPassShape FFmmAlgorithmTestTask.cellTasks
    rw [mapM_ok a.directPassTask
      (fun it => TaskEvent.task none (a.tree.p2pCalls
        ((a.tree.cells it.level).getD it.index ⟨0, 0, ⟨0, 0, 0⟩⟩)))]
    · rw [List.map_map]
      have e : ∀ c ∈ a.leavesOfShape exclusion idxShape,
          ((fun it : Iterator => TaskEvent.task none (a.tree.p2pCalls
            ((a.tree.cells it.level).getD it.index ⟨0, 0, ⟨0, 0, 0⟩⟩))) ∘
            (fun c => (⟨a.tree.height - 1, a.tree.leaves.indexOf c⟩ : Iterator))) c
          = TaskEvent.task none (a.tree.p2pCalls c) := by
        intro c hc
        have hmem : c ∈ a.tree.leaves := (List.mem_filter.1 hc).1
        have hlt : a.tree.leaves.indexOf c < a.tree.leaves.length :=
          List.indexOf_lt_length.2 hmem
        have hg : (a.tree.cells (a.tree.height - 1)).getD (a.tree.leaves.indexOf c)
            ⟨0, 0, ⟨0, 0, 0⟩⟩ = c := by
          show a.tree.leaves.getD _ _ = c
          rw [List.getD_eq_getElem _ _ hlt]
          exact List.indexOf_get hlt
        simp only [Function.comp, hg]
      rw [List.map_congr_left e]
      rfl
    · intro it hit
      obtain ⟨c, hc, rfl⟩ := List.mem_map.1 hit
      have hmem : c ∈ a.tree.leaves := (List.mem_filter.1 hc).1
      have hlt : a.tree.leaves.indexOf c < a.tree.leaves.length :=
        List.indexOf_lt_length.2 hmem
      have hg : (a.tree.cells (a.tree.height - 1)).getD (a.tree.leaves.indexOf c)
          ⟨0, 0, ⟨0, 0, 0⟩⟩ = c := by
        show a.tree.leaves.getD _ _ = c
        rw [List.getD_eq_getElem _ _ hlt]
        exact List.indexOf_get hlt
      simp only [hg]
      exact a.directPassTask_eq c hmem
  unfold FFmmAlgorithmTestTask.directPass
  simp only [Iterator.gotoBottomLeft]
  rw [hloop]
  simp only [bind, Except.bind]
  have h := foldlM_append_ok
    (fun idxShape => a.directPassShape (FFmmAlgorithmTestTask.shape
      ((a.tree.cells (a.tree.height - 1)).flatMap
        (fun c => [(exclusion.GetShapeIdx c.coordinate,
          (⟨a.tree.height - 1, a.tree.leaves.indexOf c⟩ : Iterator))])) idxShape))
    (fun idxShape => FFmmAlgorithmTestTask.cellTasks a.tree.p2pCalls
      (a.leavesOfShape exclusion idxShape))
    (List.range exclusion.SizeShape.toNat)
    (fun idxShape _ => by simp only [hpushed idxShape, hshapeTasks idxShape]) []
  rw [List.nil_append] at h
  exact h

theorem FFmmAlgorithmTestTask.task_transferPass_trace (a : FFmmAlgorithmTestTask)
    (needFinishedM2LEvent : Bool) (numThreads fuel : Nat)
    (hwf : a.tree.WellFormed) (hne : a.tree.leaves ≠ []) (hfuel : a.tree.width ≤ fuel)
    (hup : 2 ≤ a.upperWorkingLevel) (hlow : a.lowerWorkingLevel ≤ a.tree.height) :
    a.transferPass needFinishedM2LEvent numThreads fuel
      = .ok ((List.range' a.upperWorkingLevel.toNat
            (a.lowerWorkingLevel - a.upperWorkingLevel).toNat).flatMap
          (fun k => a.m2lTasks k ++
            (if needFinishedM2LEvent then FFmmAlgorithmTestTask.hookTasks numThreads k
              else []))) := by
  unfold FFmmAlgorithmTestTask.transferPass
  cases needFinishedM2LEvent
  · rw [if_neg (by decide), a.transferPassWithoutFinalize_trace fuel hwf hne hfuel hup hlow]
    simp
  · rw [if_pos rfl, a.transferPassWithFinalize_trace numThreads fuel hwf hne hfuel hup hlow]
    simp

/-- The run of the task engine in a well-formed tree with at least one leaf, with enough
fuel, working levels inside the tree and every leaf of a shape below `SizeShape`. -/
theorem FFmmAlgorithmTestTask.task_executeCore_trace (a : FFmmAlgorithmTestTask)
    (exclusion : P2PExclusionClass) (ops : FFmmOperations) (needFinishedM2LEvent : Bool)
    (numThreads fuel : Nat) (operationsToProceed : Nat)
    (hwf : a.tree.WellFormed) (hne : a.tree.leaves ≠ []) (hfuel : a.tree.width ≤ fuel)
    (hup : 2 ≤ a.upperWorkingLevel) (hlow : a.lowerWorkingLevel ≤ a.tree.height)
    (hshape : ∀ c ∈ a.tree.leaves,
      0 ≤ exclusion.GetShapeIdx c.coordinate ∧
        exclusion.GetShapeIdx c.coordinate < exclusion.SizeShape) :
    a.executeCore exclusion ops needFinishedM2LEvent numThreads fuel operationsToProceed
      = .ok ⟨a.expectedFarField ops needFinishedM2LEvent numThreads operationsToProceed,
          a.expectedNearField exclusion ops operationsToProceed,
          a.expectedAfterBarrier ops operationsToProceed⟩ := by
  unfold FFmmAlgorithmTestTask.executeCore FFmmAlgorithmTestTask.expectedFarField
    FFmmAlgorithmTestTask.expectedNearField FFmmAlgorithmTestTask.expectedAfterBarrier
  rw [a.task_bottomPass_trace fuel hwf hne hfuel, a.task_upwardPass_trace fuel hwf hne hfuel (by omega),
    a.task_transferPass_trace needFinishedM2LEvent numThreads fuel hwf hne hfuel hup hlow,
    a.task_downardPass_trace fuel hwf hne hfuel hup hlow,
    a.task_directPass_trace exclusion fuel hwf hne hfuel hshape,
    a.L2PPass_trace fuel hwf hne hfuel]
  by_cases h1 : operationsToProceed &&& ops.FFmmP2M = 0 <;>
  by_cases h2 : operationsToProceed &&& ops.FFmmM2M = 0 <;>
  by_cases h3 : operationsToProceed &&& ops.FFmmM2L = 0 <;>
  by_cases h4 : operationsToProceed &&& ops.FFmmL2L = 0 <;>
  by_cases h5 : operationsToProceed &&& ops.FFmmP2P = 0 <;>
  by_cases h6 : operationsToProceed &&& ops.FFmmL2P = 0 <;>
  simp [h1, h2, h3, h4, h5, h6, bind, Except.bind, pure, Except.pure]

/-! ## The calls issued by the tasks -/

theorem TaskEvent.calls_cellTasks (call : CellClass → List Event) (cells : List CellClass) :
    (FFmmAlgorithmTestTask.cellTasks call cells).flatMap TaskEvent.calls
      = cells.flatMap call := by
  unfold FFmmAlgorithmTestTask.cellTasks
  induction cells with
  | nil => rfl
  | cons c cells ih =>
    rw [List.map_cons, List.cons_append, List.flatMap_cons, List.flatMap_cons, ih]
    rfl

theorem TaskEvent.calls_m2lTasks (a : FFmmAlgorithmTestTask) (k : Nat) :
    (a.m2lTasks k).flatMap TaskEvent.calls
      = (a.tree.cells k).flatMap (a.sequential.m2lCalls k) := by
  unfold FFmmAlgorithmTestTask.m2lTasks
  induction a.tree.cells k with
  | nil => rfl
  | cons c cells ih =>
    rw [List.map_cons, List.flatMap_cons, List.flatMap_cons, ih]
    rfl

theorem TaskEvent.calls_hookTasks (numThreads k : Nat) :
    (FFmmAlgorithmTestTask.hookTasks numThreads k).flatMap TaskEvent.calls
      = List.replicate numThreads (Event.finishedLevelM2L k) := by
  unfold FFmmAlgorithmTestTask.hookTasks
  have h : ∀ l : List Nat,
      (l.map (fun idxThread =>
        TaskEvent.task (some idxThread) [Event.finishedLevelM2L k])).flatMap TaskEvent.calls
      = List.replicate l.length (Event.finishedLevelM2L k) := by
    intro l
    induction l with
    | nil => rfl
    | cons x l ih =>
      rw [List.map_cons, List.flatMap_cons, ih]
      rfl
  rw [List.flatMap_append, List.flatMap_append, h, List.length_range]
  simp [TaskEvent.calls]

theorem TaskEvent.taskwait_not_mem_m2lTasks (a : FFmmAlgorithmTestTask) (k : Nat) :
    TaskEvent.taskwait ∉ a.m2lTasks k := by
  unfold FFmmAlgorithmTestTask.m2lTasks
  intro h
  obtain ⟨c, _, hc⟩ := List.mem_map.1 h
  cases hc

theorem TaskEvent.hook_m2lTasks (a : FFmmAlgorithmTestTask) (k : Nat) :
    ((a.m2lTasks k).flatMap TaskEvent.calls).filterMap Event.hook = [] := by
  rw [TaskEvent.calls_m2lTasks, List.filterMap_flatMap]
  simp only [a.sequential.filterMap_hook_m2lCalls]
  simp

theorem TaskEvent.hook_replicate (n : Nat) (k : Int) :
    (List.replicate n (Event.finishedLevelM2L k)).filterMap Event.hook
      = List.replicate n k := by
  induction n with
  | zero => rfl
  | succ n ih =>
    rw [List.replicate_succ, List.filterMap_cons]
    simp [Event.hook, ih, List.replicate_succ]

/-! ## The hook of the M2L pass of the task engine -/

/-- With two threads the hook of a level is called twice, once on the kernel copy of each
thread: on the example tree with the working levels 2 to 4 the calls of the hook are those of
the levels 2, 2, 3, 3. -/
theorem FFmmAlgorithmTestTask.transferPass_hook_barrier_counterexample :
    ∃ trace, (exTask 2 4 1).transferPass true 2 10 = .ok trace ∧
      (trace.flatMap TaskEvent.calls).filterMap Event.hook = [2, 2, 3, 3] ∧
      trace.count (TaskEvent.task (some 0) [Event.finishedLevelM2L 2]) = 1 ∧
      trace.count (TaskEvent.task (some 1) [Event.finishedLevelM2L 2]) = 1 :=
  ⟨_, rfl, by decide, by decide, by decide⟩

/-- C24 (amended): in a well-formed tree with at least one leaf, with enough fuel and working
levels inside the tree, the M2L pass of the task engine with `NeedFinishedM2LEvent()` true
returns and does, level after level from `upperWorkingLevel` to `lowerWorkingLevel - 1`: the
creation of the M2L tasks of the level, a taskwait, the creation of one task per thread
calling `finishedLevelM2L(level)` on the kernel copy of that thread, a taskwait. The hook of a
level is therefore called after every M2L task of the level has completed and has completed
on every kernel copy before an M2L task of the next level is created; it is called
`numThreads` times per level, not once. With `NeedFinishedM2LEvent()` false the pass creates
the same M2L tasks, no task calls the hook and there is no taskwait. -/
theorem FFmmAlgorithmTestTask.transferPass_hook_barrier (a : FFmmAlgorithmTestTask)
    (numThreads fuel : Nat)
    (hwf : a.tree.WellFormed) (hne : a.tree.leaves ≠ []) (hfuel : a.tree.width ≤ fuel)
    (hup : 2 ≤ a.upperWorkingLevel) (hlow : a.lowerWorkingLevel ≤ a.tree.height) :
    (∃ trace, a.transferPass true numThreads fuel = .ok trace ∧
      trace = (List.range' a.upperWorkingLevel.toNat
          (a.lowerWorkingLevel - a.upperWorkingLevel).toNat).flatMap
        (fun k => a.m2lTasks k ++ [TaskEvent.taskwait]
          ++ (List.range numThreads).map
              (fun idxThread => TaskEvent.task (some idxThread) [Event.finishedLevelM2L k])
          ++ [TaskEvent.taskwait]) ∧
      (trace.flatMap TaskEvent.calls).filterMap Event.hook
        = (List.range' a.upperWorkingLevel.toNat
            (a.lowerWorkingLevel - a.upperWorkingLevel).toNat).flatMap
          (fun k => List.replicate numThreads (k : Int))) ∧
    (∀ k, TaskEvent.taskwait ∉ a.m2lTasks k ∧
      ((a.m2lTasks k).flatMap TaskEvent.calls).filterMap Event.hook = []) ∧
    (∃ trace, a.transferPass false numThreads fuel = .ok trace ∧
      trace = (List.range' a.upperWorkingLevel.toNat
          (a.lowerWorkingLevel - a.upperWorkingLevel).toNat).flatMap a.m2lTasks ∧
      TaskEvent.taskwait ∉ trace ∧
      (trace.flatMap TaskEvent.calls).filterMap Event.hook = []) := by
  refine ⟨⟨_, a.task_transferPass_trace true numThreads fuel hwf hne hfuel hup hlow, ?_, ?_⟩,
    fun k => ⟨TaskEvent.taskwait_not_mem_m2lTasks a k, TaskEvent.hook_m2lTasks a k⟩,
    ⟨_, a.task_transferPass_trace false numThreads fuel hwf hne hfuel hup hlow, ?_, ?_, ?_⟩⟩
  · simp [FFmmAlgorithmTestTask.hookTasks]
  · rw [List.flatMap_assoc, List.filterMap_flatMap]
    congr 1
    funext k
    rw [if_pos rfl, List.flatMap_append, List.filterMap_append, TaskEvent.hook_m2lTasks,
      TaskEvent.calls_hookTasks, TaskEvent.hook_replicate, List.nil_append]
  · simp
  · intro h
    obtain ⟨k, _, hk⟩ := List.mem_flatMap.1 h
    rw [if_neg (by decide), List.append_nil] at hk
    exact TaskEvent.taskwait_not_mem_m2lTasks a k hk
  · rw [List.flatMap_assoc, List.filterMap_flatMap]
    have e : ∀ k : Nat, List.filterMap Event.hook
        ((a.m2lTasks k ++ if false = true then FFmmAlgorithmTestTask.hookTasks numThreads k
          else []).flatMap TaskEvent.calls) = [] := by
      intro k
      rw [if_neg (by decide), List.append_nil, TaskEvent.hook_m2lTasks]
    simp only [e]
    simp

/-- Witness of C24 on the example tree with the working levels 2 to 4, two threads and the
fuel 10. -/
theorem FFmmAlgorithmTestTask.transferPass_hook_barrier_witness :
    ∃ trace, (exTask 2 4 1).transferPass true 2 10 = .ok trace ∧
      (trace.flatMap TaskEvent.calls).filterMap Event.hook
        = (List.range' 2 2).flatMap (fun k => List.replicate 2 (k : Int)) :=
  match FFmmAlgorithmTestTask.transferPass_hook_barrier (exTask 2 4 1) 2 10
      exTree_wellFormed exTree_leaves_ne_nil exTree_width (by decide) (by decide) with
  | ⟨⟨trace, h1, _, h3⟩, _, _⟩ => ⟨trace, h1, h3⟩

/-! ## The shapes of the P2P pass of the task engine -/

/-- One singleton at the position `s0` of the range. -/
theorem flatMap_ite_singleton {α : Type} (x : α) (s0 S : Nat) (h : s0 < S) :
    (List.range S).flatMap (fun s => if s = s0 then [x] else []) = [x] := by
  induction S with
  | zero => omega
  | succ S ih =>
    rw [List.range_succ, List.flatMap_append]
    by_cases e : s0 = S
    · subst e
      have h0 : (List.range s0).flatMap (fun s => if s = s0 then [x] else []) = [] := by
        rw [List.flatMap_eq_nil_iff]
        intro s hs
        have := List.mem_range.1 hs
        rw [if_neg (by omega)]
      rw [h0]
      simp
    · rw [ih (by omega)]
      simp [Ne.symm e]

/-- The buckets of a key with values below `S` hold every element once. -/
theorem perm_buckets {α : Type} (key : α → Int) (S : Nat) (l : List α)
    (h : ∀ x ∈ l, 0 ≤ key x ∧ key x < S) :
    ((List.range S).flatMap
      (fun s => l.filter (fun x => decide (key x = (s : Int))))).Perm l := by
  induction l with
  | nil => simp
  | cons x l ih =>
    have hx := h x (List.mem_cons_self _ _)
    have e : (fun s : Nat => (x :: l).filter (fun y => decide (key y = (s : Int))))
        = (fun s : Nat => (if s = (key x).toNat then [x] else [])
            ++ l.filter (fun y => decide (key y = (s : Int)))) := by
      funext s
      by_cases hs : key x = (s : Int)
      · have hs' : s = (key x).toNat := by omega
        rw [List.filter_cons_of_pos (by simpa using hs), if_pos hs']
        rfl
      · have hs' : ¬ s = (key x).toNat := by omega
        rw [List.filter_cons_of_neg (by simpa using hs), if_neg hs']
        rfl
    rw [e]
    refine (List.flatMap_append_perm _ _ _).symm.trans ?_
    rw [flatMap_ite_singleton x (key x).toNat S (by omega)]
    exact (ih (fun y hy => h y (List.mem_cons_of_mem _ hy))).cons x

/-- In a sequence of blocks of tasks, each closed by a taskwait, two tasks that are not
separated by a taskwait belong to the same block. -/
theorem TaskEvent.unjoined_same_block (blocks : List (List TaskEvent))
    (hb : ∀ b ∈ blocks, TaskEvent.taskwait ∉ b) :
    ∀ i j, TaskEvent.unjoined (blocks.flatMap (fun b => b ++ [TaskEvent.taskwait])) i j →
      (blocks.flatMap (fun b => b ++ [TaskEvent.taskwait])).getD i TaskEvent.taskwait
        ≠ TaskEvent.taskwait →
      (blocks.flatMap (fun b => b ++ [TaskEvent.taskwait])).getD j TaskEvent.taskwait
        ≠ TaskEvent.taskwait →
      ∃ b ∈ blocks,
        (blocks.flatMap (fun b => b ++ [TaskEvent.taskwait])).getD i TaskEvent.taskwait ∈ b ∧
        (blocks.flatMap (fun b => b ++ [TaskEvent.taskwait])).getD j TaskEvent.taskwait ∈ b := by
  induction blocks with
  | nil =>
    intro i j h _ _
    have := h.2.1
    simp at this
  | cons b bs ih =>
    intro i j h hi hj
    obtain ⟨hij, hjlen, hno⟩ := h
    rw [List.flatMap_cons] at hi hj hjlen hno ⊢
    have hlen : (b ++ [TaskEvent.taskwait]).length = b.length + 1 := by simp
    have hwait : ∀ rest : List TaskEvent,
        (b ++ [TaskEvent.taskwait] ++ rest).getD b.length TaskEvent.taskwait
          = TaskEvent.taskwait := by
      intro rest
      rw [List.getD_append _ _ _ _ (by rw [hlen]; omega),
        List.getD_append_right _ _ _ _ (le_refl _)]
      simp
    have hin : ∀ (rest : List TaskEvent) (n : Nat), n < b.length →
        (b ++ [TaskEvent.taskwait] ++ rest).getD n TaskEvent.taskwait ∈ b := by
      intro rest n hn
      rw [List.getD_append _ _ _ _ (by rw [hlen]; omega), List.getD_append _ _ _ _ hn,
        List.getD_eq_getElem _ _ hn]
      exact List.getElem_mem _
    have hshift : ∀ (rest : List TaskEvent) (n : Nat), b.length + 1 ≤ n →
        (b ++ [TaskEvent.taskwait] ++ rest).getD n TaskEvent.taskwait
          = rest.getD (n - (b.length + 1)) TaskEvent.taskwait := by
      intro rest n hn
      rw [List.getD_append_right _ _ _ _ (by rw [hlen]; exact hn), hlen]
    by_cases hj1 : j < b.length
    · exact ⟨b, List.mem_cons_self _ _, hin _ i (by omega), hin _ j hj1⟩
    · by_cases hj2 : j = b.length
      · rw [hj2, hwait] at hj
        exact absurd rfl hj
      · by_cases hi1 : i < b.length
        · exact absurd (hwait _) (hno b.length (by omega) hi1)
        · by_cases hi2 : i = b.length
          · rw [hi2, hwait] at hi
            exact absurd rfl hi
          · rw [hshift _ i (by omega)] at hi ⊢
            rw [hshift _ j (by omega)] at hj ⊢
            have hu : TaskEvent.unjoined (bs.flatMap (fun b => b ++ [TaskEvent.taskwait]))
                (i - (b.length + 1)) (j - (b.length + 1)) := by
              refine ⟨by omega, ?_, ?_⟩
              · rw [List.length_append, hlen] at hjlen
                omega
              · intro k hk1 hk2
                have := hno (k + (b.length + 1)) (by omega) (by omega)
                rw [hshift _ _ (by omega)] at this
                have e : k + (b.length + 1) - (b.length + 1) = k := by omega
                rw [e] at this
                exact this
            obtain ⟨b', hb', h1, h2⟩ :=
              ih (fun b' hb' => hb b' (List.mem_cons_of_mem _ hb')) _ _ hu hi hj
            exact ⟨b', List.mem_cons_of_mem _ hb', h1, h2⟩

theorem TaskEvent.filter_cellTasks (call : CellClass → List Event) (cells : List CellClass) :
    (FFmmAlgorithmTestTask.cellTasks call cells).filter
        (fun t => decide (t ≠ TaskEvent.taskwait))
      = cells.map (fun c => TaskEvent.task none (call c)) := by
  unfold FFmmAlgorithmTestTask.cellTasks
  rw [List.filter_append]
  have h : (cells.map (fun c => TaskEvent.task none (call c))).filter
      (fun t => decide (t ≠ TaskEvent.taskwait))
      = cells.map (fun c => TaskEvent.task none (call c)) := by
    rw [List.filter_eq_self]
    intro t ht
    obtain ⟨c, _, rfl⟩ := List.mem_map.1 ht
    simp
  rw [h]
  simp

theorem TaskEvent.count_taskwait_cellTasks {α : Type} (call : CellClass → List Event)
    (cells : α → List CellClass) (l : List α) :
    (l.flatMap (fun s => FFmmAlgorithmTestTask.cellTasks call (cells s))).count
        TaskEvent.taskwait = l.length := by
  induction l with
  | nil => rfl
  | cons s l ih =>
    rw [List.flatMap_cons, List.count_append, ih, List.length_cons]
    unfold FFmmAlgorithmTestTask.cellTasks
    rw [List.count_append]
    have h : (List.map (fun c => TaskEvent.task none (call c)) (cells s)).count
        TaskEvent.taskwait = 0 := by
      rw [List.count_eq_zero]
      intro hmem
      obtain ⟨c, _, hc⟩ := List.mem_map.1 hmem
      cases hc
    rw [h]
    simp
    omega

/-- C26: in a well-formed tree with at least one leaf, with enough fuel, provided
`0 ≤ GetShapeIdx(coord) < SizeShape` for the coordinate of every leaf, `directPass` returns
and does, shape after shape from 0 to `SizeShape - 1`: the creation of one P2P task per leaf
of the shape, left to right, then a taskwait. Every leaf is in exactly one bucket, the one of
the shape of its coordinate; the buckets together hold every leaf once; the tasks created
are one P2P task per leaf; there are `SizeShape` taskwaits; and two tasks that are not
separated by a taskwait are tasks of two leaves of the same shape. -/
theorem FFmmAlgorithmTestTask.directPass_shape_classes (a : FFmmAlgorithmTestTask)
    (exclusion : P2PExclusionClass) (fuel : Nat)
    (hwf : a.tree.WellFormed) (hne : a.tree.leaves ≠ []) (hfuel : a.tree.width ≤ fuel)
    (hshape : ∀ c ∈ a.tree.leaves,
      0 ≤ exclusion.GetShapeIdx c.coordinate ∧
        exclusion.GetShapeIdx c.coordinate < exclusion.SizeShape) :
    ∃ trace, a.directPass exclusion fuel = .ok trace ∧
      trace = (List.range exclusion.SizeShape.toNat).flatMap
        (fun idxShape =>
          (a.leavesOfShape exclusion idxShape).map
              (fun c => TaskEvent.task none (a.tree.p2pCalls c))
            ++ [TaskEvent.taskwait]) ∧
      (∀ c ∈ a.tree.leaves, ∀ idxShape : Nat,
        c ∈ a.leavesOfShape exclusion idxShape
          ↔ exclusion.GetShapeIdx c.coordinate = (idxShape : Int)) ∧
      (∀ c ∈ a.tree.leaves, ∃ idxShape, idxShape < exclusion.SizeShape.toNat ∧
        c ∈ a.leavesOfShape exclusion idxShape) ∧
      ((List.range exclusion.SizeShape.toNat).flatMap (a.leavesOfShape exclusion)).Perm
        a.tree.leaves ∧
      (trace.filter (fun t => decide (t ≠ TaskEvent.taskwait))).Perm
        (a.tree.leaves.map (fun c => TaskEvent.task none (a.tree.p2pCalls c))) ∧
      trace.count TaskEvent.taskwait = exclusion.SizeShape.toNat ∧
      (∀ i j, TaskEvent.unjoined trace i j →
        trace.getD i TaskEvent.taskwait ≠ TaskEvent.taskwait →
        trace.getD j TaskEvent.taskwait ≠ TaskEvent.taskwait →
        ∃ idxShape, idxShape < exclusion.SizeShape.toNat ∧
          ∃ c ∈ a.leavesOfShape exclusion idxShape,
          ∃ d ∈ a.leavesOfShape exclusion idxShape,
            trace.getD i TaskEvent.taskwait = TaskEvent.task none (a.tree.p2pCalls c) ∧
            trace.getD j TaskEvent.taskwait = TaskEvent.task none (a.tree.p2pCalls d)) := by
  have hperm : ((List.range exclusion.SizeShape.toNat).flatMap
      (a.leavesOfShape exclusion)).Perm a.tree.leaves :=
    perm_buckets (fun c : CellClass => exclusion.GetShapeIdx c.coordinate)
      exclusion.SizeShape.toNat a.tree.leaves (fun c hc => by
        have h := hshape c hc
        show 0 ≤ exclusion.GetShapeIdx c.coordinate ∧
          exclusion.GetShapeIdx c.coordinate < (exclusion.SizeShape.toNat : Int)
        omega)
  refine ⟨_, a.task_directPass_trace exclusion fuel hwf hne hfuel hshape, rfl, ?_, ?_, hperm, ?_,
    ?_, ?_⟩
  · intro c hc idxShape
    unfold FFmmAlgorithmTestTask.leavesOfShape
    rw [List.mem_filter]
    simp [hc]
  · intro c hc
    refine ⟨(exclusion.GetShapeIdx c.coordinate).toNat, ?_, ?_⟩
    · have := hshape c hc
      omega
    · unfold FFmmAlgorithmTestTask.leavesOfShape
      rw [List.mem_filter]
      refine ⟨hc, ?_⟩
      have := (hshape c hc).1
      simp only [decide_eq_true_eq]
      omega
  · rw [List.filter_flatMap]
    simp only [TaskEvent.filter_cellTasks]
    rw [← List.map_flatMap]
    exact hperm.map _
  · rw [TaskEvent.count_taskwait_cellTasks, List.length_range]
  · intro i j hu hi hj
    have hblocks : (List.range exclusion.SizeShape.toNat).flatMap
        (fun idxShape => FFmmAlgorithmTestTask.cellTasks a.tree.p2pCalls
          (a.leavesOfShape exclusion idxShape))
        = ((List.range exclusion.SizeShape.toNat).map
            (fun idxShape => (a.leavesOfShape exclusion idxShape).map
              (fun c => TaskEvent.task none (a.tree.p2pCalls c)))).flatMap
          (fun b => b ++ [TaskEvent.taskwait]) := by
      rw [List.flatMap_map]
      rfl
    rw [hblocks] at hu hi hj ⊢
    obtain ⟨b, hb, h1, h2⟩ := TaskEvent.unjoined_same_block _ (by
      intro b hb hmem
      obtain ⟨s, _, rfl⟩ := List.mem_map.1 hb
      obtain ⟨c, _, hc⟩ := List.mem_map.1 hmem
      cases hc) i j hu hi hj
    obtain ⟨s, hs, rfl⟩ := List.mem_map.1 hb
    obtain ⟨c, hc, hc'⟩ := List.mem_map.1 h1
    obtain ⟨d, hd, hd'⟩ := List.mem_map.1 h2
    exact ⟨s, List.mem_range.1 hs, c, hc, d, hd, hc'.symm, hd'.symm⟩

/-- Witness of C26 on the example tree with the exclusion scheme of 27 shapes and the
fuel 10: the four leaves have the shapes 0, 1, 2 and 13. -/
theorem FFmmAlgorithmTestTask.directPass_shape_classes_witness :
    ∃ trace, (exTask 2 4 1).directPass exExclusion 10 = .ok trace ∧
      (trace.filter (fun t => decide (t ≠ TaskEvent.taskwait))).Perm
        (exTree.leaves.map (fun c => TaskEvent.task none (exTree.p2pCalls c))) ∧
      trace.count TaskEvent.taskwait = 27 :=
  match FFmmAlgorithmTestTask.directPass_shape_classes (exTask 2 4 1) exExclusion 10
      exTree_wellFormed exTree_leaves_ne_nil exTree_width (by decide) with
  | ⟨trace, h1, _, _, _, _, h6, h7, _⟩ => ⟨trace, h1, h6, h7⟩

/-! ## The order of the blocks of the task engine -/

theorem TaskEvent.mem_cellTasks (call : CellClass → List Event) (cells : List CellClass)
    (t : TaskEvent) (h : t ∈ FFmmAlgorithmTestTask.cellTasks call cells) :
    t = TaskEvent.taskwait ∨ ∃ c ∈ cells, t = TaskEvent.task none (call c) := by
  unfold FFmmAlgorithmTestTask.cellTasks at h
  rcases List.mem_append.1 h with h | h
  · obtain ⟨c, hc, rfl⟩ := List.mem_map.1 h
    exact Or.inr ⟨c, hc, rfl⟩
  · exact Or.inl (List.mem_singleton.1 h)

theorem TaskEvent.mem_hookTasks (numThreads k : Nat) (t : TaskEvent)
    (h : t ∈ FFmmAlgorithmTestTask.hookTasks numThreads k) :
    t = TaskEvent.taskwait ∨
      ∃ idxThread, t = TaskEvent.task (some idxThread) [Event.finishedLevelM2L k] := by
  unfold FFmmAlgorithmTestTask.hookTasks at h
  rcases List.mem_append.1 h with h | h
  · rcases List.mem_append.1 h with h | h
    · exact Or.inl (List.mem_singleton.1 h)
    · obtain ⟨i, _, rfl⟩ := List.mem_map.1 h
      exact Or.inr ⟨i, rfl⟩
  · exact Or.inl (List.mem_singleton.1 h)

/-- What a task of the M2L pass calls: no L2L, no P2P, no L2P. -/
theorem TaskEvent.m2lTasks_kind (a : FFmmAlgorithmTestTask) (k : Nat) (t : TaskEvent)
    (h : t ∈ a.m2lTasks k) :
    t.isL2L = false ∧ t.isP2P = false ∧ t.isL2P = false := by
  unfold FFmmAlgorithmTestTask.m2lTasks at h
  obtain ⟨c, _, rfl⟩ := List.mem_map.1 h
  have hall : ∀ e ∈ a.sequential.m2lCalls k c,
      (match e with | .L2L _ _ _ _ => true | _ => false) = false ∧
      (match e with | .P2P _ _ _ _ _ _ => true | _ => false) = false ∧
      (match e with | .L2P _ _ _ => true | _ => false) = false := by
    intro e he
    rcases a.sequential.mem_m2lCalls k c e he with h | ⟨_, h⟩
    · subst h
      exact ⟨rfl, rfl, rfl⟩
    · subst h
      exact ⟨rfl, rfl, rfl⟩
  refine ⟨?_, ?_, ?_⟩
  · simp only [TaskEvent.isL2L, List.any_eq_false]
    intro e he
    rw [(hall e he).1]
    simp
  · simp only [TaskEvent.isP2P, List.any_eq_false]
    intro e he
    rw [(hall e he).2.1]
    simp
  · simp only [TaskEvent.isL2P, List.any_eq_false]
    intro e he
    rw [(hall e he).2.2]
    simp

/-- What the far-field block holds: no task calling P2P or L2P. -/
theorem FFmmAlgorithmTestTask.farField_kind (a : FFmmAlgorithmTestTask) (ops : FFmmOperations)
    (needFinishedM2LEvent : Bool) (numThreads operationsToProceed : Nat) (t : TaskEvent)
    (h : t ∈ a.expectedFarField ops needFinishedM2LEvent numThreads operationsToProceed) :
    t.isP2P = false ∧ t.isL2P = false := by
  unfold FFmmAlgorithmTestTask.expectedFarField at h
  rcases List.mem_append.1 h with h | h
  · rcases List.mem_append.1 h with h | h
    · rcases List.mem_append.1 h with h | h
      · split at h
        · rcases TaskEvent.mem_cellTasks _ _ t h with rfl | ⟨c, _, rfl⟩
          · exact ⟨rfl, rfl⟩
          · exact ⟨rfl, rfl⟩
        · cases h
      · split at h
        · obtain ⟨l, _, hl⟩ := List.mem_flatMap.1 h
          rcases TaskEvent.mem_cellTasks _ _ t hl with rfl | ⟨c, _, rfl⟩
          · exact ⟨rfl, rfl⟩
          · exact ⟨rfl, rfl⟩
        · cases h
    · split at h
      · obtain ⟨k, _, hk⟩ := List.mem_flatMap.1 h
        rcases List.mem_append.1 hk with hk | hk
        · exact ⟨(TaskEvent.m2lTasks_kind a k t hk).2.1, (TaskEvent.m2lTasks_kind a k t hk).2.2⟩
        · split at hk
          · rcases TaskEvent.mem_hookTasks _ _ t hk with rfl | ⟨i, rfl⟩
            · exact ⟨rfl, rfl⟩
            · exact ⟨by simp [TaskEvent.isP2P], by simp [TaskEvent.isL2P]⟩
          · cases hk
      · cases h
  · split at h
    · obtain ⟨l, _, hl⟩ := List.mem_flatMap.1 h
      rcases TaskEvent.mem_cellTasks _ _ t hl with rfl | ⟨c, _, rfl⟩
      · exact ⟨rfl, rfl⟩
      · exact ⟨rfl, rfl⟩
    · cases h

/-- What the near-field block holds: no task calling M2L, L2L or L2P. -/
theorem FFmmAlgorithmTestTask.nearField_kind (a : FFmmAlgorithmTestTask)
    (exclusion : P2PExclusionClass) (ops : FFmmOperations) (operationsToProceed : Nat)
    (t : TaskEvent) (h : t ∈ a.expectedNearField exclusion ops operationsToProceed) :
    t.isM2L = false ∧ t.isL2L = false ∧ t.isL2P = false := by
  unfold FFmmAlgorithmTestTask.expectedNearField at h
  split at h
  · obtain ⟨s, _, hs⟩ := List.mem_flatMap.1 h
    rcases TaskEvent.mem_cellTasks _ _ t hs with rfl | ⟨c, _, rfl⟩
    · exact ⟨rfl, rfl, rfl⟩
    · exact ⟨rfl, rfl, rfl⟩
  · cases h

/-- What the block after the barrier holds: no task calling M2L, L2L or P2P. -/
theorem FFmmAlgorithmTestTask.afterBarrier_kind (a : FFmmAlgorithmTestTask)
    (ops : FFmmOperations) (operationsToProceed : Nat)
    (t : TaskEvent) (h : t ∈ a.expectedAfterBarrier ops operationsToProceed) :
    t.isM2L = false ∧ t.isL2L = false ∧ t.isP2P = false := by
  unfold FFmmAlgorithmTestTask.expectedAfterBarrier at h
  split at h
  · rcases TaskEvent.mem_cellTasks _ _ t h with rfl | ⟨c, _, rfl⟩
    · exact ⟨rfl, rfl, rfl⟩
    · exact ⟨rfl, rfl, rfl⟩
  · cases h

/-- An entry of a list, or the default. -/
theorem getD_mem_or_default {α : Type} (l : List α) (i : Nat) (d : α) :
    l.getD i d = d ∨ l.getD i d ∈ l := by
  by_cases h : i < l.length
  · right
    rw [List.getD_eq_getElem _ _ h]
    exact List.getElem_mem _
  · left
    exact List.getD_eq_default _ _ (by omega)

/-- A trace is split by a taskwait: every task of the kind `p` is created before it, every
task of the kind `q` after it. Then a task of the kind `p` and a task of the kind `q` are
separated by the taskwait. -/
theorem TaskEvent.joined_of_split (A M D : List TaskEvent) (p q : TaskEvent → Bool)
    (hp : p TaskEvent.taskwait = false) (hq : q TaskEvent.taskwait = false)
    (hD : ∀ t ∈ D, p t = false) (hA : ∀ t ∈ A ++ M, q t = false) (i j : Nat)
    (hi : p ((A ++ (M ++ [TaskEvent.taskwait]) ++ D).getD i TaskEvent.taskwait) = true)
    (hj : q ((A ++ (M ++ [TaskEvent.taskwait]) ++ D).getD j TaskEvent.taskwait) = true) :
    i < j ∧ ¬ TaskEvent.unjoined (A ++ (M ++ [TaskEvent.taskwait]) ++ D) i j := by
  have hsplit : A ++ (M ++ [TaskEvent.taskwait]) ++ D
      = (A ++ M) ++ ([TaskEvent.taskwait] ++ D) := by simp
  rw [hsplit] at hi hj ⊢
  have hk : ((A ++ M) ++ ([TaskEvent.taskwait] ++ D)).getD (A ++ M).length TaskEvent.taskwait
      = TaskEvent.taskwait := by
    rw [List.getD_append_right _ _ _ _ (le_refl _)]
    simp
  have hi1 : i < (A ++ M).length := by
    by_contra hcon
    rw [List.getD_append_right _ _ _ _ (by omega)] at hi
    by_cases h0 : i - (A ++ M).length = 0
    · rw [h0] at hi
      simp [hp] at hi
    · obtain ⟨n, hn⟩ := Nat.exists_eq_succ_of_ne_zero h0
      rw [hn, List.singleton_append, List.getD_cons_succ] at hi
      rcases getD_mem_or_default D n TaskEvent.taskwait with h | h
      · rw [h, hp] at hi
        cases hi
      · rw [hD _ h] at hi
        cases hi
  have hj1 : (A ++ M).length < j := by
    by_contra hcon
    by_cases hlt : j < (A ++ M).length
    · rw [List.getD_append _ _ _ _ hlt] at hj
      rcases getD_mem_or_default (A ++ M) j TaskEvent.taskwait with h | h
      · rw [h, hq] at hj
        cases hj
      · rw [hA _ h] at hj
        cases hj
    · have e : j = (A ++ M).length := by omega
      rw [e, hk, hq] at hj
      cases hj
  refine ⟨by omega, ?_⟩
  intro hu
  exact hu.2.2 (A ++ M).length hj1 hi1 hk

/-- The M2L part of the far-field block with the hook: empty, or closed by a taskwait. -/
theorem FFmmAlgorithmTestTask.m2l_part_closed (a : FFmmAlgorithmTestTask) (numThreads : Nat)
    (s n : Nat) :
    (List.range' s n).flatMap
        (fun k => a.m2lTasks k ++ FFmmAlgorithmTestTask.hookTasks numThreads k) = [] ∨
    ∃ M, (List.range' s n).flatMap
        (fun k => a.m2lTasks k ++ FFmmAlgorithmTestTask.hookTasks numThreads k)
      = M ++ [TaskEvent.taskwait] := by
  cases n with
  | zero => left; rfl
  | succ n =>
    right
    rw [List.range'_concat, List.flatMap_append]
    refine ⟨(List.range' s n).flatMap
        (fun k => a.m2lTasks k ++ FFmmAlgorithmTestTask.hookTasks numThreads k)
      ++ (a.m2lTasks (s + 1 * n) ++ ([TaskEvent.taskwait]
        ++ (List.range numThreads).map (fun idxThread =>
          TaskEvent.task (some idxThread) [Event.finishedLevelM2L ((s + 1 * n : Nat) : Int)]))), ?_⟩
    simp [FFmmAlgorithmTestTask.hookTasks]

/-- With the hook, an M2L task and an L2L task of the far-field block are separated by a
taskwait: the M2L task is created first and is joined before the L2L task is created. -/
theorem FFmmAlgorithmTestTask.m2l_joined_before_l2l (a : FFmmAlgorithmTestTask)
    (ops : FFmmOperations) (numThreads operationsToProceed : Nat) (i j : Nat)
    (hi : ((a.expectedFarField ops true numThreads operationsToProceed).getD i
      TaskEvent.taskwait).isM2L = true)
    (hj : ((a.expectedFarField ops true numThreads operationsToProceed).getD j
      TaskEvent.taskwait).isL2L = true) :
    i < j ∧
      ¬ TaskEvent.unjoined (a.expectedFarField ops true numThreads operationsToProceed) i j := by
  unfold FFmmAlgorithmTestTask.expectedFarField at hi hj ⊢
  simp only [if_true] at hi hj ⊢
  -- the four parts of the block
  generalize hP : (if operationsToProceed &&& ops.FFmmP2M ≠ 0 then
      FFmmAlgorithmTestTask.cellTasks (fun c => [a.tree.p2mCall c]) a.tree.leaves
    else []) = P at hi hj ⊢
  generalize hU : (if operationsToProceed &&& ops.FFmmM2M ≠ 0 then
      (List.range' a.upperWorkingLevel.toNat
        (min (a.OctreeHeight - 2) (a.lowerWorkingLevel - 1)
          - a.upperWorkingLevel + 1).toNat).reverse.flatMap
        (fun l => FFmmAlgorithmTestTask.cellTasks (fun c => [a.tree.m2mCall c])
          (a.tree.cells l))
    else []) = U at hi hj ⊢
  generalize hT : (if operationsToProceed &&& ops.FFmmM2L ≠ 0 then
      (List.range' a.upperWorkingLevel.toNat
        (a.lowerWorkingLevel - a.upperWorkingLevel).toNat).flatMap
        (fun k => a.m2lTasks k ++ FFmmAlgorithmTestTask.hookTasks numThreads k)
    else []) = T at hi hj ⊢
  generalize hD : (if operationsToProceed &&& ops.FFmmL2L ≠ 0 then
      (List.range' a.upperWorkingLevel.toNat
        (a.lowerWorkingLevel - 1 - a.upperWorkingLevel).toNat).flatMap
        (fun k => FFmmAlgorithmTestTask.cellTasks (fun c => [a.tree.l2lCall c])
          (a.tree.cells k))
    else []) = D at hi hj ⊢
  have hPk : ∀ t ∈ P, t.isM2L = false ∧ t.isL2L = false := by
    intro t ht
    rw [← hP] at ht
    split at ht
    · rcases TaskEvent.mem_cellTasks _ _ t ht with rfl | ⟨c, _, rfl⟩
      · exact ⟨rfl, rfl⟩
      · exact ⟨rfl, rfl⟩
    · cases ht
  have hUk : ∀ t ∈ U, t.isM2L = false ∧ t.isL2L = false := by
    intro t ht
    rw [← hU] at ht
    split at ht
    · obtain ⟨l, _, hl⟩ := List.mem_flatMap.1 ht
      rcases TaskEvent.mem_cellTasks _ _ t hl with rfl | ⟨c, _, rfl⟩
      · exact ⟨rfl, rfl⟩
      · exact ⟨rfl, rfl⟩
    · cases ht
  have hTk : ∀ t ∈ T, t.isL2L = false := by
    intro t ht
    rw [← hT] at ht
    split at ht
    · obtain ⟨k, _, hk⟩ := List.mem_flatMap.1 ht
      rcases List.mem_append.1 hk with hk | hk
      · exact (TaskEvent.m2lTasks_kind a k t hk).1
      · rcases TaskEvent.mem_hookTasks _ _ t hk with rfl | ⟨idx, rfl⟩
        · rfl
        · simp [TaskEvent.isL2L]
    · cases ht
  have hDk : ∀ t ∈ D, t.isM2L = false := by
    intro t ht
    rw [← hD] at ht
    split at ht
    · obtain ⟨l, _, hl⟩ := List.mem_flatMap.1 ht
      rcases TaskEvent.mem_cellTasks _ _ t hl with rfl | ⟨c, _, rfl⟩
      · rfl
      · rfl
    · cases ht
  have hclosed : T = [] ∨ ∃ M, T = M ++ [TaskEvent.taskwait] := by
    rw [← hT]
    split
    · exact a.m2l_part_closed numThreads _ _
    · exact Or.inl rfl
  rcases hclosed with h0 | ⟨M, hM⟩
  · -- no M2L task at all
    exfalso
    rw [h0, List.append_nil] at hi
    rcases getD_mem_or_default (P ++ U ++ D) i TaskEvent.taskwait with h | h
    · rw [h] at hi
      cases hi
    · rcases List.mem_append.1 h with h | h
      · rcases List.mem_append.1 h with h | h
        · rw [(hPk _ h).1] at hi
          cases hi
        · rw [(hUk _ h).1] at hi
          cases hi
      · rw [hDk _ h] at hi
        cases hi
  · rw [hM] at hi hj ⊢
    exact TaskEvent.joined_of_split (P ++ U) M D TaskEvent.isM2L TaskEvent.isL2L rfl rfl hDk
      (by
        intro t ht
        rcases List.mem_append.1 ht with h | h
        · rcases List.mem_append.1 h with h | h
          · exact (hPk _ h).2
          · exact (hUk _ h).2
        · exact hTk t (by rw [hM]; exact List.mem_append_left _ h))
      i j hi hj

/-- On the example tree with every pass enabled, two threads and a kernel without the hook:
the M2L task of the cell 0 of level 2 (position 9 of the far-field block) and the L2L task of
the same cell (position 16) are not separated by a taskwait, and the P2P tasks are created in
the near-field block, which is not ordered after the far-field block. -/
theorem FFmmAlgorithmTestTask.executeCore_block_order_counterexample :
    ∃ run, (exTask 2 4 1).executeCore exExclusion exOps false 2 10 63 = .ok run ∧
      run.farField.getD 9 TaskEvent.taskwait
        = TaskEvent.task none ((exTask 2 4 1).sequential.m2lCalls 2 (mkCell 2 0 0 0 0)) ∧
      (run.farField.getD 9 TaskEvent.taskwait).isM2L = true ∧
      run.farField.getD 16 TaskEvent.taskwait
        = TaskEvent.task none [exTree.l2lCall (mkCell 2 0 0 0 0)] ∧
      (run.farField.getD 16 TaskEvent.taskwait).isL2L = true ∧
      TaskEvent.unjoined run.farField 9 16 ∧
      run.nearField.any TaskEvent.isP2P = true ∧
      run.farField.any TaskEvent.isP2P = false :=
  ⟨_, rfl, by decide, by decide, by decide, by decide, by decide, by decide, by decide⟩

/-- C25 (amended): in a well-formed tree with at least one leaf, with enough fuel, working
levels inside the tree and every leaf of a shape below `SizeShape`, `executeCore` returns
three blocks. The far-field block (P2M, M2M, M2L, L2L) creates no P2P and no L2P task; the
near-field block creates the P2P tasks only and is not synchronised with the far-field
block; the block after the barrier creates the L2P tasks only, so that no L2P call starts
before every task of the two other blocks has completed. With `NeedFinishedM2LEvent()` true,
an M2L task and an L2L task are always separated by a taskwait, the M2L task first. -/
theorem FFmmAlgorithmTestTask.executeCore_block_order (a : FFmmAlgorithmTestTask)
    (exclusion : P2PExclusionClass) (ops : FFmmOperations) (needFinishedM2LEvent : Bool)
    (numThreads fuel : Nat) (operationsToProceed : Nat)
    (hwf : a.tree.WellFormed) (hne : a.tree.leaves ≠ []) (hfuel : a.tree.width ≤ fuel)
    (hup : 2 ≤ a.upperWorkingLevel) (hlow : a.lowerWorkingLevel ≤ a.tree.height)
    (hshape : ∀ c ∈ a.tree.leaves,
      0 ≤ exclusion.GetShapeIdx c.coordinate ∧
        exclusion.GetShapeIdx c.coordinate < exclusion.SizeShape) :
    ∃ run,
      a.executeCore exclusion ops needFinishedM2LEvent numThreads fuel operationsToProceed
        = .ok run ∧
      run.farField
        = a.expectedFarField ops needFinishedM2LEvent numThreads operationsToProceed ∧
      (∀ t ∈ run.farField, t.isP2P = false ∧ t.isL2P = false) ∧
      (∀ t ∈ run.nearField, t.isM2L = false ∧ t.isL2L = false ∧ t.isL2P = false) ∧
      (∀ t ∈ run.afterBarrier, t.isM2L = false ∧ t.isL2L = false ∧ t.isP2P = false) ∧
      (needFinishedM2LEvent = true → ∀ i j,
        (run.farField.getD i TaskEvent.taskwait).isM2L = true →
        (run.farField.getD j TaskEvent.taskwait).isL2L = true →
        i < j ∧ ¬ TaskEvent.unjoined run.farField i j) := by
  refine ⟨_, a.task_executeCore_trace exclusion ops needFinishedM2LEvent numThreads fuel
    operationsToProceed hwf hne hfuel hup hlow hshape, rfl, ?_, ?_, ?_, ?_⟩
  · exact fun t ht => a.farField_kind ops _ _ _ t ht
  · exact fun t ht => a.nearField_kind exclusion ops _ t ht
  · exact fun t ht => a.afterBarrier_kind ops _ t ht
  · intro hneed i j hi hj
    subst hneed
    exact a.m2l_joined_before_l2l ops numThreads operationsToProceed i j hi hj

/-- Witness of C25 on the example tree with every pass enabled, a kernel with the hook, two
threads and the fuel 10: the M2L task at the position 9 and the L2L task at the position 24 of
the far-field block are separated by a taskwait. -/
theorem FFmmAlgorithmTestTask.executeCore_block_order_witness :
    ∃ run, (exTask 2 4 1).executeCore exExclusion exOps true 2 10 63 = .ok run ∧
      (∀ t ∈ run.farField, t.isP2P = false ∧ t.isL2P = false) ∧
      (∀ t ∈ run.afterBarrier, t.isM2L = false ∧ t.isL2L = false ∧ t.isP2P = false) ∧
      (9 < 24 ∧ ¬ TaskEvent.unjoined run.farField 9 24) :=
  match FFmmAlgorithmTestTask.executeCore_block_order (exTask 2 4 1) exExclusion exOps true 2
      10 63 exTree_wellFormed exTree_leaves_ne_nil exTree_width (by decide) (by decide)
      (by decide) with
  | ⟨run, h1, h2, h3, _, h5, h6⟩ =>
    ⟨run, h1, h3, h5, h6 rfl 9 24 (by rw [h2]; decide) (by rw [h2]; decide)⟩

/-! ## The task engine issues the calls of the sequential engine -/

theorem flatMap_ite_nil {α β : Type} (c : Prop) [Decidable c] (l : List α)
    (f : α → List β) : (if c then l else []).flatMap f = if c then l.flatMap f else [] := by
  split <;> rfl

/-- The calls of the far-field block. -/
theorem FFmmAlgorithmTestTask.calls_farField (a : FFmmAlgorithmTestTask)
    (ops : FFmmOperations) (needFinishedM2LEvent : Bool)
    (numThreads operationsToProceed : Nat) :
    (a.expectedFarField ops needFinishedM2LEvent numThreads operationsToProceed).flatMap
        TaskEvent.calls
      = (if operationsToProceed &&& ops.FFmmP2M ≠ 0 then a.tree.leaves.map a.tree.p2mCall
          else [])
        ++ (if operationsToProceed &&& ops.FFmmM2M ≠ 0 then
            (List.range' a.upperWorkingLevel.toNat
              (min (a.OctreeHeight - 2) (a.lowerWorkingLevel - 1)
                - a.upperWorkingLevel + 1).toNat).reverse.flatMap
              (fun l => (a.tree.cells l).map a.tree.m2mCall)
          else [])
        ++ (if operationsToProceed &&& ops.FFmmM2L ≠ 0 then
            (List.range' a.upperWorkingLevel.toNat
              (a.lowerWorkingLevel - a.upperWorkingLevel).toNat).flatMap
              (fun k => (a.tree.cells k).flatMap (a.sequential.m2lCalls k)
                ++ (if needFinishedM2LEvent then
                      List.replicate numThreads (Event.finishedLevelM2L k)
                    else []))
          else [])
        ++ (if operationsToProceed &&& ops.FFmmL2L ≠ 0 then
            (List.range' a.upperWorkingLevel.toNat
              (a.lowerWorkingLevel - 1 - a.upperWorkingLevel).toNat).flatMap
              (fun k => (a.tree.cells k).map a.tree.l2lCall)
          else []) := by
  unfold FFmmAlgorithmTestTask.expectedFarField
  rw [List.flatMap_append, List.flatMap_append, List.flatMap_append, flatMap_ite_nil,
    flatMap_ite_nil, flatMap_ite_nil, flatMap_ite_nil, TaskEvent.calls_cellTasks,
    List.flatMap_assoc, List.flatMap_assoc, List.flatMap_assoc]
  simp only [TaskEvent.calls_cellTasks, List.flatMap_append, TaskEvent.calls_m2lTasks,
    flatMap_ite_nil, TaskEvent.calls_hookTasks, ← List.map_eq_flatMap]

/-- The calls of the near-field block and of the block after the barrier are the calls of
the direct pass of the sequential engine in another order. -/
theorem FFmmAlgorithmTestTask.calls_nearField_perm (a : FFmmAlgorithmTestTask)
    (exclusion : P2PExclusionClass) (ops : FFmmOperations) (operationsToProceed : Nat)
    (hshape : ∀ c ∈ a.tree.leaves,
      0 ≤ exclusion.GetShapeIdx c.coordinate ∧
        exclusion.GetShapeIdx c.coordinate < exclusion.SizeShape) :
    ((a.expectedNearField exclusion ops operationsToProceed).flatMap TaskEvent.calls
      ++ (a.expectedAfterBarrier ops operationsToProceed).flatMap TaskEvent.calls).Perm
      (a.tree.leaves.flatMap
        (a.tree.directCalls (decide (operationsToProceed &&& ops.FFmmP2P ≠ 0))
          (decide (operationsToProceed &&& ops.FFmmL2P ≠ 0)))) := by
  have hperm : ((List.range exclusion.SizeShape.toNat).flatMap
      (a.leavesOfShape exclusion)).Perm a.tree.leaves :=
    perm_buckets (fun c : CellClass => exclusion.GetShapeIdx c.coordinate)
      exclusion.SizeShape.toNat a.tree.leaves (fun c hc => by
        have h := hshape c hc
        show 0 ≤ exclusion.GetShapeIdx c.coordinate ∧
          exclusion.GetShapeIdx c.coordinate < (exclusion.SizeShape.toNat : Int)
        omega)
  have hnear : ((a.expectedNearField exclusion ops operationsToProceed).flatMap
      TaskEvent.calls).Perm
      (a.tree.leaves.flatMap (fun c =>
        if operationsToProceed &&& ops.FFmmP2P ≠ 0 then a.tree.p2pCalls c else [])) := by
    unfold FFmmAlgorithmTestTask.expectedNearField
    by_cases h : operationsToProceed &&& ops.FFmmP2P ≠ 0
    · simp only [if_pos h]
      rw [List.flatMap_assoc]
      simp only [TaskEvent.calls_cellTasks]
      rw [← List.flatMap_assoc]
      exact hperm.flatMap_right _
    · simp only [if_neg h]
      simp
  have hafter : (a.expectedAfterBarrier ops operationsToProceed).flatMap TaskEvent.calls
      = a.tree.leaves.flatMap (fun c =>
        if operationsToProceed &&& ops.FFmmL2P ≠ 0 then [a.tree.l2pCall c] else []) := by
    unfold FFmmAlgorithmTestTask.expectedAfterBarrier
    by_cases h : operationsToProceed &&& ops.FFmmL2P ≠ 0
    · simp only [if_pos h]
      rw [TaskEvent.calls_cellTasks]
    · simp only [if_neg h]
      simp
  rw [hafter]
  refine (List.perm_append_comm.trans ((hnear.append_left _).trans ?_))
  refine (List.flatMap_append_perm _ _ _).trans ?_
  unfold FOctree.directCalls
  simp

theorem Event.filter_hook_replicate (n : Nat) (l : Int) :
    (List.replicate n (Event.finishedLevelM2L l)).filter (fun e => decide (e.hook = none))
      = [] := by
  rw [List.filter_eq_nil_iff]
  intro e he
  rw [(List.mem_replicate.1 he).2]
  simp [Event.hook]

theorem Event.isOperator_filter (l : List Event) :
    (l.filter (fun e => decide (e.hook = none))).filter Event.isOperator
      = l.filter Event.isOperator := by
  rw [List.filter_filter]
  apply List.filter_congr
  intro e _
  cases e <;> simp [Event.isOperator, Event.hook]

/-- C23: in a well-formed tree with at least one leaf, with enough fuel, working levels inside
the tree and every leaf of a shape below `SizeShape`, for every operation mask, every
leaf-level separation criterion, every number of threads and with or without the hook, the
task engine and the sequential engine both return, and the calls of the kernel operators P2M,
M2M, M2L, L2L, L2P and P2P issued by the tasks of the task engine are, with their arguments,
the calls issued by the sequential engine in another order; the same holds for all the calls
but those of the hook `finishedLevelM2L`. -/
theorem FFmmAlgorithmTestTask.executeCore_same_calls (a : FFmmAlgorithmTestTask)
    (exclusion : P2PExclusionClass) (ops : FFmmOperations) (needFinishedM2LEvent : Bool)
    (numThreads fuel : Nat) (operationsToProceed : Nat)
    (hwf : a.tree.WellFormed) (hne : a.tree.leaves ≠ []) (hfuel : a.tree.width ≤ fuel)
    (hup : 2 ≤ a.upperWorkingLevel) (hlow : a.lowerWorkingLevel ≤ a.tree.height)
    (hshape : ∀ c ∈ a.tree.leaves,
      0 ≤ exclusion.GetShapeIdx c.coordinate ∧
        exclusion.GetShapeIdx c.coordinate < exclusion.SizeShape) :
    ∃ run trace,
      a.executeCore exclusion ops needFinishedM2LEvent numThreads fuel operationsToProceed
        = .ok run ∧
      a.sequential.executeCore ops fuel operationsToProceed = .ok trace ∧
      (run.calls.filter Event.isOperator).Perm (trace.filter Event.isOperator) ∧
      (run.calls.filter (fun e => decide (e.hook = none))).Perm
        (trace.filter (fun e => decide (e.hook = none))) := by
  have key : ((TaskRun.calls
        ⟨a.expectedFarField ops needFinishedM2LEvent numThreads operationsToProceed,
          a.expectedNearField exclusion ops operationsToProceed,
          a.expectedAfterBarrier ops operationsToProceed⟩).filter
        (fun e => decide (e.hook = none))).Perm
      ((a.sequential.expectedTrace ops operationsToProceed).filter
        (fun e => decide (e.hook = none))) := by
    unfold TaskRun.calls FFmmAlgorithm.expectedTrace
    simp only []
    rw [List.append_assoc, List.flatMap_append, List.flatMap_append, a.calls_farField,
      List.filter_append, List.filter_append _ (a.sequential.tree.leaves.flatMap _)]
    apply List.Perm.append
    · apply List.Perm.of_eq
      rw [List.filter_append, List.filter_append _ (if operationsToProceed &&& ops.FFmmL2L ≠ 0
        then _ else _)]
      congr 1
      rw [List.filter_append, List.filter_append _ (if operationsToProceed &&& ops.FFmmM2L ≠ 0
        then _ else _)]
      congr 1
      by_cases h : operationsToProceed &&& ops.FFmmM2L ≠ 0
      · rw [if_pos h, if_pos h, List.filter_flatMap, List.filter_flatMap]
        congr 1
        funext k
        unfold FFmmAlgorithm.m2lLevel
        rw [List.filter_append, List.filter_append]
        congr 1
        cases needFinishedM2LEvent
        · simp [Event.hook]
        · rw [if_pos rfl, Event.filter_hook_replicate]
          simp [Event.hook]
      · rw [if_neg h, if_neg h]
    · exact (a.calls_nearField_perm exclusion ops operationsToProceed hshape).filter _
  refine ⟨_, _, a.task_executeCore_trace exclusion ops needFinishedM2LEvent numThreads fuel
    operationsToProceed hwf hne hfuel hup hlow hshape,
    a.sequential.executeCore_trace ops fuel operationsToProceed hwf hne hfuel hup hlow,
    ?_, key⟩
  have h := key.filter Event.isOperator
  rw [Event.isOperator_filter, Event.isOperator_filter] at h
  exact h

/-- Witness of C23 on the example tree with every pass enabled, the exclusion scheme of 27
shapes, a kernel without the hook, two threads and the fuel 10. -/
theorem FFmmAlgorithmTestTask.executeCore_same_calls_witness :
    ∃ run trace,
      (exTask 2 4 1).executeCore exExclusion exOps false 2 10 63 = .ok run ∧
      (exTask 2 4 1).sequential.executeCore exOps 10 63 = .ok trace ∧
      (run.calls.filter Event.isOperator).Perm (trace.filter Event.isOperator) :=
  match FFmmAlgorithmTestTask.executeCore_same_calls (exTask 2 4 1) exExclusion exOps false 2
      10 63 exTree_wellFormed exTree_leaves_ne_nil exTree_width (by decide) (by decide)
      (by decide) with
  | ⟨run, trace, h1, h2, h3, _⟩ => ⟨run, trace, h1, h2, h3⟩

/-! ## The exchange of the boundary index -/

theorem Exchange.init_invariant (processCount : Nat) (myParticles : Nat → List Int) :
    Exchange.Invariant processCount myParticles Exchange.init := by
  refine ⟨fun _ => by simp [Exchange.init], fun _ _ => rfl, rfl, ?_, ?_, ?_, fun _ _ => rfl⟩
  · intro rank _ h
    simp [Exchange.init] at h
  · intro rank message h
    simp [Exchange.init] at h
  · intro rank _ h
    simp [Exchange.init] at h

theorem Exchange.step_skipRecv (processCount : Nat) (myParticles : Nat → List Int)
    (buffering : Bool) (s s' : Exchange) (rank : Nat)
    (h : Exchange.step processCount myParticles buffering s (.skipRecv rank) = some s') :
    (rank < processCount ∧ s.pc rank = 0 ∧ rank = 0) ∧
      s' = ⟨Function.update s.pc rank 1, s.leftLimite, s.inFlight⟩ := by
  simp only [Exchange.step] at h
  split at h
  · rename_i hc
    exact ⟨hc, (Option.some.inj h).symm⟩
  · exact absurd h (by simp)

theorem Exchange.step_recv (processCount : Nat) (myParticles : Nat → List Int)
    (buffering : Bool) (s s' : Exchange) (rank : Nat)
    (h : Exchange.step processCount myParticles buffering s (.recv rank) = some s') :
    (rank < processCount ∧ s.pc rank = 0 ∧ rank ≠ 0) ∧
      ∃ message, s.inFlight rank = some message ∧
        s' = ⟨Function.update s.pc rank 1, Function.update s.leftLimite rank message,
          Function.update s.inFlight rank none⟩ := by
  simp only [Exchange.step] at h
  split at h
  · rename_i hc
    cases hm : s.inFlight rank with
    | none => rw [hm] at h; exact absurd h (by simp)
    | some message =>
      rw [hm] at h
      exact ⟨hc, message, rfl, (Option.some.inj h).symm⟩
  · exact absurd h (by simp)

theorem Exchange.step_skipSend (processCount : Nat) (myParticles : Nat → List Int)
    (buffering : Bool) (s s' : Exchange) (rank : Nat)
    (h : Exchange.step processCount myParticles buffering s (.skipSend rank) = some s') :
    (rank < processCount ∧ s.pc rank = 1 ∧ rank = processCount - 1) ∧
      s' = ⟨Function.update s.pc rank 2, s.leftLimite, s.inFlight⟩ := by
  simp only [Exchange.step] at h
  split at h
  · rename_i hc
    exact ⟨hc, (Option.some.inj h).symm⟩
  · exact absurd h (by simp)

theorem Exchange.step_sendBuffered (processCount : Nat) (myParticles : Nat → List Int)
    (buffering : Bool) (s s' : Exchange) (rank : Nat)
    (h : Exchange.step processCount myParticles buffering s (.sendBuffered rank) = some s') :
    (buffering = true ∧ rank < processCount ∧ s.pc rank = 1 ∧ rank ≠ processCount - 1) ∧
      ∃ message, myLeftLimite (myParticles rank) = some message ∧
        s' = ⟨Function.update s.pc rank 2, s.leftLimite,
          Function.update s.inFlight (rank + 1) (some message)⟩ := by
  simp only [Exchange.step] at h
  split at h
  · rename_i hc
    cases hm : myLeftLimite (myParticles rank) with
    | none => rw [hm] at h; exact absurd h (by simp)
    | some message =>
      rw [hm] at h
      exact ⟨hc, message, rfl, (Option.some.inj h).symm⟩
  · exact absurd h (by simp)

theorem Exchange.step_rendezvous (processCount : Nat) (myParticles : Nat → List Int)
    (buffering : Bool) (s s' : Exchange) (rank : Nat)
    (h : Exchange.step processCount myParticles buffering s (.rendezvous rank) = some s') :
    (rank < processCount ∧ s.pc rank = 1 ∧ rank ≠ processCount - 1 ∧ s.pc (rank + 1) = 0
        ∧ s.inFlight (rank + 1) = none) ∧
      ∃ message, myLeftLimite (myParticles rank) = some message ∧
        s' = ⟨Function.update (Function.update s.pc rank 2) (rank + 1) 1,
          Function.update s.leftLimite (rank + 1) message, s.inFlight⟩ := by
  simp only [Exchange.step] at h
  split at h
  · rename_i hc
    cases hm : myLeftLimite (myParticles rank) with
    | none => rw [hm] at h; exact absurd h (by simp)
    | some message =>
      rw [hm] at h
      exact ⟨hc, message, rfl, (Option.some.inj h).symm⟩
  · exact absurd h (by simp)

theorem Exchange.step_invariant (processCount : Nat) (myParticles : Nat → List Int)
    (buffering : Bool) (s s' : Exchange) (a : ExchangeAction)
    (hinv : Exchange.Invariant processCount myParticles s)
    (hstep : Exchange.step processCount myParticles buffering s a = some s') :
    Exchange.Invariant processCount myParticles s' := by
  obtain ⟨h1, h2, h3, h4, h5, h6, h7⟩ := hinv
  cases a with
  | skipRecv rank =>
    · obtain ⟨⟨hlt, hpc, h0⟩, rfl⟩ := Exchange.step_skipRecv _ _ _ _ _ _ hstep
      subst h0
      refine ⟨?_, ?_, h3, ?_, ?_, ?_, ?_⟩
      · intro r
        by_cases e : r = 0
        · subst e; simp
        · simp [Function.update_apply, e, h1 r]
      · intro r hr
        by_cases e : r = 0
        · subst e; exact h3
        · simp [Function.update_apply, e] at hr
          exact h2 r hr
      · intro r hr hp
        have e : r ≠ 0 := by omega
        simp only [Function.update_apply, e, if_false] at hp ⊢
        obtain ⟨a1, a2, a3, a4⟩ := h4 r hr hp
        refine ⟨a1, ?_, a3, a4⟩
        by_cases e' : r - 1 = 0
        · rw [e'] at a2; omega
        · simp [e', a2]
      · intro r m hm
        obtain ⟨a1, a2, a3, a4, a5⟩ := h5 r m hm
        have e : r ≠ 0 := by omega
        refine ⟨a1, a2, by simp [Function.update_apply, e, a3], ?_, a5⟩
        by_cases e' : r - 1 = 0
        · rw [e'] at a4; omega
        · simp [Function.update_apply, e', a4]
      · intro r hr hp
        by_cases e : r = 0
        · subst e
          simp at hp
        · simp only [Function.update_apply, e, if_false] at hp
          rcases h6 r hr hp with h | h
          · left; simp [Function.update_apply, h]
          · exact Or.inr h
      · intro r hr
        have e : r ≠ 0 := by omega
        simp [Function.update_apply, e, h7 r hr]
  | recv rank =>
    · obtain ⟨⟨hlt, hpc, h0⟩, message, hm, rfl⟩ := Exchange.step_recv _ _ _ _ _ _ hstep
      · obtain ⟨b1, b2, b3, b4, b5⟩ := h5 rank message hm
        refine ⟨?_, ?_, ?_, ?_, ?_, ?_, ?_⟩
        · intro r
          by_cases e : r = rank
          · subst e; simp
          · simp [Function.update_apply, e, h1 r]
        · intro r hr
          by_cases e : r = rank
          · subst e; simp at hr
          · simp only [Function.update_apply, e, if_false] at hr ⊢
            exact h2 r hr
        · simp [Function.update_apply, Ne.symm h0, h3]
        · intro r hr hp
          by_cases e : r = rank
          · subst e
            have e1 : r - 1 ≠ r := by omega
            simp [Function.update_apply, e1, b2, b4, b5]
          · simp only [Function.update_apply, e, if_false] at hp ⊢
            obtain ⟨a1, a2, a3, a4⟩ := h4 r hr hp
            refine ⟨a1, ?_, a3, a4⟩
            by_cases e' : r - 1 = rank
            · rw [e'] at a2; omega
            · simp [e', a2]
        · intro r m hmr
          by_cases e : r = rank
          · subst e; simp at hmr
          · simp only [Function.update_apply, e, if_false] at hmr ⊢
            obtain ⟨a1, a2, a3, a4, a5⟩ := h5 r m hmr
            refine ⟨a1, a2, a3, ?_, a5⟩
            by_cases e' : r - 1 = rank
            · rw [e'] at a4; omega
            · simp [e', a4]
        · intro r hr hp
          by_cases e : r = rank
          · subst e; simp at hp
          · simp only [Function.update_apply, e, if_false] at hp
            by_cases e' : r + 1 = rank
            · left; simp [Function.update_apply, e']
            · rcases h6 r hr hp with h | h
              · left; simp [Function.update_apply, e', h]
              · right; simp [Function.update_apply, e', h]
        · intro r hr
          have e : r ≠ rank := by omega
          simp [Function.update_apply, e, h7 r hr]
  | skipSend rank =>
    · obtain ⟨⟨hlt, hpc, hlast⟩, rfl⟩ := Exchange.step_skipSend _ _ _ _ _ _ hstep
      refine ⟨?_, ?_, h3, ?_, ?_, ?_, ?_⟩
      · intro r
        by_cases e : r = rank
        · subst e; simp
        · simp [Function.update_apply, e, h1 r]
      · intro r hr
        by_cases e : r = rank
        · subst e; simp at hr
        · simp only [Function.update_apply, e, if_false] at hr
          exact h2 r hr
      · intro r hr hp
        by_cases e : r = rank
        · subst e
          obtain ⟨a1, a2, a3, a4⟩ := h4 r hr (by omega)
          have e1 : r - 1 ≠ r := by omega
          exact ⟨a1, by simp [Function.update_apply, e1, a2], a3, a4⟩
        · simp only [Function.update_apply, e, if_false] at hp
          obtain ⟨a1, a2, a3, a4⟩ := h4 r hr hp
          refine ⟨a1, ?_, a3, a4⟩
          by_cases e' : r - 1 = rank
          · simp [Function.update_apply, e']
          · simp [Function.update_apply, e', a2]
      · intro r m hmr
        obtain ⟨a1, a2, a3, a4, a5⟩ := h5 r m hmr
        have e : r ≠ rank := by
          intro e; subst e; omega
        refine ⟨a1, a2, by simp [Function.update_apply, e, a3], ?_, a5⟩
        by_cases e' : r - 1 = rank
        · simp [Function.update_apply, e']
        · simp [Function.update_apply, e', a4]
      · intro r hr hp
        have e : r ≠ rank := by omega
        simp only [Function.update_apply, e, if_false] at hp
        rcases h6 r hr hp with h | h
        · left
          by_cases e' : r + 1 = rank
          · simp [Function.update_apply, e']
          · simp [Function.update_apply, e', h]
        · exact Or.inr h
      · intro r hr
        have e : r ≠ rank := by omega
        simp [Function.update_apply, e, h7 r hr]
  | sendBuffered rank =>
    · obtain ⟨⟨_, hlt, hpc, hlast⟩, message, hm, rfl⟩ :=
        Exchange.step_sendBuffered _ _ _ _ _ _ hstep
      · have hsucc : rank + 1 < processCount := by omega
        have hnext : s.pc (rank + 1) = 0 := by
          by_contra hcon
          have := (h4 (rank + 1) (by omega) (by omega)).2.1
          simp at this
          omega
        have hnone : s.inFlight (rank + 1) = none := by
          cases hf : s.inFlight (rank + 1) with
          | none => rfl
          | some m =>
            have := (h5 (rank + 1) m hf).2.2.2.1
            simp at this
            omega
        refine ⟨?_, ?_, h3, ?_, ?_, ?_, ?_⟩
        · intro r
          by_cases e : r = rank
          · subst e; simp
          · simp [Function.update_apply, e, h1 r]
        · intro r hr
          by_cases e : r = rank
          · subst e; simp at hr
          · simp only [Function.update_apply, e, if_false] at hr
            exact h2 r hr
        · intro r hr hp
          by_cases e : r = rank
          · subst e
            obtain ⟨a1, a2, a3, a4⟩ := h4 r hr (by omega)
            have e1 : r - 1 ≠ r := by omega
            have e2 : r ≠ r + 1 := by omega
            exact ⟨a1, by simp [Function.update_apply, e1, a2], a3,
              by simp [Function.update_apply, e2, a4]⟩
          · simp only [Function.update_apply, e, if_false] at hp
            obtain ⟨a1, a2, a3, a4⟩ := h4 r hr hp
            have e2 : r ≠ rank + 1 := by
              intro e2; subst e2; omega
            refine ⟨a1, ?_, a3, by simp [Function.update_apply, e2, a4]⟩
            by_cases e' : r - 1 = rank
            · simp [Function.update_apply, e']
            · simp [Function.update_apply, e', a2]
        · intro r m hmr
          by_cases e : r = rank + 1
          · subst e
            simp only [Function.update_apply, if_true] at hmr
            cases hmr
            have e1 : rank + 1 ≠ rank := by omega
            exact ⟨by omega, hsucc, by simp [Function.update_apply, e1, hnext],
              by simp [Function.update_apply], by simpa using hm⟩
          · simp only [Function.update_apply, e, if_false] at hmr
            obtain ⟨a1, a2, a3, a4, a5⟩ := h5 r m hmr
            have e1 : r ≠ rank := by
              intro e1; subst e1; omega
            refine ⟨a1, a2, by simp [Function.update_apply, e1, a3], ?_, a5⟩
            by_cases e' : r - 1 = rank
            · simp [Function.update_apply, e']
            · simp [Function.update_apply, e', a4]
        · intro r hr hp
          by_cases e : r = rank
          · subst e
            right
            exact ⟨message, by simp [Function.update_apply]⟩
          · simp only [Function.update_apply, e, if_false] at hp
            rcases h6 r hr hp with h | ⟨m, h⟩
            · left
              by_cases e' : r + 1 = rank
              · simp [Function.update_apply, e']
              · simp [Function.update_apply, e', h]
            · right
              have e2 : r + 1 ≠ rank + 1 := by omega
              exact ⟨m, by simp [Function.update_apply, e2, h]⟩
        · intro r hr
          have e : r ≠ rank := by omega
          simp [Function.update_apply, e, h7 r hr]
  | rendezvous rank =>
    · obtain ⟨⟨hlt, hpc, hlast, hnext, hnone⟩, message, hm, rfl⟩ :=
        Exchange.step_rendezvous _ _ _ _ _ _ hstep
      · have hsucc : rank + 1 < processCount := by omega
        refine ⟨?_, ?_, ?_, ?_, ?_, ?_, ?_⟩
        · intro r
          by_cases e : r = rank + 1
          · subst e; simp
          · by_cases e' : r = rank
            · subst e'; simp [Function.update_apply]
            · simp [Function.update_apply, e, e', h1 r]
        · intro r hr
          by_cases e : r = rank + 1
          · subst e; simp at hr
          · by_cases e' : r = rank
            · subst e'; simp [Function.update_apply] at hr
            · simp only [Function.update_apply, e, e', if_false] at hr ⊢
              exact h2 r hr
        · simp [Function.update_apply, h3]
        · intro r hr hp
          by_cases e : r = rank + 1
          · subst e
            have e1 : rank + 1 - 1 = rank := by omega
            have e2 : rank ≠ rank + 1 := by omega
            refine ⟨hsucc, by simp [Function.update_apply, e1, e2], ?_, hnone⟩
            simp [Function.update_apply, e1, hm]
          · by_cases e' : r = rank
            · subst e'
              obtain ⟨a1, a2, a3, a4⟩ := h4 r hr (by omega)
              have e1 : r - 1 ≠ r := by omega
              have e2 : r - 1 ≠ r + 1 := by omega
              exact ⟨a1, by simp [Function.update_apply, e1, e2, a2],
                by simp [Function.update_apply, e, a3], a4⟩
            · simp only [Function.update_apply, e, e', if_false] at hp
              obtain ⟨a1, a2, a3, a4⟩ := h4 r hr hp
              refine ⟨a1, ?_, by simp [Function.update_apply, e, a3], a4⟩
              have e3 : r - 1 ≠ rank + 1 := by
                intro e3
                rw [e3] at a2
                omega
              by_cases e4 : r - 1 = rank
              · simp [Function.update_apply, e3, e4]
              · simp [Function.update_apply, e3, e4, a2]
        · intro r m hmr
          obtain ⟨a1, a2, a3, a4, a5⟩ := h5 r m hmr
          have e : r ≠ rank + 1 := by
            intro e; subst e; rw [hnone] at hmr; cases hmr
          have e' : r ≠ rank := by
            intro e'; subst e'; omega
          refine ⟨a1, a2, by simp [Function.update_apply, e, e', a3], ?_, a5⟩
          have e3 : r - 1 ≠ rank + 1 := by
            intro e3
            rw [e3] at a4
            omega
          by_cases e4 : r - 1 = rank
          · simp [Function.update_apply, e3, e4]
          · simp [Function.update_apply, e3, e4, a4]
        · intro r hr hp
          by_cases e : r = rank
          · subst e
            left
            simp [Function.update_apply]
          · by_cases e' : r = rank + 1
            · subst e'
              simp [Function.update_apply] at hp
            · simp only [Function.update_apply, e, e', if_false] at hp
              rcases h6 r hr hp with h | h
              · left
                by_cases e2 : r + 1 = rank + 1
                · simp [Function.update_apply, e2]
                · by_cases e3 : r + 1 = rank
                  · simp [Function.update_apply, e2, e3]
                  · simp [Function.update_apply, e2, e3, h]
              · exact Or.inr h
        · intro r hr
          have e : r ≠ rank := by omega
          have e' : r ≠ rank + 1 := by omega
          simp [Function.update_apply, e, e', h7 r hr]

theorem Exchange.foldlM_invariant (processCount : Nat) (myParticles : Nat → List Int)
    (buffering : Bool) (actions : List ExchangeAction) :
    ∀ s s', Exchange.Invariant processCount myParticles s →
      actions.foldlM (Exchange.step processCount myParticles buffering) s = some s' →
      Exchange.Invariant processCount myParticles s' := by
  induction actions with
  | nil =>
    intro s s' hinv h
    cases h
    exact hinv
  | cons a actions ih =>
    intro s s' hinv h
    rw [List.foldlM_cons] at h
    cases hs : Exchange.step processCount myParticles buffering s a with
    | none => rw [hs] at h; cases h
    | some s1 =>
      rw [hs] at h
      exact ih s1 s' (Exchange.step_invariant _ _ _ _ _ _ hinv hs) h

theorem Exchange.run_invariant (processCount : Nat) (myParticles : Nat → List Int)
    (buffering : Bool) (actions : List ExchangeAction) (s : Exchange)
    (h : Exchange.run processCount myParticles buffering actions = some s) :
    Exchange.Invariant processCount myParticles s :=
  Exchange.foldlM_invariant _ _ _ actions _ _ (Exchange.init_invariant _ _) h

/-- The sum of the positions after one position has changed. -/
theorem Exchange.sum_update (f : Nat → Nat) (rank v : Nat) :
    ∀ processCount,
      ((List.range processCount).map (Function.update f rank v)).sum
          + (if rank < processCount then f rank else 0)
        = ((List.range processCount).map f).sum
          + (if rank < processCount then v else 0) := by
  intro processCount
  induction processCount with
  | zero => simp
  | succ n ih =>
    rw [List.sum_range_succ, List.sum_range_succ]
    by_cases h1 : rank < n
    · rw [if_pos h1] at ih
      rw [if_pos (by omega), if_pos (by omega), Function.update_noteq (by omega)]
      rw [if_pos h1] at ih
      omega
    · rw [if_neg h1] at ih
      rw [if_neg h1] at ih
      by_cases h2 : rank = n
      · subst h2
        rw [if_pos (by omega), if_pos (by omega), Function.update_same]
        omega
      · rw [if_neg (by omega), if_neg (by omega), Function.update_noteq (Ne.symm h2)]
        omega

/-- Every step moves a process forward. -/
theorem Exchange.step_progress (processCount : Nat) (myParticles : Nat → List Int)
    (buffering : Bool) (s s' : Exchange) (a : ExchangeAction)
    (hstep : Exchange.step processCount myParticles buffering s a = some s') :
    Exchange.progress processCount s < Exchange.progress processCount s' := by
  unfold Exchange.progress
  cases a with
  | skipRecv rank =>
    obtain ⟨⟨hlt, hpc, _⟩, rfl⟩ := Exchange.step_skipRecv _ _ _ _ _ _ hstep
    have h := Exchange.sum_update s.pc rank 1 processCount
    rw [if_pos hlt, if_pos hlt, hpc] at h
    simp only []
    omega
  | recv rank =>
    obtain ⟨⟨hlt, hpc, _⟩, message, _, rfl⟩ := Exchange.step_recv _ _ _ _ _ _ hstep
    have h := Exchange.sum_update s.pc rank 1 processCount
    rw [if_pos hlt, if_pos hlt, hpc] at h
    simp only []
    omega
  | skipSend rank =>
    obtain ⟨⟨hlt, hpc, _⟩, rfl⟩ := Exchange.step_skipSend _ _ _ _ _ _ hstep
    have h := Exchange.sum_update s.pc rank 2 processCount
    rw [if_pos hlt, if_pos hlt, hpc] at h
    simp only []
    omega
  | sendBuffered rank =>
    obtain ⟨⟨_, hlt, hpc, _⟩, message, _, rfl⟩ :=
      Exchange.step_sendBuffered _ _ _ _ _ _ hstep
    have h := Exchange.sum_update s.pc rank 2 processCount
    rw [if_pos hlt, if_pos hlt, hpc] at h
    simp only []
    omega
  | rendezvous rank =>
    obtain ⟨⟨hlt, hpc, hlast, hnext, _⟩, message, _, rfl⟩ :=
      Exchange.step_rendezvous _ _ _ _ _ _ hstep
    have h := Exchange.sum_update s.pc rank 2 processCount
    rw [if_pos hlt, if_pos hlt, hpc] at h
    have h' := Exchange.sum_update (Function.update s.pc rank 2) (rank + 1) 1 processCount
    rw [if_pos (by omega), if_pos (by omega), Function.update_noteq (by omega), hnext] at h'
    simp only []
    omega

/-- The progress of a state is at most two steps per process. -/
theorem Exchange.progress_le (processCount : Nat) (s : Exchange) (h : ∀ rank, s.pc rank ≤ 2) :
    Exchange.progress processCount s ≤ 2 * processCount := by
  unfold Exchange.progress
  induction processCount with
  | zero => simp
  | succ n ih =>
    rw [List.sum_range_succ]
    have := h n
    omega

/-- When every process is counted at its last position, every process is past the
exchange. -/
theorem Exchange.finished_of_progress (processCount : Nat) (s : Exchange)
    (h : ∀ rank, s.pc rank ≤ 2)
    (hp : 2 * processCount ≤ Exchange.progress processCount s) :
    Exchange.finished processCount s := by
  unfold Exchange.progress at hp
  unfold Exchange.finished
  induction processCount with
  | zero => intro rank h; omega
  | succ n ih =>
    rw [List.sum_range_succ] at hp
    have hn := h n
    have hle := Exchange.progress_le n s h
    unfold Exchange.progress at hle
    intro rank hr
    by_cases e : rank = n
    · subst e; omega
    · exact ih (by omega) rank (by omega)

theorem Exchange.foldlM_length (processCount : Nat) (myParticles : Nat → List Int)
    (buffering : Bool) (actions : List ExchangeAction) :
    ∀ s s', actions.foldlM (Exchange.step processCount myParticles buffering) s = some s' →
      Exchange.progress processCount s + actions.length
        ≤ Exchange.progress processCount s' := by
  induction actions with
  | nil =>
    intro s s' h
    cases h
    simp
  | cons a actions ih =>
    intro s s' h
    rw [List.foldlM_cons] at h
    cases hs : Exchange.step processCount myParticles buffering s a with
    | none => rw [hs] at h; cases h
    | some s1 =>
      rw [hs] at h
      have h1 := Exchange.step_progress _ _ _ _ _ _ hs
      have h2 := ih s1 s' h
      rw [List.length_cons]
      omega

/-- In a state of an execution where a process is not past the exchange, a step is enabled
that needs no buffering. -/
theorem Exchange.enabled (processCount : Nat) (myParticles : Nat → List Int)
    (buffering : Bool) (s : Exchange)
    (hparticles : ∀ rank, rank < processCount → myParticles rank ≠ [])
    (hinv : Exchange.Invariant processCount myParticles s)
    (hnot : ¬ Exchange.finished processCount s) :
    ∃ a s', (∀ rank, a ≠ ExchangeAction.sendBuffered rank) ∧
      Exchange.step processCount myParticles buffering s a = some s' := by
  obtain ⟨h1, h2, h3, h4, h5, h6, h7⟩ := hinv
  have hex : ∃ rank, rank < processCount ∧ s.pc rank ≠ 2 := by
    unfold Exchange.finished at hnot
    push_neg at hnot
    exact hnot
  classical
  have hmin : ∀ m, m < Nat.find hex → ¬ (m < processCount ∧ s.pc m ≠ 2) :=
    fun m hm => Nat.find_min hex hm
  obtain ⟨hlt, hne⟩ := Nat.find_spec hex
  generalize Nat.find hex = r at hmin hlt hne
  have hsend : ∃ message, myLeftLimite (myParticles r) = some message := by
    unfold myLeftLimite
    have hlen : (myParticles r).length ≠ 0 := by
      intro h0
      exact hparticles r hlt (List.length_eq_zero.1 h0)
    rw [if_neg hlen]
    exact ⟨_, List.getElem?_eq_getElem (by omega)⟩
  have hpc := h1 r
  by_cases h0 : s.pc r = 0
  · by_cases hr : r = 0
    · refine ⟨.skipRecv r, ⟨Function.update s.pc r 1, s.leftLimite, s.inFlight⟩,
        (fun _ h => by cases h), ?_⟩
      simp only [Exchange.step]
      rw [if_pos ⟨hlt, h0, hr⟩]
    · have hprev : s.pc (r - 1) = 2 := by
        by_contra hcon
        exact hmin (r - 1) (by omega) ⟨by omega, hcon⟩
      have e : r - 1 + 1 = r := by omega
      rcases h6 (r - 1) (by omega) hprev with h | ⟨message, h⟩
      · rw [e] at h
        omega
      · rw [e] at h
        refine ⟨.recv r, ⟨Function.update s.pc r 1, Function.update s.leftLimite r message,
          Function.update s.inFlight r none⟩, (fun _ h => by cases h), ?_⟩
        simp only [Exchange.step]
        rw [if_pos ⟨hlt, h0, hr⟩, h]
  · have h1' : s.pc r = 1 := by omega
    by_cases hr : r = processCount - 1
    · refine ⟨.skipSend r, ⟨Function.update s.pc r 2, s.leftLimite, s.inFlight⟩,
        (fun _ h => by cases h), ?_⟩
      simp only [Exchange.step]
      rw [if_pos ⟨hlt, h1', hr⟩]
    · have hnext : s.pc (r + 1) = 0 := by
        by_contra hcon
        have := (h4 (r + 1) (by omega) (by omega)).2.1
        simp at this
        omega
      have hnone : s.inFlight (r + 1) = none := by
        cases hf : s.inFlight (r + 1) with
        | none => rfl
        | some m =>
          have := (h5 (r + 1) m hf).2.2.2.1
          simp at this
          omega
      obtain ⟨message, hm⟩ := hsend
      refine ⟨.rendezvous r, ⟨Function.update (Function.update s.pc r 2) (r + 1) 1,
        Function.update s.leftLimite (r + 1) message, s.inFlight⟩, (fun _ h => by cases h), ?_⟩
      simp only [Exchange.step]
      rw [if_pos ⟨hlt, h1', hr, hnext, hnone⟩, hm]

/-- Every execution can be continued, without buffering, until every process is past the
exchange. -/
theorem Exchange.completes (processCount : Nat) (myParticles : Nat → List Int)
    (buffering : Bool)
    (hparticles : ∀ rank, rank < processCount → myParticles rank ≠ []) :
    ∀ n s, Exchange.Invariant processCount myParticles s →
      2 * processCount - Exchange.progress processCount s ≤ n →
      ∃ (rest : List ExchangeAction) (s' : Exchange), (∀ a ∈ rest, ∀ rank, a ≠ ExchangeAction.sendBuffered rank) ∧
        rest.foldlM (Exchange.step processCount myParticles buffering) s = some s' ∧
        Exchange.finished processCount s' := by
  intro n
  induction n with
  | zero =>
    intro s hinv hn
    exact ⟨[], s, (fun _ h => by cases h), rfl,
      Exchange.finished_of_progress _ _ hinv.1 (by omega)⟩
  | succ n ih =>
    intro s hinv hn
    by_cases hfin : Exchange.finished processCount s
    · exact ⟨[], s, (fun _ h => by cases h), rfl, hfin⟩
    · obtain ⟨a, s1, ha, hs⟩ := Exchange.enabled _ _ buffering s hparticles hinv hfin
      have hp := Exchange.step_progress _ _ _ _ _ _ hs
      obtain ⟨rest, s', hrest, hrun, hdone⟩ :=
        ih s1 (Exchange.step_invariant _ _ _ _ _ _ hinv hs) (by omega)
      refine ⟨a :: rest, s', ?_, ?_, hdone⟩
      · intro b hb
        rcases List.mem_cons.1 hb with rfl | hb
        · exact ha
        · exact hrest b hb
      · rw [List.foldlM_cons, hs]
        exact hrun

/-- C21: for every number of processes `processCount ≥ 1`, every process holding at least one
particle, and every execution of the exchange (with or without buffered sends), in the state
reached: the process 0 holds `leftLimite = -1`; every process of rank > 0 that is past its
receive holds the Morton index of the last particle of its predecessor, so every such
process once all are past the exchange; a process of rank > 0 that can send has received
before (its `leftLimite` is already the value of its predecessor); the process 0 never
receives and the last process never sends; the execution has at most `2 * processCount`
steps; while a process is not past the exchange a step is enabled that needs no buffering (no
deadlock); and the execution can be continued until every process is past the exchange. -/
theorem Exchange.leftLimite_discovery (processCount : Nat) (myParticles : Nat → List Int)
    (buffering : Bool) (hcount : 1 ≤ processCount)
    (hparticles : ∀ rank, rank < processCount → myParticles rank ≠ [])
    (actions : List ExchangeAction) (s : Exchange)
    (hrun : Exchange.run processCount myParticles buffering actions = some s) :
    s.leftLimite 0 = -1 ∧
    (∀ rank, 0 < rank → 1 ≤ s.pc rank →
      myLeftLimite (myParticles (rank - 1)) = some (s.leftLimite rank)) ∧
    (Exchange.finished processCount s → ∀ rank, 0 < rank → rank < processCount →
      myLeftLimite (myParticles (rank - 1)) = some (s.leftLimite rank)) ∧
    (∀ rank s', 0 < rank →
      (Exchange.step processCount myParticles buffering s (.sendBuffered rank) = some s' ∨
        Exchange.step processCount myParticles buffering s (.rendezvous rank) = some s') →
      myLeftLimite (myParticles (rank - 1)) = some (s.leftLimite rank)) ∧
    (Exchange.step processCount myParticles buffering s (.recv 0) = none ∧
      Exchange.step processCount myParticles buffering s (.sendBuffered (processCount - 1))
        = none ∧
      Exchange.step processCount myParticles buffering s (.rendezvous (processCount - 1))
        = none) ∧
    actions.length ≤ 2 * processCount ∧
    (¬ Exchange.finished processCount s →
      ∃ a s', (∀ rank, a ≠ ExchangeAction.sendBuffered rank) ∧
        Exchange.step processCount myParticles buffering s a = some s') ∧
    (∃ (rest : List ExchangeAction) (s' : Exchange),
      (∀ a ∈ rest, ∀ rank, a ≠ ExchangeAction.sendBuffered rank) ∧
      Exchange.run processCount myParticles buffering (actions ++ rest) = some s' ∧
      Exchange.finished processCount s' ∧ s'.leftLimite 0 = -1 ∧
      ∀ rank, 0 < rank → rank < processCount →
        myLeftLimite (myParticles (rank - 1)) = some (s'.leftLimite rank)) := by
  have hinv := Exchange.run_invariant _ _ _ actions s hrun
  have hvalues : ∀ s1 : Exchange, Exchange.Invariant processCount myParticles s1 →
      Exchange.finished processCount s1 → ∀ rank, 0 < rank → rank < processCount →
        myLeftLimite (myParticles (rank - 1)) = some (s1.leftLimite rank) := by
    intro s1 hinv1 hfin rank h0 hlt
    exact (hinv1.2.2.2.1 rank h0 (by rw [hfin rank hlt]; omega)).2.2.1
  refine ⟨hinv.2.2.1, fun rank h0 hpc => (hinv.2.2.2.1 rank h0 hpc).2.2.1,
    hvalues s hinv, ?_, ⟨?_, ?_, ?_⟩, ?_, ?_, ?_⟩
  · intro rank s' h0 h
    rcases h with h | h
    · have hpc := (Exchange.step_sendBuffered _ _ _ _ _ _ h).1.2.2.1
      exact (hinv.2.2.2.1 rank h0 (by omega)).2.2.1
    · have hpc := (Exchange.step_rendezvous _ _ _ _ _ _ h).1.2.1
      exact (hinv.2.2.2.1 rank h0 (by omega)).2.2.1
  · simp [Exchange.step]
  · simp [Exchange.step]
  · simp [Exchange.step]
  · have h1 := Exchange.foldlM_length _ _ _ actions _ _ hrun
    have h2 := Exchange.progress_le processCount s hinv.1
    omega
  · exact fun hnot => Exchange.enabled _ _ buffering s hparticles hinv hnot
  · obtain ⟨rest, s', hrest, hrun', hfin⟩ :=
      Exchange.completes processCount myParticles buffering hparticles
        (2 * processCount) s hinv (by omega)
    have hall : Exchange.run processCount myParticles buffering (actions ++ rest) = some s' := by
      unfold Exchange.run at hrun ⊢
      rw [List.foldlM_append, hrun]
      exact hrun'
    have hinv' := Exchange.run_invariant _ _ _ _ s' hall
    exact ⟨rest, s', hrest, hall, hfin, hinv'.2.2.1, hvalues s' hinv' hfin⟩

/-- Witness of C21: three processes whose last particles have the Morton indices 5, 15 and
25, without buffering; after the steps "process 0 does not receive", "process 0 sends to
process 1", "process 1 sends to process 2", "process 2 does not send", the process 0 holds
-1, the process 1 holds 5 and the process 2 holds 15. -/
theorem Exchange.leftLimite_discovery_witness :
    (⟨Function.update (Function.update (Function.update (Function.update
          (Function.update (Function.update (fun _ => 0) 0 1) 0 2) 1 1) 1 2) 2 1) 2 2,
        Function.update (Function.update (fun _ => -1) 1 5) 2 15,
        fun _ => none⟩ : Exchange).leftLimite 0 = -1 ∧
    myLeftLimite [11, 15] = some 15 ∧
    ([ExchangeAction.skipRecv 0, .rendezvous 0, .rendezvous 1, .skipSend 2].length ≤ 2 * 3) :=
  have h := Exchange.leftLimite_discovery 3 (fun rank => [10 * rank + 1, 10 * rank + 5]) false
    (by decide) (fun rank _ => by simp)
    [.skipRecv 0, .rendezvous 0, .rendezvous 1, .skipSend 2]
    ⟨Function.update (Function.update (Function.update (Function.update
        (Function.update (Function.update (fun _ => 0) 0 1) 0 2) 1 1) 1 2) 2 1) 2 2,
      Function.update (Function.update (fun _ => -1) 1 5) 2 15,
      fun _ => none⟩
    (by rfl)
  ⟨h.1, h.2.1 2 (by decide) (by decide), h.2.2.2.2.2.1⟩

/-! ## The list block allocator -/

theorem FListBlockAllocator.put_same (objects : Nat → Nat → Option TestObject)
    (p : ObjectPointer) (content : Option TestObject) :
    FListBlockAllocator.put objects p content p.block p.slot = content := by
  simp [FListBlockAllocator.put]

theorem FListBlockAllocator.put_other (objects : Nat → Nat → Option TestObject)
    (p : ObjectPointer) (content : Option TestObject) (block slot : Nat)
    (h : ¬ (block = p.block ∧ slot = p.slot)) :
    FListBlockAllocator.put objects p content block slot = objects block slot := by
  unfold FListBlockAllocator.put
  by_cases hb : block = p.block
  · subst hb
    have hs : slot ≠ p.slot := fun e => h ⟨rfl, e⟩
    simp [Function.update_apply, hs]
  · simp [Function.update_apply, hb]

/-- The sum of a table after one entry has changed. -/
theorem sum_map_update (f : Nat → Nat) (i v : Nat) :
    ∀ n, ((List.range n).map (Function.update f i v)).sum + (if i < n then f i else 0)
        = ((List.range n).map f).sum + (if i < n then v else 0) := by
  intro n
  induction n with
  | zero => simp
  | succ n ih =>
    rw [List.sum_range_succ, List.sum_range_succ]
    by_cases h1 : i < n
    · rw [if_pos h1, if_pos h1] at ih
      rw [if_pos (by omega), if_pos (by omega), Function.update_noteq (by omega)]
      omega
    · rw [if_neg h1, if_neg h1] at ih
      by_cases h2 : i = n
      · subst h2
        rw [if_pos (by omega), if_pos (by omega), Function.update_same]
        omega
      · rw [if_neg (by omega), if_neg (by omega), Function.update_noteq (Ne.symm h2)]
        omega

/-- The number of the objects of the block of a slot that is given a new content. -/
theorem FListBlockAllocator.blockCount_put (objects : Nat → Nat → Option TestObject)
    (p : ObjectPointer) (content : Option TestObject) (hslot : p.slot < 10) :
    FListBlockAllocator.blockCount (FListBlockAllocator.put objects p content) p.block
        + (if (objects p.block p.slot).isSome then 1 else 0)
      = FListBlockAllocator.blockCount objects p.block
        + (if content.isSome then 1 else 0) := by
  unfold FListBlockAllocator.blockCount
  have e : (fun slot => if (FListBlockAllocator.put objects p content p.block slot).isSome
        then 1 else 0)
      = Function.update (fun slot => if (objects p.block slot).isSome then 1 else 0) p.slot
          (if content.isSome then 1 else 0) := by
    funext slot
    by_cases hs : slot = p.slot
    · subst hs
      rw [FListBlockAllocator.put_same, Function.update_same]
    · rw [FListBlockAllocator.put_other _ _ _ _ _ (fun h => hs h.2), Function.update_noteq hs]
  have h := sum_map_update (fun slot => if (objects p.block slot).isSome then 1 else 0)
    p.slot (if content.isSome then 1 else 0) 10
  rw [if_pos hslot, if_pos hslot] at h
  rw [e]
  exact h

/-- The number of the objects of the blocks below `n` after a slot of a block below `n` has
been given a new content. -/
theorem FListBlockAllocator.count_put (objects : Nat → Nat → Option TestObject)
    (p : ObjectPointer) (content : Option TestObject) (n : Nat) (hslot : p.slot < 10)
    (hblock : p.block < n) :
    ((List.range n).map
        (FListBlockAllocator.blockCount (FListBlockAllocator.put objects p content))).sum
        + (if (objects p.block p.slot).isSome then 1 else 0)
      = ((List.range n).map (FListBlockAllocator.blockCount objects)).sum
        + (if content.isSome then 1 else 0) := by
  have e : FListBlockAllocator.blockCount (FListBlockAllocator.put objects p content)
      = Function.update (FListBlockAllocator.blockCount objects) p.block
          (FListBlockAllocator.blockCount (FListBlockAllocator.put objects p content)
            p.block) := by
    funext block
    by_cases hb : block = p.block
    · subst hb
      rw [Function.update_same]
    · rw [Function.update_noteq hb]
      unfold FListBlockAllocator.blockCount
      congr 2
      funext slot
      rw [FListBlockAllocator.put_other _ _ _ _ _ (fun h => hb h.1)]
  have h := sum_map_update (FListBlockAllocator.blockCount objects) p.block
    (FListBlockAllocator.blockCount (FListBlockAllocator.put objects p content) p.block) n
  rw [if_pos hblock, if_pos hblock] at h
  have h2 := FListBlockAllocator.blockCount_put objects p content hslot
  rw [e]
  omega

theorem FListBlockAllocator.valid_empty : FListBlockAllocator.empty.Valid :=
  ⟨(fun _ h => by cases h), fun _ _ _ => rfl, fun _ _ _ => rfl⟩

/-- A block that holds no object counts for nothing. -/
theorem FListBlockAllocator.blockCount_free (objects : Nat → Nat → Option TestObject)
    (block : Nat) (h : ∀ slot, objects block slot = none) :
    FListBlockAllocator.blockCount objects block = 0 := by
  unfold FListBlockAllocator.blockCount
  have e : (fun slot => if (objects block slot).isSome then 1 else 0) = fun _ => 0 := by
    funext slot
    rw [h slot]
    rfl
  rw [e]
  simp

/-- What `newObject()` does on a valid allocator: the pointer it returns is the pointer of a
free slot, the object constructed there is filled with 0, no other slot changes, one more
object is live and one more construction is counted. -/
theorem FListBlockAllocator.newObject_spec (state : FListBlockAllocator × TestCounters)
    (hv : state.1.Valid) :
    state.1.objects (FListBlockAllocator.newObject state).1.block
        (FListBlockAllocator.newObject state).1.slot = none ∧
    (FListBlockAllocator.newObject state).2.1.objects
      = FListBlockAllocator.put state.1.objects (FListBlockAllocator.newObject state).1
          (some ⟨fun _ => 0⟩) ∧
    (FListBlockAllocator.newObject state).2.1.Valid ∧
    (FListBlockAllocator.newObject state).2.1.liveCount = state.1.liveCount + 1 ∧
    (FListBlockAllocator.newObject state).2.2
      = ⟨state.2.counter + 1, state.2.dealloced⟩ := by
  obtain ⟨hv1, hv2, hv3⟩ := hv
  cases hfind : state.1.blocks.findSome?
      (fun block => (state.1.freeSlot block).map (fun slot => (⟨block, slot⟩ : ObjectPointer)))
    with
  | some p =>
    have hres : FListBlockAllocator.newObject state
        = (p, (⟨state.1.blocks, state.1.nextBlock,
            FListBlockAllocator.put state.1.objects p (some ⟨fun _ => 0⟩)⟩,
          ⟨state.2.counter + 1, state.2.dealloced⟩)) := by
      unfold FListBlockAllocator.newObject
      rw [hfind]
      rfl
    rw [hres]
    obtain ⟨block, hmem, hblock⟩ := List.exists_of_findSome?_eq_some hfind
    cases hfree : state.1.freeSlot block with
    | none => rw [hfree] at hblock; cases hblock
    | some slot =>
      rw [hfree] at hblock
      have hp : p = ⟨block, slot⟩ := (Option.some.inj hblock).symm
      subst hp
      unfold FListBlockAllocator.freeSlot at hfree
      have hnone : state.1.objects block slot = none := by
        have := List.find?_some hfree
        simpa using this
      have hslot : slot < 10 := List.mem_range.1 (List.mem_of_find?_eq_some hfree)
      have hlt : block < state.1.nextBlock := hv1 block hmem
      refine ⟨hnone, rfl, ⟨hv1, ?_, ?_⟩, ?_, rfl⟩
      · intro b i hb
        show FListBlockAllocator.put state.1.objects ⟨block, slot⟩ _ b i = none
        have hb' : state.1.nextBlock ≤ b := hb
        rw [FListBlockAllocator.put_other _ _ _ _ _ (fun h => by
          have h1 : b = block := h.1
          omega)]
        exact hv2 b i hb'
      · intro b i hi
        show FListBlockAllocator.put state.1.objects ⟨block, slot⟩ _ b i = none
        rw [FListBlockAllocator.put_other _ _ _ _ _ (fun h => by
          have h1 : i = slot := h.2
          omega)]
        exact hv3 b i hi
      · show ((List.range state.1.nextBlock).map (FListBlockAllocator.blockCount
            (FListBlockAllocator.put state.1.objects ⟨block, slot⟩ (some ⟨fun _ => 0⟩)))).sum
          = ((List.range state.1.nextBlock).map
              (FListBlockAllocator.blockCount state.1.objects)).sum + 1
        have h := FListBlockAllocator.count_put state.1.objects ⟨block, slot⟩
          (some ⟨fun _ => 0⟩) state.1.nextBlock hslot hlt
        simp only [hnone] at h
        simpa using h
  | none =>
    have hres : FListBlockAllocator.newObject state
        = (⟨state.1.nextBlock, 0⟩, (⟨state.1.nextBlock :: state.1.blocks, state.1.nextBlock + 1,
            FListBlockAllocator.put state.1.objects ⟨state.1.nextBlock, 0⟩
              (some ⟨fun _ => 0⟩)⟩,
          ⟨state.2.counter + 1, state.2.dealloced⟩)) := by
      unfold FListBlockAllocator.newObject
      rw [hfind]
      rfl
    rw [hres]
    have hnone : ∀ slot, state.1.objects state.1.nextBlock slot = none :=
      fun slot => hv2 _ slot (le_refl _)
    refine ⟨hnone 0, rfl, ⟨?_, ?_, ?_⟩, ?_, rfl⟩
    · intro b hb
      rcases List.mem_cons.1 hb with rfl | hb
      · exact Nat.lt_succ_self _
      · exact Nat.lt_succ_of_lt (hv1 b hb)
    · intro b i hb
      show FListBlockAllocator.put state.1.objects ⟨state.1.nextBlock, 0⟩ _ b i = none
      have hb' : state.1.nextBlock + 1 ≤ b := hb
      rw [FListBlockAllocator.put_other _ _ _ _ _ (fun h => by
        have h1 : b = state.1.nextBlock := h.1
        omega)]
      exact hv2 b i (by omega)
    · intro b i hi
      show FListBlockAllocator.put state.1.objects ⟨state.1.nextBlock, 0⟩ _ b i = none
      rw [FListBlockAllocator.put_other _ _ _ _ _ (fun h => by
        have h1 : i = 0 := h.2
        omega)]
      exact hv3 b i hi
    · show ((List.range (state.1.nextBlock + 1)).map (FListBlockAllocator.blockCount
          (FListBlockAllocator.put state.1.objects ⟨state.1.nextBlock, 0⟩
            (some ⟨fun _ => 0⟩)))).sum
        = ((List.range state.1.nextBlock).map
            (FListBlockAllocator.blockCount state.1.objects)).sum + 1
      have h := FListBlockAllocator.count_put state.1.objects ⟨state.1.nextBlock, 0⟩
        (some ⟨fun _ => 0⟩) (state.1.nextBlock + 1) (Nat.succ_pos 9) (Nat.lt_succ_self _)
      simp only [hnone 0] at h
      rw [List.sum_range_succ (FListBlockAllocator.blockCount state.1.objects),
        FListBlockAllocator.blockCount_free _ _ hnone] at h
      simpa using h

/-- What `deleteObject(p)` does on a valid allocator: it returns when `p` holds an object, the
slot of `p` is free afterwards, no other slot changes, one object less is live and one more
destruction is counted. -/
theorem FListBlockAllocator.deleteObject_spec (state state' : FListBlockAllocator × TestCounters)
    (p : ObjectPointer) (hv : state.1.Valid)
    (h : FListBlockAllocator.deleteObject state p = .ok state') :
    (state.1.objects p.block p.slot).isSome = true ∧
    state'.1.objects = FListBlockAllocator.put state.1.objects p none ∧
    state'.1.Valid ∧
    state'.1.liveCount + 1 = state.1.liveCount ∧
    state'.2 = ⟨state.2.counter, state.2.dealloced + 1⟩ := by
  obtain ⟨hv1, hv2, hv3⟩ := hv
  unfold FListBlockAllocator.deleteObject at h
  cases hobj : state.1.objects p.block p.slot with
  | none => rw [hobj] at h; cases h
  | some object =>
    rw [hobj] at h
    simp only [] at h
    have hslot : p.slot < 10 := by
      by_contra hcon
      rw [hv3 p.block p.slot (by omega)] at hobj
      cases hobj
    have hblock : p.block < state.1.nextBlock := by
      by_contra hcon
      rw [hv2 p.block p.slot (by omega)] at hobj
      cases hobj
    have hst : state' = (⟨if (List.range 10).all
          (fun slot => (FListBlockAllocator.put state.1.objects p none p.block slot).isNone)
          then state.1.blocks.erase p.block else state.1.blocks, state.1.nextBlock,
        FListBlockAllocator.put state.1.objects p none⟩, TestObject.destruct state.2) :=
      (Except.ok.inj h).symm
    subst hst
    refine ⟨rfl, rfl, ⟨?_, ?_, ?_⟩, ?_, rfl⟩
    · intro b hb
      have hb' : b ∈ state.1.blocks := by
        have hb1 : b ∈ (if (List.range 10).all
          (fun slot => (FListBlockAllocator.put state.1.objects p none p.block slot).isNone)
          then state.1.blocks.erase p.block else state.1.blocks) := hb
        split at hb1
        · exact List.mem_of_mem_erase hb1
        · exact hb1
      exact hv1 b hb'
    · intro b i hb
      show FListBlockAllocator.put state.1.objects p none b i = none
      by_cases e : b = p.block ∧ i = p.slot
      · rw [e.1, e.2, FListBlockAllocator.put_same]
      · rw [FListBlockAllocator.put_other _ _ _ _ _ e]
        exact hv2 b i hb
    · intro b i hi
      show FListBlockAllocator.put state.1.objects p none b i = none
      by_cases e : b = p.block ∧ i = p.slot
      · rw [e.1, e.2, FListBlockAllocator.put_same]
      · rw [FListBlockAllocator.put_other _ _ _ _ _ e]
        exact hv3 b i hi
    · show ((List.range state.1.nextBlock).map (FListBlockAllocator.blockCount
          (FListBlockAllocator.put state.1.objects p none))).sum + 1
        = ((List.range state.1.nextBlock).map
            (FListBlockAllocator.blockCount state.1.objects)).sum
      have h := FListBlockAllocator.count_put state.1.objects p none state.1.nextBlock hslot
        hblock
      simp only [hobj] at h
      simpa using h

/-- What `p->array[idxval] += value` does on a valid allocator: it returns when `p` holds an
object, only the slot of `p` changes and keeps an object, the counters do not change. -/
theorem FListBlockAllocator.addAssign_spec (state state' : FListBlockAllocator × TestCounters)
    (p : ObjectPointer) (idxval : Nat) (value : Int) (hv : state.1.Valid)
    (h : FListBlockAllocator.addAssign state p idxval value = .ok state') :
    (∃ object, state.1.objects p.block p.slot = some object ∧
      state'.1.objects = FListBlockAllocator.put state.1.objects p
        (some ⟨Function.update object.array idxval (object.array idxval + value)⟩)) ∧
    state'.1.Valid ∧
    state'.1.liveCount = state.1.liveCount ∧
    state'.2 = state.2 := by
  obtain ⟨hv1, hv2, hv3⟩ := hv
  unfold FListBlockAllocator.addAssign at h
  cases hobj : state.1.objects p.block p.slot with
  | none => rw [hobj] at h; cases h
  | some object =>
    rw [hobj] at h
    simp only [] at h
    have hslot : p.slot < 10 := by
      by_contra hcon
      rw [hv3 p.block p.slot (by omega)] at hobj
      cases hobj
    have hblock : p.block < state.1.nextBlock := by
      by_contra hcon
      rw [hv2 p.block p.slot (by omega)] at hobj
      cases hobj
    have hst : state' = (⟨state.1.blocks, state.1.nextBlock,
        FListBlockAllocator.put state.1.objects p
          (some ⟨Function.update object.array idxval (object.array idxval + value)⟩)⟩,
        state.2) :=
      (Except.ok.inj h).symm
    subst hst
    refine ⟨⟨object, rfl, rfl⟩, ⟨hv1, ?_, ?_⟩, ?_, rfl⟩
    · intro b i hb
      show FListBlockAllocator.put state.1.objects p _ b i = none
      have hb' : state.1.nextBlock ≤ b := hb
      rw [FListBlockAllocator.put_other _ _ _ _ _ (fun e => by
        have := e.1
        omega)]
      exact hv2 b i hb'
    · intro b i hi
      show FListBlockAllocator.put state.1.objects p _ b i = none
      rw [FListBlockAllocator.put_other _ _ _ _ _ (fun e => by
        have := e.2
        omega)]
      exact hv3 b i hi
    · show ((List.range state.1.nextBlock).map (FListBlockAllocator.blockCount
          (FListBlockAllocator.put state.1.objects p _))).sum
        = ((List.range state.1.nextBlock).map
            (FListBlockAllocator.blockCount state.1.objects)).sum
      have h := FListBlockAllocator.count_put state.1.objects p
        (some ⟨Function.update object.array idxval (object.array idxval + value)⟩)
        state.1.nextBlock hslot hblock
      simp only [hobj] at h
      simpa using h

/-- One call on a valid allocator: validity, the two counters, the number of live objects,
and the objects the call does not delete or write. -/
theorem FListBlockAllocator.call_spec (state state' : FListBlockAllocator × TestCounters)
    (c : AllocatorCall) (hv : state.1.Valid)
    (h : FListBlockAllocator.call state c = .ok state') :
    state'.1.Valid ∧
    state'.2.counter = state.2.counter + (if c.isNew then 1 else 0) ∧
    state'.2.dealloced = state.2.dealloced + (if c.isDelete then 1 else 0) ∧
    (state'.1.liveCount : Int) - state'.2.counter + state'.2.dealloced
      = (state.1.liveCount : Int) - state.2.counter + state.2.dealloced ∧
    (∀ p object, state.1.objects p.block p.slot = some object → c.target ≠ some p →
      state'.1.objects p.block p.slot = some object) := by
  cases c with
  | newObject =>
    have hst : state' = (FListBlockAllocator.newObject state).2 := (Except.ok.inj h).symm
    obtain ⟨h1, h2, h3, h4, h5⟩ := FListBlockAllocator.newObject_spec state hv
    subst hst
    refine ⟨h3, ?_, ?_, ?_, ?_⟩
    · rw [h5]; rfl
    · rw [h5]; simp [AllocatorCall.isDelete]
    · rw [h4, h5]
      push_cast
      ring
    · intro p object hp _
      rw [h2, FListBlockAllocator.put_other _ _ _ _ _ (fun e => by
        rw [← e.1, ← e.2, hp] at h1
        cases h1)]
      exact hp
  | deleteObject q =>
    obtain ⟨_, h2, h3, h4, h5⟩ := FListBlockAllocator.deleteObject_spec state state' q hv h
    refine ⟨h3, ?_, ?_, ?_, ?_⟩
    · rw [h5]; simp [AllocatorCall.isNew]
    · rw [h5]; rfl
    · rw [← h4, h5]
      push_cast
      ring
    · intro p object hp hne
      rw [h2, FListBlockAllocator.put_other _ _ _ _ _ (fun e => hne (by
        cases p
        cases q
        simp only [] at e
        rw [e.1, e.2]
        rfl))]
      exact hp
  | addAssign q idxval value =>
    obtain ⟨⟨o, _, h2⟩, h3, h4, h5⟩ :=
      FListBlockAllocator.addAssign_spec state state' q idxval value hv h
    refine ⟨h3, ?_, ?_, ?_, ?_⟩
    · rw [h5]; simp [AllocatorCall.isNew]
    · rw [h5]; simp [AllocatorCall.isDelete]
    · rw [h4, h5]
    · intro p object hp hne
      rw [h2, FListBlockAllocator.put_other _ _ _ _ _ (fun e => hne (by
        cases p
        cases q
        simp only [] at e
        rw [e.1, e.2]
        rfl))]
      exact hp

/-- A sequence of calls on a valid allocator: validity, the two counters and the number of
live objects. -/
theorem FListBlockAllocator.calls_spec (sequence : List AllocatorCall) :
    ∀ (state state' : FListBlockAllocator × TestCounters), state.1.Valid →
      FListBlockAllocator.calls state sequence = .ok state' →
      state'.1.Valid ∧
      state'.2.counter = state.2.counter + sequence.countP AllocatorCall.isNew ∧
      state'.2.dealloced = state.2.dealloced + sequence.countP AllocatorCall.isDelete ∧
      (state'.1.liveCount : Int) - state'.2.counter + state'.2.dealloced
        = (state.1.liveCount : Int) - state.2.counter + state.2.dealloced := by
  induction sequence with
  | nil =>
    intro state state' hv h
    have hst : state' = state := (Except.ok.inj h).symm
    subst hst
    exact ⟨hv, by simp, by simp, rfl⟩
  | cons c sequence ih =>
    intro state state' hv h
    unfold FListBlockAllocator.calls at h
    rw [List.foldlM_cons] at h
    cases hc : FListBlockAllocator.call state c with
    | error e => rw [hc] at h; cases h
    | ok state1 =>
      rw [hc] at h
      obtain ⟨a1, a2, a3, a4, _⟩ := FListBlockAllocator.call_spec state state1 c hv hc
      obtain ⟨b1, b2, b3, b4⟩ := ih state1 state' a1 h
      refine ⟨b1, ?_, ?_, by rw [b4, a4]⟩
      · rw [b2, a2, List.countP_cons]
        split <;> (simp; try omega)
      · rw [b3, a3, List.countP_cons]
        split <;> (simp; try omega)

/-- The unit test on the allocator: every assertion holds. -/
theorem TestBlock.TestBlockFunction_passes :
    TestBlock.TestBlockFunction 2 = .ok (List.replicate 102 true) := by
  rfl

/-- An allocator without object has no live object. -/
theorem FListBlockAllocator.liveCount_free (a : FListBlockAllocator)
    (h : ∀ block slot, a.objects block slot = none) : a.liveCount = 0 := by
  unfold FListBlockAllocator.liveCount
  have e : FListBlockAllocator.blockCount a.objects = fun _ => 0 := by
    funext block
    exact FListBlockAllocator.blockCount_free _ _ (h block)
  rw [e]
  simp

/-- C22: for every sequence of calls `newObject()`, `deleteObject(p)` and writes
`p->array[i] += v` that runs on a fresh `FListBlockAllocator<TestObject, 10>` with both
counters 0 (every pointer deleted or written holds an object at that moment): the number of
constructions `TestObject::counter` is the number of the calls `newObject()`, the number of
destructions `TestObject::dealloced` is the number of the calls `deleteObject`, their
difference is the number of the objects still live, so they are equal when no object is
left; the next `newObject()` returns a slot that holds no object and constructs one object;
an object that is live keeps its values through every call that does not delete or write it,
also when a freed slot of its block is used again; a pointer that holds no object cannot be
deleted; and the unit test `TestBlockFunction` passes its 102 assertions. -/
theorem FListBlockAllocator.constructions_match_destructions
    (sequence : List AllocatorCall) (state : FListBlockAllocator × TestCounters)
    (h : FListBlockAllocator.calls (FListBlockAllocator.empty, ⟨0, 0⟩) sequence = .ok state) :
    state.2.counter = sequence.countP AllocatorCall.isNew ∧
    state.2.dealloced = sequence.countP AllocatorCall.isDelete ∧
    state.2.counter = state.2.dealloced + state.1.liveCount ∧
    ((∀ block slot, state.1.objects block slot = none) →
      state.2.counter = state.2.dealloced) ∧
    (state.1.objects (FListBlockAllocator.newObject state).1.block
        (FListBlockAllocator.newObject state).1.slot = none ∧
      (FListBlockAllocator.newObject state).2.2
        = ⟨state.2.counter + 1, state.2.dealloced⟩) ∧
    (∀ c state' p object, state.1.objects p.block p.slot = some object →
      c.target ≠ some p → FListBlockAllocator.call state c = .ok state' →
      state'.1.objects p.block p.slot = some object) ∧
    (∀ p, state.1.objects p.block p.slot = none →
      FListBlockAllocator.deleteObject state p = .error .noSuchObject) ∧
    TestBlock.TestBlockFunction 2 = .ok (List.replicate 102 true) := by
  obtain ⟨hv, h1, h2, h3⟩ := FListBlockAllocator.calls_spec sequence
    (FListBlockAllocator.empty, ⟨0, 0⟩) state FListBlockAllocator.valid_empty h
  have hlive0 : FListBlockAllocator.empty.liveCount = 0 := rfl
  simp only [hlive0] at h1 h2 h3
  obtain ⟨n1, _, _, _, n5⟩ := FListBlockAllocator.newObject_spec state hv
  refine ⟨by simpa using h1, by simpa using h2, by push_cast at h3; omega, ?_, ⟨n1, n5⟩, ?_, ?_,
    TestBlock.TestBlockFunction_passes⟩
  · intro hfree
    have := FListBlockAllocator.liveCount_free state.1 hfree
    rw [this] at h3
    push_cast at h3
    omega
  · intro c state' p object hp hne hc
    exact (FListBlockAllocator.call_spec state state' c hv hc).2.2.2.2 p object hp hne
  · intro p hp
    unfold FListBlockAllocator.deleteObject
    rw [hp]

/-- Witness of C22: the calls of the first loop of the unit test and the two last deletions
(`dl1`, `dl2`, delete `dl1`, `ptr[0]` in the slot of `dl1` while `dl2` is live, delete `dl2`,
the same again, delete `ptr[0]` and `ptr[1]`): the sequence runs, 6 objects are constructed
and 6 destroyed. -/
theorem FListBlockAllocator.constructions_match_destructions_witness :
    ∃ state, FListBlockAllocator.calls (FListBlockAllocator.empty, ⟨0, 0⟩)
        [.newObject, .newObject, .deleteObject ⟨0, 0⟩, .newObject, .deleteObject ⟨0, 1⟩,
         .newObject, .newObject, .deleteObject ⟨0, 1⟩, .newObject, .deleteObject ⟨0, 2⟩,
         .deleteObject ⟨0, 0⟩, .deleteObject ⟨0, 1⟩] = .ok state ∧
      state.2.counter = 6 ∧ state.2.dealloced = 6 :=
  match h : FListBlockAllocator.calls (FListBlockAllocator.empty, ⟨0, 0⟩)
        [.newObject, .newObject, .deleteObject ⟨0, 0⟩, .newObject, .deleteObject ⟨0, 1⟩,
         .newObject, .newObject, .deleteObject ⟨0, 1⟩, .newObject, .deleteObject ⟨0, 2⟩,
         .deleteObject ⟨0, 0⟩, .deleteObject ⟨0, 1⟩] with
  | .ok state =>
    ⟨state, rfl,
      (FListBlockAllocator.constructions_match_destructions _ state h).1.trans (by decide),
      (FListBlockAllocator.constructions_match_destructions _ state h).2.1.trans (by decide)⟩
  | .error e => by
    have e0 : FListBlockAllocator.calls (FListBlockAllocator.empty, ⟨0, 0⟩)
        [.newObject, .newObject, .deleteObject ⟨0, 0⟩, .newObject, .deleteObject ⟨0, 1⟩,
         .newObject, .newObject, .deleteObject ⟨0, 1⟩, .newObject, .deleteObject ⟨0, 2⟩,
         .deleteObject ⟨0, 0⟩, .deleteObject ⟨0, 1⟩] = .ok _ := rfl
    rw [e0] at h
    cases h

end ScalFMM
